import Mathlib

/-!
# json-c89: a shallow embedding of `json.c` and its verified properties

The C library stores every container in a heap block that is reached through a
`json_t` handle.  The embedding models

* a block of memory as a list of cells, a cell being `none` while its content is
  indeterminate (fresh `malloc` memory) and `some x` once it has been written;
* `int` fields as natural numbers (they are non-negative in every state that is
  considered), with the 32-bit arithmetic of `json__next_capacity` made explicit;
* a finite `double` by the exact rational number it denotes (rounding is not modelled);
* undefined behaviour and failed assertions by the result `none`.

Deallocation (`free`, `json_free`) has no observable effect on the values that
are computed and is not modelled.
-/

namespace JsonC89

/-! ## Memory blocks -/

/-- A freshly allocated block of `n` cells with indeterminate content (`malloc`). -/
def malloc {α : Type} (n : Nat) : List (Option α) := List.replicate n none

/-- The `n` cells of `mem` that start at offset `off` (the source operand of a block copy). -/
def memread {α : Type} (mem : List (Option α)) (off n : Nat) : List (Option α) :=
  (mem.drop off).take n

/-- The block `mem` after the cells `src` have been stored from offset `dst` on
    (`memcpy`/`memmove` with an in-bounds destination). -/
def memwrite {α : Type} (mem : List (Option α)) (dst : Nat) (src : List (Option α)) :
    List (Option α) :=
  mem.take dst ++ src ++ mem.drop (dst + src.length)

/-- The call `memmove(mem + dst, mem + src, n)`: the source cells are read before any
    cell is written, so overlapping ranges are handled as in C. -/
def memmove {α : Type} (mem : List (Option α)) (dst src n : Nat) : List (Option α) :=
  memwrite mem dst (memread mem src n)

/-- The call `memcpy(dst_mem + dst, src_mem, n)`. -/
def memcpy {α : Type} (dst_mem : List (Option α)) (dst : Nat) (src_mem : List (Option α))
    (n : Nat) : List (Option α) :=
  memwrite dst_mem dst (memread src_mem 0 n)

/-- The call `realloc(mem, n)`: the first `min (old size) n` cells are kept, new cells
    are indeterminate. -/
def realloc {α : Type} (mem : List (Option α)) (n : Nat) : List (Option α) :=
  mem.take n ++ List.replicate (n - mem.length) none

/-! ## Helper functions -/

/-- The conversion `(unsigned int)x` of an `int`. -/
def toU32 (x : Int) : Nat := (x % 4294967296).toNat

/-- The value of an `int` that holds the 32-bit pattern `n` (two's complement). -/
def toI32 (n : Nat) : Int :=
  if n % 4294967296 < 2147483648 then ((n % 4294967296 : Nat) : Int)
  else ((n % 4294967296 : Nat) : Int) - 4294967296

/-- One step of the leading-zero search of `json__next_capacity`: when the bits selected
    by `m` are all clear, `k` is added to the count and the value is shifted left by `k`
    (in 32 bits). -/
def clzStep (m k : Nat) (st : Nat × Nat) : Nat × Nat :=
  if st.2 &&& m = 0 then (st.1 + k, (st.2 <<< k) % 4294967296) else st

/-- The function `json__next_capacity` of `json.c`, on 32-bit `int`/`unsigned int`. -/
def json__next_capacity (len : Int) : Int :=
  let value : Nat := toU32 (len - 1)
  let st : Nat × Nat := (0, value)
  let st := clzStep 0xFFFF0000 16 st
  let st := clzStep 0xFF000000 8 st
  let st := clzStep 0xF0000000 4 st
  let st := clzStep 0xC0000000 2 st
  let result : Nat := st.1 + (if (st.2 ^^^ 0xFFFFFFFF) &&& 0x80000000 ≠ 0 then 1 else 0)
  let result : Int := 31 - (result : Int)
  if len < 4 then 4 else toI32 (1 <<< (result + 1).toNat)

/-- The capacity computed for a container of `len` elements, as a natural number. -/
def nextCap (len : Nat) : Nat := (json__next_capacity (len : Int)).toNat

/-! ## JSON values -/

/-- A `double`: a finite value (the exact rational it denotes), an infinity or a NaN. -/
inductive double where
  | finite (q : ℚ)
  | inf (negative : Bool)
  | nan
  deriving DecidableEq, Repr

instance (n : Nat) : OfNat double n := ⟨.finite n⟩

/-- The type `json_t`: a tag together with the payload selected by the tag.  The three
    container kinds carry the address of their heap block. -/
inductive json_t where
  | JSON_OBJECT (obj : Nat)
  | JSON_ARRAY (arr : Nat)
  | JSON_STRING (str : Nat)
  | JSON_NUMBER (num : double)
  | JSON_TRUE
  | JSON_FALSE
  | JSON_NULL
  | JSON_NONE
  deriving DecidableEq, Repr

/-! ## String store -/

/-- The type `json__string_t`; `data` is the owned byte buffer (`[]` for `NULL`). -/
structure json__string_t where
  data : List (Option Nat)
  len : Nat
  cap : Nat
  deriving DecidableEq, Repr

/-- The function `json__string_reserve`. -/
def json__string_reserve (str : json__string_t) (len : Nat) : json__string_t :=
  if str.cap ≤ len then
    let cap := nextCap (len + 1)
    let new_data : List (Option Nat) := malloc cap
    let new_data := memcpy new_data 0 str.data str.len
    let new_data := new_data.set str.len (some 0)
    { data := new_data, len := str.len, cap := cap }
  else str

/-- The function `json__string_new`. -/
def json__string_new (len : Nat) : json__string_t :=
  json__string_reserve { data := [], len := 0, cap := 0 } len

/-- The function `json__string_trim`. -/
def json__string_trim (str : json__string_t) : json__string_t :=
  if str.cap / 4 > str.len then
    let cap := nextCap (str.len * 2)
    { data := realloc str.data cap, len := str.len, cap := cap }
  else str

/-- The function `json_string_insert` on the store of the handle `str`: `seq` is the
    source buffer, `len` the number of bytes taken from it, `idx` the insertion offset.
    An offset beyond the current length makes the C code move a block of negative size;
    the result is then `none`. -/
def json_string_insert (str : json__string_t) (seq : List Nat) (len idx : Nat) :
    Option json__string_t :=
  if idx ≤ str.len ∧ len ≤ seq.length then
    let string := json__string_reserve str (str.len + len)
    let data := memmove string.data (idx + len) idx (string.len - idx)
    let data := memcpy data idx (seq.map some) len
    let data := data.set (string.len + len) (some 0)
    some { data := data, len := string.len + len, cap := string.cap }
  else none

/-- The function `json_string_append`. -/
def json_string_append (str : json__string_t) (seq : List Nat) (len : Nat) :
    Option json__string_t :=
  json_string_insert str seq len str.len

/-- The function `json_string_erase`, for `idx + len` in the range of `int`: the sum in
    the guard is an `int` sum in C, which is exact up to `INT_MAX`. -/
def json_string_erase (str : json__string_t) (idx len : Nat) : json__string_t :=
  if idx + len > str.len then str
  else
    let data := memmove str.data idx (idx + len) (str.len - idx - len)
    let data := data.set (str.len - len) (some 0)
    json__string_trim { data := data, len := str.len - len, cap := str.cap }

/-- The function `json_string` on the store it allocates; `string` holds the bytes before
    the terminator, so `strlen(string)` is its length. -/
def json_string (string : List Nat) : Option json__string_t :=
  json_string_append (json__string_new string.length) string string.length

/-- The function `json_string_len`. -/
def json_string_len (str : json__string_t) : Nat := str.len

/-- The bytes between `json_string_begin` and `json_string_end`. -/
def json_string_bytes (str : json__string_t) : List (Option Nat) := str.data.take str.len


/-- The strings of the library: those produced by `json__string_new` and
    `json_string` and those obtained from them by
    `json_string_insert`, `json_string_append` (an insert at the end) and
    `json_string_erase`, as long as the byte count stays in the range in which the `int`
    capacity computation does not overflow. -/
inductive StringReach : json__string_t → Prop
  | new (len : Nat) (h : len < 2 ^ 30) : StringReach (json__string_new len)
  | mk (string : List Nat) (s : json__string_t) (h : string.length < 2 ^ 30)
      (e : json_string string = some s) : StringReach s
  | insert (s s1 : json__string_t) (seq : List Nat) (len idx : Nat) (hs : StringReach s)
      (hlen : s.len + len < 2 ^ 30) (h : json_string_insert s seq len idx = some s1) :
      StringReach s1
  | erase (s : json__string_t) (idx len : Nat) (hs : StringReach s) :
      StringReach (json_string_erase s idx len)

/-- The representation invariant of the String Store. -/
def StringInv (s : json__string_t) : Prop :=
  s.data.length = s.cap ∧ s.len < s.cap ∧ s.data[s.len]? = some (some 0) ∧
    ∃ k, 2 ≤ k ∧ k ≤ 30 ∧ s.cap = 2 ^ k

/-! ## Array store -/

/-- The type `json__array_t`; `data` is the block of `cap` value cells (`[]` for `NULL`). -/
structure json__array_t where
  data : List (Option json_t)
  len : Nat
  cap : Nat
  deriving DecidableEq, Repr

/-- The function `json__array_reserve`. -/
def json__array_reserve (array : json__array_t) (len : Nat) : json__array_t :=
  if array.cap < len then
    let len := nextCap len
    let new_data : List (Option json_t) := malloc len
    let new_data := memcpy new_data 0 array.data array.len
    { data := new_data, len := array.len, cap := len }
  else array

/-- The function `json__array_new`. -/
def json__array_new (len : Nat) : json__array_t :=
  json__array_reserve { data := [], len := 0, cap := 0 } len

/-- The store allocated by `json_array()`. -/
def json_array : json__array_t := json__array_new 0

/-- The function `json__array_trim`. -/
def json__array_trim (array : json__array_t) : json__array_t :=
  if array.cap / 4 > array.len then
    let cap := nextCap (array.len * 2)
    { data := realloc array.data cap, len := array.len, cap := cap }
  else array

/-- The function `json_array_get` on the store of the handle `array`; `none` when the
    assertion `index < len` fails or the cell is indeterminate. -/
def json_array_get (array : json__array_t) (index : Nat) : Option json_t :=
  if index < array.len then array.data.getD index none else none

/-- The function `json_array_set`; `none` when the assertion `index < len` fails. -/
def json_array_set (array : json__array_t) (index : Nat) (value : json_t) :
    Option json__array_t :=
  if index < array.len then
    some { array with data := array.data.set index (some value) }
  else none

/-- The function `json_array_insert`; `none` when the assertion `index <= len` fails. -/
def json_array_insert (array : json__array_t) (index : Nat) (value : json_t) :
    Option json__array_t :=
  if index ≤ array.len then
    let arr := json__array_reserve array (array.len + 1)
    let data := memmove arr.data (index + 1) index (arr.len - index)
    let data := data.set index (some value)
    some { data := data, len := arr.len + 1, cap := arr.cap }
  else none

/-- The function `json_array_push`. -/
def json_array_push (array : json__array_t) (value : json_t) : Option json__array_t :=
  json_array_insert array array.len value

/-- The function `json_array_pop`: the removed value and the store afterwards; `none`
    when the assertion `index < len` fails or the removed cell is indeterminate. -/
def json_array_pop (array : json__array_t) (index : Nat) : Option (json_t × json__array_t) :=
  if index < array.len then
    let len := array.len - 1
    match array.data.getD index none with
    | none => none
    | some val =>
      let data := memmove array.data index (index + 1) (len - index)
      some (val, json__array_trim { data := data, len := len, cap := array.cap })
  else none

/-- The function `json_array_erase`. -/
def json_array_erase (array : json__array_t) (index : Nat) : Option json__array_t :=
  (json_array_pop array index).map (fun r => r.2)

/-- The function `json_array_len`. -/
def json_array_len (array : json__array_t) : Nat := array.len

/-- The mutating calls of the Array Store interface. -/
inductive ArrayOp where
  | push (value : json_t)
  | insert (index : Nat) (value : json_t)
  | set (index : Nat) (value : json_t)
  | pop (index : Nat)
  | erase (index : Nat)
  deriving DecidableEq, Repr

/-- One call on the store, with the value it returns (`json_array_pop` only). -/
def ArrayOp.run (a : json__array_t) : ArrayOp → Option (json__array_t × Option json_t)
  | .push v => (json_array_push a v).map (fun r => (r, none))
  | .insert i v => (json_array_insert a i v).map (fun r => (r, none))
  | .set i v => (json_array_set a i v).map (fun r => (r, none))
  | .pop i => (json_array_pop a i).map (fun r => (r.2, some r.1))
  | .erase i => (json_array_erase a i).map (fun r => (r, none))

/-- A sequence of calls on the store, with the list of the values returned. -/
def runArrayOps (a : json__array_t) : List ArrayOp → Option (json__array_t × List (Option json_t))
  | [] => some (a, [])
  | op :: ops =>
    match op.run a with
    | none => none
    | some (a1, out) =>
      match runArrayOps a1 ops with
      | none => none
      | some (a2, outs) => some (a2, out :: outs)

/-- The list model of one call: the corresponding list insert/replace/remove operation
    and the value a pop has to return; `none` when the index is out of range. -/
def ArrayOp.spec (l : List json_t) : ArrayOp → Option (List json_t × Option json_t)
  | .push v => some (l ++ [v], none)
  | .insert i v => if i ≤ l.length then some (l.insertIdx i v, none) else none
  | .set i v => if i < l.length then some (l.set i v, none) else none
  | .pop i => if i < l.length then some (l.eraseIdx i, l[i]?) else none
  | .erase i => if i < l.length then some (l.eraseIdx i, none) else none

/-- The list model of a sequence of calls. -/
def specArrayOps (l : List json_t) : List ArrayOp → Option (List json_t × List (Option json_t))
  | [] => some (l, [])
  | op :: ops =>
    match op.spec l with
    | none => none
    | some (l1, out) =>
      match specArrayOps l1 ops with
      | none => none
      | some (l2, outs) => some (l2, out :: outs)

/-- The arrays of the library: those produced by `json__array_new` and those obtained
    from them by the mutating calls, while the element count stays in the range in which
    the `int` capacity computation does not overflow. -/
inductive ArrayReach : json__array_t → Prop
  | new (len : Nat) (h : len ≤ 2 ^ 30) : ArrayReach (json__array_new len)
  | step (a a1 : json__array_t) (op : ArrayOp) (out : Option json_t) (ha : ArrayReach a)
      (hlen : a.len < 2 ^ 30) (h : op.run a = some (a1, out)) : ArrayReach a1

/-- The representation invariant of the Array Store: the block has `cap` cells, the
    first `len` of them hold the elements `l`, and a block that has been allocated has a
    power of two of at least 4 cells. -/
def ArrayInv (a : json__array_t) (l : List json_t) : Prop :=
  a.data.length = a.cap ∧ a.len = l.length ∧ a.len ≤ a.cap ∧
    (a.cap = 0 ∨ ∃ k, 2 ≤ k ∧ k ≤ 30 ∧ a.cap = 2 ^ k) ∧
    ∀ j, j < a.len → a.data[j]? = some l[j]?

/-! ## Object store -/

/-- The type `json_bucket_t`; `key` holds the bytes of the key text before its
    terminator. -/
structure json_bucket_t where
  key : List Nat
  val : json_t
  deriving DecidableEq, Repr

/-- The type `json__object_t`.  The three arrays live in one block of `cap` buckets,
    `cap` indices and `cap` info bytes; `json__object_new` sets every info byte to `0xFF`
    and leaves the buckets and the indices indeterminate. -/
structure json__object_t where
  buckets : List (Option json_bucket_t)
  sparse : List (Option Nat)
  info : List Nat
  len : Nat
  cap : Nat
  deriving DecidableEq, Repr

/-- The value of a `char` holding the byte `c` (`char` is signed). -/
def charToInt (c : Nat) : Int := if c < 128 then (c : Int) else (c : Int) - 256

/-- The 32-bit `int` that results from an arithmetic operation with exact value `x`. -/
def wrapInt (x : Int) : Int := toI32 (toU32 x)

/-- The loop of `json__object_hash` over the remaining key bytes. -/
def json__object_hash_loop : List Nat → Int → Int → Int
  | [], _, hash => hash
  | c :: key, m, hash =>
    json__object_hash_loop key (wrapInt (m * 31)) (wrapInt (hash + wrapInt (charToInt c * m)))

/-- The function `json__object_hash`. -/
def json__object_hash (key : List Nat) : Int := json__object_hash_loop key 1 0

/-- The expression `hash & mask` for `mask = cap - 1`. -/
def hashSlot (hash : Int) (cap : Nat) : Nat := toU32 hash &&& (cap - 1)

/-- The function `json__object_new`. -/
def json__object_new (len : Nat) : json__object_t :=
  let cap := nextCap len
  { buckets := malloc cap, sparse := malloc cap, info := List.replicate cap 0xFF,
    len := 0, cap := cap }

/-- The byte `object->info[idx]`. -/
def json__object_t.infoAt (object : json__object_t) (idx : Nat) : Nat :=
  object.info.getD idx 0xFF

/-- The cell `object->sparse[idx]`. -/
def json__object_t.sparseAt (object : json__object_t) (idx : Nat) : Option Nat :=
  object.sparse.getD idx none

/-- The cell `object->buckets[b]`. -/
def json__object_t.bucketAt (object : json__object_t) (b : Nat) : Option json_bucket_t :=
  object.buckets.getD b none

/-- The probe loop of `json__object_get_index`, started at slot `idx` with probe distance
    `distance`.  The result is the index of the bucket that holds the key (`none` for the
    `NULL` result) and the value stored to `*out_index`.  The C loop ends at the latest when
    `distance` exceeds 255, the largest info byte, so `fuel = 257` iterations are never
    used up; reading an indeterminate index or bucket gives `none`. -/
def json__object_get_index_loop (object : json__object_t) (key : List Nat) :
    Nat → Nat → Nat → Option (Option Nat × Nat)
  | 0, _, _ => none
  | fuel + 1, idx, distance =>
    let _distance := object.infoAt idx
    if _distance = 0xFF ∨ distance > _distance then some (none, idx)
    else
      match object.sparseAt idx with
      | none => none
      | some b =>
        match object.bucketAt b with
        | none => none
        | some bucket =>
          if key = bucket.key then some (some b, idx)
          else json__object_get_index_loop object key fuel ((idx + 1) &&& (object.cap - 1))
            (distance + 1)

/-- The function `json__object_get_index`. -/
def json__object_get_index (object : json__object_t) (key : List Nat) (hash : Int) :
    Option (Option Nat × Nat) :=
  json__object_get_index_loop object key 257 (hashSlot hash object.cap) 0

/-- The statements that store the pending entry in slot `idx`: a new bucket is appended
    when `tmp` is `-1` (here `none`), otherwise the displaced index `tmp` is stored. -/
def json__object_place (object : json__object_t) (name : List Nat) (value : json_t)
    (idx : Nat) (tmp : Option Nat) : Option json__object_t :=
  match tmp with
  | none =>
    if object.len < object.cap then
      some { object with
        buckets := object.buckets.set object.len (some { key := name, val := value }),
        sparse := object.sparse.set idx (some object.len),
        len := object.len + 1 }
    else none
  | some t => some { object with sparse := object.sparse.set idx (some t) }

/-- The insertion loop of `json__object_set` (Robin Hood displacement).  The C loop runs
    until it meets an empty slot; `none` is returned when `fuel` iterations did not reach
    one, or when an indeterminate index is read. -/
def json__object_insert_loop (name : List Nat) (value : json_t) :
    Nat → json__object_t → Nat → Nat → Option Nat → Option json__object_t
  | 0, _, _, _, _ => none
  | fuel + 1, object, idx, distance, tmp =>
    let _distance := object.infoAt idx
    if _distance = 0xFF then
      match json__object_place object name value idx tmp with
      | none => none
      | some object => some { object with info := object.info.set idx (distance % 256) }
    else if distance > _distance then
      match object.sparseAt idx with
      | none => none
      | some tmp_x =>
        match json__object_place object name value idx tmp with
        | none => none
        | some object =>
          json__object_insert_loop name value fuel
            { object with info := object.info.set idx (distance % 256) }
            ((idx + 1) &&& (object.cap - 1)) (_distance + 1) (some tmp_x)
    else
      json__object_insert_loop name value fuel object ((idx + 1) &&& (object.cap - 1))
        (distance + 1) tmp

/-- The loop of `json__object_move` over the source buckets that are still to be copied,
    `set` being the call `json__object_set(dst, key, val, 0)`; the result is the table that
    replaces `*src`.  Reading an indeterminate bucket gives `none`. -/
def json__object_move_loop (set : json__object_t → List Nat → json_t → Option json__object_t) :
    json__object_t → List (Option json_bucket_t) → Option json__object_t
  | dst, [] => some dst
  | _, none :: _ => none
  | dst, some bucket :: rest =>
    match set dst bucket.key bucket.val with
    | none => none
    | some dst => json__object_move_loop set dst rest

/-- The body of `json__object_reserve`, `set` being the call `json__object_set(dst, key,
    val, 0)` made by `json__object_move`. -/
def json__object_reserve_with
    (set : json__object_t → List Nat → json_t → Option json__object_t)
    (object : json__object_t) (len : Nat) : Option json__object_t :=
  if len > object.cap - object.cap / 4 then
    json__object_move_loop set (json__object_new (len * 2)) (object.buckets.take object.len)
  else some object

/-- The function `json__object_set`; `depth` bounds the nesting of the rebuilds
    (`set` calls `reserve`, which calls `move`, which calls `set` on the new table), and
    `none` is returned when that bound is reached.  The flag `copy_key` only selects whether
    the key text is duplicated, which does not change the bytes stored. -/
def json__object_set : Nat → json__object_t → List Nat → json_t → Bool → Option json__object_t
  | 0, _, _, _, _ => none
  | depth + 1, object, key, value, _ =>
    match json__object_reserve_with (fun o k v => json__object_set depth o k v false) object
        (object.len + 1) with
    | none => none
    | some object =>
      let hash := json__object_hash key
      match json__object_get_index object key hash with
      | none => none
      | some (some b, _) =>
        match object.bucketAt b with
        | none => none
        | some bucket =>
          some { object with buckets := object.buckets.set b (some { bucket with val := value }) }
      | some (none, idx) =>
        let mask := object.cap - 1
        let distance := ((object.cap + idx) - hashSlot hash object.cap) &&& mask
        json__object_insert_loop key value object.cap object idx distance none

/-- The function `json__object_move`: every bucket of `src` is set in `dst`, which then
    replaces `*src`. -/
def json__object_move (depth : Nat) (dst src : json__object_t) : Option json__object_t :=
  json__object_move_loop (fun o k v => json__object_set depth o k v false) dst
    (src.buckets.take src.len)

/-- The function `json__object_reserve`. -/
def json__object_reserve (depth : Nat) (object : json__object_t) (len : Nat) :
    Option json__object_t :=
  if len > object.cap - object.cap / 4 then
    json__object_move depth (json__object_new (len * 2)) object
  else some object

/-- The function `json__object_trim`. -/
def json__object_trim (depth : Nat) (object : json__object_t) : Option json__object_t :=
  if object.cap - (object.cap - object.cap / 4) > object.len then
    json__object_move depth (json__object_new object.len) object
  else some object

/-- The nesting bound used by the public calls: at most two rebuilds nest (a `trim` or
    `reserve` rebuild whose replayed `set` grows the new table once more). -/
def objectDepth : Nat := 3

/-- The store allocated by `json_object()`. -/
def json_object : json__object_t := json__object_new 0

/-- The function `json_object_get` on the store of the handle `object`: the value of the
    bucket found, the `JSON_NONE` sentinel when the key is absent. -/
def json_object_get (object : json__object_t) (key : List Nat) : Option json_t :=
  match json__object_get_index object key (json__object_hash key) with
  | none => none
  | some (none, _) => some .JSON_NONE
  | some (some b, _) => (object.bucketAt b).map (fun bucket => bucket.val)

/-- The function `json_object_set`. -/
def json_object_set (object : json__object_t) (key : List Nat) (value : json_t) :
    Option json__object_t :=
  json__object_set objectDepth object key value true

/-- The backward-shift loop of `json_object_pop`, entered with the freed slot `idx`. -/
def json_object_pop_loop : Nat → json__object_t → Nat → Option json__object_t
  | 0, _, _ => none
  | fuel + 1, obj, idx =>
    let next := (idx + 1) &&& (obj.cap - 1)
    let next_distance := obj.infoAt next
    if next_distance = 0xFF ∨ next_distance = 0 then
      some { obj with info := obj.info.set idx 0xFF }
    else
      json_object_pop_loop fuel
        { obj with sparse := obj.sparse.set idx (obj.sparseAt next),
                   info := obj.info.set idx (next_distance - 1) } next

/-- The function `json_object_pop`: the value returned and the store afterwards. -/
def json_object_pop (obj : json__object_t) (key : List Nat) :
    Option (json_t × json__object_t) :=
  let hash := json__object_hash key
  match json__object_get_index obj key hash with
  | none => none
  | some (none, _) => some (.JSON_NONE, obj)
  | some (some start, idx) =>
    match obj.bucketAt start with
    | none => none
    | some bucket =>
      let val := bucket.val
      let buckets := memmove obj.buckets start (start + 1) (obj.len - start)
      let obj := { obj with buckets := buckets, len := obj.len - 1 }
      match json_object_pop_loop obj.cap obj idx with
      | none => none
      | some obj =>
        match json__object_trim objectDepth obj with
        | none => none
        | some obj => some (val, obj)

/-- The function `json_object_erase`: whether a value was removed, and the store. -/
def json_object_erase (obj : json__object_t) (key : List Nat) : Option (Bool × json__object_t) :=
  (json_object_pop obj key).map (fun r => (decide (r.1 ≠ .JSON_NONE), r.2))

/-- The function `json_object_len`. -/
def json_object_len (object : json__object_t) : Nat := object.len

/-- The buckets between `json_object_begin` and `json_object_end`. -/
def json_object_buckets (object : json__object_t) : List (Option json_bucket_t) :=
  object.buckets.take object.len

/-- A sequence of `json_object_set` calls on a store. -/
def runSets (o : json__object_t) : List (List Nat × json_t) → Option json__object_t
  | [] => some o
  | kv :: ops =>
    match json_object_set o kv.1 kv.2 with
    | none => none
    | some o1 => runSets o1 ops

/-- The objects of the library: `json_object()` and the stores obtained from it by
    `json_object_set` and `json_object_pop` calls that return (no indeterminate cell is
    read), while the number of buckets stays in the range in which the `int` capacity
    computation does not overflow. -/
inductive ObjectReach : json__object_t → Prop
  | new : ObjectReach json_object
  | set (o o1 : json__object_t) (key : List Nat) (value : json_t) (ho : ObjectReach o)
      (hlen : o.len < 2 ^ 29) (h : json_object_set o key value = some o1) : ObjectReach o1
  | pop (o o1 : json__object_t) (key : List Nat) (value : json_t) (ho : ObjectReach o)
      (h : json_object_pop o key = some (value, o1)) : ObjectReach o1

/-- The capacity invariant of the Object Store. -/
def ObjectCapInv (o : json__object_t) : Prop :=
  (∃ k, 2 ≤ k ∧ k ≤ 30 ∧ o.cap = 2 ^ k) ∧ 4 * o.len ≤ 3 * o.cap

/-- The slot at which the probe sequence of `key` starts in a table of `cap` slots. -/
def homeSlot (cap : Nat) (key : List Nat) : Nat := hashSlot (json__object_hash key) cap

/-- The representation invariant of an Object Store whose hash index is consistent with
    its dense bucket array `l`: the Robin Hood table. -/
structure ObjectInv (o : json__object_t) (l : List json_bucket_t) : Prop where
  cap_pow : ∃ k, 2 ≤ k ∧ k ≤ 30 ∧ o.cap = 2 ^ k
  buckets_len : o.buckets.length = o.cap
  sparse_len : o.sparse.length = o.cap
  info_len : o.info.length = o.cap
  len_eq : o.len = l.length
  load : 4 * o.len ≤ 3 * o.cap
  bucket : ∀ j, j < l.length → o.bucketAt j = l[j]?
  nodup : (l.map (fun b => b.key)).Nodup
  count : o.info.countP (fun d => decide (d ≠ 255)) = o.len
  slot : ∀ i, i < o.cap → o.infoAt i ≠ 255 →
    o.infoAt i < o.len ∧ ∃ b bk, o.sparseAt i = some b ∧ l[b]? = some bk ∧
      (homeSlot o.cap bk.key + o.infoAt i) % o.cap = i
  index : ∀ b, b < o.len → ∃ i, i < o.cap ∧ o.infoAt i ≠ 255 ∧ o.sparseAt i = some b
  order : ∀ i, i < o.cap → o.infoAt ((i + 1) % o.cap) ≠ 255 → o.infoAt ((i + 1) % o.cap) ≠ 0 →
    o.infoAt i ≠ 255 ∧ o.infoAt ((i + 1) % o.cap) ≤ o.infoAt i + 1

/-- The number of probe steps that lead from slot `i` forward to slot `e`. -/
def stepsTo (cap e i : Nat) : Nat := if i ≤ e then e - i else e + cap - i

/-- The state of the insertion loop of `json__object_set` while the key `k` (absent from
    the table `o` with buckets `l`) is being inserted: `p` is the table so far, `idx` the
    slot under inspection, `c` the probe distance of the pending entry and `tmp` the bucket
    index of a displaced pending entry (`none` while the new bucket is still pending).
    `e` is a slot that is empty in `o`. -/
structure InsertInv (o : json__object_t) (l : List json_bucket_t) (k : List Nat) (v : json_t)
    (e : Nat) (p : json__object_t) (idx c : Nat) (tmp : Option Nat) : Prop where
  cap_eq : p.cap = o.cap
  buckets_len : p.buckets.length = o.cap
  sparse_len : p.sparse.length = o.cap
  info_len : p.info.length = o.cap
  idx_lt : idx < o.cap
  len_none : tmp = none → p.len = l.length
  len_some : tmp ≠ none → p.len = l.length + 1 ∧ p.bucketAt l.length = some ⟨k, v⟩
  bucket : ∀ j, j < l.length → p.bucketAt j = l[j]?
  carry : ∃ bk, (l ++ [⟨k, v⟩])[tmp.getD l.length]? = some bk ∧
    (homeSlot o.cap bk.key + c) % o.cap = idx
  c_le : c ≤ l.length
  pred : ∀ i, i < o.cap → (i + 1) % o.cap = idx → c ≠ 0 → p.infoAt i ≠ 255 ∧ c ≤ p.infoAt i + 1
  slot : ∀ i, i < o.cap → p.infoAt i ≠ 255 →
    p.infoAt i ≤ l.length ∧ ∃ b bk, p.sparseAt i = some b ∧ (l ++ [⟨k, v⟩])[b]? = some bk ∧
      (homeSlot o.cap bk.key + p.infoAt i) % o.cap = i
  index : ∀ b, b ≤ l.length → b ≠ tmp.getD l.length →
    ∃ i, i < o.cap ∧ p.infoAt i ≠ 255 ∧ p.sparseAt i = some b
  order : ∀ i, i < o.cap → p.infoAt ((i + 1) % o.cap) ≠ 255 → p.infoAt ((i + 1) % o.cap) ≠ 0 →
    p.infoAt i ≠ 255 ∧ p.infoAt ((i + 1) % o.cap) ≤ p.infoAt i + 1
  count : p.info.countP (fun d => decide (d ≠ 255)) = l.length
  ahead : ∀ i, i < o.cap → stepsTo o.cap e i ≤ stepsTo o.cap e idx →
    p.infoAt i = o.infoAt i ∧ p.sparseAt i = o.sparseAt i

/-- The list model of `set`: the value of the bucket that holds `k` is replaced, or a new
    bucket is appended when no bucket holds `k`. -/
def specSet (l : List json_bucket_t) (k : List Nat) (v : json_t) : List json_bucket_t :=
  if k ∈ l.map (fun b => b.key) then l.map (fun b => if b.key = k then ⟨k, v⟩ else b)
  else l ++ [⟨k, v⟩]

/-- The list model of a sequence of `set` calls. -/
def specSets (l : List json_bucket_t) : List (List Nat × json_t) → List json_bucket_t
  | [] => l
  | kv :: ops => specSets (specSet l kv.1 kv.2) ops

/-- The list model of `get`: the value of the bucket that holds `k`, the `JSON_NONE`
    sentinel when there is none. -/
def specGet (l : List json_bucket_t) (k : List Nat) : json_t :=
  match l.find? (fun b => decide (b.key = k)) with
  | some b => b.val
  | none => .JSON_NONE

/-- The value given by the last `set` on `k` in a sequence of calls, the `JSON_NONE`
    sentinel when `k` is never set. -/
def lastSet (ops : List (List Nat × json_t)) (k : List Nat) : json_t :=
  match ops.reverse.find? (fun kv => decide (kv.1 = k)) with
  | some kv => kv.2
  | none => .JSON_NONE

/-- The number of distinct keys in a sequence of `set` calls. -/
def distinctKeys (ops : List (List Nat × json_t)) : Nat :=
  (ops.map (fun kv => kv.1)).toFinset.card

/-- The keys of the buckets between `json_object_begin` and `json_object_end`. -/
def json_object_keys (o : json__object_t) : List (List Nat) :=
  (json_object_buckets o).filterMap (fun c => c.map (fun b => b.key))

/-- The `i`-th of 256 keys of 16 bytes with one and the same hash: block `j` of the key is
    `"aA"` when bit `j` of `i` is set and `"BB"` otherwise
    (`'a' + 31 * 'A' = 'B' + 31 * 'B'`). -/
def collidingKey (i : Nat) : List Nat :=
  (List.range 8).flatMap (fun j => if i.testBit j then [97, 65] else [66, 66])

/-- The number `i` whose key `collidingKey i` is. -/
def collidingIndex (key : List Nat) : Nat :=
  (List.range 8).foldl (fun acc j => acc + (if key.getD (2 * j) 0 = 97 then 2 ^ j else 0)) 0

/-- The calls that set the first `n` colliding keys to `null`. -/
def collidingOps (n : Nat) : List (List Nat × json_t) :=
  (List.range n).map (fun i => (collidingKey i, .JSON_NULL))

/-- A table in which the probe sequence of the key `K`, which starts at slot `h`, passes
    255 slots occupied by entries of other keys at the distances 0 to 254 and then meets
    an info byte `0xFF`. -/
structure FullCluster (p : json__object_t) (cap h : Nat) (K : List Nat) : Prop where
  cap_eq : p.cap = cap
  buckets_len : p.buckets.length = cap
  sparse_len : p.sparse.length = cap
  info_len : p.info.length = cap
  slots : ∀ t, t < 255 → p.infoAt ((h + t) % cap) = t ∧
    ∃ b bk, b < 255 ∧ p.sparseAt ((h + t) % cap) = some b ∧ p.bucketAt b = some bk ∧ bk.key ≠ K
  stop : p.infoAt ((h + 255) % cap) = 255
/-! ## Numbers: `json_dtoa` and the library function `strtod`

Finite doubles are exact rationals.  The four operations below are the rational product,
difference, quotient and negation, written on numerators and denominators. -/

/-- The product `a * b` of two finite doubles. -/
def qmul (a b : ℚ) : ℚ := mkRat (a.num * b.num) (a.den * b.den)

/-- The difference `a - b` of two finite doubles. -/
def qsub (a b : ℚ) : ℚ := mkRat (a.num * b.den - b.num * a.den) (a.den * b.den)

/-- The quotient `a / b` of two finite doubles (`b` is never zero where it is used). -/
def qdiv (a b : ℚ) : ℚ := mkRat (a.num * b.den * Int.sign b.num) (a.den * b.num.natAbs)

/-- The negation `-a` of a finite double. -/
def qneg (a : ℚ) : ℚ := mkRat (-a.num) a.den

/-- The loop behind `ilog10`; the first argument bounds the number of iterations. -/
def ilog10_loop : Nat → Nat → Nat
  | 0, _ => 0
  | fuel + 1, n => if n < 10 then 0 else ilog10_loop fuel (n / 10) + 1

/-- The largest `k` with `10 ^ k ≤ n` (`0` for `n = 0`). -/
def ilog10 (n : Nat) : Nat := ilog10_loop n n

/-- The expression `(int)log10(value)` for a finite `value ≥ 0`: the logarithm truncated
    towards zero.  For `value = 0` the logarithm is `-∞`, whose conversion yields the
    smallest `int`. -/
def log10_int (value : ℚ) : Int :=
  if value = 0 then -2147483648
  else if 1 ≤ value then (ilog10 (Rat.floor value).toNat : Int)
  else -(ilog10 (Rat.floor (qdiv 1 value)).toNat : Int)

/-- The expression `pow(10.0, (double)exponent)` for `exponent ≥ 0`. -/
def pow10 (exponent : Nat) : ℚ := mkRat (10 ^ exponent) 1

/-- The digit loop `while (precision)` of `json_dtoa`; the result is the value of
    `exponent` after the loop and the bytes written. -/
def json_dtoa_loop : Nat → ℚ → ℚ → Int → List Nat → Int × List Nat
  | 0, _, _, exponent, buffer => (exponent, buffer)
  | precision + 1, value, divisor, exponent, buffer =>
    let result : Int := Rat.floor (qdiv value divisor)
    let digit : Int := Int.fmod result 10
    let buffer := if exponent = -1 then buffer ++ [46] else buffer
    let buffer := buffer ++ [48 + digit.toNat]
    if exponent ≤ 0 ∧ qsub value (qmul (mkRat result 1) divisor) ≤ 0 then
      (exponent - 1, buffer)
    else json_dtoa_loop precision value (qdiv divisor 10) (exponent - 1) buffer

/-- The loop `for (; div > 0; div /= 10)` of `json_dtoa` that writes the exponent. -/
def json_dtoa_exponent : Nat → Nat → Nat → List Nat
  | 0, _, _ => []
  | fuel + 1, exponent, div =>
    if div > 0 then (48 + (exponent / div) % 10) :: json_dtoa_exponent fuel exponent (div / 10)
    else []

/-- The function `json_dtoa`: the bytes written to `buffer` before the terminator; the
    returned `int` is their number. -/
def json_dtoa (value : double) (precision : Nat) : List Nat :=
  match value with
  | .nan => [110, 97, 110]
  | .inf _ => [105, 110, 102]
  | .finite value =>
    let buffer : List Nat := if value < 0 then [45] else []
    let value := if value < 0 then qneg value else value
    let exponent := log10_int value
    let exponent := if exponent < 0 then 0 else exponent
    let divisor := pow10 exponent.toNat
    let (exponent, buffer) := json_dtoa_loop precision value divisor exponent buffer
    if exponent ≥ 0 then
      let exponent := (exponent + 1).toNat
      let div := 10 ^ ilog10 exponent
      buffer ++ [101, 43] ++ json_dtoa_exponent (div + 1) exponent div
    else buffer

/-- The predicate `isdigit`. -/
def isdigit (c : Nat) : Bool := 48 ≤ c && c ≤ 57

/-- The predicate `isxdigit`. -/
def isxdigit (c : Nat) : Bool :=
  (48 ≤ c && c ≤ 57) || (97 ≤ c && c ≤ 102) || (65 ≤ c && c ≤ 70)

/-- The function `tolower`. -/
def tolower (c : Nat) : Nat := if 65 ≤ c ∧ c ≤ 90 then c + 32 else c

/-- The value of a hexadecimal digit. -/
def xdigit_value (c : Nat) : Nat :=
  if c ≤ 57 then c - 48 else if c ≤ 70 then c - 55 else c - 87

/-- The number written by a sequence of decimal digits. -/
def decimal_value (digits : List Nat) : Nat :=
  digits.foldl (fun acc d => acc * 10 + (d - 48)) 0

/-- The number written by a sequence of hexadecimal digits. -/
def hexadecimal_value (digits : List Nat) : Nat :=
  digits.foldl (fun acc d => acc * 16 + xdigit_value d) 0

/-- The rational `m * base ^ e`. -/
def scale (base m : Nat) (e : Int) : ℚ :=
  if 0 ≤ e then mkRat ((m : Int) * (base : Int) ^ e.toNat) 1 else mkRat m (base ^ (-e).toNat)

/-- An optional sign in front of a numeral: whether it is `-`, and the bytes it takes. -/
def strtod_sign (s : List Nat) : Bool × Nat :=
  match s with
  | 45 :: _ => (true, 1)
  | 43 :: _ => (false, 1)
  | _ => (false, 0)

/-- The exponent part of a numeral (`marker` is `e` or `p` in lower case): its value and
    the number of bytes it takes, `(0, 0)` when there is no complete exponent part. -/
def strtod_exponent (marker : Nat) (s : List Nat) : Int × Nat :=
  match s with
  | [] => (0, 0)
  | m :: r =>
    if tolower m = marker then
      let (neg, k) := strtod_sign r
      let digits := (r.drop k).takeWhile isdigit
      if digits = [] then (0, 0)
      else ((if neg then -(decimal_value digits : Int) else decimal_value digits),
        1 + k + digits.length)
    else (0, 0)

/-- The bytes of `(n-char-sequence)` after `nan`, when present. -/
def strtod_nan_sequence (s : List Nat) : Nat :=
  match s with
  | 40 :: r =>
    let body := r.takeWhile (fun c => isdigit c || c = 95 || (97 ≤ tolower c && tolower c ≤ 122))
    if (r.drop body.length).head? = some 41 then body.length + 2 else 0
  | _ => 0

/-- The digits before and after the radix character of a numeral whose digits satisfy
    `digit`, and the number of bytes the two parts and the radix character take. -/
def strtod_mantissa (digit : Nat → Bool) (s : List Nat) : List Nat × List Nat × Nat :=
  let ip := s.takeWhile digit
  match s.drop ip.length with
  | 46 :: r =>
    let fp := r.takeWhile digit
    (ip, fp, ip.length + 1 + fp.length)
  | _ => (ip, [], ip.length)

/-- The library function `strtod` of the C standard, applied at a byte that is not white
    space: the value converted from the longest prefix of `s` that is a numeral (decimal,
    hexadecimal, infinity or NaN), and the length of that prefix; `(0, 0)` when no prefix is
    a numeral.  The value is exact: no rounding and no overflow. -/
def strtod (s : List Nat) : double × Nat :=
  let (neg, k) := strtod_sign s
  let s1 := s.drop k
  let low := (s1.take 8).map tolower
  if low = [105, 110, 102, 105, 110, 105, 116, 121] then (.inf neg, k + 8)
  else if low.take 3 = [105, 110, 102] then (.inf neg, k + 3)
  else if low.take 3 = [110, 97, 110] then (.nan, k + 3 + strtod_nan_sequence (s1.drop 3))
  else
    let hex := strtod_mantissa isxdigit (s1.drop 2)
    if low.take 2 = [48, 120] ∧ (hex.1 ≠ [] ∨ hex.2.1 ≠ []) then
      let (ex, ke) := strtod_exponent 112 (s1.drop (2 + hex.2.2))
      let v := scale 2 (hexadecimal_value (hex.1 ++ hex.2.1)) (ex - 4 * hex.2.1.length)
      (.finite (if neg then qneg v else v), k + 2 + hex.2.2 + ke)
    else
      let dec := strtod_mantissa isdigit s1
      if dec.1 = [] ∧ dec.2.1 = [] then (.finite 0, 0)
      else
        let (ex, ke) := strtod_exponent 101 (s1.drop dec.2.2)
        let v := scale 10 (decimal_value (dec.1 ++ dec.2.1)) (ex - dec.2.1.length)
        (.finite (if neg then qneg v else v), k + dec.2.2 + ke)
/-! ## The heap

The stores of the three container kinds live in heap blocks of their own; a handle
`json_t` carries the address of its block.  The heap is the list of the blocks
allocated so far, an address being a position in it, and `malloc` of a new block
appends to it (allocation is taken to succeed). -/

/-- The content of a heap block reached through a handle. -/
inductive heap_cell where
  | object (obj : json__object_t)
  | array (arr : json__array_t)
  | string (str : json__string_t)
  deriving DecidableEq, Repr

/-- The C string at the pointer `data`: the bytes before the first null byte; `none` for
    the null pointer (`[]`) and for a buffer without a terminator in its determinate
    part. -/
def c_string : List (Option Nat) → Option (List Nat)
  | [] => none
  | none :: _ => none
  | some c :: rest => if c = 0 then some [] else (c_string rest).map (fun s => c :: s)

/-- The function `json_object()`: a new empty object store and its handle. -/
def heap_json_object (heap : List heap_cell) : json_t × List heap_cell :=
  (.JSON_OBJECT heap.length, heap ++ [.object (json__object_new 0)])

/-- The function `json_array()`: a new empty array store and its handle. -/
def heap_json_array (heap : List heap_cell) : json_t × List heap_cell :=
  (.JSON_ARRAY heap.length, heap ++ [.array (json__array_new 0)])

/-- The function `json_string(string)`: a new string store and its handle. -/
def heap_json_string (heap : List heap_cell) (string : List Nat) :
    Option (json_t × List heap_cell) :=
  (json_string string).map (fun str => (.JSON_STRING heap.length, heap ++ [.string str]))

/-- The function `json_number`. -/
def json_number (value : double) : json_t := .JSON_NUMBER value

/-- The function `json_bool`. -/
def json_bool (value : Int) : json_t := if value ≠ 0 then .JSON_TRUE else .JSON_FALSE

/-- The function `json_null`. -/
def json_null : json_t := .JSON_NULL

/-- The call `json__object_set(object.u.obj, key, value, copy_key)` through a handle: the
    block at the address held by the handle is updated in place.  A handle that does not
    hold the address of an object store, and a null `key`, make the C code access memory
    it must not; the result is then `none`. -/
def heap_json__object_set (heap : List heap_cell) (object : json_t) (key : List (Option Nat))
    (value : json_t) (copy_key : Bool) : Option (List heap_cell) :=
  match object with
  | .JSON_OBJECT p =>
    match heap[p]?, c_string key with
    | some (.object obj), some name =>
      (json__object_set objectDepth obj name value copy_key).map
        (fun obj => heap.set p (.object obj))
    | _, _ => none
  | _ => none

/-- The function `json_object_set` through a handle: the kind is asserted, the key is
    copied. -/
def heap_json_object_set (heap : List heap_cell) (object : json_t) (key : List Nat)
    (value : json_t) : Option (List heap_cell) :=
  heap_json__object_set heap object (key.map some ++ [some 0]) value true

/-- The function `json_array_push` through a handle: the kind is asserted, then the
    value is inserted at the end. -/
def heap_json_array_push (heap : List heap_cell) (array : json_t) (value : json_t) :
    Option (List heap_cell) :=
  match array with
  | .JSON_ARRAY p =>
    match heap[p]? with
    | some (.array arr) => (json_array_push arr value).map (fun arr => heap.set p (.array arr))
    | _ => none
  | _ => none

/-! ## Parser -/

/-- The enumeration `json_tokens`. -/
inductive json_tokens where
  | JSON_OBJECT
  | JSON_ARRAY
  | JSON_STRING
  | JSON_NUMBER
  | JSON_TRUE
  | JSON_FALSE
  | JSON_NULL
  | JSON_NONE
  | JSON_COLON
  | JSON_COMMA
  | JSON_SCOPE_END
  deriving DecidableEq, Repr

/-- The parser state `JSON_START`. -/
def JSON_START : Nat := 1
/-- The parser state `JSON_OBJECT_START`. -/
def JSON_OBJECT_START : Nat := 2
/-- The parser state `JSON_OBJECT_KEY`. -/
def JSON_OBJECT_KEY : Nat := 4
/-- The parser state `JSON_OBJECT_COLON`. -/
def JSON_OBJECT_COLON : Nat := 8
/-- The parser state `JSON_OBJECT_VAL`. -/
def JSON_OBJECT_VAL : Nat := 16
/-- The parser state `JSON_OBJECT_NEXT`. -/
def JSON_OBJECT_NEXT : Nat := 32
/-- The parser state `JSON_ARRAY_START`. -/
def JSON_ARRAY_START : Nat := 64
/-- The parser state `JSON_ARRAY_VAL`. -/
def JSON_ARRAY_VAL : Nat := 128
/-- The parser state `JSON_ARRAY_NEXT`. -/
def JSON_ARRAY_NEXT : Nat := 256

/-- The table `json_type` as filled by `json__tables`, at the byte `c`. -/
def json_type (c : Nat) : json_tokens :=
  if c = 123 then .JSON_OBJECT
  else if c = 125 then .JSON_SCOPE_END
  else if c = 91 then .JSON_ARRAY
  else if c = 93 then .JSON_SCOPE_END
  else if c = 34 then .JSON_STRING
  else if c = 58 then .JSON_COLON
  else if c = 44 then .JSON_COMMA
  else if c = 45 then .JSON_NUMBER
  else if 48 ≤ c ∧ c < 58 then .JSON_NUMBER
  else if c = 116 then .JSON_TRUE
  else if c = 102 then .JSON_FALSE
  else if c = 97 then .JSON_NULL
  else .JSON_NONE

/-- The local `value_states` of `json__tables`. -/
def value_states : Nat := JSON_OBJECT_VAL ||| JSON_ARRAY_START ||| JSON_ARRAY_VAL

/-- The table `json_state_mask` as filled by `json__tables`. -/
def json_state_mask : json_tokens → Nat
  | .JSON_OBJECT => JSON_START ||| value_states
  | .JSON_ARRAY => JSON_START ||| value_states
  | .JSON_STRING => JSON_OBJECT_START ||| JSON_OBJECT_KEY ||| value_states
  | .JSON_NUMBER => value_states
  | .JSON_TRUE => value_states
  | .JSON_FALSE => value_states
  | .JSON_NULL => value_states
  | .JSON_NONE => 0
  | .JSON_COLON => JSON_OBJECT_COLON
  | .JSON_COMMA => JSON_OBJECT_NEXT ||| JSON_ARRAY_NEXT
  | .JSON_SCOPE_END =>
    JSON_OBJECT_START ||| JSON_OBJECT_NEXT ||| JSON_ARRAY_START ||| JSON_ARRAY_NEXT

/-- The byte `text[c]` of a null-terminated text: the terminator at and after the end. -/
def char_at (text : List Nat) (c : Nat) : Nat := text.getD c 0

/-- The function `json_skip_whitespace` on the cursor `c` into `text`: the bytes skipped
    are the non-null bytes that are at most `0x20` as a (signed) `char`. -/
def json_skip_whitespace (text : List Nat) (c : Nat) : Nat :=
  c + ((text.drop c).takeWhile (fun b => b ≠ 0 ∧ charToInt b ≤ 32)).length

/-- The library function `strchr(s, ch)`: the offset of the first `ch` in the string `s`. -/
def strchr : List Nat → Nat → Option Nat
  | [], _ => none
  | b :: rest, ch =>
    if b = ch then some 0 else if b = 0 then none else (strchr rest ch).map (fun k => k + 1)

/-- The loop `while ((c = strchr(c, '"')) && *(c - 1) == '\\') c++;` of
    `json_parse_string_value`; the first argument bounds the number of iterations. -/
def json_parse_string_scan (text : List Nat) : Nat → Nat → Option Nat
  | 0, _ => none
  | fuel + 1, c =>
    match strchr (text.drop c) 34 with
    | none => none
    | some k =>
      if char_at text (c + k - 1) = 92 then json_parse_string_scan text fuel (c + k + 1)
      else some (c + k)

/-- The function `json_parse_string_value`: the string store built and the new value of
    the cursor `*p`. -/
def json_parse_string_value (text : List Nat) (p : Nat) (pad : Bool) : json__string_t × Nat :=
  let head := p + 1
  match json_parse_string_scan text (text.length + 1) head with
  | some c =>
    let len := c - head
    let cap := if pad then nextCap (len + 1) else len + 1
    let data : List (Option Nat) := malloc cap
    let data := memcpy data 0 ((text.drop head).map some) len
    let data := data.set len (some 0)
    ({ data := data, len := len, cap := cap }, c + 1)
  | none => ({ data := [], len := 0, cap := 0 }, head)

/-- The local variables of `json_parse`, and the heap. -/
structure json_parse_locals where
  stack : List json_t
  sp : Nat
  key : List (Option Nat)
  val : json_t
  state : Nat
  c : Nat
  heap : List heap_cell
  deriving DecidableEq, Repr

/-- The state selected by `val.type == JSON_OBJECT ? JSON_OBJECT_START : JSON_ARRAY_START`. -/
def json_parse_start_state (val : json_t) : Nat :=
  match val with
  | .JSON_OBJECT _ => JSON_OBJECT_START
  | _ => JSON_ARRAY_START

/-- The state selected by `sp->type == JSON_OBJECT ? JSON_OBJECT_KEY : JSON_ARRAY_VAL`. -/
def json_parse_comma_state (top : json_t) : Nat :=
  match top with
  | .JSON_OBJECT _ => JSON_OBJECT_KEY
  | _ => JSON_ARRAY_VAL

/-- The end of an iteration of `json_parse` that has read a value: the value is added to
    its parent (or becomes the root) and, when `flags` is set, it is pushed on the
    stack.  The result is `none` when the C code misbehaves, otherwise the new locals and
    whether the loop goes on. -/
def json_parse_add (s : json_parse_locals) (flags : Bool) : Option (Bool × json_parse_locals) :=
  let push (s : json_parse_locals) : Option (Bool × json_parse_locals) :=
    if flags then
      if s.sp + 1 < 128 then
        some (true, { s with sp := s.sp + 1, stack := s.stack.set (s.sp + 1) s.val,
                             state := json_parse_start_state s.val })
      else none
    else some (true, s)
  match s.stack[s.sp]? with
  | none => none
  | some top =>
    if s.state = JSON_OBJECT_START ∨ s.state = JSON_OBJECT_VAL then
      match heap_json__object_set s.heap top s.key s.val false with
      | none => none
      | some heap => push { s with heap := heap, state := JSON_OBJECT_NEXT, key := [] }
    else if s.state = JSON_ARRAY_START ∨ s.state = JSON_ARRAY_VAL then
      match heap_json_array_push s.heap top s.val with
      | none => none
      | some heap => push { s with heap := heap, state := JSON_ARRAY_NEXT }
    else if s.state = JSON_START then
      some (true, { s with stack := s.stack.set s.sp s.val,
                           state := json_parse_start_state s.val })
    else push s

/-- The body of the loop of `json_parse`, entered with the cursor `s.c` at a byte that is
    neither white space nor the terminator.  The flag of the result tells whether the loop
    goes on (`false`: the function is at `end:`). -/
def json_parse_body (text : List Nat) (s : json_parse_locals) :
    Option (Bool × json_parse_locals) :=
  let c := s.c
  let type := json_type (char_at text c)
  if s.state &&& json_state_mask type = 0 then some (false, s)
  else
    match type with
    | .JSON_OBJECT =>
      let (val, heap) := heap_json_object s.heap
      json_parse_add { s with val := val, heap := heap, c := c + 1 } true
    | .JSON_ARRAY =>
      let (val, heap) := heap_json_array s.heap
      json_parse_add { s with val := val, heap := heap, c := c + 1 } true
    | .JSON_STRING =>
      if s.state &&& (JSON_OBJECT_START ||| JSON_OBJECT_KEY) ≠ 0 then
        let (str, c) := json_parse_string_value text c false
        some (true, { s with key := str.data, state := JSON_OBJECT_COLON, c := c })
      else
        let (str, c) := json_parse_string_value text c true
        json_parse_add { s with val := .JSON_STRING s.heap.length,
                                heap := s.heap ++ [.string str], c := c } false
    | .JSON_NUMBER =>
      let (num, n) := strtod (text.drop c)
      json_parse_add { s with val := json_number num, c := c + n } false
    | .JSON_TRUE =>
      if (text.drop c).take 4 = [116, 114, 117, 101] then
        json_parse_add { s with val := json_bool 1, c := c + 4 } false
      else some (false, s)
    | .JSON_FALSE =>
      if (text.drop c).take 5 = [102, 97, 108, 115, 101] then
        json_parse_add { s with val := json_bool 0, c := c + 5 } false
      else some (false, s)
    | .JSON_NULL =>
      if (text.drop c).take 4 = [110, 117, 108, 108] then
        json_parse_add { s with val := json_null, c := c + 4 } false
      else some (false, s)
    | .JSON_NONE => json_parse_add s false
    | .JSON_COLON => some (true, { s with c := c + 1, state := JSON_OBJECT_VAL })
    | .JSON_COMMA =>
      match s.stack[s.sp]? with
      | none => none
      | some top => some (true, { s with c := c + 1, state := json_parse_comma_state top })
    | .JSON_SCOPE_END =>
      if s.sp = 0 then some (false, s)
      else some (true, { s with sp := s.sp - 1, c := c + 1 })

/-- One iteration of the loop of `json_parse`: the loop condition, which skips the white
    space and tests for the terminator, then the body. -/
def json_parse_step (text : List Nat) (s : json_parse_locals) :
    Option (Bool × json_parse_locals) :=
  let s := { s with c := json_skip_whitespace text s.c }
  if char_at text s.c = 0 then some (false, s) else json_parse_body text s

/-- The loop of `json_parse`; the first argument bounds the number of iterations. -/
def json_parse_loop (text : List Nat) : Nat → json_parse_locals → Option json_parse_locals
  | 0, _ => none
  | fuel + 1, s =>
    match json_parse_step text s with
    | none => none
    | some (false, s) => some s
    | some (true, s) => json_parse_loop text fuel s

/-- The locals of `json_parse` at the start of its loop.  The slots of the stack above the
    stack pointer are never read before they are written; they are all shown as
    `JSON_NONE`. -/
def json_parse_init : json_parse_locals :=
  { stack := List.replicate 128 .JSON_NONE, sp := 0, key := [], val := .JSON_NONE,
    state := JSON_START, c := 0, heap := [] }

/-- The function `json_parse` on the bytes of `text` before its terminator: the handle
    returned (`*stack`) and the heap it points into; `none` when the C code misbehaves.
    An iteration takes at least one byte or is followed by the last one, which bounds the
    number of iterations. -/
def json_parse (text : List Nat) : Option (json_t × List heap_cell) :=
  (json_parse_loop text (2 * text.length + 2) json_parse_init).map
    (fun s => (s.stack.getD 0 .JSON_NONE, s.heap))

/-! ## Serializer -/

/-- The loop `for (x = 0; x < indent; x++) json_string_append(dst_string, "\t", 1);`. -/
def json_dump_indent : Nat → json__string_t → Option json__string_t
  | 0, dst => some dst
  | indent + 1, dst => (json_string_append dst [9] 1).bind (json_dump_indent indent)

/-- The loop over the buckets of an object in `json_dump_recursive`, from the bucket `i`
    on; `dump` is the recursive call. -/
def json_dump_buckets (dump : json__string_t → json_t → Nat → Option json__string_t)
    (obj : json__object_t) (indent : Nat) : Nat → Nat → json__string_t → Option json__string_t
  | 0, _, dst => some dst
  | n + 1, i, dst =>
    match obj.buckets[i]? with
    | some (some bucket) =>
      (json_dump_indent (indent + 1) dst).bind fun dst =>
      (json_string_append dst [34] 1).bind fun dst =>
      (json_string_append dst bucket.key ((bucket.key.takeWhile (· ≠ 0)).length)).bind fun dst =>
      (json_string_append dst [34, 58, 32] 3).bind fun dst =>
      (dump dst bucket.val (indent + 1)).bind fun dst =>
      (if i ≠ obj.len - 1 then json_string_append dst [44] 1 else some dst).bind fun dst =>
      (json_string_append dst [10] 1).bind fun dst =>
      json_dump_buckets dump obj indent n (i + 1) dst
    | _ => none

/-- The loop over the elements of an array in `json_dump_recursive`, from the element `i`
    on; `dump` is the recursive call. -/
def json_dump_elements (dump : json__string_t → json_t → Nat → Option json__string_t)
    (arr : json__array_t) (indent : Nat) : Nat → Nat → json__string_t → Option json__string_t
  | 0, _, dst => some dst
  | n + 1, i, dst =>
    match arr.data[i]? with
    | some (some node) =>
      (json_dump_indent (indent + 1) dst).bind fun dst =>
      (dump dst node (indent + 1)).bind fun dst =>
      (if i < arr.len - 1 then json_string_append dst [44] 1 else some dst).bind fun dst =>
      (json_string_append dst [10] 1).bind fun dst =>
      json_dump_elements dump arr indent n (i + 1) dst
    | _ => none

/-- The function `json_dump_recursive` on the store of the handle `dst_string`; the first
    argument bounds the depth of the recursion, and `none` is returned when it is reached
    or when the C code misbehaves. -/
def json_dump_recursive (heap : List heap_cell) :
    Nat → json__string_t → json_t → Nat → Option json__string_t
  | 0, _, _, _ => none
  | depth + 1, dst, root, indent =>
    match root with
    | .JSON_OBJECT p =>
      match heap[p]? with
      | some (.object obj) =>
        (json_string_append dst [123, 10] 2).bind fun dst =>
        (json_dump_buckets (json_dump_recursive heap depth) obj indent obj.len 0 dst).bind
          fun dst =>
        (json_dump_indent indent dst).bind fun dst =>
        json_string_append dst [125] 1
      | _ => none
    | .JSON_ARRAY p =>
      match heap[p]? with
      | some (.array arr) =>
        (json_string_append dst [91, 10] 2).bind fun dst =>
        (json_dump_elements (json_dump_recursive heap depth) arr indent arr.len 0 dst).bind
          fun dst =>
        (json_dump_indent indent dst).bind fun dst =>
        json_string_append dst [93] 1
      | _ => none
    | .JSON_STRING p =>
      match heap[p]? with
      | some (.string str) =>
        (str.data.take str.len).allSome.bind fun bytes => json_string_append dst bytes str.len
      | _ => none
    | .JSON_NUMBER num =>
      let dst := json__string_reserve dst (dst.len + 32)
      let digits := json_dtoa num 12
      if dst.len + digits.length < dst.cap then
        some { dst with data := memwrite dst.data dst.len (digits.map some ++ [some 0]),
                        len := dst.len + digits.length }
      else none
    | .JSON_TRUE => json_string_append dst [116, 114, 117, 101] 4
    | .JSON_FALSE => json_string_append dst [102, 97, 108, 115, 101] 5
    | .JSON_NULL => json_string_append dst [110, 117, 108, 108] 4
    | .JSON_NONE => some dst

/-- The function `json_dump`: the string store of the handle returned.  The recursion
    goes as deep as the tree, which has at most as many levels as the heap has blocks. -/
def json_dump (heap : List heap_cell) (value : json_t) : Option json__string_t :=
  (json_string []).bind fun string =>
  json_dump_recursive heap (heap.length + 1) string value 0
/-! ## Reference texts -/

/-- The loop behind `decimal_numeral`; the first argument bounds the number of digits. -/
def decimal_numeral_loop : Nat → Nat → List Nat
  | 0, _ => []
  | fuel + 1, n =>
    if n < 10 then [48 + n] else decimal_numeral_loop fuel (n / 10) ++ [48 + n % 10]

/-- The ordinary decimal numeral of a natural number, as bytes. -/
def decimal_numeral (n : Nat) : List Nat := decimal_numeral_loop (n + 1) n

/-- The ordinary decimal numeral of an integer: a `-` in front of a negative one. -/
def int_numeral (n : Int) : List Nat :=
  if n < 0 then 45 :: decimal_numeral n.natAbs else decimal_numeral n.natAbs

/-- A byte that may follow a value in a JSON text: white space, a comma or a closer. -/
def delimiter (b : Nat) : Prop := b ≤ 32 ∨ b = 44 ∨ b = 93 ∨ b = 125

/-- The text `rest` is empty or starts with a delimiter. -/
def delimited (rest : List Nat) : Prop := ∀ b, rest.head? = some b → delimiter b

/-- White space between the tokens of a JSON text: non-null bytes up to `0x20`. -/
def whitespace (w : List Nat) : Prop := ∀ b ∈ w, 1 ≤ b ∧ b ≤ 32

/-! ## Value trees -/

/-- A JSON value as a tree: what a handle and the heap blocks reachable from it denote. -/
inductive Value where
  | null
  | bool (b : Bool)
  | number (num : double)
  | string (bytes : List Nat)
  | array (items : List Value)
  | object (entries : List (List Nat × Value))

/-- A run of `d` tab characters. -/
def tabs (d : Nat) : List Nat := List.replicate d 9

mutual
/-- The reference rendering of a tree at indentation `d`: one line per entry, indented by
    tabs, keys in quotes, string values verbatim, numbers as `json_dtoa` at precision 12. -/
def render : Value → Nat → List Nat
  | .null, _ => [110, 117, 108, 108]
  | .bool true, _ => [116, 114, 117, 101]
  | .bool false, _ => [102, 97, 108, 115, 101]
  | .number num, _ => json_dtoa num 12
  | .string bytes, _ => bytes
  | .array items, d => [91, 10] ++ render_items items d ++ tabs d ++ [93]
  | .object entries, d => [123, 10] ++ render_entries entries d ++ tabs d ++ [125]
/-- The lines of the elements of an array. -/
def render_items : List Value → Nat → List Nat
  | [], _ => []
  | v :: rest, d =>
    tabs (d + 1) ++ render v (d + 1) ++ (if rest.isEmpty then [] else [44]) ++ [10]
      ++ render_items rest d
/-- The lines of the entries of an object. -/
def render_entries : List (List Nat × Value) → Nat → List Nat
  | [], _ => []
  | (k, v) :: rest, d =>
    tabs (d + 1) ++ [34] ++ k ++ [34, 58, 32] ++ render v (d + 1)
      ++ (if rest.isEmpty then [] else [44]) ++ [10] ++ render_entries rest d
end

mutual
/-- The handle `v` denotes the tree `t` in `heap`: every store reached is well formed and
    lists the handles of the children in order.  The blocks of a tree lie at addresses
    from `lo` on, those of the children after the block of their parent. -/
def Represents (heap : List heap_cell) : Nat → json_t → Value → Prop
  | _, v, .null => v = .JSON_NULL
  | _, v, .bool b => v = (if b then .JSON_TRUE else .JSON_FALSE)
  | _, v, .number num => v = .JSON_NUMBER num
  | lo, v, .string bytes =>
    ∃ p str, v = .JSON_STRING p ∧ lo ≤ p ∧ heap[p]? = some (.string str) ∧ StringInv str ∧
      json_string_bytes str = bytes.map some
  | lo, v, .array items =>
    ∃ p arr hs, v = .JSON_ARRAY p ∧ lo ≤ p ∧ heap[p]? = some (.array arr) ∧ ArrayInv arr hs ∧
      RepresentsItems heap (p + 1) hs items
  | lo, v, .object entries =>
    ∃ p obj bs, v = .JSON_OBJECT p ∧ lo ≤ p ∧ heap[p]? = some (.object obj) ∧ ObjectInv obj bs ∧
      RepresentsEntries heap (p + 1) bs entries
/-- The handles `hs` denote the trees of a list, one by one. -/
def RepresentsItems (heap : List heap_cell) : Nat → List json_t → List Value → Prop
  | _, [], [] => True
  | lo, h :: hs, t :: ts => Represents heap lo h t ∧ RepresentsItems heap lo hs ts
  | _, _, _ => False
/-- The buckets `bs` denote the entries of a list, one by one, with the same keys. -/
def RepresentsEntries (heap : List heap_cell) :
    Nat → List json_bucket_t → List (List Nat × Value) → Prop
  | _, [], [] => True
  | lo, b :: bs, (k, t) :: es =>
    b.key = k ∧ Represents heap lo b.val t ∧ RepresentsEntries heap lo bs es
  | _, _, _ => False
end

mutual
/-- The tree `t` built with the construction API on top of `heap`: a container is
    allocated, then each child is built and added with `json_array_push` or
    `json_object_set`.  The result is the handle of the tree and the new heap. -/
def build : Value → List heap_cell → Option (json_t × List heap_cell)
  | .null, heap => some (json_null, heap)
  | .bool b, heap => some (json_bool (if b then 1 else 0), heap)
  | .number num, heap => some (json_number num, heap)
  | .string bytes, heap => heap_json_string heap bytes
  | .array items, heap =>
    (build_items items (heap_json_array heap).1 (heap_json_array heap).2).map
      (fun h => ((heap_json_array heap).1, h))
  | .object entries, heap =>
    (build_entries entries (heap_json_object heap).1 (heap_json_object heap).2).map
      (fun h => ((heap_json_object heap).1, h))
/-- The elements of an array are built and pushed in order. -/
def build_items : List Value → json_t → List heap_cell → Option (List heap_cell)
  | [], _, heap => some heap
  | t :: ts, array, heap =>
    match build t heap with
    | none => none
    | some (v, heap) =>
      match heap_json_array_push heap array v with
      | none => none
      | some heap => build_items ts array heap
/-- The entries of an object are built and set in order. -/
def build_entries : List (List Nat × Value) → json_t → List heap_cell → Option (List heap_cell)
  | [], _, heap => some heap
  | (k, t) :: es, object, heap =>
    match build t heap with
    | none => none
    | some (v, heap) =>
      match heap_json_object_set heap object k v with
      | none => none
      | some heap => build_entries es object heap
end

/-- A byte allowed in a key: printable ASCII other than the quote and the backslash. -/
def key_byte (b : Nat) : Bool := 32 ≤ b && b < 127 && b != 34 && b != 92

mutual
/-- The nested values of the fragment: integers of at most 12 digits, `true`, `false`,
    non-empty arrays of fewer than `2 ^ 30` elements and non-empty objects with fewer than
    255 distinct keys made of `key_byte`s. -/
def nested_fragment : Value → Bool
  | .number (.finite q) => q.den == 1 && decide (q.num.natAbs < 10 ^ 12)
  | .bool _ => true
  | .array items => !items.isEmpty && decide (items.length < 2 ^ 30) && items_fragment items
  | .object entries =>
    !entries.isEmpty && decide (entries.length < 255) && entries_fragment entries
  | _ => false
/-- All elements are in the fragment. -/
def items_fragment : List Value → Bool
  | [] => true
  | t :: ts => nested_fragment t && items_fragment ts
/-- All entries are in the fragment and no key occurs twice. -/
def entries_fragment : List (List Nat × Value) → Bool
  | [] => true
  | (k, t) :: es =>
    k.all key_byte && !(es.any (fun e => e.1 == k)) && nested_fragment t && entries_fragment es
end

mutual
/-- The number of containers nested in each other in a tree. -/
def depth : Value → Nat
  | .array items => depth_items items + 1
  | .object entries => depth_entries entries + 1
  | _ => 0
/-- The largest depth of an element. -/
def depth_items : List Value → Nat
  | [] => 0
  | t :: ts => max (depth t) (depth_items ts)
/-- The largest depth of the value of an entry. -/
def depth_entries : List (List Nat × Value) → Nat
  | [] => 0
  | (_, t) :: es => max (depth t) (depth_entries es)
end

/-- The documents of the fragment: the root is an array or an object (possibly empty),
    the nested values are in the fragment and at most 128 containers are nested. -/
def fragment : Value → Bool
  | .array items =>
    decide (items.length < 2 ^ 30) && items_fragment items && decide (depth (.array items) ≤ 128)
  | .object entries =>
    decide (entries.length < 255) && entries_fragment entries
      && decide (depth (.object entries) ≤ 128)
  | _ => false

/-- A byte allowed in a key of a JSON text: any non-null byte other than the quote and the
    backslash. -/
def text_key_byte (b : Nat) : Bool := 1 ≤ b && b < 256 && b != 34 && b != 92

mutual
/-- The nested values that the parser reads: integers of magnitude at most `2 ^ 53`
    (the integers up to which every integer is a `double`, so that the conversion of
    their numerals by `strtod` is exact), `true`, `false`, non-empty arrays of fewer than
    `2 ^ 30` elements and non-empty objects with fewer than 255 distinct keys made of
    `text_key_byte`s. -/
def nested_document : Value → Bool
  | .number (.finite q) => q.den == 1 && decide (q.num.natAbs ≤ 2 ^ 53)
  | .bool _ => true
  | .array items => !items.isEmpty && decide (items.length < 2 ^ 30) && items_document items
  | .object entries =>
    !entries.isEmpty && decide (entries.length < 255) && entries_document entries
  | _ => false
/-- All elements are read by the parser. -/
def items_document : List Value → Bool
  | [] => true
  | t :: ts => nested_document t && items_document ts
/-- All entries are read by the parser and no key occurs twice. -/
def entries_document : List (List Nat × Value) → Bool
  | [] => true
  | (k, t) :: es =>
    k.all text_key_byte && !(es.any (fun e => e.1 == k)) && nested_document t
      && entries_document es
end

/-- The documents that the parser reads: the root is an array or an object (possibly
    empty), the nested values are read by the parser and at most 128 containers are
    nested. -/
def document : Value → Bool
  | .array items =>
    decide (items.length < 2 ^ 30) && items_document items && decide (depth (.array items) ≤ 128)
  | .object entries =>
    decide (entries.length < 255) && entries_document entries
      && decide (depth (.object entries) ≤ 128)
  | _ => false

mutual
/-- The handle `v` denotes the tree `t` in `heap`, whatever the order in which the blocks
    were allocated: the store of a container lists the handles of the children in its
    first `len` cells, the store of a string holds the bytes in its first `len` cells. -/
def Denotes (heap : List heap_cell) : json_t → Value → Prop
  | v, .null => v = .JSON_NULL
  | v, .bool b => v = (if b then .JSON_TRUE else .JSON_FALSE)
  | v, .number num => v = .JSON_NUMBER num
  | v, .string bytes =>
    ∃ p str, v = .JSON_STRING p ∧ heap[p]? = some (.string str) ∧ str.len = bytes.length ∧
      json_string_bytes str = bytes.map some
  | v, .array items =>
    ∃ p arr hs, v = .JSON_ARRAY p ∧ heap[p]? = some (.array arr) ∧ arr.len = hs.length ∧
      (∀ j, j < hs.length → arr.data[j]? = some hs[j]?) ∧ DenotesItems heap hs items
  | v, .object entries =>
    ∃ p obj bs, v = .JSON_OBJECT p ∧ heap[p]? = some (.object obj) ∧ obj.len = bs.length ∧
      (∀ j, j < bs.length → obj.buckets[j]? = some bs[j]?) ∧ DenotesEntries heap bs entries
/-- The handles `hs` denote the trees of a list, one by one. -/
def DenotesItems (heap : List heap_cell) : List json_t → List Value → Prop
  | [], [] => True
  | h :: hs, t :: ts => Denotes heap h t ∧ DenotesItems heap hs ts
  | _, _ => False
/-- The buckets `bs` denote the entries of a list, one by one, with the same keys. -/
def DenotesEntries (heap : List heap_cell) :
    List json_bucket_t → List (List Nat × Value) → Prop
  | [], [] => True
  | b :: bs, (k, t) :: es => b.key = k ∧ Denotes heap b.val t ∧ DenotesEntries heap bs es
  | _, _ => False
end

mutual
/-- The trees that the serializer is followed on: a key is a C string, so it has no null
    byte, and a finite number is an integer of at most 12 digits, for which the quotients
    and products that `json_dtoa` computes in `double` are exact. -/
def dumpable : Value → Bool
  | .number (.finite q) => q.den == 1 && decide (q.num.natAbs < 10 ^ 12)
  | .array items => items_dumpable items
  | .object entries => entries_dumpable entries
  | _ => true
/-- All elements are such trees. -/
def items_dumpable : List Value → Bool
  | [] => true
  | t :: ts => dumpable t && items_dumpable ts
/-- All entries are such trees under keys without a null byte. -/
def entries_dumpable : List (List Nat × Value) → Bool
  | [] => true
  | (k, t) :: es => k.all (fun b => b != 0) && dumpable t && entries_dumpable es
end

mutual
/-- The number of nodes of a tree. -/
def nodes : Value → Nat
  | .array items => nodes_items items + 1
  | .object entries => nodes_entries entries + 1
  | _ => 1
/-- The number of nodes of the elements. -/
def nodes_items : List Value → Nat
  | [] => 0
  | t :: ts => nodes t + nodes_items ts
/-- The number of nodes of the values of the entries. -/
def nodes_entries : List (List Nat × Value) → Nat
  | [] => 0
  | (_, t) :: es => nodes t + nodes_entries es
end

/-! ## JSON texts and runs of the parser -/

mutual
/-- The bytes `s` are a JSON text of the tree `t`, with any white space between the
    tokens; the trees with a text are those made of integers, `true`, `false`, arrays and
    objects. -/
def Text : Value → List Nat → Prop
  | .number (.finite q), s => ∃ n : Int, q = n ∧ s = int_numeral n
  | .bool true, s => s = [116, 114, 117, 101]
  | .bool false, s => s = [102, 97, 108, 115, 101]
  | .array items, s => ∃ body, s = 91 :: body ∧ TextItems true items body
  | .object entries, s => ∃ body, s = 123 :: body ∧ TextEntries true entries body
  | _, _ => False
/-- The text of the elements of an array up to and including the closing bracket;
    `first` tells that no element precedes, otherwise each element follows a comma. -/
def TextItems : Bool → List Value → List Nat → Prop
  | _, [], s => ∃ w, whitespace w ∧ s = w ++ [93]
  | first, t :: ts, s =>
    ∃ w0 w x r, whitespace w0 ∧ whitespace w ∧ Text t x ∧
      s = (if first then [] else w0 ++ [44]) ++ (w ++ (x ++ r)) ∧ TextItems false ts r
/-- The text of the entries of an object up to and including the closing brace. -/
def TextEntries : Bool → List (List Nat × Value) → List Nat → Prop
  | _, [], s => ∃ w, whitespace w ∧ s = w ++ [125]
  | first, (k, t) :: es, s =>
    ∃ w0 w w1 w2 x r, whitespace w0 ∧ whitespace w ∧ whitespace w1 ∧ whitespace w2 ∧ Text t x ∧
      s = (if first then [] else w0 ++ [44]) ++ (w ++ 34 :: (k ++ 34 :: (w1 ++ 58 :: (w2 ++ (x ++ r)))))
      ∧ TextEntries false es r
end

/-- The parser after `n` iterations of its loop, none of which leaves the loop. -/
def json_parse_steps (text : List Nat) : Nat → json_parse_locals → Option json_parse_locals
  | 0, s => some s
  | n + 1, s =>
    match json_parse_step text s with
    | some (true, s1) => json_parse_steps text n s1
    | _ => none

/-- The place a value read by the parser goes to: the end of an array that holds the
    handles `hs`, or an object that holds the buckets `bs`, under the pending key `k`. -/
inductive Slot where
  | item (hs : List json_t)
  | entry (bs : List json_bucket_t) (k : List Nat)

/-- The parser is about to read a value for the slot `slot` of the container at the
    address `p`, which is on top of the stack. -/
def ParentReady (s : json_parse_locals) (p : Nat) : Slot → Prop
  | .item hs =>
    s.stack[s.sp]? = some (.JSON_ARRAY p) ∧
    (s.state = JSON_ARRAY_START ∨ s.state = JSON_ARRAY_VAL) ∧
    (∃ arr, s.heap[p]? = some (.array arr) ∧ ArrayInv arr hs) ∧ hs.length < 2 ^ 30
  | .entry bs k =>
    s.stack[s.sp]? = some (.JSON_OBJECT p) ∧ s.state = JSON_OBJECT_VAL ∧
    (∃ obj, s.heap[p]? = some (.object obj) ∧ ObjectInv obj bs) ∧
    c_string s.key = some k ∧ k ∉ bs.map (fun b => b.key) ∧ bs.length < 255

/-- The container at the address `p` after the value `v` has been added to its slot. -/
def ParentDone (heap : List heap_cell) (p : Nat) (v : json_t) : Slot → Prop
  | .item hs => ∃ arr, heap[p]? = some (.array arr) ∧ ArrayInv arr (hs ++ [v])
  | .entry bs k => ∃ obj, heap[p]? = some (.object obj) ∧ ObjectInv obj (bs ++ [⟨k, v⟩])

/-- The state is one of the two in which a comma or a closer is expected. -/
def next_state (state : Nat) : Prop := state = JSON_OBJECT_NEXT ∨ state = JSON_ARRAY_NEXT

/-- What a run of the parser keeps: the stack up to the stack pointer, and every heap
    block that exists at the start, except the one at `p`. -/
def Preserved (s s1 : json_parse_locals) (p : Nat) : Prop :=
  s1.sp = s.sp ∧ s1.stack.length = s.stack.length ∧
  (∀ i, i ≤ s.sp → s1.stack[i]? = s.stack[i]?) ∧
  s.heap.length ≤ s1.heap.length ∧
  (∀ q, q < s.heap.length → q ≠ p → s1.heap[q]? = s.heap[q]?)

/-- The parser reads every text of the nested value `t` into its slot: it takes the
    white space and the text, adds a handle that denotes `t` to the container on top of
    the stack, and is then in a state that expects a comma or a closer. -/
def ParsesValue (text : List Nat) (t : Value) : Prop :=
  ∀ (s : json_parse_locals) (p : Nat) (slot : Slot) (w x rest : List Nat),
    nested_document t = true → Text t x → whitespace w → delimited rest →
    text.drop s.c = w ++ (x ++ rest) → ParentReady s p slot → s.stack.length = 128 →
    s.sp + depth t < 128 →
    ∃ n s1 v, json_parse_steps text n s = some s1 ∧ n ≤ w.length + x.length ∧
      s1.c = s.c + w.length + x.length ∧ next_state s1.state ∧ Preserved s s1 p ∧
      ParentDone s1.heap p v slot ∧ Represents s1.heap s.heap.length v t

/-- The parser reads every text of the elements `ts` of the array on top of the stack,
    up to the closing bracket. -/
def ParsesItems (text : List Nat) (ts : List Value) : Prop :=
  ∀ (first : Bool) (s : json_parse_locals) (p : Nat) (hs : List json_t) (done : List Value)
    (body rest : List Nat),
    items_document ts = true → TextItems first ts body → text.drop s.c = body ++ rest →
    s.stack[s.sp]? = some (.JSON_ARRAY p) →
    (if first then s.state = JSON_ARRAY_START else next_state s.state) →
    (∃ arr, s.heap[p]? = some (.array arr) ∧ ArrayInv arr hs) →
    RepresentsItems s.heap (p + 1) hs done → hs.length + ts.length < 2 ^ 30 →
    s.stack.length = 128 → s.sp + depth_items ts < 128 →
    ∃ n s1 w hs1, json_parse_steps text n s = some s1 ∧ n + w.length + 1 ≤ body.length ∧
      whitespace w ∧ s1.c + w.length + 1 = s.c + body.length ∧
      text.drop s1.c = w ++ 93 :: rest ∧
      (ts ≠ [] → next_state s1.state) ∧ (ts = [] → s1.state = s.state) ∧ Preserved s s1 p ∧
      (∃ arr, s1.heap[p]? = some (.array arr) ∧ ArrayInv arr hs1) ∧
      RepresentsItems s1.heap (p + 1) hs1 (done ++ ts)

/-- The parser reads every text of the entries `es` of the object on top of the stack,
    up to the closing brace. -/
def ParsesEntries (text : List Nat) (es : List (List Nat × Value)) : Prop :=
  ∀ (first : Bool) (s : json_parse_locals) (p : Nat) (bs : List json_bucket_t)
    (done : List (List Nat × Value)) (body rest : List Nat),
    entries_document es = true → TextEntries first es body → text.drop s.c = body ++ rest →
    s.stack[s.sp]? = some (.JSON_OBJECT p) →
    (if first then s.state = JSON_OBJECT_START else next_state s.state) →
    (∃ obj, s.heap[p]? = some (.object obj) ∧ ObjectInv obj bs) →
    RepresentsEntries s.heap (p + 1) bs done →
    (∀ e ∈ es, e.1 ∉ bs.map (fun b => b.key)) → bs.length + es.length < 255 →
    s.stack.length = 128 → s.sp + depth_entries es < 128 →
    ∃ n s1 w bs1, json_parse_steps text n s = some s1 ∧ n + w.length + 1 ≤ body.length ∧
      whitespace w ∧ s1.c + w.length + 1 = s.c + body.length ∧
      text.drop s1.c = w ++ 125 :: rest ∧
      (es ≠ [] → next_state s1.state) ∧ (es = [] → s1.state = s.state) ∧ Preserved s s1 p ∧
      (∃ obj, s1.heap[p]? = some (.object obj) ∧ ObjectInv obj bs1) ∧
      RepresentsEntries s1.heap (p + 1) bs1 (done ++ es)

/-- The construction API builds the nested value `t` on top of any heap: the handle
    denotes `t` in blocks after the old ones, which are left as they are. -/
def BuildsValue (t : Value) : Prop :=
  ∀ (h : List heap_cell), nested_fragment t = true →
    ∃ v h2, build t h = some (v, h2) ∧ Represents h2 h.length v t ∧ h.length ≤ h2.length ∧
      ∀ q, q < h.length → h2[q]? = h[q]?

/-- The construction API adds the elements `ts` to the array at the address `p`. -/
def BuildsItems (ts : List Value) : Prop :=
  ∀ (h : List heap_cell) (p : Nat) (arr : json__array_t) (hs : List json_t) (done : List Value),
    items_fragment ts = true → h[p]? = some (.array arr) → ArrayInv arr hs →
    RepresentsItems h (p + 1) hs done → hs.length + ts.length < 2 ^ 30 →
    ∃ h2 arr2 hs2, build_items ts (.JSON_ARRAY p) h = some h2 ∧
      h2[p]? = some (.array arr2) ∧ ArrayInv arr2 hs2 ∧
      RepresentsItems h2 (p + 1) hs2 (done ++ ts) ∧ h.length ≤ h2.length ∧
      ∀ q, q < h.length → q ≠ p → h2[q]? = h[q]?

/-- The construction API adds the entries `es` to the object at the address `p`. -/
def BuildsEntries (es : List (List Nat × Value)) : Prop :=
  ∀ (h : List heap_cell) (p : Nat) (obj : json__object_t) (bs : List json_bucket_t)
    (done : List (List Nat × Value)),
    entries_fragment es = true → h[p]? = some (.object obj) → ObjectInv obj bs →
    RepresentsEntries h (p + 1) bs done → (∀ e ∈ es, e.1 ∉ bs.map (fun b => b.key)) →
    bs.length + es.length < 255 →
    ∃ h2 obj2 bs2, build_entries es (.JSON_OBJECT p) h = some h2 ∧
      h2[p]? = some (.object obj2) ∧ ObjectInv obj2 bs2 ∧
      RepresentsEntries h2 (p + 1) bs2 (done ++ es) ∧ h.length ≤ h2.length ∧
      ∀ q, q < h.length → q ≠ p → h2[q]? = h[q]?

/-- The string store `dst2` is `dst` with `bytes` appended, and is well formed. -/
def Dumped (dst dst2 : json__string_t) (bytes : List Nat) : Prop :=
  StringInv dst2 ∧ dst2.len = dst.len + bytes.length ∧
    json_string_bytes dst2 = json_string_bytes dst ++ bytes.map some

/-- The serializer appends the rendering of the tree `t`. -/
def DumpsValue (t : Value) : Prop :=
  ∀ (h : List heap_cell) (v : json_t) (d fuel : Nat) (dst : json__string_t),
    dumpable t = true → Denotes h v t → depth t < fuel → StringInv dst →
    dst.len + (render t d).length + 32 < 2 ^ 30 →
    ∃ dst2, json_dump_recursive h fuel dst v d = some dst2 ∧ Dumped dst dst2 (render t d)

/-- The serializer appends the lines of the elements `ts`, which the array holds from the
    index `i` on. -/
def DumpsItems (ts : List Value) : Prop :=
  ∀ (h : List heap_cell) (hs : List json_t) (arr : json__array_t) (d fuel i : Nat)
    (dst : json__string_t),
    items_dumpable ts = true → DenotesItems h hs ts →
    (∀ j, j < hs.length → arr.data[i + j]? = some hs[j]?) → arr.len = i + hs.length →
    depth_items ts < fuel → StringInv dst →
    dst.len + (render_items ts d).length + 32 < 2 ^ 30 →
    ∃ dst2, json_dump_elements (json_dump_recursive h fuel) arr d ts.length i dst = some dst2 ∧
      Dumped dst dst2 (render_items ts d)

/-- The serializer appends the lines of the entries `es`, which the object holds from the
    index `i` on. -/
def DumpsEntries (es : List (List Nat × Value)) : Prop :=
  ∀ (h : List heap_cell) (bs : List json_bucket_t) (obj : json__object_t)
    (d fuel i : Nat) (dst : json__string_t),
    entries_dumpable es = true → DenotesEntries h bs es →
    (∀ j, j < bs.length → obj.buckets[i + j]? = some bs[j]?) → obj.len = i + bs.length →
    depth_entries es < fuel → StringInv dst →
    dst.len + (render_entries es d).length + 32 < 2 ^ 30 →
    ∃ dst2, json_dump_buckets (json_dump_recursive h fuel) obj d es.length i dst = some dst2 ∧
      Dumped dst dst2 (render_entries es d)

/-! ## Runs of the parser on any text -/

/-- The nine values of the local `state` of `json_parse`. -/
def parse_state (state : Nat) : Prop :=
  state = JSON_START ∨ state = JSON_OBJECT_START ∨ state = JSON_OBJECT_KEY ∨
  state = JSON_OBJECT_COLON ∨ state = JSON_OBJECT_VAL ∨ state = JSON_OBJECT_NEXT ∨
  state = JSON_ARRAY_START ∨ state = JSON_ARRAY_VAL ∨ state = JSON_ARRAY_NEXT

/-- The change that the token at the cursor makes to the number of open containers: an
    opening brace or bracket opens one, a closing one closes one. -/
def json_parse_token_delta (text : List Nat) (s : json_parse_locals) : Int :=
  let b := char_at text (json_skip_whitespace text s.c)
  if b = 123 ∨ b = 91 then 1 else if b = 125 ∨ b = 93 then -1 else 0

/-- The number of containers opened and not yet closed by the first `n` tokens that the
    parser reads from the locals `s` on. -/
def json_parse_opens (text : List Nat) : Nat → json_parse_locals → Int
  | 0, _ => 0
  | n + 1, s =>
    match json_parse_step text s with
    | some (true, s1) => json_parse_token_delta text s + json_parse_opens text n s1
    | _ => 0

/-- The containers on the stack of the parser: none before the root is opened, then the
    root at index `0` and the nested ones up to the index `sp`. -/
def json_parse_stacked (s : json_parse_locals) : Int :=
  (s.sp : Int) + (if s.state = JSON_START then 0 else 1)

/-- What holds of the locals of `json_parse` after `n` iterations of its loop, on any
    text: the stack has its 128 slots and the stack pointer is inside, the state is one
    of the nine, the cursor is inside the text, and the iterations are bounded by the
    bytes read. -/
def RunInv (text : List Nat) (n : Nat) (s : json_parse_locals) : Prop :=
  s.stack.length = 128 ∧ s.sp < 128 ∧ parse_state s.state ∧
  (s.state = JSON_START → s.sp = 0) ∧ s.c ≤ text.length ∧
  n ≤ 2 * s.c + (if s.state = JSON_OBJECT_NEXT ∨ s.state = JSON_ARRAY_NEXT then 1 else 0)

/-- The heap `h1` has an object where `h` has one, and an array where `h` has one. -/
def SameKinds (h h1 : List heap_cell) : Prop :=
  (∀ (q : Nat) (obj : json__object_t), h[q]? = some (.object obj) →
    ∃ o, h1[q]? = some (.object o)) ∧
  (∀ (q : Nat) (arr : json__array_t), h[q]? = some (.array arr) →
    ∃ a, h1[q]? = some (.array a))

/-! ## The string accessors on a handle

A `char*` into the buffer of a string store is shown as the address of the store and an
offset into its buffer. -/

/-- The function `json_string_len` on a handle: the kind is asserted, then the length
    of the store is read. -/
def heap_json_string_len (heap : List heap_cell) (str : json_t) : Option Nat :=
  match str with
  | .JSON_STRING p =>
    match heap[p]? with
    | some (.string s) => some s.len
    | _ => none
  | _ => none

/-- The function `json_string_begin` on a handle: the kind is asserted, then the
    pointer `data` is returned. -/
def heap_json_string_begin (heap : List heap_cell) (str : json_t) : Option (Nat × Int) :=
  match str with
  | .JSON_STRING p =>
    match heap[p]? with
    | some (.string _) => some (p, 0)
    | _ => none
  | _ => none

/-- The function `json_string_end` on a handle: the kind is asserted, then the pointer
    `data + len` is returned. -/
def heap_json_string_end (heap : List heap_cell) (str : json_t) : Option (Nat × Int) :=
  match str with
  | .JSON_STRING p =>
    match heap[p]? with
    | some (.string s) => some (p, (s.len : Int))
    | _ => none
  | _ => none

/-- The condition `str.type == JSON_ARRAY && idx < str.u.str->len` asserted by
    `json_string_at`.  The second operand is evaluated only when the first holds; it then
    reads the block of the handle as a string store, which the C code must not do unless
    the block is one (a handle whose tag does not fit its payload); otherwise the result
    is `none`. -/
def json_string_at_assertion (heap : List heap_cell) (str : json_t) (idx : Int) :
    Option Bool :=
  match str with
  | .JSON_ARRAY p =>
    match heap[p]? with
    | some (.string s) => some (decide (idx < (s.len : Int)))
    | _ => none
  | _ => some false

/-- The function `json_string_at` on a handle: the assertion, then the pointer
    `data + idx`; `none` when the assertion fails or the C code misbehaves. -/
def heap_json_string_at (heap : List heap_cell) (str : json_t) (idx : Int) :
    Option (Nat × Int) :=
  match json_string_at_assertion heap str idx with
  | some true =>
    match str with
    | .JSON_OBJECT p => some (p, idx)
    | .JSON_ARRAY p => some (p, idx)
    | .JSON_STRING p => some (p, idx)
    | _ => none
  | _ => none

/-! ## String tokens -/

/-- The bytes between an opening quote and the quote that `json_parse_string_value` takes
    for the closing one: none of them is null, every quote among them follows a backslash,
    and the byte before the closing quote (the opening quote when there is no byte) is not
    a backslash. -/
def string_body (body : List Nat) : Prop :=
  (∀ b ∈ body, b ≠ 0) ∧
    (∀ i : Nat, i < body.length → body[i]? = some 34 → (34 :: body)[i]? = some 92) ∧
    (34 :: body)[body.length]? ≠ some 92

instance : DecidablePred string_body := fun _ => by unfold string_body; infer_instance

/-- The bytes `r` after an opening quote hold no closing quote: every quote among them
    follows a backslash. -/
def escaped_quotes (r : List Nat) : Prop :=
  ∀ i : Nat, i < r.length → r[i]? = some 34 → (34 :: r)[i]? = some 92

instance : DecidablePred escaped_quotes := fun _ => by unfold escaped_quotes; infer_instance

/-! ## Closers -/

/-- The byte is a closer: `}` or `]`. -/
def closer (b : Nat) : Prop := b = 125 ∨ b = 93

instance : DecidablePred closer := fun _ => by unfold closer; infer_instance

/-- The two bytes are equal, or both are closers. -/
def closer_eq (b1 b2 : Nat) : Prop := b1 = b2 ∨ (closer b1 ∧ closer b2)

/-- The text `t2` is the text `t1` with closers outside strings replaced by closers.  The
    texts are read from left to right: a byte other than a quote is kept (`same`) or is a
    closer replaced by a closer (`swap`); a quote opens a string, which is kept with its
    bytes up to its closing quote (`string`); a quote that no later quote closes is kept
    (`open_quote`), and the bytes after it are read in the same way. -/
inductive CloserSwap : List Nat → List Nat → Prop
  | nil : CloserSwap [] []
  | same (b : Nat) (r1 r2 : List Nat) : b ≠ 34 → CloserSwap r1 r2 →
      CloserSwap (b :: r1) (b :: r2)
  | swap (b1 b2 : Nat) (r1 r2 : List Nat) : closer b1 → closer b2 → CloserSwap r1 r2 →
      CloserSwap (b1 :: r1) (b2 :: r2)
  | string (body r1 r2 : List Nat) : string_body body → CloserSwap r1 r2 →
      CloserSwap (34 :: (body ++ 34 :: r1)) (34 :: (body ++ 34 :: r2))
  | open_quote (r1 r2 : List Nat) : escaped_quotes r1 → CloserSwap r1 r2 →
      CloserSwap (34 :: r1) (34 :: r2)

/-- The bytes that a numeral read by `strtod` is made of: digits, letters, signs, the
    radix character, and the parentheses and underscore of a NaN. -/
def numeral_byte (c : Nat) : Bool :=
  isdigit c || (65 ≤ c && c ≤ 90) || (97 ≤ c && c ≤ 122) || c = 43 || c = 45 || c = 46 ||
    c = 40 || c = 41 || c = 95

theorem and_high_eq_zero_iff (w j : Nat) (hj : j ≤ 32) (hw : w < 2 ^ 32) :
    w &&& (2 ^ 32 - 2 ^ j) = 0 ↔ w < 2 ^ j := by
  have hm : 2 ^ 32 - 2 ^ j = 2 ^ j * (2 ^ (32 - j) - 1) := by
    have : 2 ^ 32 = 2 ^ j * 2 ^ (32 - j) := by rw [← pow_add]; congr 1; omega
    rw [this, Nat.mul_sub, mul_one]
  constructor
  · intro h
    apply Nat.lt_pow_two_of_testBit
    intro i hi
    by_cases h32 : i < 32
    · have := congrArg (fun x => x.testBit i) h
      simp only [Nat.testBit_and, hm, Nat.testBit_mul_pow_two, Nat.testBit_two_pow_sub_one,
        Nat.zero_testBit] at this
      have h1 : decide (i ≥ j) = true := by simpa using hi
      have h2 : decide (i - j < 32 - j) = true := by simp; omega
      simpa [h1, h2] using this
    · exact Nat.testBit_lt_two_pow (lt_of_lt_of_le hw (Nat.pow_le_pow_right (by norm_num) (by omega)))
  · intro h
    apply Nat.eq_of_testBit_eq
    intro i
    simp only [Nat.testBit_and, hm, Nat.testBit_mul_pow_two, Nat.zero_testBit]
    by_cases hi : j ≤ i
    · have : w.testBit i = false :=
        Nat.testBit_lt_two_pow (lt_of_lt_of_le h (Nat.pow_le_pow_right (by norm_num) hi))
      simp [this]
    · simp [hi]

theorem clzStep_inv (k : Nat) (hk : k ≤ 16) (v cnt w : Nat) (hw : w < 2 ^ 32)
    (hv : w = v * 2 ^ cnt) (hlo : 2 ^ (32 - 2 * k) ≤ w) :
    (clzStep (2 ^ 32 - 2 ^ (32 - k)) k (cnt, w)).2
        = v * 2 ^ (clzStep (2 ^ 32 - 2 ^ (32 - k)) k (cnt, w)).1 ∧
      (clzStep (2 ^ 32 - 2 ^ (32 - k)) k (cnt, w)).2 < 2 ^ 32 ∧
      2 ^ (32 - k) ≤ (clzStep (2 ^ 32 - 2 ^ (32 - k)) k (cnt, w)).2 ∧
      (clzStep (2 ^ 32 - 2 ^ (32 - k)) k (cnt, w)).1 ≤ cnt + k := by
  unfold clzStep
  simp only [and_high_eq_zero_iff w (32 - k) (by omega) hw]
  by_cases h : w < 2 ^ (32 - k)
  · simp only [h, if_true]
    have h32 : (2:Nat) ^ 32 = 2 ^ (32 - k) * 2 ^ k := by rw [← pow_add]; congr 1; omega
    have hlt : w * 2 ^ k < 2 ^ 32 := by
      rw [h32]; exact Nat.mul_lt_mul_of_pos_right h (by positivity)
    have hsh : (w <<< k) % 4294967296 = w * 2 ^ k := by
      rw [Nat.shiftLeft_eq]; exact Nat.mod_eq_of_lt (by simpa using hlt)
    rw [hsh]
    refine ⟨by rw [hv, pow_add, mul_assoc], hlt, ?_, le_refl _⟩
    have : (2:Nat) ^ (32 - k) = 2 ^ (32 - 2 * k) * 2 ^ k := by rw [← pow_add]; congr 1; omega
    rw [this]; exact Nat.mul_le_mul_right _ hlo
  · simp only [h, if_false]
    exact ⟨hv, hw, by omega, by omega⟩


theorem not_and_sign_iff (w : Nat) (hw : w < 2 ^ 32) :
    ((w ^^^ 0xFFFFFFFF) &&& 0x80000000 ≠ 0) ↔ w < 2 ^ 31 := by
  have e1 : (0x80000000 : Nat) = 2 ^ 31 := by norm_num
  have e2 : (0xFFFFFFFF : Nat) = 2 ^ 32 - 1 := by norm_num
  rw [e1, e2, Nat.and_two_pow, Nat.testBit_xor, Nat.testBit_two_pow_sub_one]
  constructor
  · intro h
    by_contra hge
    have hb : w.testBit 31 = true := by
      by_contra hb
      have hb : w.testBit 31 = false := by simpa using hb
      have : w < 2 ^ 31 := by
        apply Nat.lt_pow_two_of_testBit
        intro i hi
        rcases Nat.eq_or_lt_of_le hi with h31 | h31
        · rw [← h31]; exact hb
        · exact Nat.testBit_lt_two_pow (lt_of_lt_of_le hw (Nat.pow_le_pow_right (by norm_num) (by omega)))
      exact hge this
    simp [hb] at h
  · intro h
    have hb : w.testBit 31 = false := Nat.testBit_lt_two_pow h
    simp [hb]

theorem json__next_capacity_small (len : Int) (h : len < 4) : json__next_capacity len = 4 := by
  unfold json__next_capacity
  simp [h]

theorem json__next_capacity_spec (n : Nat) (h4 : 4 ≤ n) (hn : n ≤ 2 ^ 30) :
    ∃ k, 2 ≤ k ∧ k ≤ 30 ∧ json__next_capacity (n : Int) = 2 ^ k ∧ n ≤ 2 ^ k ∧ 2 ^ k < 2 * n := by
  have hv : toU32 ((n : Int) - 1) = n - 1 := by
    unfold toU32
    have : ((n : Int) - 1) % 4294967296 = (n : Int) - 1 := by
      apply Int.emod_eq_of_lt <;> omega
    rw [this]; omega
  have hlt : n - 1 < 2 ^ 32 := by omega
  obtain ⟨a1, a2, a3, a4⟩ := clzStep_inv 16 (by norm_num) (n - 1) 0 (n - 1) hlt (by simp)
    (by norm_num; omega)
  generalize hs1 : clzStep (2 ^ 32 - 2 ^ (32 - 16)) 16 (0, n - 1) = s1 at a1 a2 a3 a4
  obtain ⟨b1, b2, b3, b4⟩ := clzStep_inv 8 (by norm_num) (n - 1) s1.1 s1.2 a2 a1 (by simpa using a3)
  generalize hs2 : clzStep (2 ^ 32 - 2 ^ (32 - 8)) 8 (s1.1, s1.2) = s2 at b1 b2 b3 b4
  obtain ⟨c1, c2, c3, c4⟩ := clzStep_inv 4 (by norm_num) (n - 1) s2.1 s2.2 b2 b1 (by simpa using b3)
  generalize hs3 : clzStep (2 ^ 32 - 2 ^ (32 - 4)) 4 (s2.1, s2.2) = s3 at c1 c2 c3 c4
  obtain ⟨d1, d2, d3, d4⟩ := clzStep_inv 2 (by norm_num) (n - 1) s3.1 s3.2 c2 c1 (by simpa using c3)
  generalize hs4 : clzStep (2 ^ 32 - 2 ^ (32 - 2)) 2 (s3.1, s3.2) = s4 at d1 d2 d3 d4
  have hcode : json__next_capacity (n : Int) =
      toI32 (1 <<< ((31 : Int) - ((s4.1 + (if (s4.2 ^^^ 0xFFFFFFFF) &&& 0x80000000 ≠ 0 then 1 else 0) : Nat) : Int) + 1).toNat) := by
    unfold json__next_capacity
    have hn4 : ¬ ((n : Int) < 4) := by omega
    simp only [hn4, if_false, hv]
    norm_num at hs1 hs2 hs3 hs4
    rw [hs1, hs2, hs3, hs4]
  rw [hcode]
  simp only [not_and_sign_iff s4.2 d2]
  -- the total count r satisfies 2^31 ≤ (n-1) * 2^r < 2^32
  obtain ⟨r, hr, hlo, hhi, hr31⟩ : ∃ r, r = s4.1 + (if s4.2 < 2 ^ 31 then 1 else 0) ∧
      2 ^ 31 ≤ (n - 1) * 2 ^ r ∧ (n - 1) * 2 ^ r < 2 ^ 32 ∧ r ≤ 31 := by
    have hd3 : 2 ^ 30 ≤ s4.2 := by simpa using d3
    by_cases h : s4.2 < 2 ^ 31
    · have e : (n - 1) * 2 ^ (s4.1 + 1) = s4.2 * 2 := by
        rw [pow_succ, ← mul_assoc, ← d1]
      refine ⟨s4.1 + 1, by rw [if_pos h], by rw [e]; omega, by rw [e]; omega, ?_⟩
      by_contra hcon
      have h30 : s4.1 = 30 := by omega
      rw [h30] at d1
      omega
    · refine ⟨s4.1, by rw [if_neg h, add_zero], by rw [← d1]; omega, by rw [← d1]; exact d2, by omega⟩
  rw [← hr]
  have hk : ((31 : Int) - (r : Int) + 1).toNat = 32 - r := by omega
  rw [hk, Nat.one_shiftLeft]
  have hsplit : (2 : Nat) ^ 32 = 2 ^ (32 - r) * 2 ^ r := by rw [← pow_add]; congr 1; omega
  have hsplit2 : (2 : Nat) ^ 31 = 2 ^ (31 - r) * 2 ^ r := by rw [← pow_add]; congr 1; omega
  have hup : n - 1 < 2 ^ (32 - r) := by
    rw [hsplit] at hhi; exact Nat.lt_of_mul_lt_mul_right hhi
  have hdn : 2 ^ (31 - r) ≤ n - 1 := by
    rw [hsplit2] at hlo; exact Nat.le_of_mul_le_mul_right hlo (by positivity)
  have hpw : (2 : Nat) ^ (32 - r) = 2 * 2 ^ (31 - r) := by
    rw [← pow_succ']; congr 1; omega
  have hr2 : 2 ≤ 32 - r ∧ 32 - r ≤ 30 := by
    constructor
    · by_contra hcon
      have : 32 - r ≤ 1 := by omega
      have : (2:Nat) ^ (32 - r) ≤ 2 ^ 1 := Nat.pow_le_pow_right (by norm_num) this
      omega
    · by_contra hcon
      have : 30 ≤ 31 - r := by omega
      have : (2:Nat) ^ 30 ≤ 2 ^ (31 - r) := Nat.pow_le_pow_right (by norm_num) this
      omega
  refine ⟨32 - r, hr2.1, hr2.2, ?_, by omega, by omega⟩
  unfold toI32
  have hle : (2:Nat) ^ (32 - r) ≤ 2 ^ 30 := Nat.pow_le_pow_right (by norm_num) hr2.2
  have hmod : 2 ^ (32 - r) % 4294967296 = 2 ^ (32 - r) := Nat.mod_eq_of_lt (by omega)
  rw [hmod]
  have : 2 ^ (32 - r) < 2147483648 := by omega
  simp [this]


/-! ## Capacities -/

theorem nextCap_spec (n : Nat) (hn : n ≤ 2 ^ 30) :
    ∃ k, 2 ≤ k ∧ k ≤ 30 ∧ nextCap n = 2 ^ k ∧ n ≤ nextCap n ∧ (4 ≤ n → nextCap n < 2 * n) := by
  unfold nextCap
  by_cases h4 : 4 ≤ n
  · obtain ⟨k, h2, h30, hk, hle, hlt⟩ := json__next_capacity_spec n h4 hn
    refine ⟨k, h2, h30, ?_, ?_, ?_⟩
    · rw [hk]; exact_mod_cast Int.toNat_natCast (2 ^ k)
    · rw [hk]; have : ((2 : Int) ^ k).toNat = 2 ^ k := by exact_mod_cast Int.toNat_natCast (2 ^ k)
      rw [this]; exact hle
    · intro _; rw [hk]
      have : ((2 : Int) ^ k).toNat = 2 ^ k := by exact_mod_cast Int.toNat_natCast (2 ^ k)
      rw [this]; exact hlt
  · rw [json__next_capacity_small _ (by omega)]
    exact ⟨2, le_refl _, by norm_num, by simp, by simp; omega, by omega⟩

theorem nextCap_small (n : Nat) (h : n ≤ 4) : nextCap n = 4 := by
  rcases Nat.lt_or_ge n 4 with h4 | h4
  · unfold nextCap; rw [json__next_capacity_small _ (by omega)]; rfl
  · have : n = 4 := by omega
    subst this; decide

/-! ## Memory blocks -/

theorem length_memread {α : Type} (mem : List (Option α)) (off n : Nat) :
    (memread mem off n).length = min n (mem.length - off) := by
  simp [memread]

theorem getElem?_memread {α : Type} (mem : List (Option α)) (off n i : Nat) :
    (memread mem off n)[i]? = if i < n then mem[off + i]? else none := by
  simp [memread, List.getElem?_take, List.getElem?_drop]

theorem length_memwrite {α : Type} (mem : List (Option α)) (dst : Nat) (src : List (Option α))
    (h : dst + src.length ≤ mem.length) : (memwrite mem dst src).length = mem.length := by
  simp [memwrite]; omega

theorem getElem?_memwrite {α : Type} (mem : List (Option α)) (dst : Nat) (src : List (Option α))
    (h : dst ≤ mem.length) (j : Nat) :
    (memwrite mem dst src)[j]? =
      if j < dst then mem[j]? else if j < dst + src.length then src[j - dst]? else mem[j]? := by
  unfold memwrite
  by_cases h1 : j < dst
  · rw [if_pos h1, List.append_assoc, List.getElem?_append_left (by simp; omega)]
    simp [List.getElem?_take, h1]
  · rw [if_neg h1, List.append_assoc, List.getElem?_append_right (by simp; omega)]
    have hl : (List.take dst mem).length = dst := by simp; omega
    rw [hl]
    by_cases h2 : j < dst + src.length
    · rw [if_pos h2, List.getElem?_append_left (by omega)]
    · rw [if_neg h2, List.getElem?_append_right (by omega), List.getElem?_drop]
      congr 1; omega

theorem length_memmove {α : Type} (mem : List (Option α)) (dst src n : Nat)
    (h1 : dst + n ≤ mem.length) (h2 : src + n ≤ mem.length) :
    (memmove mem dst src n).length = mem.length := by
  unfold memmove
  apply length_memwrite
  rw [length_memread]; omega

theorem getElem?_memmove {α : Type} (mem : List (Option α)) (dst src n : Nat)
    (h1 : dst ≤ mem.length) (h2 : src + n ≤ mem.length) (j : Nat) :
    (memmove mem dst src n)[j]? =
      if dst ≤ j ∧ j < dst + n then mem[src + (j - dst)]? else mem[j]? := by
  unfold memmove
  rw [getElem?_memwrite _ _ _ h1, length_memread, getElem?_memread]
  have : min n (mem.length - src) = n := by omega
  rw [this]
  by_cases a : j < dst
  · have c : ¬ (dst ≤ j ∧ j < dst + n) := by omega
    simp [a, c]
  · by_cases b : j < dst + n
    · have c : (dst ≤ j ∧ j < dst + n) := by omega
      have d : j - dst < n := by omega
      simp [a, b, c, d]
    · have c : ¬ (dst ≤ j ∧ j < dst + n) := by omega
      simp [a, b, c]

theorem length_memcpy {α : Type} (dm : List (Option α)) (dst : Nat) (sm : List (Option α)) (n : Nat)
    (h1 : dst + n ≤ dm.length) (h2 : n ≤ sm.length) :
    (memcpy dm dst sm n).length = dm.length := by
  unfold memcpy
  apply length_memwrite
  rw [length_memread]; omega

theorem getElem?_memcpy {α : Type} (dm : List (Option α)) (dst : Nat) (sm : List (Option α)) (n : Nat)
    (h1 : dst ≤ dm.length) (h2 : n ≤ sm.length) (j : Nat) :
    (memcpy dm dst sm n)[j]? =
      if dst ≤ j ∧ j < dst + n then sm[j - dst]? else dm[j]? := by
  unfold memcpy
  rw [getElem?_memwrite _ _ _ h1, length_memread, getElem?_memread]
  have : min n (sm.length - 0) = n := by omega
  rw [this]
  by_cases a : j < dst
  · have c : ¬ (dst ≤ j ∧ j < dst + n) := by omega
    simp [a, c]
  · by_cases b : j < dst + n
    · have c : (dst ≤ j ∧ j < dst + n) := by omega
      have d : j - dst < n := by omega
      simp [a, b, c, d]
    · have c : ¬ (dst ≤ j ∧ j < dst + n) := by omega
      simp [a, b, c]

theorem length_realloc {α : Type} (mem : List (Option α)) (n : Nat) :
    (realloc mem n).length = n := by
  simp [realloc]; omega

theorem getElem?_realloc {α : Type} (mem : List (Option α)) (n j : Nat) (h : j < n)
    (hj : j < mem.length) : (realloc mem n)[j]? = mem[j]? := by
  unfold realloc
  rw [List.getElem?_append_left (by simp; omega)]
  simp [List.getElem?_take, h]

theorem getElem?_malloc {α : Type} (n j : Nat) :
    (malloc n : List (Option α))[j]? = if j < n then some none else none := by
  unfold malloc
  by_cases h : j < n
  · simp [h, List.getElem?_replicate]
  · simp [h, List.getElem?_replicate]

/-! ## String store -/

theorem json__string_reserve_spec (s : json__string_t) (L : Nat)
    (h1 : s.data.length = s.cap) (h2 : s.len ≤ s.cap) (hL : L < 2 ^ 30)
    (h3 : s.cap ≠ 0 → StringInv s) :
    StringInv (json__string_reserve s L) ∧ (json__string_reserve s L).len = s.len ∧
      L < (json__string_reserve s L).cap ∧
      ∀ j, j < s.len → (json__string_reserve s L).data[j]? = s.data[j]? := by
  unfold json__string_reserve
  by_cases hc : s.cap ≤ L
  · rw [if_pos hc]
    obtain ⟨k, k2, k30, hk, hle, _⟩ := nextCap_spec (L + 1) (by omega)
    have hlen : (memcpy (malloc (nextCap (L + 1)) : List (Option Nat)) 0 s.data s.len).length
        = nextCap (L + 1) := by
      rw [length_memcpy _ _ _ _ (by simp [malloc]; omega) (by omega)]; simp [malloc]
    refine ⟨⟨by simp [hlen], by simp; omega, ?_, k, k2, k30, hk⟩, rfl, by simp; omega, ?_⟩
    · simp only [List.getElem?_set, hlen]
      have : s.len < nextCap (L + 1) := by omega
      simp [this]
    · intro j hj
      simp only [List.getElem?_set]
      have : ¬ s.len = j := by omega
      rw [if_neg this, getElem?_memcpy _ _ _ _ (by simp) (by omega)]
      simp [hj]
  · rw [if_neg hc]
    have : s.cap ≠ 0 := by omega
    exact ⟨h3 this, rfl, by omega, fun _ _ => rfl⟩

theorem json__string_new_inv (n : Nat) (h : n < 2 ^ 30) :
    StringInv (json__string_new n) ∧ (json__string_new n).len = 0 := by
  have := json__string_reserve_spec { data := [], len := 0, cap := 0 } n rfl (le_refl _) h
    (fun h => absurd rfl h)
  exact ⟨this.1, this.2.1⟩

theorem json_string_insert_spec (s : json__string_t) (seq : List Nat) (n idx : Nat)
    (hs : StringInv s) (hidx : idx ≤ s.len) (hn : n ≤ seq.length) (hlen : s.len + n < 2 ^ 30) :
    ∃ s1, json_string_insert s seq n idx = some s1 ∧ StringInv s1 ∧ s1.len = s.len + n ∧
      json_string_bytes s1 = (json_string_bytes s).take idx ++ (seq.take n).map some ++
        (json_string_bytes s).drop idx := by
  obtain ⟨a1, a2, a3, a4⟩ := hs
  obtain ⟨⟨r1, r2, r3, r4⟩, rl, rc, rd⟩ := json__string_reserve_spec s (s.len + n) a1
    (by omega) hlen (fun _ => ⟨a1, a2, a3, a4⟩)
  unfold json_string_insert
  rw [if_pos ⟨hidx, hn⟩]
  generalize json__string_reserve s (s.len + n) = r at r1 r2 r3 r4 rl rc rd
  have hmv : (memmove r.data (idx + n) idx (r.len - idx)).length = r.data.length :=
    length_memmove _ _ _ _ (by omega) (by omega)
  have hcp : (memcpy (memmove r.data (idx + n) idx (r.len - idx)) idx (seq.map some) n).length
      = r.data.length := by
    rw [length_memcpy _ _ _ _ (by omega) (by simpa using hn), hmv]
  refine ⟨_, rfl, ⟨by simp [hcp, r1], by simp; omega, ?_, r4⟩, by simp [rl], ?_⟩
  · simp only [List.getElem?_set, hcp]
    have : r.len + n < r.data.length := by omega
    simp [this]
  · apply List.ext_getElem?
    intro j
    simp only [json_string_bytes, List.getElem?_take, List.getElem?_set, hcp]
    rw [getElem?_memcpy _ _ _ _ (by omega) (by simpa using hn),
      getElem?_memmove _ _ _ _ (by omega) (by omega)]
    by_cases c1 : j < idx
    · have e1 : ¬ (r.len + n = j) := by omega
      have e2 : j < r.len + n := by omega
      have e3 : ¬ (idx ≤ j ∧ j < idx + n) := by omega
      have e4 : ¬ (idx + n ≤ j ∧ j < idx + n + (r.len - idx)) := by omega
      rw [List.append_assoc, List.getElem?_append_left (by simp; omega)]
      simp only [List.getElem?_take, if_neg e1, if_pos e2, if_neg e3, if_neg e4, if_pos c1]
      rw [if_pos (by omega), rd j (by omega)]
    · have hl : (List.take idx (List.take s.len s.data)).length = idx := by simp; omega
      rw [List.append_assoc, List.getElem?_append_right (by omega), hl]
      by_cases c2 : j < idx + n
      · have e1 : ¬ (r.len + n = j) := by omega
        have e2 : j < r.len + n := by omega
        have e3 : (idx ≤ j ∧ j < idx + n) := by omega
        rw [List.getElem?_append_left (by simp; omega)]
        simp only [if_neg e1, if_pos e2, if_pos e3]
        simp only [List.getElem?_map, List.getElem?_take]
        rw [if_pos (by omega)]
      · rw [List.getElem?_append_right (by simp; omega)]
        have hl2 : (List.map some (List.take n seq)).length = n := by simp; omega
        rw [hl2, List.getElem?_drop, List.getElem?_take]
        by_cases c3 : j < r.len + n
        · have e1 : ¬ (r.len + n = j) := by omega
          have e3 : ¬ (idx ≤ j ∧ j < idx + n) := by omega
          have e4 : (idx + n ≤ j ∧ j < idx + n + (r.len - idx)) := by omega
          simp only [if_neg e1, if_pos c3, if_neg e3, if_pos e4]
          have e5 : idx + (j - (idx + n)) = j - n := by omega
          have e6 : idx + (j - idx - n) = j - n := by omega
          rw [e5, e6, if_pos (by omega), rd _ (by omega)]
        · have e5 : ¬ (idx + (j - idx - n) < s.len) := by omega
          rw [if_neg c3, if_neg e5]

theorem json__string_trim_spec (s : json__string_t) (hs : StringInv s) :
    StringInv (json__string_trim s) ∧ (json__string_trim s).len = s.len ∧
      ∀ j, j ≤ s.len → (json__string_trim s).data[j]? = s.data[j]? := by
  obtain ⟨a1, a2, a3, k, k2, k30, hk⟩ := hs
  unfold json__string_trim
  by_cases hc : s.cap / 4 > s.len
  · rw [if_pos hc]
    have hcap : s.cap ≤ 2 ^ 30 := by rw [hk]; exact Nat.pow_le_pow_right (by norm_num) k30
    obtain ⟨k1, k12, k130, hk1, hle, _⟩ := nextCap_spec (s.len * 2) (by omega)
    have hpos : s.len < nextCap (s.len * 2) := by
      rcases Nat.eq_zero_or_pos s.len with h0 | h0
      · rw [hk1]; have : (2:Nat) ^ 2 ≤ 2 ^ k1 := Nat.pow_le_pow_right (by norm_num) k12
        omega
      · omega
    refine ⟨⟨length_realloc _ _, hpos, ?_, k1, k12, k130, hk1⟩, rfl, ?_⟩
    · show (realloc s.data (nextCap (s.len * 2)))[s.len]? = some (some 0)
      rw [getElem?_realloc _ _ _ hpos (by omega)]; exact a3
    · intro j hj
      exact getElem?_realloc _ _ _ (by omega) (by omega)
  · rw [if_neg hc]
    exact ⟨⟨a1, a2, a3, k, k2, k30, hk⟩, rfl, fun _ _ => rfl⟩

theorem json_string_erase_spec (s : json__string_t) (idx n : Nat) (hs : StringInv s) :
    StringInv (json_string_erase s idx n) ∧
      (s.len < idx + n → json_string_erase s idx n = s) ∧
      (idx + n ≤ s.len → (json_string_erase s idx n).len = s.len - n ∧
        json_string_bytes (json_string_erase s idx n) =
          (json_string_bytes s).take idx ++ (json_string_bytes s).drop (idx + n)) := by
  obtain ⟨a1, a2, a3, a4⟩ := hs
  unfold json_string_erase
  by_cases hc : idx + n > s.len
  · rw [if_pos hc]
    exact ⟨⟨a1, a2, a3, a4⟩, fun _ => rfl, fun h => absurd h (by omega)⟩
  · rw [if_neg hc]
    have hmv : (memmove s.data idx (idx + n) (s.len - idx - n)).length = s.data.length :=
      length_memmove _ _ _ _ (by omega) (by omega)
    have hinv : StringInv
        { data := List.set (memmove s.data idx (idx + n) (s.len - idx - n)) (s.len - n) (some 0),
          len := s.len - n, cap := s.cap } := by
      refine ⟨by simp [hmv, a1], by simp; omega, ?_, a4⟩
      simp only [List.getElem?_set, hmv]
      have : s.len - n < s.data.length := by omega
      simp [this]
    obtain ⟨t1, t2, t3⟩ := json__string_trim_spec _ hinv
    refine ⟨t1, fun h => absurd h (by omega), fun _ => ⟨t2, ?_⟩⟩
    apply List.ext_getElem?
    intro j
    simp only [json_string_bytes, List.getElem?_take, t2]
    by_cases c1 : j < s.len - n
    · rw [if_pos c1, t3 j (by simpa using le_of_lt c1)]
      simp only [List.getElem?_set]
      have e1 : ¬ (s.len - n = j) := by omega
      rw [if_neg e1, getElem?_memmove _ _ _ _ (by omega) (by omega)]
      by_cases c2 : j < idx
      · have e2 : ¬ (idx ≤ j ∧ j < idx + (s.len - idx - n)) := by omega
        rw [if_neg e2, List.getElem?_append_left (by simp; omega)]
        simp only [List.getElem?_take, if_pos c2]
        rw [if_pos (by omega)]
      · have e2 : (idx ≤ j ∧ j < idx + (s.len - idx - n)) := by omega
        have hl : (List.take idx (List.take s.len s.data)).length = idx := by simp; omega
        rw [if_pos e2, List.getElem?_append_right (by omega), hl, List.getElem?_drop,
          List.getElem?_take]
        have e3 : idx + n + (j - idx) = j + n := by omega
        rw [e3, if_pos (by omega)]
    · rw [if_neg c1]
      by_cases c2 : j < idx
      · omega
      · have hl : (List.take idx (List.take s.len s.data)).length = idx := by simp; omega
        rw [List.getElem?_append_right (by omega), hl, List.getElem?_drop, List.getElem?_take]
        rw [if_neg (by omega)]

theorem StringReach.string_inv {s : json__string_t} (h : StringReach s) : StringInv s := by
  induction h with
  | new len h => exact (json__string_new_inv len h).1
  | mk string s h e =>
    obtain ⟨inv0, len0⟩ := json__string_new_inv string.length h
    obtain ⟨s2, e2, inv, _⟩ := json_string_insert_spec (json__string_new string.length) string
      string.length (json__string_new string.length).len inv0 (le_refl _) (le_refl _)
      (by rw [len0]; omega)
    unfold json_string json_string_append at e
    rw [e] at e2
    cases e2
    exact inv
  | insert s s1 seq len idx _ hlen h ih =>
    have hpre : idx ≤ s.len ∧ len ≤ seq.length := by
      by_contra hcon
      simp [json_string_insert, hcon] at h
    obtain ⟨s2, e, inv, _⟩ := json_string_insert_spec s seq len idx ih hpre.1 hpre.2 hlen
    rw [h] at e
    cases e
    exact inv
  | erase s idx len _ ih => exact (json_string_erase_spec s idx len ih).1

/-! ## Array store -/

theorem getElem?_insertIdx_eq {α : Type} (l : List α) (i : Nat) (v : α) (h : i ≤ l.length)
    (j : Nat) :
    (l.insertIdx i v)[j]? = if j < i then l[j]? else if j = i then some v else l[j - 1]? := by
  induction l generalizing i j with
  | nil =>
    have : i = 0 := by simpa using h
    subst this
    cases j <;> simp [List.insertIdx_zero]
  | cons x xs ih =>
    cases i with
    | zero =>
      cases j <;> simp [List.insertIdx_zero]
    | succ i =>
      rw [List.insertIdx_succ_cons]
      cases j with
      | zero => simp
      | succ j =>
        have := ih i (by simpa using h) j
        simp only [List.getElem?_cons_succ, this, Nat.add_lt_add_iff_right,
          Nat.add_right_cancel_iff, Nat.add_sub_cancel]
        by_cases c1 : j < i
        · simp [c1]
        · by_cases c2 : j = i
          · simp [c2]
          · simp only [c1, c2, if_false]
            obtain ⟨m, rfl⟩ : ∃ m, j = m + 1 := ⟨j - 1, by omega⟩
            simp

theorem ArrayInv.cap_le {a : json__array_t} {l : List json_t} (h : ArrayInv a l) :
    a.cap ≤ 2 ^ 30 := by
  rcases h.2.2.2.1 with h0 | ⟨k, _, k30, hk⟩
  · omega
  · rw [hk]; exact Nat.pow_le_pow_right (by norm_num) k30

theorem json__array_reserve_spec (a : json__array_t) (l : List json_t) (L : Nat)
    (h : ArrayInv a l) (hL : L ≤ 2 ^ 30) :
    ArrayInv (json__array_reserve a L) l ∧ L ≤ (json__array_reserve a L).cap ∧
      (json__array_reserve a L).len = a.len := by
  obtain ⟨a1, a2, a3, a4, a5⟩ := h
  unfold json__array_reserve
  by_cases hc : a.cap < L
  · rw [if_pos hc]
    obtain ⟨k, k2, k30, hk, hle, _⟩ := nextCap_spec L hL
    have hlen : (memcpy (malloc (nextCap L) : List (Option json_t)) 0 a.data a.len).length
        = nextCap L := by
      rw [length_memcpy _ _ _ _ (by simp [malloc]; omega) (by omega)]; simp [malloc]
    refine ⟨⟨hlen, a2, by show a.len ≤ nextCap L; omega, Or.inr ⟨k, k2, k30, hk⟩, ?_⟩, hle, rfl⟩
    intro j hj
    have hj : j < a.len := hj
    show (memcpy (malloc (nextCap L) : List (Option json_t)) 0 a.data a.len)[j]? = _
    rw [getElem?_memcpy _ _ _ _ (by simp) (by omega)]
    have : 0 ≤ j ∧ j < 0 + a.len := by omega
    rw [if_pos this]
    exact a5 j hj
  · rw [if_neg hc]
    exact ⟨⟨a1, a2, a3, a4, a5⟩, by omega, rfl⟩

theorem json__array_new_inv (n : Nat) (h : n ≤ 2 ^ 30) : ArrayInv (json__array_new n) [] := by
  have h0 : ArrayInv { data := [], len := 0, cap := 0 } [] :=
    ⟨rfl, rfl, le_refl _, Or.inl rfl, fun j hj => absurd hj (by simp)⟩
  exact (json__array_reserve_spec _ [] n h0 h).1

theorem json__array_trim_spec (a : json__array_t) (l : List json_t) (h : ArrayInv a l) :
    ArrayInv (json__array_trim a) l ∧ (a.cap ≠ 0 → (json__array_trim a).cap ≠ 0) := by
  have hcap := h.cap_le
  obtain ⟨a1, a2, a3, a4, a5⟩ := h
  unfold json__array_trim
  by_cases hc : a.cap / 4 > a.len
  · rw [if_pos hc]
    obtain ⟨k, k2, k30, hk, hle, _⟩ := nextCap_spec (a.len * 2) (by omega)
    have h4 : 4 ≤ nextCap (a.len * 2) := by
      have : (2:Nat) ^ 2 ≤ 2 ^ k := Nat.pow_le_pow_right (by norm_num) k2
      omega
    refine ⟨⟨length_realloc _ _, a2, by show a.len ≤ nextCap (a.len * 2); omega,
      Or.inr ⟨k, k2, k30, hk⟩, ?_⟩, fun _ => ?_⟩
    · intro j hj
      have hj : j < a.len := hj
      show (realloc a.data (nextCap (a.len * 2)))[j]? = _
      rw [getElem?_realloc _ _ _ (by omega) (by omega)]
      exact a5 j hj
    · show nextCap (a.len * 2) ≠ 0
      omega
  · rw [if_neg hc]
    exact ⟨⟨a1, a2, a3, a4, a5⟩, fun h => h⟩

theorem json_array_insert_spec (a : json__array_t) (l : List json_t) (i : Nat) (v : json_t)
    (h : ArrayInv a l) (hi : i ≤ a.len) (hlen : a.len < 2 ^ 30) :
    ∃ a1, json_array_insert a i v = some a1 ∧ ArrayInv a1 (l.insertIdx i v) := by
  obtain ⟨⟨r1, r2, r3, r4, r5⟩, rc, rl⟩ := json__array_reserve_spec a l (a.len + 1) h (by omega)
  obtain ⟨a1, a2, a3, a4, a5⟩ := h
  unfold json_array_insert
  rw [if_pos hi]
  generalize json__array_reserve a (a.len + 1) = r at r1 r2 r3 r4 r5 rc rl
  have hmv : (memmove r.data (i + 1) i (r.len - i)).length = r.data.length :=
    length_memmove _ _ _ _ (by omega) (by omega)
  refine ⟨_, rfl, ⟨by simp [hmv, r1], ?_, by show r.len + 1 ≤ r.cap; omega, r4, ?_⟩⟩
  · show r.len + 1 = (l.insertIdx i v).length
    rw [List.length_insertIdx _ _ (by omega)]; omega
  · intro j hj
    have hj : j < r.len + 1 := hj
    show (List.set (memmove r.data (i + 1) i (r.len - i)) i (some v))[j]? = _
    rw [List.getElem?_set, hmv, getElem?_insertIdx_eq _ _ _ (by omega),
      getElem?_memmove _ _ _ _ (by omega) (by omega)]
    by_cases c1 : j < i
    · have e1 : ¬ (i = j) := by omega
      have e2 : ¬ (i + 1 ≤ j ∧ j < i + 1 + (r.len - i)) := by omega
      rw [if_neg e1, if_neg e2, if_pos c1]
      exact r5 j (by omega)
    · by_cases c2 : j = i
      · subst c2
        rw [if_pos rfl, if_pos (by omega), if_neg c1, if_pos rfl]
      · have e1 : ¬ (i = j) := by omega
        have e2 : (i + 1 ≤ j ∧ j < i + 1 + (r.len - i)) := by omega
        rw [if_neg e1, if_pos e2, if_neg c1, if_neg c2]
        have e3 : i + (j - (i + 1)) = j - 1 := by omega
        rw [e3]
        exact r5 (j - 1) (by omega)

theorem json_array_pop_spec (a : json__array_t) (l : List json_t) (i : Nat)
    (h : ArrayInv a l) (hi : i < a.len) :
    ∃ v a1, json_array_pop a i = some (v, a1) ∧ l[i]? = some v ∧ ArrayInv a1 (l.eraseIdx i) ∧
      a1.cap ≠ 0 := by
  obtain ⟨a1, a2, a3, a4, a5⟩ := h
  have hil : i < l.length := by omega
  have hcell : a.data.getD i none = some l[i] := by
    have := a5 i hi
    rw [List.getD_eq_getElem?_getD, this]
    simp [List.getElem?_eq_getElem hil]
  have hmv : (memmove a.data i (i + 1) (a.len - 1 - i)).length = a.data.length :=
    length_memmove _ _ _ _ (by omega) (by omega)
  have hinv : ArrayInv ⟨memmove a.data i (i + 1) (a.len - 1 - i), a.len - 1, a.cap⟩
      (l.eraseIdx i) := by
    refine ⟨by simp [hmv, a1], ?_, by show a.len - 1 ≤ a.cap; omega, a4, ?_⟩
    · show a.len - 1 = (l.eraseIdx i).length
      rw [List.length_eraseIdx_of_lt hil]; omega
    · intro j hj
      have hj : j < a.len - 1 := hj
      show (memmove a.data i (i + 1) (a.len - 1 - i))[j]? = _
      rw [getElem?_memmove _ _ _ _ (by omega) (by omega), List.getElem?_eraseIdx]
      by_cases c1 : j < i
      · have e2 : ¬ (i ≤ j ∧ j < i + (a.len - 1 - i)) := by omega
        rw [if_neg e2, if_pos c1]
        exact a5 j (by omega)
      · have e2 : (i ≤ j ∧ j < i + (a.len - 1 - i)) := by omega
        rw [if_pos e2, if_neg c1]
        have e3 : i + 1 + (j - i) = j + 1 := by omega
        rw [e3]
        exact a5 (j + 1) (by omega)
  obtain ⟨t1, t2⟩ := json__array_trim_spec _ _ hinv
  refine ⟨l[i], _, ?_, List.getElem?_eq_getElem hil, t1, t2 (by show a.cap ≠ 0; omega)⟩
  unfold json_array_pop
  rw [if_pos hi]
  simp only [hcell]

theorem json_array_set_spec (a : json__array_t) (l : List json_t) (i : Nat) (v : json_t)
    (h : ArrayInv a l) (hi : i < a.len) :
    ∃ a1, json_array_set a i v = some a1 ∧ ArrayInv a1 (l.set i v) ∧ a1.cap = a.cap := by
  obtain ⟨a1, a2, a3, a4, a5⟩ := h
  unfold json_array_set
  rw [if_pos hi]
  refine ⟨_, rfl, ⟨by simp [a1], by simp [a2], a3, a4, ?_⟩, rfl⟩
  intro j hj
  have hj : j < a.len := hj
  show (List.set a.data i (some v))[j]? = _
  rw [List.getElem?_set, List.getElem?_set]
  by_cases c : i = j
  · subst c
    rw [if_pos rfl, if_pos rfl, if_pos (by omega), if_pos (by omega)]
  · rw [if_neg c, if_neg c]
    exact a5 j hj

theorem ArrayOp.run_spec (a : json__array_t) (l l1 : List json_t) (op : ArrayOp)
    (out : Option json_t) (h : ArrayInv a l) (hlen : a.len < 2 ^ 30)
    (hs : op.spec l = some (l1, out)) :
    ∃ a1, op.run a = some (a1, out) ∧ ArrayInv a1 l1 := by
  have hl := h.2.1
  cases op with
  | push v =>
    simp only [ArrayOp.spec, Option.some.injEq, Prod.mk.injEq] at hs
    obtain ⟨rfl, rfl⟩ := hs
    obtain ⟨a1, e, inv⟩ := json_array_insert_spec a l a.len v h (le_refl _) hlen
    refine ⟨a1, by simp [ArrayOp.run, json_array_push, e], ?_⟩
    rw [hl, List.insertIdx_length_self] at inv
    exact inv
  | insert i v =>
    simp only [ArrayOp.spec] at hs
    split at hs
    · rename_i hi
      simp only [Option.some.injEq, Prod.mk.injEq] at hs
      obtain ⟨rfl, rfl⟩ := hs
      obtain ⟨a1, e, inv⟩ := json_array_insert_spec a l i v h (by omega) hlen
      exact ⟨a1, by simp [ArrayOp.run, e], inv⟩
    · cases hs
  | set i v =>
    simp only [ArrayOp.spec] at hs
    split at hs
    · rename_i hi
      simp only [Option.some.injEq, Prod.mk.injEq] at hs
      obtain ⟨rfl, rfl⟩ := hs
      obtain ⟨a1, e, inv, _⟩ := json_array_set_spec a l i v h (by omega)
      exact ⟨a1, by simp [ArrayOp.run, e], inv⟩
    · cases hs
  | pop i =>
    simp only [ArrayOp.spec] at hs
    split at hs
    · rename_i hi
      simp only [Option.some.injEq, Prod.mk.injEq] at hs
      obtain ⟨rfl, rfl⟩ := hs
      obtain ⟨v, a1, e, hv, inv, _⟩ := json_array_pop_spec a l i h (by omega)
      exact ⟨a1, by simp [ArrayOp.run, e, hv], inv⟩
    · cases hs
  | erase i =>
    simp only [ArrayOp.spec] at hs
    split at hs
    · rename_i hi
      simp only [Option.some.injEq, Prod.mk.injEq] at hs
      obtain ⟨rfl, rfl⟩ := hs
      obtain ⟨v, a1, e, hv, inv, _⟩ := json_array_pop_spec a l i h (by omega)
      exact ⟨a1, by simp [ArrayOp.run, json_array_erase, e], inv⟩
    · cases hs

theorem ArrayOp.spec_length (l l1 : List json_t) (op : ArrayOp) (out : Option json_t)
    (hs : op.spec l = some (l1, out)) : l1.length ≤ l.length + 1 := by
  cases op <;> simp only [ArrayOp.spec] at hs
  · simp only [Option.some.injEq, Prod.mk.injEq] at hs
    obtain ⟨rfl, rfl⟩ := hs
    simp
  all_goals
    split at hs
    · simp only [Option.some.injEq, Prod.mk.injEq] at hs
      obtain ⟨rfl, rfl⟩ := hs
      first
        | (rw [List.length_insertIdx _ _ (by omega)])
        | (simp only [List.length_set]; omega)
        | exact le_trans (List.length_eraseIdx_le l _) (Nat.le_succ _)
    · cases hs

theorem runArrayOps_spec (ops : List ArrayOp) (a : json__array_t) (l l1 : List json_t)
    (outs : List (Option json_t)) (h : ArrayInv a l) (hlen : a.len + ops.length ≤ 2 ^ 30)
    (hs : specArrayOps l ops = some (l1, outs)) :
    ∃ a1, runArrayOps a ops = some (a1, outs) ∧ ArrayInv a1 l1 := by
  induction ops generalizing a l outs with
  | nil =>
    simp only [specArrayOps, Option.some.injEq, Prod.mk.injEq] at hs
    obtain ⟨rfl, rfl⟩ := hs
    exact ⟨a, rfl, h⟩
  | cons op ops ih =>
    simp only [specArrayOps] at hs
    simp only [List.length_cons] at hlen
    cases hop : op.spec l with
    | none => simp [hop] at hs
    | some r =>
      obtain ⟨l2, out⟩ := r
      simp only [hop] at hs
      cases hrest : specArrayOps l2 ops with
      | none => simp [hrest] at hs
      | some r2 =>
        obtain ⟨l3, outs2⟩ := r2
        simp only [hrest, Option.some.injEq, Prod.mk.injEq] at hs
        obtain ⟨rfl, rfl⟩ := hs
        obtain ⟨a1, e1, inv1⟩ := ArrayOp.run_spec a l l2 op out h (by omega) hop
        have hl2 := ArrayOp.spec_length l l2 op out hop
        have : a1.len + ops.length ≤ 2 ^ 30 := by
          rw [inv1.2.1]; rw [h.2.1] at hlen; omega
        obtain ⟨a2, e2, inv2⟩ := ih a1 l2 outs2 inv1 this hrest
        exact ⟨a2, by simp [runArrayOps, e1, e2], inv2⟩

/-! ## Object store: capacity invariant -/

theorem four_dvd_two_pow {k : Nat} (h : 2 ≤ k) : 4 ∣ 2 ^ k := by
  have : (2:Nat) ^ k = 2 ^ (k - 2) * 2 ^ 2 := by rw [← pow_add]; congr 1; omega
  rw [this]; exact Dvd.intro_left _ rfl

theorem json__object_new_capInv (n : Nat) (h : n ≤ 2 ^ 30) :
    ObjectCapInv (json__object_new n) ∧ (json__object_new n).len = 0 ∧
      n ≤ (json__object_new n).cap := by
  obtain ⟨k, k2, k30, hk, hle, _⟩ := nextCap_spec n h
  refine ⟨⟨⟨k, k2, k30, hk⟩, ?_⟩, rfl, hle⟩
  show 4 * 0 ≤ _
  omega

theorem json__object_place_len (o o1 : json__object_t) (name : List Nat) (v : json_t)
    (idx : Nat) (tmp : Option Nat) (h : json__object_place o name v idx tmp = some o1) :
    o1.cap = o.cap ∧ o.len ≤ o1.len ∧ o1.len ≤ o.len + 1 ∧ (tmp ≠ none → o1.len = o.len) := by
  unfold json__object_place at h
  cases tmp with
  | none =>
    simp only at h
    split at h
    · cases h; exact ⟨rfl, by simp, by simp, fun h => absurd rfl h⟩
    · cases h
  | some t =>
    simp only [Option.some.injEq] at h
    subst h
    exact ⟨rfl, le_refl _, by simp, fun _ => rfl⟩

theorem json__object_insert_loop_len (name : List Nat) (v : json_t) (fuel : Nat) :
    ∀ (o o1 : json__object_t) (idx dist : Nat) (tmp : Option Nat),
      json__object_insert_loop name v fuel o idx dist tmp = some o1 →
      o1.cap = o.cap ∧ o.len ≤ o1.len ∧ (tmp = none → o1.len ≤ o.len + 1) ∧
        (tmp ≠ none → o1.len = o.len) := by
  induction fuel with
  | zero => intro o o1 idx dist tmp h; simp [json__object_insert_loop] at h
  | succ fuel ih =>
    intro o o1 idx dist tmp h
    unfold json__object_insert_loop at h
    simp only at h
    split at h
    · cases hp : json__object_place o name v idx tmp with
      | none => simp [hp] at h
      | some o2 =>
        simp only [hp, Option.some.injEq] at h
        obtain ⟨p1, p2, p3, p4⟩ := json__object_place_len _ _ _ _ _ _ hp
        subst h
        exact ⟨p1, p2, fun _ => p3, p4⟩
    · split at h
      · cases hs : o.sparseAt idx with
        | none => simp [hs] at h
        | some tmp_x =>
          simp only [hs] at h
          cases hp : json__object_place o name v idx tmp with
          | none => simp [hp] at h
          | some o2 =>
            simp only [hp] at h
            obtain ⟨p1, p2, p3, p4⟩ := json__object_place_len _ _ _ _ _ _ hp
            obtain ⟨q1, q2, _, q4⟩ := ih _ _ _ _ _ h
            have q4 := q4 (by simp)
            simp only at q1 q2 q4
            exact ⟨by rw [q1, p1], by omega, fun _ => by omega, fun ht => by rw [q4, p4 ht]⟩
      · exact ih _ _ _ _ _ h

theorem json__object_move_loop_capInv
    (f : json__object_t → List Nat → json_t → Option json__object_t)
    (hf : ∀ o k v o1, ObjectCapInv o → o.len < 2 ^ 29 → f o k v = some o1 →
      ObjectCapInv o1 ∧ o1.len ≤ o.len + 1 ∧ o.cap ≤ o1.cap)
    (bs : List (Option json_bucket_t)) :
    ∀ (dst dst1 : json__object_t), ObjectCapInv dst → dst.len + bs.length ≤ 2 ^ 29 →
      json__object_move_loop f dst bs = some dst1 →
      ObjectCapInv dst1 ∧ dst1.len ≤ dst.len + bs.length ∧ dst.cap ≤ dst1.cap := by
  induction bs with
  | nil =>
    intro dst dst1 hd _ h
    simp only [json__object_move_loop, Option.some.injEq] at h
    subst h
    exact ⟨hd, by simp, le_refl _⟩
  | cons b bs ih =>
    intro dst dst1 hd hl h
    simp only [List.length_cons] at hl
    cases b with
    | none => simp [json__object_move_loop] at h
    | some bucket =>
      simp only [json__object_move_loop] at h
      cases hs : f dst bucket.key bucket.val with
      | none => simp [hs] at h
      | some d2 =>
        simp only [hs] at h
        obtain ⟨a1, a2, a3⟩ := hf _ _ _ _ hd (by omega) hs
        obtain ⟨b1, b2, b3⟩ := ih d2 dst1 a1 (by omega) h
        exact ⟨b1, by simp only [List.length_cons]; omega, by omega⟩

theorem json__object_set_capInv (depth : Nat) :
    ∀ (o o1 : json__object_t) (k : List Nat) (v : json_t) (c : Bool),
      ObjectCapInv o → o.len < 2 ^ 29 → json__object_set depth o k v c = some o1 →
      ObjectCapInv o1 ∧ o1.len ≤ o.len + 1 ∧ o.cap ≤ o1.cap := by
  induction depth with
  | zero => intro o o1 k v c _ _ h; simp [json__object_set] at h
  | succ depth ih =>
    intro o o1 k v c hW hlen h
    unfold json__object_set at h
    cases hr : json__object_reserve_with (fun o k v => json__object_set depth o k v false) o
        (o.len + 1) with
    | none => simp [hr] at h
    | some r =>
      simp only [hr] at h
      -- the table after `reserve`
      have hres : ObjectCapInv r ∧ r.len ≤ o.len ∧ o.cap ≤ r.cap ∧
          r.len + 1 ≤ r.cap - r.cap / 4 := by
        unfold json__object_reserve_with at hr
        split at hr
        · rename_i hgrow
          obtain ⟨n1, n2, n3⟩ := json__object_new_capInv ((o.len + 1) * 2) (by omega)
          have hbl : (o.buckets.take o.len).length ≤ o.len := by simp
          obtain ⟨m1, m2, m3⟩ := json__object_move_loop_capInv _
            (fun o k v o1 h1 h2 h3 => ih o o1 k v false h1 h2 h3) _ _ _ n1 (by omega) hr
          obtain ⟨⟨j, j2, j30, hj⟩, hload⟩ := hW
          obtain ⟨⟨i, i2, i30, hi⟩, _⟩ := m1
          have h4 : 4 ∣ r.cap := by rw [hi]; exact four_dvd_two_pow i2
          refine ⟨⟨⟨i, i2, i30, hi⟩, by omega⟩, by omega, ?_, by omega⟩
          have : o.cap ≤ (o.len + 1) * 2 := by omega
          omega
        · rename_i hgrow
          cases hr
          exact ⟨hW, le_refl _, le_refl _, by omega⟩
      obtain ⟨hWr, hrl, hrc, hroom⟩ := hres
      obtain ⟨⟨j, j2, j30, hj⟩, hload⟩ := hWr
      have hfin : ∀ o2 : json__object_t, o2.cap = r.cap → o2.len ≤ r.len + 1 →
          ObjectCapInv o2 ∧ o2.len ≤ o.len + 1 ∧ o.cap ≤ o2.cap := by
        intro o2 hc hl
        refine ⟨⟨⟨j, j2, j30, by rw [hc, hj]⟩, ?_⟩, by omega, by omega⟩
        have h4 : 4 ∣ r.cap := by rw [hj]; exact four_dvd_two_pow j2
        omega
      cases hg : json__object_get_index r k (json__object_hash k) with
      | none => simp [hg] at h
      | some res =>
        obtain ⟨ob, idx⟩ := res
        cases ob with
        | some b =>
          simp only [hg] at h
          cases hb : r.bucketAt b with
          | none => simp [hb] at h
          | some bucket =>
            simp only [hb, Option.some.injEq] at h
            subst h
            exact hfin _ rfl (by simp)
        | none =>
          simp only [hg] at h
          obtain ⟨q1, _, q3, _⟩ := json__object_insert_loop_len _ _ _ _ _ _ _ _ h
          exact hfin _ q1 (q3 rfl)

theorem json_object_pop_loop_frame (fuel : Nat) :
    ∀ (o o1 : json__object_t) (idx : Nat), json_object_pop_loop fuel o idx = some o1 →
      o1.cap = o.cap ∧ o1.len = o.len ∧ o1.buckets = o.buckets := by
  induction fuel with
  | zero => intro o o1 idx h; simp [json_object_pop_loop] at h
  | succ fuel ih =>
    intro o o1 idx h
    unfold json_object_pop_loop at h
    simp only at h
    split at h
    · cases h; exact ⟨rfl, rfl, rfl⟩
    · obtain ⟨a, b, c⟩ := ih _ _ _ h
      exact ⟨a, b, c⟩

theorem json__object_trim_capInv (o o1 : json__object_t) (hW : ObjectCapInv o)
    (hlen : o.len ≤ 2 ^ 29) (h : json__object_trim objectDepth o = some o1) :
    ObjectCapInv o1 ∧ o1.len ≤ o.len := by
  unfold json__object_trim at h
  split at h
  · obtain ⟨n1, n2, _⟩ := json__object_new_capInv o.len (by omega)
    have hbl : (o.buckets.take o.len).length ≤ o.len := by simp
    obtain ⟨m1, m2, _⟩ := json__object_move_loop_capInv _
      (fun o k v o1 h1 h2 h3 => json__object_set_capInv objectDepth o o1 k v false h1 h2 h3)
      _ _ _ n1 (by omega) h
    exact ⟨m1, by omega⟩
  · cases h; exact ⟨hW, le_refl _⟩

theorem json_object_pop_capInv (o o1 : json__object_t) (k : List Nat) (v : json_t)
    (hW : ObjectCapInv o) (hlen : o.len ≤ 2 ^ 29) (h : json_object_pop o k = some (v, o1)) :
    ObjectCapInv o1 ∧ o1.len ≤ o.len := by
  unfold json_object_pop at h
  simp only at h
  cases hg : json__object_get_index o k (json__object_hash k) with
  | none => simp [hg] at h
  | some res =>
    obtain ⟨ob, idx⟩ := res
    cases ob with
    | none =>
      simp only [hg, Option.some.injEq, Prod.mk.injEq] at h
      rw [← h.2]; exact ⟨hW, le_refl _⟩
    | some start =>
      simp only [hg] at h
      cases hb : o.bucketAt start with
      | none => simp [hb] at h
      | some bucket =>
        simp only [hb] at h
        split at h
        · cases h
        · rename_i o2 hl
          obtain ⟨a, b, _⟩ := json_object_pop_loop_frame _ _ _ _ hl
          simp only at a b
          have hW2 : ObjectCapInv o2 := by
            obtain ⟨⟨j, j2, j30, hj⟩, hload⟩ := hW
            exact ⟨⟨j, j2, j30, by rw [a, hj]⟩, by rw [a, b]; omega⟩
          split at h
          · cases h
          · rename_i o3 ht
            simp only [Option.some.injEq, Prod.mk.injEq] at h
            obtain ⟨t1, t2⟩ := json__object_trim_capInv o2 o3 hW2 (by omega) ht
            rw [← h.2]
            exact ⟨t1, by omega⟩

theorem ObjectReach.capInv {o : json__object_t} (h : ObjectReach o) :
    ObjectCapInv o ∧ o.len ≤ 2 ^ 29 := by
  induction h with
  | new =>
    obtain ⟨a, b, _⟩ := json__object_new_capInv 0 (by norm_num)
    exact ⟨a, by show (json__object_new 0).len ≤ _; omega⟩
  | set o o1 key value _ hlen h ih =>
    obtain ⟨a, b, _⟩ := json__object_set_capInv objectDepth o o1 key value true ih.1 hlen h
    exact ⟨a, by omega⟩
  | pop o o1 key value _ h ih =>
    obtain ⟨a, b⟩ := json_object_pop_capInv o o1 key value ih.1 ih.2 h
    exact ⟨a, by omega⟩

/-- C6: capacity invariant of the Object Store.  For every object reachable from
    `json_object()` by `json_object_set` and `json_object_pop` calls, `cap` is a power of two
    that is at least 4 and the load factor satisfies `4 * len <= 3 * cap`, in particular
    immediately after every set; the bound also holds after the rebuilds done by
    `json__object_reserve` and `json__object_trim`. -/
theorem object_capacity_invariant (o : json__object_t) (h : ObjectReach o) :
    (∃ k, 2 ≤ k ∧ o.cap = 2 ^ k) ∧ 4 * o.len ≤ 3 * o.cap := by
  obtain ⟨⟨⟨k, k2, _, hk⟩, hload⟩, _⟩ := h.capInv
  exact ⟨⟨k, k2, hk⟩, hload⟩

/-- Witness of C6 on the object obtained from `json_object()` by one set. -/
theorem object_capacity_invariant_witness :
    (∃ k, 2 ≤ k ∧ (⟨[some ⟨[97], .JSON_TRUE⟩, none, none, none], [none, some 0, none, none],
        [255, 0, 255, 255], 1, 4⟩ : json__object_t).cap = 2 ^ k) ∧
      4 * (⟨[some ⟨[97], .JSON_TRUE⟩, none, none, none], [none, some 0, none, none],
        [255, 0, 255, 255], 1, 4⟩ : json__object_t).len ≤
      3 * (⟨[some ⟨[97], .JSON_TRUE⟩, none, none, none], [none, some 0, none, none],
        [255, 0, 255, 255], 1, 4⟩ : json__object_t).cap :=
  object_capacity_invariant _
    (ObjectReach.set json_object _ [97] .JSON_TRUE ObjectReach.new (by decide) (by decide))

/-! ## Object store: the Robin Hood table -/

theorem and_mask_eq_mod (x cap k : Nat) (hk : cap = 2 ^ k) : x &&& (cap - 1) = x % cap := by
  rw [hk]; exact Nat.and_pow_two_sub_one_eq_mod x k

theorem ObjectInv.cap_pos {o : json__object_t} {l : List json_bucket_t} (h : ObjectInv o l) :
    4 ≤ o.cap := by
  obtain ⟨k, k2, _, hk⟩ := h.cap_pow
  have : (2:Nat) ^ 2 ≤ 2 ^ k := Nat.pow_le_pow_right (by norm_num) k2
  omega

theorem ObjectInv.mask {o : json__object_t} {l : List json_bucket_t} (h : ObjectInv o l)
    (x : Nat) : x &&& (o.cap - 1) = x % o.cap := by
  obtain ⟨k, _, _, hk⟩ := h.cap_pow
  exact and_mask_eq_mod x o.cap k hk

theorem homeSlot_lt (cap k : Nat) (hk : cap = 2 ^ k) (key : List Nat) : homeSlot cap key < cap := by
  unfold homeSlot hashSlot
  rw [and_mask_eq_mod _ _ _ hk]
  exact Nat.mod_lt _ (by rw [hk]; positivity)

theorem add_succ_mod (a t cap : Nat) : (a + (t + 1)) % cap = ((a + t) % cap + 1) % cap := by
  rw [← Nat.add_assoc, Nat.add_mod (a + t) 1 cap, Nat.add_mod ((a + t) % cap) 1 cap,
    Nat.mod_mod]

theorem ObjectInv.info_le {o : json__object_t} {l : List json_bucket_t} (h : ObjectInv o l)
    (hlen : l.length ≤ 255) (i : Nat) (hi : i < o.cap) : o.infoAt i ≤ 255 := by
  by_cases hc : o.infoAt i = 255
  · omega
  · have := (h.slot i hi hc).1
    have := h.len_eq
    omega

/-- Every slot between the home slot of an entry and the entry itself is occupied by an
    entry that is at least as far from its own home slot. -/
theorem ObjectInv.chain {o : json__object_t} {l : List json_bucket_t} (h : ObjectInv o l)
    (a : Nat) : ∀ D, o.infoAt ((a + D) % o.cap) ≠ 255 → D ≤ o.infoAt ((a + D) % o.cap) →
      ∀ t, t ≤ D → o.infoAt ((a + t) % o.cap) ≠ 255 ∧ t ≤ o.infoAt ((a + t) % o.cap) := by
  have hpos : 0 < o.cap := by have := h.cap_pos; omega
  intro D
  induction D with
  | zero =>
    intro h1 h2 t ht
    have : t = 0 := by omega
    subst this
    exact ⟨h1, h2⟩
  | succ D ih =>
    intro h1 h2 t ht
    rcases Nat.eq_or_lt_of_le ht with e | e
    · subst e; exact ⟨h1, h2⟩
    · rw [add_succ_mod] at h1 h2
      obtain ⟨o1, o2⟩ := h.order ((a + D) % o.cap) (Nat.mod_lt _ hpos) h1 (by omega)
      exact ih o1 (by omega) t (by omega)

theorem ObjectInv.key_inj {o : json__object_t} {l : List json_bucket_t} (h : ObjectInv o l)
    {b1 b2 : Nat} {k1 k2 : json_bucket_t} (h1 : l[b1]? = some k1) (h2 : l[b2]? = some k2)
    (hk : k1.key = k2.key) : b1 = b2 := by
  have hb1 : b1 < l.length := by
    by_contra hc; rw [List.getElem?_eq_none (by omega)] at h1; cases h1
  have hb2 : b2 < l.length := by
    by_contra hc; rw [List.getElem?_eq_none (by omega)] at h2; cases h2
  have e1 : (l.map (fun b => b.key))[b1]? = some k1.key := by simp [h1]
  have e2 : (l.map (fun b => b.key))[b2]? = some k2.key := by simp [h2]
  have hl : (l.map (fun b => b.key)).length = l.length := by simp
  have hne := List.nodup_iff_getElem?_ne_getElem?.mp h.nodup
  rcases Nat.lt_trichotomy b1 b2 with hlt | heq | hgt
  · exact absurd (by rw [e1, e2, hk]) (hne b1 b2 hlt (by rw [hl]; exact hb2))
  · exact heq
  · exact absurd (by rw [e1, e2, hk]) (hne b2 b1 hgt (by rw [hl]; exact hb1))

theorem json__object_get_index_loop_found {o : json__object_t} {l : List json_bucket_t}
    (h : ObjectInv o l) (b : Nat) (bk : json_bucket_t) (hb : l[b]? = some bk) (s d : Nat)
    (hs : s < o.cap) (hsb : o.sparseAt s = some b)
    (hd : o.infoAt s = d) (hocc : o.infoAt s ≠ 255)
    (hsd : (homeSlot o.cap bk.key + d) % o.cap = s) :
    ∀ n t fuel, t + n = d → n < fuel →
      ∃ s1, json__object_get_index_loop o bk.key fuel ((homeSlot o.cap bk.key + t) % o.cap) t
          = some (some b, s1) ∧ s1 < o.cap ∧ o.sparseAt s1 = some b ∧ o.infoAt s1 ≠ 255 := by
  have hpos : 0 < o.cap := by have := h.cap_pos; omega
  have hchain := h.chain (homeSlot o.cap bk.key) d (by rw [hsd]; exact hocc)
    (by rw [hsd, hd])
  intro n
  induction n with
  | zero =>
    intro t fuel ht hf
    have htd : t = d := by omega
    subst htd
    obtain ⟨fuel, rfl⟩ : ∃ f, fuel = f + 1 := ⟨fuel - 1, by omega⟩
    refine ⟨s, ?_, hs, hsb, hocc⟩
    unfold json__object_get_index_loop
    simp only [hsd]
    rw [if_neg (by rw [hd] at hocc ⊢; omega), hsb]
    simp only
    have hbl : b < l.length := by
      by_contra hc; rw [List.getElem?_eq_none (by omega)] at hb; cases hb
    rw [h.bucket b hbl, hb]
    simp
  | succ n ih =>
    intro t fuel ht hf
    obtain ⟨fuel, rfl⟩ : ∃ f, fuel = f + 1 := ⟨fuel - 1, by omega⟩
    obtain ⟨c1, c2⟩ := hchain t (by omega)
    have hi : (homeSlot o.cap bk.key + t) % o.cap < o.cap := Nat.mod_lt _ hpos
    obtain ⟨_, b1, bk1, e1, e2, _⟩ := h.slot _ hi c1
    have hbl : b1 < l.length := by
      by_contra hc; rw [List.getElem?_eq_none (by omega)] at e2; cases e2
    unfold json__object_get_index_loop
    simp only
    rw [if_neg (by omega), e1]
    simp only
    rw [h.bucket b1 hbl, e2]
    simp only
    by_cases hk : bk.key = bk1.key
    · rw [if_pos hk]
      have : b = b1 := h.key_inj hb e2 hk
      subst this
      exact ⟨_, rfl, hi, e1, c1⟩
    · rw [if_neg hk, h.mask, ← add_succ_mod]
      exact ih (t + 1) fuel (by omega) (by omega)

/-- Lookup of a key that is stored in bucket `b`. -/
theorem json__object_get_index_found {o : json__object_t} {l : List json_bucket_t}
    (h : ObjectInv o l) (hlen : l.length ≤ 255) (b : Nat) (bk : json_bucket_t)
    (hb : l[b]? = some bk) :
    ∃ s, json__object_get_index o bk.key (json__object_hash bk.key) = some (some b, s) ∧
      s < o.cap ∧ o.sparseAt s = some b ∧ o.infoAt s ≠ 255 := by
  have hbl : b < l.length := by
    by_contra hc; rw [List.getElem?_eq_none (by omega)] at hb; cases hb
  obtain ⟨s, hs, hocc, hsb⟩ := h.index b (by rw [h.len_eq]; exact hbl)
  obtain ⟨hlt, b1, bk1, e1, e2, e3⟩ := h.slot s hs hocc
  rw [hsb] at e1
  cases e1
  rw [hb] at e2
  cases e2
  have := json__object_get_index_loop_found h b bk hb s (o.infoAt s) hs hsb rfl hocc e3
    (o.infoAt s) 0 257 (by omega) (by have := h.len_eq; omega)
  have hh : homeSlot o.cap bk.key < o.cap := by
    obtain ⟨j, _, _, hj⟩ := h.cap_pow
    exact homeSlot_lt _ _ hj _
  rw [Nat.add_zero, Nat.mod_eq_of_lt hh] at this
  exact this

theorem json__object_get_index_loop_absent {o : json__object_t} {l : List json_bucket_t}
    (h : ObjectInv o l) (hlen : l.length ≤ 255) (k : List Nat)
    (hk : ∀ bk, bk ∈ l → bk.key ≠ k) (a : Nat) :
    ∀ fuel t, (∀ t1, t1 < t → o.infoAt ((a + t1) % o.cap) ≠ 255 ∧
        t1 ≤ o.infoAt ((a + t1) % o.cap)) → 256 < t + fuel →
      ∃ c, t ≤ c ∧ json__object_get_index_loop o k fuel ((a + t) % o.cap) t
          = some (none, (a + c) % o.cap) ∧
        (o.infoAt ((a + c) % o.cap) = 255 ∨ c > o.infoAt ((a + c) % o.cap)) ∧
        ∀ t1, t1 < c → o.infoAt ((a + t1) % o.cap) ≠ 255 ∧ t1 ≤ o.infoAt ((a + t1) % o.cap) := by
  have hpos : 0 < o.cap := by have := h.cap_pos; omega
  intro fuel
  induction fuel with
  | zero =>
    intro t hpass hf
    obtain ⟨p1, p2⟩ := hpass (t - 1) (by omega)
    have := h.info_le hlen ((a + (t - 1)) % o.cap) (Nat.mod_lt _ hpos)
    omega
  | succ fuel ih =>
    intro t hpass hf
    have hi : (a + t) % o.cap < o.cap := Nat.mod_lt _ hpos
    unfold json__object_get_index_loop
    simp only
    by_cases hstop : o.infoAt ((a + t) % o.cap) = 255 ∨ t > o.infoAt ((a + t) % o.cap)
    · rw [if_pos hstop]
      exact ⟨t, le_refl _, rfl, hstop, hpass⟩
    · rw [if_neg hstop]
      have c1 : o.infoAt ((a + t) % o.cap) ≠ 255 := fun e => hstop (Or.inl e)
      have c2 : t ≤ o.infoAt ((a + t) % o.cap) := by
        by_contra hc; exact hstop (Or.inr (by omega))
      obtain ⟨_, b1, bk1, e1, e2, _⟩ := h.slot _ hi c1
      have hbl : b1 < l.length := by
        by_contra hc; rw [List.getElem?_eq_none (by omega)] at e2; cases e2
      rw [e1]
      simp only
      rw [h.bucket b1 hbl, e2]
      simp only
      have hne : ¬ k = bk1.key := fun e => hk bk1 (List.getElem?_mem e2) e.symm
      rw [if_neg hne, h.mask, ← add_succ_mod]
      obtain ⟨c, hc1, hc2, hc3, hc4⟩ := ih (t + 1) (by
        intro t1 ht1
        rcases Nat.eq_or_lt_of_le (Nat.lt_succ_iff.mp ht1) with e | e
        · subst e; exact ⟨c1, c2⟩
        · exact hpass t1 e) (by omega)
      exact ⟨c, by omega, hc2, hc3, hc4⟩

/-- Lookup of a key that is not stored: the probe stops after `c` steps at a slot that is
    empty or holds an entry closer to its home slot. -/
theorem json__object_get_index_absent {o : json__object_t} {l : List json_bucket_t}
    (h : ObjectInv o l) (hlen : l.length ≤ 255) (k : List Nat)
    (hk : ∀ bk, bk ∈ l → bk.key ≠ k) :
    ∃ c, json__object_get_index o k (json__object_hash k)
          = some (none, (homeSlot o.cap k + c) % o.cap) ∧ c ≤ l.length ∧
        (o.infoAt ((homeSlot o.cap k + c) % o.cap) = 255 ∨
          c > o.infoAt ((homeSlot o.cap k + c) % o.cap)) ∧
        ∀ t1, t1 < c → o.infoAt ((homeSlot o.cap k + t1) % o.cap) ≠ 255 ∧
          t1 ≤ o.infoAt ((homeSlot o.cap k + t1) % o.cap) := by
  have hpos : 0 < o.cap := by have := h.cap_pos; omega
  obtain ⟨c, _, hc2, hc3, hc4⟩ := json__object_get_index_loop_absent h hlen k hk
    (homeSlot o.cap k) 257 0 (fun t1 ht1 => absurd ht1 (by omega)) (by omega)
  refine ⟨c, ?_, ?_, hc3, hc4⟩
  · have hh : homeSlot o.cap k < o.cap := by
      obtain ⟨j, _, _, hj⟩ := h.cap_pow
      exact homeSlot_lt _ _ hj _
    rw [Nat.add_zero, Nat.mod_eq_of_lt hh] at hc2
    exact hc2
  · rcases Nat.eq_zero_or_pos c with e | e
    · omega
    · obtain ⟨p1, p2⟩ := hc4 (c - 1) (by omega)
      have := (h.slot _ (Nat.mod_lt _ hpos) p1).1
      have := h.len_eq
      omega
theorem succ_mod_cap (i cap : Nat) (hi : i < cap) :
    (i + 1) % cap = if i + 1 = cap then 0 else i + 1 := by
  by_cases h : i + 1 = cap
  · rw [if_pos h, h]; exact Nat.mod_self _
  · rw [if_neg h]; exact Nat.mod_eq_of_lt (by omega)

theorem succ_mod_inj (i j cap : Nat) (hi : i < cap) (hj : j < cap)
    (h : (i + 1) % cap = (j + 1) % cap) : i = j := by
  rw [succ_mod_cap i cap hi, succ_mod_cap j cap hj] at h
  split at h <;> split at h <;> omega

theorem succ_mod_ne (i cap : Nat) (hi : i < cap) (h2 : 2 ≤ cap) : (i + 1) % cap ≠ i := by
  rw [succ_mod_cap i cap hi]
  split <;> omega

theorem stepsTo_succ (cap e i : Nat) (hi : i < cap) (he : e < cap) (hne : i ≠ e) :
    stepsTo cap e ((i + 1) % cap) + 1 = stepsTo cap e i := by
  rw [succ_mod_cap i cap hi]
  unfold stepsTo
  split <;> split <;> split <;> omega

theorem stepsTo_lt (cap e i : Nat) (he : e < cap) : stepsTo cap e i < cap := by
  unfold stepsTo
  split <;> omega

theorem stepsTo_inj (cap e i j : Nat) (hi : i < cap) (hj : j < cap) (he : e < cap)
    (h : stepsTo cap e i = stepsTo cap e j) : i = j := by
  unfold stepsTo at h
  split at h <;> split at h <;> omega

theorem countP_set_ne255 (l : List Nat) (i x : Nat) (hi : i < l.length) :
    (l.set i x).countP (fun d => decide (d ≠ 255)) + (if l.getD i 255 ≠ 255 then 1 else 0) =
      l.countP (fun d => decide (d ≠ 255)) + (if x ≠ 255 then 1 else 0) := by
  induction l generalizing i with
  | nil => simp at hi
  | cons a l ih =>
    cases i with
    | zero =>
      simp only [List.set_cons_zero, List.countP_cons, List.getD_cons_zero]
      by_cases h1 : a ≠ 255 <;> by_cases h2 : x ≠ 255 <;> simp [h1, h2]
    | succ i =>
      simp only [List.set_cons_succ, List.countP_cons, List.getD_cons_succ]
      have := ih i (by simpa using hi)
      omega

theorem exists_empty_of_count (l : List Nat) (h : l.countP (fun d => decide (d ≠ 255)) < l.length) :
    ∃ i, i < l.length ∧ l.getD i 255 = 255 := by
  induction l with
  | nil => simp at h
  | cons a l ih =>
    by_cases ha : a = 255
    · exact ⟨0, by simp, by simp [ha]⟩
    · have hc : (a :: l).countP (fun d => decide (d ≠ 255)) =
          l.countP (fun d => decide (d ≠ 255)) + 1 :=
        List.countP_cons_of_pos _ _ (by simpa using ha)
      rw [hc, List.length_cons] at h
      obtain ⟨i, hi, he⟩ := ih (by omega)
      exact ⟨i + 1, by simpa using hi, by simpa using he⟩

theorem infoAt_set (p : json__object_t) (idx x i : Nat) (hidx : idx < p.info.length) :
    ({ p with info := p.info.set idx x } : json__object_t).infoAt i =
      if i = idx then x else p.infoAt i := by
  unfold json__object_t.infoAt
  simp only [List.getD_eq_getElem?_getD, List.getElem?_set]
  by_cases h : idx = i
  · subst h; simp [hidx]
  · have : ¬ i = idx := fun e => h e.symm
    simp [h, this]

theorem sparseAt_set (p : json__object_t) (idx : Nat) (x : Option Nat) (i : Nat)
    (hidx : idx < p.sparse.length) :
    ({ p with sparse := p.sparse.set idx x } : json__object_t).sparseAt i =
      if i = idx then x else p.sparseAt i := by
  unfold json__object_t.sparseAt
  simp only [List.getD_eq_getElem?_getD, List.getElem?_set]
  by_cases h : idx = i
  · subst h; simp [hidx]
  · have : ¬ i = idx := fun e => h e.symm
    simp [h, this]

theorem bucketAt_set (p : json__object_t) (idx : Nat) (x : Option json_bucket_t) (i : Nat)
    (hidx : idx < p.buckets.length) :
    ({ p with buckets := p.buckets.set idx x } : json__object_t).bucketAt i =
      if i = idx then x else p.bucketAt i := by
  unfold json__object_t.bucketAt
  simp only [List.getD_eq_getElem?_getD, List.getElem?_set]
  by_cases h : idx = i
  · subst h; simp [hidx]
  · have : ¬ i = idx := fun e => h e.symm
    simp [h, this]
theorem getElem?_append_single_lt {α : Type} (l : List α) (x : α) (j : Nat) (h : j < l.length) :
    (l ++ [x])[j]? = l[j]? := List.getElem?_append_left h

theorem getElem?_append_single_eq {α : Type} (l : List α) (x : α) :
    (l ++ [x])[l.length]? = some x := by
  rw [List.getElem?_append_right (le_refl _)]; simp

theorem getD_set_eq {α : Type} (l : List α) (idx : Nat) (x d : α) (i : Nat)
    (hidx : idx < l.length) :
    (l.set idx x).getD i d = if i = idx then x else l.getD i d := by
  simp only [List.getD_eq_getElem?_getD, List.getElem?_set]
  by_cases h : idx = i
  · subst h; simp [hidx]
  · have : ¬ i = idx := fun e => h e.symm
    simp [h, this]

/-- The effect of storing the pending entry in slot `idx` and recording its distance. -/
theorem InsertInv.place_spec {o : json__object_t} {l : List json_bucket_t} {k : List Nat}
    {v : json_t} {e : Nat} {p : json__object_t} {idx c : Nat} {tmp : Option Nat}
    (hI : InsertInv o l k v e p idx c tmp) (hroom : l.length < o.cap) (h254 : l.length ≤ 254) :
    ∃ p2, json__object_place p k v idx tmp = some p2 ∧ p2.cap = o.cap ∧
      ∀ p3 : json__object_t, p3 = { p2 with info := p2.info.set idx (c % 256) } →
        p3.cap = o.cap ∧ p3.buckets.length = o.cap ∧ p3.sparse.length = o.cap ∧
        p3.info.length = o.cap ∧ p3.len = l.length + 1 ∧
        (∀ j, j < l.length + 1 → p3.bucketAt j = (l ++ [⟨k, v⟩])[j]?) ∧
        (∀ i, p3.infoAt i = if i = idx then c else p.infoAt i) ∧
        (∀ i, p3.sparseAt i = if i = idx then some (tmp.getD l.length) else p.sparseAt i) ∧
        p3.info = p.info.set idx c := by
  have hcm : c % 256 = c := Nat.mod_eq_of_lt (by have := hI.c_le; omega)
  have hidx := hI.idx_lt
  cases tmp with
  | none =>
    have hlen := hI.len_none rfl
    have hlt : p.len < p.cap := by rw [hlen, hI.cap_eq]; exact hroom
    refine ⟨⟨p.buckets.set p.len (some ⟨k, v⟩), p.sparse.set idx (some p.len), p.info,
      p.len + 1, p.cap⟩, by simp only [json__object_place]; rw [if_pos hlt], hI.cap_eq, ?_⟩
    intro p3 hp3
    subst hp3
    refine ⟨hI.cap_eq, by simp [hI.buckets_len], by simp [hI.sparse_len],
      by simp [hI.info_len], by simp [hlen], ?_, ?_, ?_, by rw [hcm]⟩
    · intro j hj
      show List.getD (List.set p.buckets p.len _) j none = _
      rw [getD_set_eq _ _ _ _ _ (by rw [hI.buckets_len, hlen]; exact hroom), hlen]
      by_cases hjl : j = l.length
      · subst hjl
        rw [if_pos rfl, getElem?_append_single_eq]
      · rw [if_neg hjl, getElem?_append_single_lt _ _ _ (by omega), ← hI.bucket j (by omega)]
        rfl
    · intro i
      show List.getD (List.set p.info idx (c % 256)) i 255 = _
      rw [getD_set_eq _ _ _ _ _ (by rw [hI.info_len]; exact hidx), hcm]
      rfl
    · intro i
      show List.getD (List.set p.sparse idx (some p.len)) i none = _
      rw [getD_set_eq _ _ _ _ _ (by rw [hI.sparse_len]; exact hidx), hlen]
      rfl
  | some t =>
    obtain ⟨hlen, hbk⟩ := hI.len_some (by simp)
    refine ⟨⟨p.buckets, p.sparse.set idx (some t), p.info, p.len, p.cap⟩, rfl, hI.cap_eq, ?_⟩
    intro p3 hp3
    subst hp3
    refine ⟨hI.cap_eq, by simp [hI.buckets_len], by simp [hI.sparse_len],
      by simp [hI.info_len], hlen, ?_, ?_, ?_, by rw [hcm]⟩
    · intro j hj
      show p.bucketAt j = _
      by_cases hjl : j = l.length
      · subst hjl; rw [getElem?_append_single_eq]; exact hbk
      · rw [getElem?_append_single_lt _ _ _ (by omega)]; exact hI.bucket j (by omega)
    · intro i
      show List.getD (List.set p.info idx (c % 256)) i 255 = _
      rw [getD_set_eq _ _ _ _ _ (by rw [hI.info_len]; exact hidx), hcm]
      rfl
    · intro i
      show List.getD (List.set p.sparse idx (some t)) i none = _
      rw [getD_set_eq _ _ _ _ _ (by rw [hI.sparse_len]; exact hidx)]
      rfl
/-- The table facts that hold once the pending entry has been stored in slot `idx`. -/
theorem InsertInv.placed {o : json__object_t} {l : List json_bucket_t} {k : List Nat}
    {v : json_t} {e : Nat} {p : json__object_t} {idx c : Nat} {tmp : Option Nat}
    (hI : InsertInv o l k v e p idx c tmp) (hcap : 2 ≤ o.cap) (h254 : l.length ≤ 254)
    (p3 : json__object_t)
    (hinfo : ∀ i, p3.infoAt i = if i = idx then c else p.infoAt i)
    (hsparse : ∀ i, p3.sparseAt i = if i = idx then some (tmp.getD l.length) else p.sparseAt i)
    (hnext : p.infoAt ((idx + 1) % o.cap) ≠ 255 → p.infoAt ((idx + 1) % o.cap) ≠ 0 →
      p.infoAt ((idx + 1) % o.cap) ≤ c + 1) :
    (∀ i, i < o.cap → p3.infoAt i ≠ 255 →
      p3.infoAt i ≤ l.length ∧ ∃ b bk, p3.sparseAt i = some b ∧
        (l ++ [⟨k, v⟩])[b]? = some bk ∧ (homeSlot o.cap bk.key + p3.infoAt i) % o.cap = i) ∧
    (∀ i, i < o.cap → p3.infoAt ((i + 1) % o.cap) ≠ 255 → p3.infoAt ((i + 1) % o.cap) ≠ 0 →
      p3.infoAt i ≠ 255 ∧ p3.infoAt ((i + 1) % o.cap) ≤ p3.infoAt i + 1) := by
  have hc := hI.c_le
  constructor
  · intro i hi hocc
    rw [hinfo i] at hocc ⊢
    rw [hsparse i]
    by_cases hii : i = idx
    · rw [if_pos hii] at hocc ⊢
      rw [if_pos hii]
      obtain ⟨bk, hb1, hb2⟩ := hI.carry
      exact ⟨hc, _, bk, rfl, hb1, by rw [hii]; exact hb2⟩
    · rw [if_neg hii] at hocc ⊢
      rw [if_neg hii]
      exact hI.slot i hi hocc
  · intro i hi h1 h2
    have hsne := succ_mod_ne i o.cap hi hcap
    rw [hinfo ((i + 1) % o.cap)] at h1 h2 ⊢
    rw [hinfo i]
    by_cases hs : (i + 1) % o.cap = idx
    · have hii : ¬ i = idx := fun e => hsne (by rw [hs, e])
      rw [if_pos hs] at h1 h2 ⊢
      rw [if_neg hii]
      exact hI.pred i hi hs h2
    · rw [if_neg hs] at h1 h2 ⊢
      by_cases hii : i = idx
      · rw [if_pos hii]
        subst hii
        exact ⟨by omega, hnext h1 h2⟩
      · rw [if_neg hii]
        exact hI.order i hi h1 h2

/-- The insertion loop ends when it meets an empty slot; the table is then consistent
    with the dense array extended by the new bucket. -/
theorem InsertInv.finish {o : json__object_t} {l : List json_bucket_t} {k : List Nat}
    {v : json_t} {e : Nat} {p : json__object_t} {idx c : Nat} {tmp : Option Nat}
    (hI : InsertInv o l k v e p idx c tmp) (hO : ObjectInv o l)
    (habs : ∀ bk, bk ∈ l → bk.key ≠ k) (hroom : 4 * (l.length + 1) ≤ 3 * o.cap)
    (h254 : l.length ≤ 254) (hempty : p.infoAt idx = 255) (fuel : Nat) :
    ∃ o2, json__object_insert_loop k v (fuel + 1) p idx c tmp = some o2 ∧
      ObjectInv o2 (l ++ [⟨k, v⟩]) := by
  have hcap4 := hO.cap_pos
  obtain ⟨p2, hp2, _, hp3⟩ := hI.place_spec (by omega) h254
  refine ⟨_, by unfold json__object_insert_loop; simp only; rw [if_pos hempty, hp2], ?_⟩
  obtain ⟨q1, q2, q3, q4, q5, q6, q7, q8, q9⟩ := hp3 _ rfl
  generalize ({ p2 with info := p2.info.set idx (c % 256) } : json__object_t) = p3
    at q1 q2 q3 q4 q5 q6 q7 q8 q9 ⊢
  have hnext : p.infoAt ((idx + 1) % o.cap) ≠ 255 → p.infoAt ((idx + 1) % o.cap) ≠ 0 →
      p.infoAt ((idx + 1) % o.cap) ≤ c + 1 := by
    intro h1 h2
    exact absurd hempty (hI.order idx hI.idx_lt h1 h2).1
  obtain ⟨f1, f2⟩ := hI.placed (by omega) h254 _ q7 q8 hnext
  have hc := hI.c_le
  refine ⟨by rw [q1]; exact hO.cap_pow, by rw [q2, q1], by rw [q3, q1], by rw [q4, q1],
    by rw [q5]; simp, by rw [q5, q1]; exact hroom, ?_, ?_, ?_, ?_, ?_, ?_⟩
  · intro j hj
    exact q6 j (by simpa using hj)
  · rw [List.map_append, List.nodup_append]
    refine ⟨hO.nodup, by simp, ?_⟩
    intro a ha hb
    simp only [List.map_cons, List.map_nil, List.mem_singleton] at hb
    obtain ⟨bk, hbk, rfl⟩ := List.mem_map.mp ha
    exact habs bk hbk hb
  · have := countP_set_ne255 p.info idx c (by rw [hI.info_len]; exact hI.idx_lt)
    have he255 : p.info.getD idx 255 = 255 := hempty
    rw [he255] at this
    simp only [ne_eq, not_true_eq_false, if_false, Nat.add_zero] at this
    have hc255 : ¬ c = 255 := by omega
    rw [if_pos hc255, hI.count] at this
    rw [q9, this, q5]
  · intro i hi hocc
    rw [q1] at hi
    obtain ⟨g1, b, bk, g2, g3, g4⟩ := f1 i hi hocc
    rw [q5, q1]
    exact ⟨by omega, b, bk, g2, g3, g4⟩
  · intro b hb
    rw [q5] at hb
    rw [q1]
    by_cases hbc : b = tmp.getD l.length
    · refine ⟨idx, hI.idx_lt, ?_, ?_⟩
      · rw [q7, if_pos rfl]; omega
      · rw [q8, if_pos rfl, hbc]
    · obtain ⟨i, hi, hocc, hsp⟩ := hI.index b (by omega) hbc
      have hne : i ≠ idx := fun e => hocc (by rw [e]; exact hempty)
      exact ⟨i, hi, by rw [q7, if_neg hne]; exact hocc, by rw [q8, if_neg hne]; exact hsp⟩
  · intro i hi
    rw [q1] at hi ⊢
    exact f2 i hi
/-- A probe step that passes over a resident entry which is at least as far from home. -/
theorem InsertInv.skip {o : json__object_t} {l : List json_bucket_t} {k : List Nat}
    {v : json_t} {e : Nat} {p : json__object_t} {idx c : Nat} {tmp : Option Nat}
    (hI : InsertInv o l k v e p idx c tmp) (hO : ObjectInv o l) (he : e < o.cap)
    (he255 : o.infoAt e = 255) (hocc : p.infoAt idx ≠ 255) (hle : c ≤ p.infoAt idx) :
    InsertInv o l k v e p ((idx + 1) % o.cap) (c + 1) tmp ∧
      stepsTo o.cap e ((idx + 1) % o.cap) + 1 = stepsTo o.cap e idx := by
  have hcap4 := hO.cap_pos
  have hpos : 0 < o.cap := by omega
  have hidx := hI.idx_lt
  have hd : p.infoAt idx = o.infoAt idx := (hI.ahead idx hidx (le_refl _)).1
  have hne : idx ≠ e := fun h => hocc (by rw [hd, h]; exact he255)
  have hsteps := stepsTo_succ o.cap e idx hidx he hne
  have hdlt : o.infoAt idx < l.length := by
    have := (hO.slot idx hidx (by rw [← hd]; exact hocc)).1
    rw [hO.len_eq] at this; exact this
  refine ⟨⟨hI.cap_eq, hI.buckets_len, hI.sparse_len, hI.info_len, Nat.mod_lt _ hpos,
    hI.len_none, hI.len_some, hI.bucket, ?_, by omega, ?_, hI.slot, hI.index, hI.order,
    hI.count, ?_⟩, hsteps⟩
  · obtain ⟨bk, h1, h2⟩ := hI.carry
    exact ⟨bk, h1, by rw [add_succ_mod, h2]⟩
  · intro i hi hs _
    have : i = idx := succ_mod_inj i idx o.cap hi hidx hs
    subst this
    exact ⟨hocc, by omega⟩
  · intro i hi hst
    exact hI.ahead i hi (by omega)

/-- A probe step that displaces a resident entry which is closer to its home slot. -/
theorem InsertInv.swap {o : json__object_t} {l : List json_bucket_t} {k : List Nat}
    {v : json_t} {e : Nat} {p : json__object_t} {idx c : Nat} {tmp : Option Nat}
    (hI : InsertInv o l k v e p idx c tmp) (hO : ObjectInv o l) (he : e < o.cap)
    (he255 : o.infoAt e = 255) (hroom : 4 * (l.length + 1) ≤ 3 * o.cap)
    (h254 : l.length ≤ 254) (hocc : p.infoAt idx ≠ 255) (hgt : c > p.infoAt idx) :
    ∃ bx p2, p.sparseAt idx = some bx ∧ json__object_place p k v idx tmp = some p2 ∧
      p2.cap = o.cap ∧
      InsertInv o l k v e { p2 with info := p2.info.set idx (c % 256) } ((idx + 1) % o.cap)
        (p.infoAt idx + 1) (some bx) ∧
      stepsTo o.cap e ((idx + 1) % o.cap) + 1 = stepsTo o.cap e idx := by
  have hcap4 := hO.cap_pos
  have hpos : 0 < o.cap := by omega
  have hidx := hI.idx_lt
  have hd : p.infoAt idx = o.infoAt idx := (hI.ahead idx hidx (le_refl _)).1
  have hne : idx ≠ e := fun h => hocc (by rw [hd, h]; exact he255)
  have hsteps := stepsTo_succ o.cap e idx hidx he hne
  have hdlt : o.infoAt idx < l.length := by
    have := (hO.slot idx hidx (by rw [← hd]; exact hocc)).1
    rw [hO.len_eq] at this; exact this
  obtain ⟨_, bx, bkx, hsx, hbx, hhx⟩ := hI.slot idx hidx hocc
  obtain ⟨p2, hp2, hp2cap, hp3⟩ := hI.place_spec (by omega) h254
  refine ⟨bx, p2, hsx, hp2, hp2cap, ?_, hsteps⟩
  obtain ⟨q1, q2, q3, q4, q5, q6, q7, q8, q9⟩ := hp3 _ rfl
  generalize ({ p2 with info := p2.info.set idx (c % 256) } : json__object_t) = p3
    at q1 q2 q3 q4 q5 q6 q7 q8 q9 ⊢
  have hc := hI.c_le
  have hnext : p.infoAt ((idx + 1) % o.cap) ≠ 255 → p.infoAt ((idx + 1) % o.cap) ≠ 0 →
      p.infoAt ((idx + 1) % o.cap) ≤ c + 1 := by
    intro h1 h2
    have := (hI.order idx hidx h1 h2).2
    omega
  obtain ⟨f1, f2⟩ := hI.placed (by omega) h254 _ q7 q8 hnext
  refine ⟨q1, q2, q3, q4, Nat.mod_lt _ hpos, fun h => absurd h (by simp),
    fun _ => ⟨q5, ?_⟩, ?_, ?_, by omega, ?_, f1, ?_, f2, ?_, ?_⟩
  · rw [q6 l.length (by omega), getElem?_append_single_eq]
  · intro j hj
    rw [q6 j (by omega), getElem?_append_single_lt _ _ _ hj]
  · exact ⟨bkx, by simpa using hbx, by rw [add_succ_mod, hhx]⟩
  · intro i hi hs _
    have : i = idx := succ_mod_inj i idx o.cap hi hidx hs
    subst this
    rw [q7, if_pos rfl]
    exact ⟨by omega, by omega⟩
  · intro b hb hbne
    simp only [Option.getD_some] at hbne
    by_cases hbc : b = tmp.getD l.length
    · refine ⟨idx, hidx, ?_, ?_⟩
      · rw [q7, if_pos rfl]; omega
      · rw [q8, if_pos rfl, hbc]
    · obtain ⟨i, hi, hocc2, hsp⟩ := hI.index b hb hbc
      have hine : i ≠ idx := by
        intro h
        rw [h, hsx] at hsp
        exact hbne (Option.some.inj hsp).symm
      exact ⟨i, hi, by rw [q7, if_neg hine]; exact hocc2, by rw [q8, if_neg hine]; exact hsp⟩
  · have := countP_set_ne255 p.info idx c (by rw [hI.info_len]; exact hidx)
    have hd255 : p.info.getD idx 255 ≠ 255 := hocc
    have hc255 : c ≠ 255 := by omega
    rw [if_pos hd255, if_pos hc255, hI.count] at this
    rw [q9]
    omega
  · intro i hi hst
    have hine : i ≠ idx := by
      intro h
      rw [h] at hst
      omega
    rw [q7, if_neg hine, q8, if_neg hine]
    exact hI.ahead i hi (by omega)

/-- The insertion loop of `json__object_set` stores an absent key: it returns a table
    whose dense array is the old one followed by the new bucket. -/
theorem json__object_insert_loop_spec {o : json__object_t} {l : List json_bucket_t}
    {k : List Nat} {v : json_t} {e : Nat} (hO : ObjectInv o l) (he : e < o.cap)
    (he255 : o.infoAt e = 255) (habs : ∀ bk, bk ∈ l → bk.key ≠ k)
    (hroom : 4 * (l.length + 1) ≤ 3 * o.cap) (h254 : l.length ≤ 254) :
    ∀ (fuel : Nat) (p : json__object_t) (idx c : Nat) (tmp : Option Nat),
      InsertInv o l k v e p idx c tmp → stepsTo o.cap e idx < fuel →
      ∃ o2, json__object_insert_loop k v fuel p idx c tmp = some o2 ∧
        ObjectInv o2 (l ++ [⟨k, v⟩]) := by
  intro fuel
  induction fuel with
  | zero => intro p idx c tmp _ hf; omega
  | succ fuel ih =>
    intro p idx c tmp hI hf
    by_cases hempty : p.infoAt idx = 255
    · exact hI.finish hO habs hroom h254 hempty fuel
    · by_cases hgt : c > p.infoAt idx
      · obtain ⟨bx, p2, h1, h2, h3, h4, h5⟩ := hI.swap hO he he255 hroom h254 hempty hgt
        obtain ⟨o2, r1, r2⟩ := ih _ _ _ _ h4 (by omega)
        refine ⟨o2, ?_, r2⟩
        unfold json__object_insert_loop
        simp only
        rw [if_neg hempty, if_pos hgt, h1]
        simp only
        rw [h2]
        simp only
        have hm : (idx + 1) &&& (p2.cap - 1) = (idx + 1) % o.cap := by rw [h3, hO.mask]
        rw [hm]
        exact r1
      · obtain ⟨h4, h5⟩ := hI.skip hO he he255 hempty (by omega)
        obtain ⟨o2, r1, r2⟩ := ih _ _ _ _ h4 (by omega)
        refine ⟨o2, ?_, r2⟩
        unfold json__object_insert_loop
        simp only
        rw [if_neg hempty, if_neg hgt, hI.cap_eq, hO.mask]
        exact r1
theorem infoAt_new (n i : Nat) : (json__object_new n).infoAt i = 255 := by
  unfold json__object_t.infoAt json__object_new
  simp only [List.getD_eq_getElem?_getD]
  by_cases h : i < nextCap n
  · simp [List.getElem?_replicate, h]
  · simp [List.getElem?_replicate, h]

theorem countP_replicate_255 (n : Nat) :
    (List.replicate n 255).countP (fun d => decide (d ≠ 255)) = 0 := by
  induction n with
  | zero => rfl
  | succ n ih => simp [List.replicate_succ]

theorem json__object_new_inv (n : Nat) (h : n ≤ 2 ^ 30) :
    ObjectInv (json__object_new n) [] ∧ (json__object_new n).cap = nextCap n := by
  obtain ⟨k, k2, k30, hk, _, _⟩ := nextCap_spec n h
  refine ⟨⟨⟨k, k2, k30, hk⟩, by simp [json__object_new, malloc], by simp [json__object_new, malloc],
    by simp [json__object_new], rfl, by show 4 * 0 ≤ _; omega, fun j hj => absurd hj (by simp),
    by simp, ?_, ?_, fun b hb => absurd hb (by show ¬ b < 0; omega), ?_⟩, rfl⟩
  · show List.countP _ (List.replicate _ 255) = 0
    exact countP_replicate_255 _
  · intro i _ hocc
    exact absurd (infoAt_new n i) hocc
  · intro i _ hocc
    exact absurd (infoAt_new n _) hocc

theorem ObjectInv.buckets_take {o : json__object_t} {l : List json_bucket_t}
    (h : ObjectInv o l) : o.buckets.take o.len = l.map some := by
  apply List.ext_getElem?
  intro j
  rw [List.getElem?_take, List.getElem?_map]
  by_cases hj : j < o.len
  · rw [if_pos hj]
    have hjl : j < l.length := by rw [← h.len_eq]; exact hj
    have := h.bucket j hjl
    unfold json__object_t.bucketAt at this
    rw [List.getD_eq_getElem?_getD] at this
    have hb : j < o.buckets.length := by rw [h.buckets_len]; have := h.load; have := h.cap_pos; omega
    rw [List.getElem?_eq_getElem hb] at this ⊢
    rw [List.getElem?_eq_getElem hjl] at this ⊢
    simp only [Option.getD_some] at this
    simp [this]
  · rw [if_neg hj, List.getElem?_eq_none (by rw [← h.len_eq]; omega)]
    rfl

theorem specSet_absent (l : List json_bucket_t) (k : List Nat) (v : json_t)
    (h : ∀ bk, bk ∈ l → bk.key ≠ k) : specSet l k v = l ++ [⟨k, v⟩] := by
  unfold specSet
  rw [if_neg]
  intro hm
  obtain ⟨bk, hbk, hk⟩ := List.mem_map.mp hm
  exact h bk hbk hk

theorem specSet_present (l : List json_bucket_t) (k : List Nat) (v : json_t)
    (bk : json_bucket_t) (hbk : bk ∈ l) (hk : bk.key = k) :
    specSet l k v = l.map (fun b => if b.key = k then ⟨k, v⟩ else b) := by
  unfold specSet
  rw [if_pos (List.mem_map.mpr ⟨bk, hbk, hk⟩)]

theorem specSet_keys_present (l : List json_bucket_t) (k : List Nat) (v : json_t) :
    (l.map (fun b => if b.key = k then (⟨k, v⟩ : json_bucket_t) else b)).map (fun b => b.key)
      = l.map (fun b => b.key) := by
  rw [List.map_map]
  apply List.map_congr_left
  intro b _
  simp only [Function.comp]
  split
  · rename_i h; exact h.symm
  · rfl

/-- The part of `json__object_set` that follows the call of `json__object_reserve`, on a
    table `r` with room for one more entry. -/
theorem json__object_set_after_reserve {o r : json__object_t} {l : List json_bucket_t}
    (depth : Nat) (k : List Nat) (v : json_t) (c : Bool)
    (hres : json__object_reserve_with (fun o k v => json__object_set depth o k v false) o
      (o.len + 1) = some r)
    (hR : ObjectInv r l) (hroom : 4 * (l.length + 1) ≤ 3 * r.cap)
    (h255 : (specSet l k v).length ≤ 255) :
    ∃ o1, json__object_set (depth + 1) o k v c = some o1 ∧ ObjectInv o1 (specSet l k v) ∧
      o1.cap = r.cap := by
  have hcap4 := hR.cap_pos
  unfold json__object_set
  rw [hres]
  simp only
  by_cases hpres : ∃ bk, bk ∈ l ∧ bk.key = k
  · obtain ⟨bk, hbk, hk⟩ := hpres
    obtain ⟨b, hb⟩ := List.mem_iff_getElem?.mp hbk
    have hbl : b < l.length := by
      by_contra hc; rw [List.getElem?_eq_none (by omega)] at hb; cases hb
    have hspec := specSet_present l k v bk hbk hk
    have hlen255 : l.length ≤ 255 := by rw [hspec] at h255; simpa using h255
    obtain ⟨s, hs, _, _, _⟩ := json__object_get_index_found hR hlen255 b bk hb
    rw [hk] at hs
    rw [hs]
    simp only
    rw [hR.bucket b hbl, hb]
    simp only
    refine ⟨_, rfl, ?_, rfl⟩
    rw [hspec]
    refine ⟨hR.cap_pow, by simp [hR.buckets_len], hR.sparse_len, hR.info_len,
      by simp [hR.len_eq], hR.load, ?_, by rw [specSet_keys_present]; exact hR.nodup,
      hR.count, ?_, hR.index, hR.order⟩
    · intro j hj
      have hj : j < l.length := by simpa using hj
      show List.getD (List.set r.buckets b _) j none = _
      rw [getD_set_eq _ _ _ _ _ (by rw [hR.buckets_len]; have := hR.load; have := hR.len_eq; omega),
        List.getElem?_map]
      by_cases hjb : j = b
      · subst hjb
        rw [if_pos rfl, hb]
        simp [hk]
      · rw [if_neg hjb]
        have := hR.bucket j hj
        unfold json__object_t.bucketAt at this
        rw [this, List.getElem?_eq_getElem hj]
        simp only [Option.map_some']
        have hne : ¬ l[j].key = k := by
          intro he
          exact hjb (hR.key_inj (List.getElem?_eq_getElem hj) hb (by rw [he, hk]))
        rw [if_neg hne]
    · intro i hi hocc
      obtain ⟨g1, b1, bk1, g2, g3, g4⟩ := hR.slot i hi hocc
      refine ⟨g1, b1, if bk1.key = k then ⟨k, v⟩ else bk1, g2, by rw [List.getElem?_map, g3]; rfl, ?_⟩
      split
      · rename_i hkk; rw [← hkk]; exact g4
      · exact g4
  · have habs : ∀ bk, bk ∈ l → bk.key ≠ k := fun bk hbk hk => hpres ⟨bk, hbk, hk⟩
    have hspec := specSet_absent l k v habs
    have h254 : l.length ≤ 254 := by rw [hspec] at h255; simp at h255; omega
    obtain ⟨c0, hc1, hc2, hc3, hc4⟩ := json__object_get_index_absent hR (by omega) k habs
    rw [hc1]
    simp only
    have hh : homeSlot r.cap k < r.cap := by
      obtain ⟨j, _, _, hj⟩ := hR.cap_pow
      exact homeSlot_lt _ _ hj _
    have hclt : c0 < r.cap := by have := hR.load; have := hR.len_eq; omega
    have hdist : ((r.cap + (homeSlot r.cap k + c0) % r.cap) - hashSlot (json__object_hash k) r.cap)
        &&& (r.cap - 1) = c0 := by
      rw [hR.mask]
      show (r.cap + (homeSlot r.cap k + c0) % r.cap - homeSlot r.cap k) % r.cap = c0
      by_cases hw : homeSlot r.cap k + c0 < r.cap
      · rw [Nat.mod_eq_of_lt hw]
        have : r.cap + (homeSlot r.cap k + c0) - homeSlot r.cap k = r.cap + c0 := by omega
        rw [this, Nat.add_mod_left, Nat.mod_eq_of_lt hclt]
      · have e1 : (homeSlot r.cap k + c0) % r.cap = homeSlot r.cap k + c0 - r.cap := by
          rw [Nat.mod_eq_sub_mod (by omega), Nat.mod_eq_of_lt (by omega)]
        rw [e1]
        have : r.cap + (homeSlot r.cap k + c0 - r.cap) - homeSlot r.cap k = c0 := by omega
        rw [this, Nat.mod_eq_of_lt hclt]
    rw [hdist, hspec]
    obtain ⟨e, he, he255⟩ := exists_empty_of_count r.info (by
      rw [hR.count, hR.info_len]; have := hR.load; omega)
    rw [hR.info_len] at he
    have hpos : 0 < r.cap := by omega
    have hI : InsertInv r l k v e r ((homeSlot r.cap k + c0) % r.cap) c0 none := by
      refine ⟨rfl, hR.buckets_len, hR.sparse_len, hR.info_len, Nat.mod_lt _ hpos,
        fun _ => hR.len_eq, fun h => absurd rfl h, hR.bucket, ?_, hc2, ?_, ?_, ?_, hR.order,
        by rw [hR.count, hR.len_eq], fun _ _ _ => ⟨rfl, rfl⟩⟩
      · exact ⟨⟨k, v⟩, by simp, rfl⟩
      · intro i hi hs hc0
        obtain ⟨c1, rfl⟩ : ∃ c1, c0 = c1 + 1 := ⟨c0 - 1, by omega⟩
        have hs2 : (i + 1) % r.cap = ((homeSlot r.cap k + c1) % r.cap + 1) % r.cap := by
          rw [hs, add_succ_mod]
        have := succ_mod_inj i _ r.cap hi (Nat.mod_lt _ hpos) hs2
        rw [this]
        obtain ⟨p1, p2⟩ := hc4 c1 (by omega)
        exact ⟨p1, by omega⟩
      · intro i hi hocc
        obtain ⟨g1, b1, bk1, g2, g3, g4⟩ := hR.slot i hi hocc
        have hb1 : b1 < l.length := by
          by_contra hc; rw [List.getElem?_eq_none (by omega)] at g3; cases g3
        exact ⟨by have := hR.len_eq; omega, b1, bk1, g2,
          by rw [getElem?_append_single_lt _ _ _ hb1]; exact g3, g4⟩
      · intro b hb hbne
        simp only [Option.getD_none] at hbne
        exact hR.index b (by rw [hR.len_eq]; omega)
    obtain ⟨o2, r1, r2⟩ := json__object_insert_loop_spec hR he he255 habs hroom h254 r.cap r _ _
      none hI (stepsTo_lt _ _ _ he)
    refine ⟨o2, r1, r2, ?_⟩
    exact (json__object_insert_loop_len _ _ _ _ _ _ _ _ r1).1
theorem json__object_move_loop_spec (depth : Nat) :
    ∀ (bs : List json_bucket_t) (dst : json__object_t) (l0 : List json_bucket_t),
      ObjectInv dst l0 → ((l0 ++ bs).map (fun b => b.key)).Nodup →
      4 * (l0.length + bs.length) ≤ 3 * dst.cap → l0.length + bs.length ≤ 255 →
      ∃ dst1, json__object_move_loop (fun o k v => json__object_set (depth + 1) o k v false) dst
          (bs.map some) = some dst1 ∧ ObjectInv dst1 (l0 ++ bs) ∧ dst1.cap = dst.cap := by
  intro bs
  induction bs with
  | nil =>
    intro dst l0 hD _ _ _
    exact ⟨dst, rfl, by simpa using hD, rfl⟩
  | cons b bs ih =>
    intro dst l0 hD hnd hroom h255
    simp only [List.length_cons] at hroom h255
    have habs : ∀ bk, bk ∈ l0 → bk.key ≠ b.key := by
      intro bk hbk he
      rw [List.map_append, List.nodup_append] at hnd
      exact hnd.2.2 (List.mem_map.mpr ⟨bk, hbk, rfl⟩) (by rw [he]; simp)
    have hspec : specSet l0 b.key b.val = l0 ++ [b] := specSet_absent l0 b.key b.val habs
    have h4 : 4 ∣ dst.cap := by
      obtain ⟨j, j2, _, hj⟩ := hD.cap_pow
      rw [hj]; exact four_dvd_two_pow j2
    have hres : json__object_reserve_with (fun o k v => json__object_set depth o k v false) dst
        (dst.len + 1) = some dst := by
      unfold json__object_reserve_with
      rw [if_neg]
      rw [hD.len_eq]; omega
    obtain ⟨d1, e1, inv1, hc1⟩ := json__object_set_after_reserve depth b.key b.val false hres hD
      (by omega) (by rw [hspec]; simp; omega)
    rw [hspec] at inv1
    obtain ⟨d2, e2, inv2, hc2⟩ := ih d1 (l0 ++ [b]) inv1 (by simpa using hnd)
      (by rw [hc1]; simp; omega) (by simp; omega)
    refine ⟨d2, ?_, by simpa using inv2, by rw [hc2, hc1]⟩
    simp only [List.map_cons, json__object_move_loop, e1]
    exact e2

/-- The function `json__object_set` on a consistent table: it returns the table of the
    list model, also when it rebuilds the table first. -/
theorem json__object_set_spec {o : json__object_t} {l : List json_bucket_t} (hO : ObjectInv o l)
    (k : List Nat) (v : json_t) (c : Bool) (h255 : (specSet l k v).length ≤ 255) (depth : Nat) :
    ∃ o1, json__object_set (depth + 2) o k v c = some o1 ∧ ObjectInv o1 (specSet l k v) := by
  have hlen : l.length ≤ 255 := by
    unfold specSet at h255
    split at h255
    · simpa using h255
    · simp at h255; omega
  have h4 : 4 ∣ o.cap := by
    obtain ⟨j, j2, _, hj⟩ := hO.cap_pow
    rw [hj]; exact four_dvd_two_pow j2
  by_cases hgrow : o.len + 1 > o.cap - o.cap / 4
  · obtain ⟨hN, hNcap⟩ := json__object_new_inv ((o.len + 1) * 2) (by rw [hO.len_eq]; omega)
    obtain ⟨j, _, _, _, hle, _⟩ := nextCap_spec ((o.len + 1) * 2) (by rw [hO.len_eq]; omega)
    obtain ⟨r, e1, inv1, hc1⟩ := json__object_move_loop_spec depth l (json__object_new ((o.len + 1) * 2))
      [] hN (by simpa using hO.nodup) (by rw [hNcap]; simp; rw [← hO.len_eq]; omega)
      (by simpa using hlen)
    have hres : json__object_reserve_with (fun o k v => json__object_set (depth + 1) o k v false) o
        (o.len + 1) = some r := by
      unfold json__object_reserve_with
      rw [if_pos hgrow, hO.buckets_take]
      exact e1
    simp only [List.nil_append] at inv1
    obtain ⟨o1, e2, inv2, _⟩ := json__object_set_after_reserve (depth + 1) k v c hres inv1
      (by rw [hc1, hNcap, ← hO.len_eq]; omega) h255
    exact ⟨o1, e2, inv2⟩
  · have hres : json__object_reserve_with (fun o k v => json__object_set (depth + 1) o k v false) o
        (o.len + 1) = some o := by
      unfold json__object_reserve_with
      rw [if_neg hgrow]
    obtain ⟨o1, e2, inv2, _⟩ := json__object_set_after_reserve (depth + 1) k v c hres hO
      (by rw [← hO.len_eq]; omega) h255
    exact ⟨o1, e2, inv2⟩

theorem ObjectInv.find_key {o : json__object_t} {l : List json_bucket_t} (h : ObjectInv o l)
    (bk : json_bucket_t) (hbk : bk ∈ l) :
    l.find? (fun b => decide (b.key = bk.key)) = some bk := by
  cases hf : l.find? (fun b => decide (b.key = bk.key)) with
  | none =>
    rw [List.find?_eq_none] at hf
    exact absurd (by simp) (hf bk hbk)
  | some b1 =>
    have hk : b1.key = bk.key := by simpa using List.find?_some hf
    have hm : b1 ∈ l := List.mem_of_find?_eq_some hf
    obtain ⟨i1, h1⟩ := List.mem_iff_getElem?.mp hm
    obtain ⟨i2, h2⟩ := List.mem_iff_getElem?.mp hbk
    have := h.key_inj h1 h2 hk
    subst this
    rw [h1] at h2
    exact h2

/-- The function `json_object_get` on a consistent table agrees with the list model. -/
theorem json_object_get_spec {o : json__object_t} {l : List json_bucket_t} (hO : ObjectInv o l)
    (hlen : l.length ≤ 255) (k : List Nat) : json_object_get o k = some (specGet l k) := by
  unfold json_object_get specGet
  by_cases hpres : ∃ bk, bk ∈ l ∧ bk.key = k
  · obtain ⟨bk, hbk, hk⟩ := hpres
    obtain ⟨b, hb⟩ := List.mem_iff_getElem?.mp hbk
    have hbl : b < l.length := by
      by_contra hc; rw [List.getElem?_eq_none (by omega)] at hb; cases hb
    obtain ⟨s, hs, _, _, _⟩ := json__object_get_index_found hO hlen b bk hb
    rw [hk] at hs
    rw [hs]
    simp only
    rw [hO.bucket b hbl, hb, ← hk, hO.find_key bk hbk]
    rfl
  · have habs : ∀ bk, bk ∈ l → bk.key ≠ k := fun bk hbk hk => hpres ⟨bk, hbk, hk⟩
    obtain ⟨c0, hc1, _, _, _⟩ := json__object_get_index_absent hO hlen k habs
    rw [hc1]
    simp only
    have : l.find? (fun b => decide (b.key = k)) = none := by
      rw [List.find?_eq_none]
      intro b hb
      simpa using habs b hb
    rw [this]

theorem specSet_length_le (l : List json_bucket_t) (k : List Nat) (v : json_t) :
    l.length ≤ (specSet l k v).length := by
  unfold specSet
  split <;> simp

theorem specSets_length_le (ops : List (List Nat × json_t)) :
    ∀ l : List json_bucket_t, l.length ≤ (specSets l ops).length := by
  induction ops with
  | nil => intro l; exact le_refl _
  | cons kv ops ih =>
    intro l
    exact le_trans (specSet_length_le l kv.1 kv.2) (ih _)

theorem runSets_spec (ops : List (List Nat × json_t)) :
    ∀ (o : json__object_t) (l : List json_bucket_t), ObjectInv o l →
      (specSets l ops).length ≤ 255 →
      ∃ o1, runSets o ops = some o1 ∧ ObjectInv o1 (specSets l ops) := by
  induction ops with
  | nil => intro o l hO _; exact ⟨o, rfl, hO⟩
  | cons kv ops ih =>
    intro o l hO h255
    simp only [specSets] at h255 ⊢
    obtain ⟨o1, e1, inv1⟩ := json__object_set_spec hO kv.1 kv.2 true
      (le_trans (specSets_length_le ops _) h255) 1
    obtain ⟨o2, e2, inv2⟩ := ih o1 _ inv1 h255
    refine ⟨o2, ?_, inv2⟩
    simp only [runSets, json_object_set, objectDepth, e1]
    exact e2
theorem specGet_specSet (l : List json_bucket_t) (k1 : List Nat) (v : json_t) (k : List Nat) :
    specGet (specSet l k1 v) k = if k1 = k then v else specGet l k := by
  unfold specGet specSet
  by_cases hm : k1 ∈ l.map (fun b => b.key)
  · rw [if_pos hm]
    by_cases hk : k1 = k
    · subst hk
      rw [if_pos rfl]
      induction l with
      | nil => simp at hm
      | cons a l ih =>
        simp only [List.map_cons, List.find?_cons]
        by_cases ha : a.key = k1
        · simp [ha]
        · simp only [ha, if_false, decide_False]
          apply ih
          simp only [List.map_cons, List.mem_cons] at hm
          rcases hm with h | h
          · exact absurd h.symm ha
          · exact h
    · rw [if_neg hk]
      clear hm
      induction l with
      | nil => rfl
      | cons a l ih =>
        simp only [List.map_cons, List.find?_cons]
        by_cases ha : a.key = k1
        · have hak : ¬ a.key = k := fun e => hk (ha.symm.trans e)
          simp only [ha, if_true, hk, decide_False, hak]
          exact ih
        · simp only [ha, if_false]
          by_cases hak : a.key = k
          · simp [hak]
          · simp only [hak, decide_False]
            exact ih
  · rw [if_neg hm, List.find?_append]
    by_cases hk : k1 = k
    · subst hk
      rw [if_pos rfl]
      have : l.find? (fun b => decide (b.key = k1)) = none := by
        rw [List.find?_eq_none]
        intro b hb
        simp only [decide_eq_true_eq]
        intro e
        exact hm (List.mem_map.mpr ⟨b, hb, e⟩)
      rw [this]
      simp
    · rw [if_neg hk]
      cases hf : l.find? (fun b => decide (b.key = k)) with
      | none => simp [hk]
      | some b => simp

theorem specGet_specSets (ops : List (List Nat × json_t)) (k : List Nat) :
    ∀ l : List json_bucket_t, specGet (specSets l ops) k =
      match ops.reverse.find? (fun kv => decide (kv.1 = k)) with
      | some kv => kv.2
      | none => specGet l k := by
  induction ops with
  | nil => intro l; rfl
  | cons kv ops ih =>
    intro l
    simp only [specSets, List.reverse_cons, List.find?_append]
    rw [ih]
    cases hf : ops.reverse.find? (fun kv => decide (kv.1 = k)) with
    | some kv1 => simp
    | none =>
      simp only [Option.none_or, List.find?_cons, List.find?_nil]
      rw [specGet_specSet]
      by_cases hk : kv.1 = k
      · simp [hk]
      · simp [hk]

theorem specSet_keys_nodup (l : List json_bucket_t) (k : List Nat) (v : json_t)
    (h : (l.map (fun b => b.key)).Nodup) : ((specSet l k v).map (fun b => b.key)).Nodup := by
  unfold specSet
  split
  · rw [specSet_keys_present]; exact h
  · rename_i hm
    rw [List.map_append, List.nodup_append]
    refine ⟨h, by simp, ?_⟩
    intro a ha hb
    simp only [List.map_cons, List.map_nil, List.mem_singleton] at hb
    exact hm (hb ▸ ha)

theorem specSet_keys_subset (l : List json_bucket_t) (k : List Nat) (v : json_t) (a : List Nat)
    (h : a ∈ (specSet l k v).map (fun b => b.key)) : a ∈ l.map (fun b => b.key) ∨ a = k := by
  unfold specSet at h
  split at h
  · rw [specSet_keys_present] at h; exact Or.inl h
  · rw [List.map_append, List.mem_append] at h
    rcases h with h | h
    · exact Or.inl h
    · right; simpa using h

theorem specSets_keys (ops : List (List Nat × json_t)) :
    ∀ l : List json_bucket_t, (l.map (fun b => b.key)).Nodup →
      ((specSets l ops).map (fun b => b.key)).Nodup ∧
      ∀ a, a ∈ (specSets l ops).map (fun b => b.key) →
        a ∈ l.map (fun b => b.key) ∨ a ∈ ops.map (fun kv => kv.1) := by
  induction ops with
  | nil => intro l h; exact ⟨h, fun a ha => Or.inl ha⟩
  | cons kv ops ih =>
    intro l h
    obtain ⟨h1, h2⟩ := ih (specSet l kv.1 kv.2) (specSet_keys_nodup l kv.1 kv.2 h)
    refine ⟨h1, fun a ha => ?_⟩
    rcases h2 a ha with h3 | h3
    · rcases specSet_keys_subset l kv.1 kv.2 a h3 with h4 | h4
      · exact Or.inl h4
      · right; simp [h4]
    · right; simp only [List.map_cons, List.mem_cons]; exact Or.inr h3

theorem specSets_length_le_distinct (ops : List (List Nat × json_t)) :
    (specSets [] ops).length ≤ distinctKeys ops := by
  obtain ⟨h1, h2⟩ := specSets_keys ops [] (by simp)
  unfold distinctKeys
  have e : (specSets [] ops).length = ((specSets [] ops).map (fun b => b.key)).toFinset.card := by
    rw [List.toFinset_card_of_nodup h1]; simp
  rw [e]
  apply Finset.card_le_card
  intro a ha
  rw [List.mem_toFinset] at ha ⊢
  rcases h2 a ha with h3 | h3
  · simp at h3
  · exact h3

/-- Every object built from `json_object()` by `set` calls with at most 255 distinct keys
    is the consistent table of the list model. -/
theorem runSets_json_object (ops : List (List Nat × json_t)) (h : distinctKeys ops ≤ 255) :
    ∃ o, runSets json_object ops = some o ∧ ObjectInv o (specSets [] ops) := by
  have h0 := (json__object_new_inv 0 (by norm_num)).1
  exact runSets_spec ops json_object [] h0 (le_trans (specSets_length_le_distinct ops) h)

theorem json_object_keys_eq {o : json__object_t} {l : List json_bucket_t} (h : ObjectInv o l) :
    json_object_keys o = l.map (fun b => b.key) := by
  unfold json_object_keys json_object_buckets
  rw [h.buckets_take, List.filterMap_map]
  induction l with
  | nil => rfl
  | cons a l ih => simp [List.filterMap_cons]

theorem distinctKeys_append_le (ops : List (List Nat × json_t)) (kv : List Nat × json_t) :
    distinctKeys ops ≤ distinctKeys (ops ++ [kv]) := by
  unfold distinctKeys
  apply Finset.card_le_card
  intro a ha
  rw [List.mem_toFinset] at ha ⊢
  simp only [List.map_append, List.mem_append]
  exact Or.inl ha

theorem specSets_append (ops : List (List Nat × json_t)) (kv : List Nat × json_t) :
    ∀ l : List json_bucket_t, specSets l (ops ++ [kv]) = specSet (specSets l ops) kv.1 kv.2 := by
  induction ops with
  | nil => intro l; rfl
  | cons a ops ih => intro l; simp only [List.cons_append, specSets]; exact ih _
theorem json_object_pop_loop_terminates {o : json__object_t} {l : List json_bucket_t}
    (hO : ObjectInv o l) (e : Nat) (he : e < o.cap) (he255 : o.infoAt e = 255) :
    ∀ (fuel : Nat) (p : json__object_t) (idx : Nat), p.cap = o.cap → p.info.length = o.cap →
      idx < o.cap → idx ≠ e →
      (∀ i, i < o.cap → stepsTo o.cap e i < stepsTo o.cap e idx → p.infoAt i = o.infoAt i) →
      stepsTo o.cap e idx ≤ fuel → ∃ p1, json_object_pop_loop fuel p idx = some p1 := by
  have hcap4 := hO.cap_pos
  have hpos : 0 < o.cap := by omega
  intro fuel
  induction fuel with
  | zero =>
    intro p idx _ _ hidx hne _ hf
    have := stepsTo_succ o.cap e idx hidx he hne
    omega
  | succ fuel ih =>
    intro p idx hcap hil hidx hne hahead hf
    have hsteps := stepsTo_succ o.cap e idx hidx he hne
    have hnext : (idx + 1) &&& (p.cap - 1) = (idx + 1) % o.cap := by rw [hcap, hO.mask]
    have hnlt : (idx + 1) % o.cap < o.cap := Nat.mod_lt _ hpos
    unfold json_object_pop_loop
    simp only
    rw [hnext]
    by_cases hstop : p.infoAt ((idx + 1) % o.cap) = 255 ∨ p.infoAt ((idx + 1) % o.cap) = 0
    · rw [if_pos hstop]
      exact ⟨_, rfl⟩
    · rw [if_neg hstop]
      have hinfo := hahead _ hnlt (by omega)
      have hne2 : (idx + 1) % o.cap ≠ e := by
        intro h
        rw [h] at hinfo
        exact hstop (Or.inl (by rw [h, hinfo, he255]))
      refine ih ⟨p.buckets, p.sparse.set idx (p.sparseAt ((idx + 1) % o.cap)),
        p.info.set idx (p.infoAt ((idx + 1) % o.cap) - 1), p.len, p.cap⟩ ((idx + 1) % o.cap)
        hcap (by simp [hil]) hnlt hne2 ?_ (by omega)
      intro i hi hst
      have hine : i ≠ idx := by
        intro h
        rw [h] at hst
        omega
      show List.getD (List.set p.info idx _) i 255 = _
      rw [getD_set_eq _ _ _ _ _ (by rw [hil]; exact hidx), if_neg hine]
      exact hahead i hi (by omega)

theorem json__object_move_loop_grow (depth : Nat) :
    ∀ (bs : List json_bucket_t) (dst : json__object_t) (l0 : List json_bucket_t),
      ObjectInv dst l0 → ((l0 ++ bs).map (fun b => b.key)).Nodup →
      l0.length + bs.length ≤ 255 →
      ∃ dst1, json__object_move_loop (fun o k v => json__object_set (depth + 2) o k v false) dst
          (bs.map some) = some dst1 ∧ ObjectInv dst1 (l0 ++ bs) := by
  intro bs
  induction bs with
  | nil =>
    intro dst l0 hD _ _
    exact ⟨dst, rfl, by simpa using hD⟩
  | cons b bs ih =>
    intro dst l0 hD hnd h255
    simp only [List.length_cons] at h255
    have habs : ∀ bk, bk ∈ l0 → bk.key ≠ b.key := by
      intro bk hbk he
      rw [List.map_append, List.nodup_append] at hnd
      exact hnd.2.2 (List.mem_map.mpr ⟨bk, hbk, rfl⟩) (by rw [he]; simp)
    have hspec : specSet l0 b.key b.val = l0 ++ [b] := specSet_absent l0 b.key b.val habs
    obtain ⟨d1, e1, inv1⟩ := json__object_set_spec hD b.key b.val false
      (by rw [hspec]; simp; omega) depth
    rw [hspec] at inv1
    obtain ⟨d2, e2, inv2⟩ := ih d1 (l0 ++ [b]) inv1 (by simpa using hnd) (by simp; omega)
    refine ⟨d2, ?_, by simpa using inv2⟩
    simp only [List.map_cons, json__object_move_loop, e1]
    exact e2

/-- The function `json_object_pop` on a consistent table. -/
theorem json_object_pop_spec {o : json__object_t} {l : List json_bucket_t} (hO : ObjectInv o l)
    (hlen : l.length ≤ 255) (k : List Nat) :
    ((∀ bk, bk ∈ l → bk.key ≠ k) → json_object_pop o k = some (.JSON_NONE, o)) ∧
    (∀ b bk, l[b]? = some bk → bk.key = k →
      ∃ o1, json_object_pop o k = some (bk.val, o1) ∧ o1.len = o.len - 1 ∧
        json_object_buckets o1 = (l.eraseIdx b).map some) := by
  have hcap4 := hO.cap_pos
  constructor
  · intro habs
    obtain ⟨c0, hc1, _, _, _⟩ := json__object_get_index_absent hO hlen k habs
    unfold json_object_pop
    simp only
    rw [hc1]
  · intro b bk hb hk
    have hbl : b < l.length := by
      by_contra hc; rw [List.getElem?_eq_none (by omega)] at hb; cases hb
    obtain ⟨s, hs, hslt, hsb, hsocc⟩ := json__object_get_index_found hO hlen b bk hb
    rw [hk] at hs
    obtain ⟨e, he, he255⟩ := exists_empty_of_count o.info (by
      rw [hO.count, hO.info_len]; have := hO.load; omega)
    rw [hO.info_len] at he
    have hse : s ≠ e := fun h => hsocc (by rw [h]; exact he255)
    obtain ⟨p1, hp1⟩ := json_object_pop_loop_terminates hO e he he255 o.cap
      { o with buckets := memmove o.buckets b (b + 1) (o.len - b), len := o.len - 1 } s rfl
      hO.info_len hslt hse (fun _ _ _ => rfl) (le_of_lt (stepsTo_lt _ _ _ he))
    obtain ⟨f1, f2, f3⟩ := json_object_pop_loop_frame _ _ _ _ hp1
    simp only at f1 f2 f3
    have hload := hO.load
    have hleq := hO.len_eq
    -- the dense array after the shift
    have hshift : ∀ j, j < l.length - 1 →
        (memmove o.buckets b (b + 1) (o.len - b))[j]? = some ((l.eraseIdx b)[j]?) := by
      intro j hj
      rw [getElem?_memmove _ _ _ _ (by rw [hO.buckets_len]; omega) (by rw [hO.buckets_len]; omega),
        List.getElem?_eraseIdx]
      have hb' : ∀ i, i < l.length → o.buckets[i]? = some l[i]? := by
        intro i hi
        have := hO.bucket i hi
        unfold json__object_t.bucketAt at this
        rw [List.getD_eq_getElem?_getD] at this
        have hib : i < o.buckets.length := by rw [hO.buckets_len]; omega
        rw [List.getElem?_eq_getElem hib] at this ⊢
        simp only [Option.getD_some] at this
        rw [this]
      by_cases c1 : j < b
      · have e2 : ¬ (b ≤ j ∧ j < b + (o.len - b)) := by omega
        rw [if_neg e2, if_pos c1]
        exact hb' j (by omega)
      · have e2 : (b ≤ j ∧ j < b + (o.len - b)) := by omega
        rw [if_pos e2, if_neg c1]
        have e3 : b + 1 + (j - b) = j + 1 := by omega
        rw [e3]
        exact hb' (j + 1) (by omega)
    have hlen1 : (l.eraseIdx b).length = l.length - 1 := List.length_eraseIdx_of_lt hbl
    have htake : p1.buckets.take p1.len = (l.eraseIdx b).map some := by
      rw [f3, f2]
      apply List.ext_getElem?
      intro j
      rw [List.getElem?_take, List.getElem?_map]
      by_cases hj : j < o.len - 1
      · rw [if_pos hj, hshift j (by omega), List.getElem?_eq_getElem (by rw [hlen1]; omega)]
        rfl
      · rw [if_neg hj, List.getElem?_eq_none (by rw [hlen1]; omega)]
        rfl
    have hnd1 : ((l.eraseIdx b).map (fun x => x.key)).Nodup := by
      have : (l.eraseIdx b).Sublist l := List.eraseIdx_sublist l b
      exact List.Nodup.sublist (List.Sublist.map _ this) hO.nodup
    -- the trim
    have htrim : ∃ o1, json__object_trim objectDepth p1 = some o1 ∧ o1.len = o.len - 1 ∧
        json_object_buckets o1 = (l.eraseIdx b).map some := by
      unfold json__object_trim
      by_cases hc : p1.cap - (p1.cap - p1.cap / 4) > p1.len
      · rw [if_pos hc]
        have hN := (json__object_new_inv p1.len (by rw [f2]; omega)).1
        obtain ⟨d1, e1, inv1⟩ := json__object_move_loop_grow 1 (l.eraseIdx b)
          (json__object_new p1.len) [] hN (by simpa using hnd1) (by simp; omega)
        simp only [List.nil_append] at inv1
        refine ⟨d1, ?_, by rw [inv1.len_eq, hlen1, hleq], ?_⟩
        · unfold json__object_move
          rw [htake]
          exact e1
        · unfold json_object_buckets
          exact inv1.buckets_take
      · rw [if_neg hc]
        exact ⟨p1, rfl, f2, htake⟩
    obtain ⟨o1, ht1, ht2, ht3⟩ := htrim
    refine ⟨o1, ?_, ht2, ht3⟩
    unfold json_object_pop
    simp only
    rw [hs]
    simp only
    rw [hO.bucket b hbl, hb]
    simp only
    rw [hp1]
    simp only
    rw [ht1]

/-! ## Object store: a probe distance of 255 is read as the empty marker -/

theorem specSets_of_nodup (ops : List (List Nat × json_t)) :
    ∀ l : List json_bucket_t, (∀ kv, kv ∈ ops → kv.1 ∉ l.map (fun b => b.key)) →
      (ops.map (fun kv => kv.1)).Nodup →
      specSets l ops = l ++ ops.map (fun kv => ⟨kv.1, kv.2⟩) := by
  induction ops with
  | nil => intro l _ _; simp [specSets]
  | cons kv ops ih =>
    intro l hdis hnd
    simp only [List.map_cons, List.nodup_cons] at hnd
    have habs : ∀ bk, bk ∈ l → bk.key ≠ kv.1 := by
      intro bk hbk he
      exact hdis kv (by simp) (List.mem_map.mpr ⟨bk, hbk, he⟩)
    simp only [specSets]
    rw [specSet_absent l kv.1 kv.2 habs, ih _ ?_ hnd.2]
    · simp
    · intro kv1 hkv1 hm
      rw [List.map_append, List.mem_append] at hm
      rcases hm with hm | hm
      · exact hdis kv1 (by simp [hkv1]) hm
      · simp only [List.map_cons, List.map_nil, List.mem_singleton] at hm
        exact hnd.1 (hm ▸ List.mem_map.mpr ⟨kv1, hkv1, rfl⟩)

theorem runSets_append (ops : List (List Nat × json_t)) (kv : List Nat × json_t) :
    ∀ o : json__object_t, runSets o (ops ++ [kv]) =
      (runSets o ops).bind (fun o1 => json_object_set o1 kv.1 kv.2) := by
  induction ops with
  | nil =>
    intro o
    simp only [List.nil_append, runSets, Option.some_bind]
    cases json_object_set o kv.1 kv.2 <;> rfl
  | cons a ops ih =>
    intro o
    simp only [List.cons_append, runSets]
    cases json_object_set o a.1 a.2 with
    | none => rfl
    | some o1 => exact ih o1

theorem probe_distance (cap h c j : Nat) (hj : cap = 2 ^ j) (hh : h < cap) (hc : c < cap) :
    ((cap + (h + c) % cap) - h) &&& (cap - 1) = c := by
  rw [and_mask_eq_mod _ _ _ hj]
  by_cases hw : h + c < cap
  · rw [Nat.mod_eq_of_lt hw]
    have : cap + (h + c) - h = cap + c := by omega
    rw [this, Nat.add_mod_left, Nat.mod_eq_of_lt hc]
  · have e1 : (h + c) % cap = h + c - cap := by
      rw [Nat.mod_eq_sub_mod (by omega), Nat.mod_eq_of_lt (by omega)]
    rw [e1]
    have : cap + (h + c - cap) - h = c := by omega
    rw [this, Nat.mod_eq_of_lt hc]

/-- With 255 entries that all start probing at slot `h`, the 255 slots from `h` on hold
    the distances 0 to 254, and the next slot is empty. -/
theorem ObjectInv.full_cluster {o : json__object_t} {l : List json_bucket_t}
    (hO : ObjectInv o l) (hl : l.length = 255) (h : Nat)
    (hh : ∀ bk, bk ∈ l → homeSlot o.cap bk.key = h) (hcap : 256 ≤ o.cap) :
    (∀ t, t < 255 → o.infoAt ((h + t) % o.cap) = t ∧
      ∃ b bk, b < 255 ∧ o.sparseAt ((h + t) % o.cap) = some b ∧ l[b]? = some bk) ∧
    o.infoAt ((h + 255) % o.cap) = 255 := by
  have hpos : 0 < o.cap := by omega
  have key : ∀ b : Fin 255, ∃ i, i < o.cap ∧ o.infoAt i ≠ 255 ∧ o.sparseAt i = some b.val :=
    fun b => hO.index b (by rw [hO.len_eq, hl]; exact b.isLt)
  choose slotOf hs1 hs2 hs3 using key
  have hinfo : ∀ b : Fin 255, o.infoAt (slotOf b) < 255 ∧
      (h + o.infoAt (slotOf b)) % o.cap = slotOf b := by
    intro b
    obtain ⟨g1, b1, bk1, g2, g3, g4⟩ := hO.slot _ (hs1 b) (hs2 b)
    rw [hh bk1 (List.getElem?_mem g3)] at g4
    rw [hO.len_eq, hl] at g1
    exact ⟨g1, g4⟩
  have hinj : Function.Injective
      (fun b : Fin 255 => (⟨o.infoAt (slotOf b), (hinfo b).1⟩ : Fin 255)) := by
    intro b b1 hbb
    have e : o.infoAt (slotOf b) = o.infoAt (slotOf b1) := congrArg Fin.val hbb
    have e2 : slotOf b = slotOf b1 := by rw [← (hinfo b).2, ← (hinfo b1).2, e]
    have h3 := hs3 b
    rw [e2, hs3 b1] at h3
    exact Fin.ext (Option.some.inj h3).symm
  have hsurj := Finite.injective_iff_surjective.mp hinj
  constructor
  · intro t ht
    obtain ⟨b, hb⟩ := hsurj ⟨t, ht⟩
    have e : o.infoAt (slotOf b) = t := congrArg Fin.val hb
    have e2 : slotOf b = (h + t) % o.cap := by rw [← (hinfo b).2, e]
    rw [← e2]
    exact ⟨e, b.val, l[b.val], b.isLt, hs3 b, List.getElem?_eq_getElem (by rw [hl]; exact b.isLt)⟩
  · by_contra hne
    obtain ⟨g1, b1, bk1, g2, g3, g4⟩ := hO.slot _ (Nat.mod_lt _ hpos) hne
    rw [hh bk1 (List.getElem?_mem g3)] at g4
    rw [hO.len_eq, hl] at g1
    have hmod : o.infoAt ((h + 255) % o.cap) % o.cap = 255 % o.cap :=
      Nat.ModEq.add_left_cancel' h g4
    rw [Nat.mod_eq_of_lt (show o.infoAt ((h + 255) % o.cap) < o.cap by omega),
      Nat.mod_eq_of_lt (show 255 < o.cap by omega)] at hmod
    omega

theorem FullCluster.lookup_loop {p : json__object_t} {cap h : Nat} {K : List Nat}
    (hF : FullCluster p cap h K) (j : Nat) (hj : cap = 2 ^ j) :
    ∀ n t fuel, t + n = 255 → n < fuel →
      json__object_get_index_loop p K fuel ((h + t) % cap) t = some (none, (h + 255) % cap) := by
  intro n
  induction n with
  | zero =>
    intro t fuel ht hf
    have : t = 255 := by omega
    subst this
    obtain ⟨fuel, rfl⟩ : ∃ f, fuel = f + 1 := ⟨fuel - 1, by omega⟩
    unfold json__object_get_index_loop
    simp only
    rw [if_pos (Or.inl hF.stop)]
  | succ n ih =>
    intro t fuel ht hf
    obtain ⟨fuel, rfl⟩ : ∃ f, fuel = f + 1 := ⟨fuel - 1, by omega⟩
    obtain ⟨s1, b, bk, _, s2, s3, s4⟩ := hF.slots t (by omega)
    unfold json__object_get_index_loop
    simp only
    rw [if_neg (by rw [s1]; omega), s2]
    simp only
    rw [s3]
    simp only
    rw [if_neg (fun e => s4 e.symm), hF.cap_eq, and_mask_eq_mod _ _ _ hj, ← add_succ_mod]
    exact ih (t + 1) fuel (by omega) (by omega)

/-- In such a table a `set` of `K` does not find `K`, stores its index in the slot at
    distance 255 (whose info byte stays `0xFF`) and appends a bucket. -/
theorem FullCluster.set_appends {p : json__object_t} {cap h : Nat} {K : List Nat}
    (hF : FullCluster p cap h K) (j : Nat) (hj : cap = 2 ^ j) (hcap : 512 ≤ cap)
    (hh : hashSlot (json__object_hash K) cap = h) (hn : 255 ≤ p.len) (hn2 : p.len ≤ 256)
    (v : json_t) (c : Bool) (depth : Nat) :
    ∃ p1, json__object_set (depth + 1) p K v c = some p1 ∧ p1.len = p.len + 1 ∧
      FullCluster p1 cap h K ∧
      p1.buckets.take p1.len = p.buckets.take p.len ++ [some ⟨K, v⟩] := by
  have hpos : 0 < cap := by omega
  have hhlt : h < cap := by
    rw [← hh]; unfold hashSlot; rw [and_mask_eq_mod _ _ _ hj]; exact Nat.mod_lt _ hpos
  have hidx : (h + 255) % cap < cap := Nat.mod_lt _ hpos
  have hres : json__object_reserve_with (fun o k v => json__object_set depth o k v false) p
      (p.len + 1) = some p := by
    unfold json__object_reserve_with
    rw [if_neg]
    rw [hF.cap_eq]; omega
  have hlook : json__object_get_index p K (json__object_hash K)
      = some (none, (h + 255) % cap) := by
    unfold json__object_get_index
    rw [hF.cap_eq, hh]
    have := hF.lookup_loop j hj 255 0 257 (by omega) (by omega)
    rwa [Nat.add_zero, Nat.mod_eq_of_lt hhlt] at this
  obtain ⟨f, hf⟩ : ∃ f, cap = f + 1 := ⟨cap - 1, by omega⟩
  refine ⟨⟨p.buckets.set p.len (some ⟨K, v⟩), p.sparse.set ((h + 255) % cap) (some p.len),
    p.info.set ((h + 255) % cap) 255, p.len + 1, p.cap⟩, ?_, rfl, ?_, ?_⟩
  · unfold json__object_set
    rw [hres]
    simp only
    rw [hlook]
    simp only
    rw [hF.cap_eq, hh, probe_distance cap h 255 j hj hhlt (by omega)]
    rw [hf]
    unfold json__object_insert_loop
    simp only
    rw [← hf, if_pos hF.stop]
    simp only [json__object_place]
    rw [if_pos (show p.len < p.cap by rw [hF.cap_eq]; omega)]
    simp [hF.cap_eq]
  · refine ⟨hF.cap_eq, by simp [hF.buckets_len], by simp [hF.sparse_len],
      by simp [hF.info_len], ?_, ?_⟩
    · intro t ht
      obtain ⟨s1, b, bk, s0, s2, s3, s4⟩ := hF.slots t ht
      have hne : (h + t) % cap ≠ (h + 255) % cap := by
        intro e
        have hmod : t % cap = 255 % cap := Nat.ModEq.add_left_cancel' h e
        rw [Nat.mod_eq_of_lt (show t < cap by omega),
          Nat.mod_eq_of_lt (show 255 < cap by omega)] at hmod
        omega
      refine ⟨?_, b, bk, s0, ?_, ?_, s4⟩
      · show List.getD (List.set p.info _ 255) _ 255 = t
        rw [getD_set_eq _ _ _ _ _ (by rw [hF.info_len]; exact hidx), if_neg hne]
        exact s1
      · show List.getD (List.set p.sparse _ _) _ none = some b
        rw [getD_set_eq _ _ _ _ _ (by rw [hF.sparse_len]; exact hidx), if_neg hne]
        exact s2
      · show List.getD (List.set p.buckets _ _) _ none = some bk
        rw [getD_set_eq _ _ _ _ _ (by rw [hF.buckets_len]; omega), if_neg (by omega)]
        exact s3
    · show List.getD (List.set p.info _ 255) _ 255 = 255
      rw [getD_set_eq _ _ _ _ _ (by rw [hF.info_len]; exact hidx), if_pos rfl]
  · show List.take (p.len + 1) (List.set p.buckets p.len _) = _
    have hbl := hF.buckets_len
    have htl : (List.take p.len p.buckets).length = p.len := by
      rw [List.length_take]; omega
    apply List.ext_getElem?
    intro i
    rw [List.getElem?_take, List.getElem?_set]
    by_cases hi : i < p.len
    · rw [if_pos (by omega), if_neg (by omega), List.getElem?_append_left (by rw [htl]; exact hi),
        List.getElem?_take, if_pos hi]
    · rw [List.getElem?_append_right (by rw [htl]; omega), htl]
      by_cases hi2 : i = p.len
      · subst hi2
        rw [if_pos (by omega), if_pos rfl, if_pos (by omega), Nat.sub_self]
        rfl
      · rw [if_neg (by omega)]
        obtain ⟨m, hm⟩ : ∃ m, i - p.len = m + 1 := ⟨i - p.len - 1, by omega⟩
        rw [hm]
        rfl

set_option maxRecDepth 100000 in
theorem collidingOps_hash :
    ∀ kv, kv ∈ collidingOps 256 → json__object_hash kv.1 = 2118287872 := by
  decide

set_option maxRecDepth 100000 in
theorem collidingIndex_key : ∀ i, i ∈ List.range 256 → collidingIndex (collidingKey i) = i := by
  decide

theorem collidingKey_inj (i j : Nat) (hi : i < 256) (hj : j < 256)
    (h : collidingKey i = collidingKey j) : i = j := by
  rw [← collidingIndex_key i (List.mem_range.mpr hi), ← collidingIndex_key j (List.mem_range.mpr hj),
    h]

theorem collidingOps_nodup (n : Nat) (hn : n ≤ 256) :
    ((collidingOps n).map (fun kv => kv.1)).Nodup := by
  unfold collidingOps
  rw [List.map_map]
  apply List.Nodup.map_on _ (List.nodup_range n)
  intro i hi j hj h
  exact collidingKey_inj i j (by have := List.mem_range.mp hi; omega)
    (by have := List.mem_range.mp hj; omega) h

theorem collidingOps_succ (n : Nat) :
    collidingOps (n + 1) = collidingOps n ++ [(collidingKey n, .JSON_NULL)] := by
  unfold collidingOps
  rw [List.range_succ, List.map_append]
  rfl

/-- C4, as stated, fails without a bound on the number of keys.  After 256 sets of keys
    with one and the same hash, the last key stands at probe distance 255, which the info
    byte cannot tell from the empty marker `0xFF`: a further `set` of that key, which is
    present in the dense array, does not find it and appends a second bucket, so `len`
    grows by one. -/
theorem object_set_present_key_appends :
    ∃ o o1, runSets json_object (collidingOps 256) = some o ∧
      json_object_set o (collidingKey 255) .JSON_TRUE = some o1 ∧
      collidingKey 255 ∈ json_object_keys o ∧
      json_object_len o1 = json_object_len o + 1 := by
  have hnd := collidingOps_nodup 256 (le_refl _)
  have hnd255 := collidingOps_nodup 255 (by norm_num)
  have hlen255 : (collidingOps 255).length = 255 := by simp [collidingOps]
  have hdk : distinctKeys (collidingOps 255) ≤ 255 := by
    unfold distinctKeys
    have := List.toFinset_card_le ((collidingOps 255).map (fun kv => kv.1))
    simp only [List.length_map, hlen255] at this
    simpa using this
  obtain ⟨o, e, inv⟩ := runSets_json_object (collidingOps 255) hdk
  rw [specSets_of_nodup _ [] (by simp) hnd255, List.nil_append] at inv
  have hl : ((collidingOps 255).map (fun kv => (⟨kv.1, kv.2⟩ : json_bucket_t))).length = 255 := by
    simp [hlen255]
  -- the capacity is at least 512
  obtain ⟨j, j2, _, hj⟩ := inv.cap_pow
  have hcap : 512 ≤ o.cap := by
    have hload := inv.load
    rw [inv.len_eq, hl] at hload
    by_contra hc
    have hj8 : j ≤ 8 := by
      by_contra hj9
      have : (2:Nat) ^ 9 ≤ 2 ^ j := Nat.pow_le_pow_right (by norm_num) (by omega)
      omega
    have : (2:Nat) ^ j ≤ 2 ^ 8 := Nat.pow_le_pow_right (by norm_num) hj8
    omega
  -- all keys start probing at the same slot
  have hmem256 : ∀ kv, kv ∈ collidingOps 255 → kv ∈ collidingOps 256 := by
    intro kv hkv
    rw [collidingOps_succ]
    exact List.mem_append_left _ hkv
  have hK256 : (collidingKey 255, json_t.JSON_NULL) ∈ collidingOps 256 := by
    rw [collidingOps_succ]; simp
  have hhome : ∀ bk, bk ∈ (collidingOps 255).map (fun kv => (⟨kv.1, kv.2⟩ : json_bucket_t)) →
      homeSlot o.cap bk.key = hashSlot 2118287872 o.cap := by
    intro bk hbk
    obtain ⟨kv, hkv, rfl⟩ := List.mem_map.mp hbk
    unfold homeSlot
    rw [collidingOps_hash kv (hmem256 kv hkv)]
  have hKabs : ∀ bk, bk ∈ (collidingOps 255).map (fun kv => (⟨kv.1, kv.2⟩ : json_bucket_t)) →
      bk.key ≠ collidingKey 255 := by
    intro bk hbk he
    obtain ⟨kv, hkv, rfl⟩ := List.mem_map.mp hbk
    simp only at he
    rw [collidingOps_succ, List.map_append, List.nodup_append] at hnd
    exact hnd.2.2 (List.mem_map.mpr ⟨kv, hkv, rfl⟩) (by rw [he]; simp)
  obtain ⟨c1, c2⟩ := inv.full_cluster hl _ hhome (by omega)
  have hF : FullCluster o o.cap (hashSlot 2118287872 o.cap) (collidingKey 255) := by
    refine ⟨rfl, inv.buckets_len, inv.sparse_len, inv.info_len, ?_, c2⟩
    intro t ht
    obtain ⟨s1, b, bk, s0, s2, s3⟩ := c1 t ht
    refine ⟨s1, b, bk, s0, s2, ?_, hKabs bk (List.getElem?_mem s3)⟩
    rw [inv.bucket b (by rw [hl]; exact s0), s3]
  have hhK : hashSlot (json__object_hash (collidingKey 255)) o.cap = hashSlot 2118287872 o.cap := by
    rw [collidingOps_hash _ hK256]
  have hlen_o : o.len = 255 := by rw [inv.len_eq, hl]
  obtain ⟨o256, e1, l1, F1, b1⟩ := hF.set_appends j hj hcap hhK (by omega) (by omega)
    .JSON_NULL true 2
  obtain ⟨o257, e2, l2, _, _⟩ := F1.set_appends j hj hcap hhK (by omega) (by omega)
    .JSON_TRUE true 2
  refine ⟨o256, o257, ?_, e2, ?_, l2⟩
  · rw [collidingOps_succ, runSets_append, e]
    exact e1
  · unfold json_object_keys json_object_buckets
    rw [b1, List.filterMap_append]
    apply List.mem_append_right
    simp

/-! ## The claims on the Object Store -/

/-- C2 fails on the code: after `set("a",1)`, `set("b",2)`, `set("c",3)` on a new object,
    `pop("a")` shifts the buckets of `b` and `c` down by one position but leaves their
    entries in `sparse` unchanged.  Afterwards `get("b")` compares against the bucket of
    `c` and returns the `JSON_NONE` sentinel although `b` is live, and `get("c")` reads the
    indeterminate bucket behind the end of the dense array. -/
theorem json_object_pop_stale_index :
    runSets json_object [([97], .JSON_NUMBER 1), ([98], .JSON_NUMBER 2), ([99], .JSON_NUMBER 3)]
      = some ⟨[some ⟨[97], .JSON_NUMBER 1⟩, some ⟨[98], .JSON_NUMBER 2⟩,
          some ⟨[99], .JSON_NUMBER 3⟩, none], [none, some 0, some 1, some 2],
          [255, 0, 0, 0], 3, 4⟩ ∧
    json_object_pop ⟨[some ⟨[97], .JSON_NUMBER 1⟩, some ⟨[98], .JSON_NUMBER 2⟩,
          some ⟨[99], .JSON_NUMBER 3⟩, none], [none, some 0, some 1, some 2],
          [255, 0, 0, 0], 3, 4⟩ [97]
      = some (.JSON_NUMBER 1, ⟨[some ⟨[98], .JSON_NUMBER 2⟩, some ⟨[99], .JSON_NUMBER 3⟩,
          none, none], [none, some 0, some 1, some 2], [255, 255, 0, 0], 2, 4⟩) ∧
    json_object_get ⟨[some ⟨[98], .JSON_NUMBER 2⟩, some ⟨[99], .JSON_NUMBER 3⟩,
          none, none], [none, some 0, some 1, some 2], [255, 255, 0, 0], 2, 4⟩ [98]
      = some .JSON_NONE ∧
    json_object_get ⟨[some ⟨[98], .JSON_NUMBER 2⟩, some ⟨[99], .JSON_NUMBER 3⟩,
          none, none], [none, some 0, some 1, some 2], [255, 255, 0, 0], 2, 4⟩ [99]
      = none :=
  ⟨by decide, by decide, by decide, by decide⟩

/-- C3: for every object built from `json_object()` by `json_object_set` calls only, with
    fewer than 255 distinct keys, the calls all return, and `json_object_get(k)` returns
    the value of the last set on `k` for every key that was set and the `JSON_NONE`
    sentinel for every key that was never set. -/
theorem object_get_after_sets (ops : List (List Nat × json_t)) (h : distinctKeys ops < 255) :
    ∃ o, runSets json_object ops = some o ∧ ∀ k, json_object_get o k = some (lastSet ops k) := by
  obtain ⟨o, e, inv⟩ := runSets_json_object ops (by omega)
  refine ⟨o, e, fun k => ?_⟩
  rw [json_object_get_spec inv (le_trans (specSets_length_le_distinct ops) (by omega)) k,
    specGet_specSets]
  unfold lastSet
  cases ops.reverse.find? (fun kv => decide (kv.1 = k)) <;> rfl

/-- Witness of C3 on three calls, two of them on the same key. -/
theorem object_get_after_sets_witness :
    ∃ o, runSets json_object [([97], .JSON_TRUE), ([98], .JSON_NULL), ([97], .JSON_FALSE)]
        = some o ∧
      ∀ k, json_object_get o k
        = some (lastSet [([97], .JSON_TRUE), ([98], .JSON_NULL), ([97], .JSON_FALSE)] k) :=
  object_get_after_sets _ (by decide)

/-- C4, amended: effect of one `json_object_set(k, v)` on an object built by set calls
    only, with fewer than 255 distinct keys (`k` included).  If `k` is already present,
    `len` and the sequence of keys in the dense bucket array are unchanged and only the
    bucket of `k` changes, its value becoming `v`; if `k` is absent, `len` grows by exactly
    one and the bucket `(k, v)` is appended after the existing buckets, which keep their
    key, value and position (also when the set triggers a growth rehash). -/
theorem object_set_effect (ops : List (List Nat × json_t)) (k : List Nat) (v : json_t)
    (h : distinctKeys (ops ++ [(k, v)]) < 255) :
    ∃ o o1, runSets json_object ops = some o ∧ json_object_set o k v = some o1 ∧
      (k ∈ json_object_keys o →
        json_object_len o1 = json_object_len o ∧ json_object_keys o1 = json_object_keys o ∧
        json_object_buckets o1 = (json_object_buckets o).map
          (fun c => c.map (fun b => if b.key = k then ⟨k, v⟩ else b))) ∧
      (k ∉ json_object_keys o →
        json_object_len o1 = json_object_len o + 1 ∧
        json_object_buckets o1 = json_object_buckets o ++ [some ⟨k, v⟩]) := by
  have hd := distinctKeys_append_le ops (k, v)
  obtain ⟨o, e, inv⟩ := runSets_json_object ops (by omega)
  have hl := specSets_length_le_distinct (ops ++ [(k, v)])
  rw [specSets_append] at hl
  obtain ⟨o1, e1, inv1⟩ := json__object_set_spec inv k v true (by simp only at hl; omega) 1
  refine ⟨o, o1, e, e1, ?_, ?_⟩
  · intro hk
    rw [json_object_keys_eq inv] at hk
    obtain ⟨bk, hbk, hkk⟩ := List.mem_map.mp hk
    have hspec := specSet_present _ k v bk hbk hkk
    rw [hspec] at inv1
    refine ⟨?_, ?_, ?_⟩
    · unfold json_object_len; rw [inv1.len_eq, inv.len_eq]; simp
    · rw [json_object_keys_eq inv1, json_object_keys_eq inv, specSet_keys_present]
    · unfold json_object_buckets
      rw [inv1.buckets_take, inv.buckets_take, List.map_map, List.map_map]
      rfl
  · intro hk
    rw [json_object_keys_eq inv] at hk
    have habs : ∀ bk, bk ∈ specSets [] ops → bk.key ≠ k :=
      fun bk hbk hkk => hk (List.mem_map.mpr ⟨bk, hbk, hkk⟩)
    have hspec := specSet_absent _ k v habs
    rw [hspec] at inv1
    refine ⟨?_, ?_⟩
    · unfold json_object_len; rw [inv1.len_eq, inv.len_eq]; simp
    · unfold json_object_buckets
      rw [inv1.buckets_take, inv.buckets_take]; simp

/-- Witness of the amended C4: a set that overwrites and triggers the growth rehash. -/
theorem object_set_effect_witness :
    ∃ o o1, runSets json_object [([97], .JSON_TRUE), ([98], .JSON_NULL), ([99], .JSON_FALSE)]
        = some o ∧ json_object_set o [98] .JSON_TRUE = some o1 ∧
      ([98] ∈ json_object_keys o →
        json_object_len o1 = json_object_len o ∧ json_object_keys o1 = json_object_keys o ∧
        json_object_buckets o1 = (json_object_buckets o).map
          (fun c => c.map (fun b => if b.key = [98] then ⟨[98], .JSON_TRUE⟩ else b))) ∧
      ([98] ∉ json_object_keys o →
        json_object_len o1 = json_object_len o + 1 ∧
        json_object_buckets o1 = json_object_buckets o ++ [some ⟨[98], .JSON_TRUE⟩]) :=
  object_set_effect _ _ _ (by decide)

/-- C5: effect of one `json_object_pop(k)` on an object built by set calls only (fewer
    than 255 keys).  If `k` is absent the call returns the `JSON_NONE` sentinel and leaves
    the whole store (`len`, the dense bucket array and the hash index) unchanged; if `k` is
    present, in the bucket at position `j`, it returns the value last set for `k`, `len`
    decreases by exactly one, and the dense bucket array afterwards is the previous bucket
    sequence with the bucket at `j` removed, the other buckets keeping their order. -/
theorem object_pop_effect (ops : List (List Nat × json_t)) (k : List Nat)
    (h : distinctKeys ops < 255) :
    ∃ o, runSets json_object ops = some o ∧
      (k ∉ json_object_keys o → json_object_pop o k = some (.JSON_NONE, o)) ∧
      (k ∈ json_object_keys o → ∃ o1 j,
        json_object_pop o k = some (lastSet ops k, o1) ∧
        (json_object_buckets o)[j]? = some (some ⟨k, lastSet ops k⟩) ∧
        json_object_len o1 = json_object_len o - 1 ∧
        json_object_buckets o1 = (json_object_buckets o).eraseIdx j) := by
  obtain ⟨o, e, inv⟩ := runSets_json_object ops (by omega)
  have hlen : (specSets [] ops).length ≤ 255 :=
    le_trans (specSets_length_le_distinct ops) (by omega)
  obtain ⟨p1, p2⟩ := json_object_pop_spec inv hlen k
  refine ⟨o, e, ?_, ?_⟩
  · intro hk
    rw [json_object_keys_eq inv] at hk
    exact p1 (fun bk hbk hkk => hk (List.mem_map.mpr ⟨bk, hbk, hkk⟩))
  · intro hk
    rw [json_object_keys_eq inv] at hk
    obtain ⟨bk, hbk, hkk⟩ := List.mem_map.mp hk
    obtain ⟨j, hj⟩ := List.mem_iff_getElem?.mp hbk
    obtain ⟨o1, q1, q2, q3⟩ := p2 j bk hj hkk
    have hval : bk.val = lastSet ops k := by
      have h1 := specGet_specSets ops k []
      have h2 : specGet (specSets [] ops) k = bk.val := by
        unfold specGet
        rw [← hkk, inv.find_key bk hbk]
      rw [h2] at h1
      rw [h1]
      unfold lastSet
      cases ops.reverse.find? (fun kv => decide (kv.1 = k)) <;> rfl
    have hbk_eq : bk = ⟨k, lastSet ops k⟩ := by
      cases bk
      simp only at hkk hval
      rw [hkk, hval]
    refine ⟨o1, j, by rw [← hval]; exact q1, ?_, q2, ?_⟩
    · unfold json_object_buckets
      rw [inv.buckets_take, List.getElem?_map, hj, hbk_eq]
      rfl
    · unfold json_object_buckets at q3 ⊢
      rw [q3, inv.buckets_take]
      apply List.ext_getElem?
      intro i
      simp only [List.getElem?_map, List.getElem?_eraseIdx]
      split <;> rfl

/-- Witness of C5 on an object with three keys, the first of which is removed. -/
theorem object_pop_effect_witness :
    ∃ o, runSets json_object [([97], .JSON_TRUE), ([98], .JSON_NULL), ([99], .JSON_FALSE)]
        = some o ∧
      ([97] ∉ json_object_keys o → json_object_pop o [97] = some (.JSON_NONE, o)) ∧
      ([97] ∈ json_object_keys o → ∃ o1 j,
        json_object_pop o [97] = some
          (lastSet [([97], .JSON_TRUE), ([98], .JSON_NULL), ([99], .JSON_FALSE)] [97], o1) ∧
        (json_object_buckets o)[j]? = some (some ⟨[97],
          lastSet [([97], .JSON_TRUE), ([98], .JSON_NULL), ([99], .JSON_FALSE)] [97]⟩) ∧
        json_object_len o1 = json_object_len o - 1 ∧
        json_object_buckets o1 = (json_object_buckets o).eraseIdx j) :=
  object_pop_effect _ _ (by decide)

theorem ArrayOp.run_inv (a a1 : json__array_t) (l : List json_t) (op : ArrayOp)
    (out : Option json_t) (h : ArrayInv a l) (hlen : a.len < 2 ^ 30)
    (hr : op.run a = some (a1, out)) : (∃ l1, ArrayInv a1 l1) ∧ a1.cap ≠ 0 := by
  have key : ∀ l1 o1, op.spec l = some (l1, o1) → (op.run a).isSome →
      ((∃ l1, ArrayInv a1 l1) ∧ a1.cap ≠ 0) := by
    intro l1 o1 hs _
    obtain ⟨a2, e, inv⟩ := ArrayOp.run_spec a l l1 op o1 h hlen hs
    rw [hr] at e
    simp only [Option.some.injEq, Prod.mk.injEq] at e
    obtain ⟨rfl, rfl⟩ := e
    refine ⟨⟨l1, inv⟩, ?_⟩
    have hl := h.2.1
    have hl1 := inv.2.1
    have hle := inv.2.2.1
    cases op with
    | push v =>
      simp only [ArrayOp.spec, Option.some.injEq, Prod.mk.injEq] at hs
      obtain ⟨rfl, rfl⟩ := hs
      simp at hl1; omega
    | insert i v =>
      simp only [ArrayOp.spec] at hs
      split at hs
      · simp only [Option.some.injEq, Prod.mk.injEq] at hs
        obtain ⟨rfl, rfl⟩ := hs
        rw [List.length_insertIdx _ _ (by omega)] at hl1; omega
      · cases hs
    | set i v =>
      simp only [ArrayOp.spec] at hs
      split at hs
      · simp only [Option.some.injEq, Prod.mk.injEq] at hs
        obtain ⟨rfl, rfl⟩ := hs
        simp at hl1; omega
      · cases hs
    | pop i =>
      simp only [ArrayOp.spec] at hs
      split at hs
      · rename_i hi
        obtain ⟨v, a2, e, _, _, hc⟩ := json_array_pop_spec a l i h (by omega)
        simp only [ArrayOp.run, e, Option.map_some', Option.some.injEq, Prod.mk.injEq] at hr
        rw [← hr.1]; exact hc
      · cases hs
    | erase i =>
      simp only [ArrayOp.spec] at hs
      split at hs
      · rename_i hi
        obtain ⟨v, a2, e, _, _, hc⟩ := json_array_pop_spec a l i h (by omega)
        simp only [ArrayOp.run, json_array_erase, e, Option.map_some', Option.some.injEq,
          Prod.mk.injEq] at hr
        rw [← hr.1]; exact hc
      · cases hs
  have hsome : (op.run a).isSome := by rw [hr]; rfl
  have hl := h.2.1
  cases op with
  | push v => exact key _ _ rfl hsome
  | insert i v =>
    have hi : i ≤ l.length := by
      by_contra hcon
      have : ¬ i ≤ a.len := by omega
      simp [ArrayOp.run, json_array_insert, this] at hr
    exact key (l.insertIdx i v) none (by simp [ArrayOp.spec, hi]) hsome
  | set i v =>
    have hi : i < l.length := by
      by_contra hcon
      have : ¬ i < a.len := by omega
      simp [ArrayOp.run, json_array_set, this] at hr
    exact key (l.set i v) none (by simp [ArrayOp.spec, hi]) hsome
  | pop i =>
    have hi : i < l.length := by
      by_contra hcon
      have : ¬ i < a.len := by omega
      simp [ArrayOp.run, json_array_pop, this] at hr
    exact key (l.eraseIdx i) l[i]? (by simp [ArrayOp.spec, hi]) hsome
  | erase i =>
    have hi : i < l.length := by
      by_contra hcon
      have : ¬ i < a.len := by omega
      simp [ArrayOp.run, json_array_erase, json_array_pop, this] at hr
    exact key (l.eraseIdx i) none (by simp [ArrayOp.spec, hi]) hsome

theorem ArrayReach.array_inv {a : json__array_t} (h : ArrayReach a) :
    (∃ l, ArrayInv a l) ∧ (a = json__array_new 0 ∨ a.cap ≠ 0) := by
  induction h with
  | new len h =>
    refine ⟨⟨[], json__array_new_inv len h⟩, ?_⟩
    rcases Nat.eq_zero_or_pos len with h0 | h0
    · left; rw [h0]
    · right
      have := (json__array_reserve_spec ⟨[], 0, 0⟩ [] len
        ⟨rfl, rfl, le_refl _, Or.inl rfl, fun j hj => absurd hj (by simp)⟩ h).2.1
      show (json__array_reserve ⟨[], 0, 0⟩ len).cap ≠ 0
      omega
  | step a a1 op out _ hlen h ih =>
    obtain ⟨⟨l, inv⟩, _⟩ := ih
    obtain ⟨h1, h2⟩ := ArrayOp.run_inv a a1 l op out inv hlen h
    exact ⟨h1, Or.inr h2⟩

/-! ## The claims on the Array Store and the String Store -/

/-- C7: the Array Store refines a list.  Starting from `json_array()`, every sequence of
    `json_array_push`, `json_array_insert`, `json_array_set`, `json_array_pop` and
    `json_array_erase` calls whose indices are in range for the list model (`specArrayOps`
    succeeds) runs without a failed assertion, every `json_array_pop` returns the element the
    list model removes, `json_array_len` is the length of the model list and
    `json_array_get i` is its `i`-th element for every `i < len`. -/
theorem array_store_refines_list (ops : List ArrayOp) (l : List json_t)
    (outs : List (Option json_t)) (hlen : ops.length ≤ 2 ^ 30)
    (hs : specArrayOps [] ops = some (l, outs)) :
    ∃ a, runArrayOps json_array ops = some (a, outs) ∧ json_array_len a = l.length ∧
      ∀ i, i < l.length → json_array_get a i = l[i]? := by
  have h0 : ArrayInv json_array [] := json__array_new_inv 0 (by norm_num)
  have hl0 : json_array.len = 0 := h0.2.1
  obtain ⟨a, e, inv⟩ := runArrayOps_spec ops json_array [] l outs h0 (by omega) hs
  refine ⟨a, e, inv.2.1, fun i hi => ?_⟩
  obtain ⟨_, a2, _, _, a5⟩ := inv
  unfold json_array_get
  rw [if_pos (by omega), List.getD_eq_getElem?_getD, a5 i (by omega)]
  rfl

/-- Witness of C7 on a concrete sequence of calls. -/
theorem array_store_refines_list_witness :
    ∃ a, runArrayOps json_array
        [.push .JSON_TRUE, .insert 0 .JSON_NULL, .set 1 .JSON_FALSE, .pop 0, .erase 0]
      = some (a, [none, none, none, some .JSON_NULL, none]) ∧
      json_array_len a = ([] : List json_t).length ∧
      ∀ i, i < ([] : List json_t).length → json_array_get a i = ([] : List json_t)[i]? :=
  array_store_refines_list _ _ _ (by norm_num) (by decide)

/-- C8, as stated, fails: the array of `json_array()` (that is `json__array_new(0)`) has
    capacity 0, which is not a power of two. -/
theorem json_array_cap_not_power_of_two :
    ¬ ((∃ k, 2 ≤ k ∧ json_array.cap = 2 ^ k) ∧ json_array.len ≤ json_array.cap) := by
  have h0 : json_array.cap = 0 := by decide
  rintro ⟨⟨k, _, hk⟩, _⟩
  rw [h0] at hk
  exact absurd hk.symm (by positivity)

/-- C8, amended: every array of the library has `len <= cap`, and its capacity is a power
    of two that is at least 4 unless it is the array of `json_array()` /
    `json__array_new(0)` to which nothing has been added yet, whose block is not allocated
    (`cap = 0`). -/
theorem array_capacity_invariant (a : json__array_t) (h : ArrayReach a) :
    a.len ≤ a.cap ∧ ((a = json__array_new 0 ∧ a.cap = 0) ∨ ∃ k, 2 ≤ k ∧ a.cap = 2 ^ k) := by
  obtain ⟨⟨l, inv⟩, hc⟩ := h.array_inv
  refine ⟨inv.2.2.1, ?_⟩
  rcases hc with h0 | h0
  · left; exact ⟨h0, by rw [h0]; decide⟩
  · rcases inv.2.2.2.1 with h1 | ⟨k, k2, _, hk⟩
    · exact absurd h1 h0
    · right; exact ⟨k, k2, hk⟩

/-- Witness of the amended C8 on the array obtained from `json_array()` by one push. -/
theorem array_capacity_invariant_witness :
    (⟨[some .JSON_TRUE, none, none, none], 1, 4⟩ : json__array_t).len ≤ 4 ∧
      (((⟨[some .JSON_TRUE, none, none, none], 1, 4⟩ : json__array_t) = json__array_new 0 ∧
          (⟨[some .JSON_TRUE, none, none, none], 1, 4⟩ : json__array_t).cap = 0) ∨
        ∃ k, 2 ≤ k ∧ (⟨[some .JSON_TRUE, none, none, none], 1, 4⟩ : json__array_t).cap = 2 ^ k) :=
  array_capacity_invariant _
    (ArrayReach.step (json__array_new 0) _ (.push .JSON_TRUE) none
      (ArrayReach.new 0 (by norm_num)) (by decide) (by decide))

/-- C9: the String Store refines a byte list.  For every string `s` of the library (in
    particular one created by `json_string`): an insert of the first `n` bytes of `seq` at
    an offset `at <= len` succeeds, makes the contents `old[0..at) ++ seq[0..n) ++
    old[at..len)` and the length `len + n`; an append is the insert at the current end;
    an erase with `at + n > len` (the sum within the range of `int`, in which the guard
    of the C function computes it) leaves the string unchanged, and otherwise makes the
    contents `old[0..at) ++ old[at+n..len)` and the length `len - n`. -/
theorem string_store_refines_byte_list (s : json__string_t) (hs : StringReach s)
    (seq : List Nat) (n idx : Nat) :
    (idx ≤ s.len → n ≤ seq.length → s.len + n < 2 ^ 30 →
      ∃ s1, json_string_insert s seq n idx = some s1 ∧ s1.len = s.len + n ∧
        json_string_bytes s1 = (json_string_bytes s).take idx ++ (seq.take n).map some ++
          (json_string_bytes s).drop idx) ∧
    json_string_append s seq n = json_string_insert s seq n s.len ∧
    (s.len < idx + n → idx + n < 2 ^ 31 → json_string_erase s idx n = s) ∧
    (idx + n ≤ s.len → (json_string_erase s idx n).len = s.len - n ∧
      json_string_bytes (json_string_erase s idx n) =
        (json_string_bytes s).take idx ++ (json_string_bytes s).drop (idx + n)) := by
  have inv := hs.string_inv
  refine ⟨fun h1 h2 h3 => ?_, rfl, fun h _ => (json_string_erase_spec s idx n inv).2.1 h,
    (json_string_erase_spec s idx n inv).2.2⟩
  obtain ⟨s1, e, _, hl, hb⟩ := json_string_insert_spec s seq n idx inv h1 h2 h3
  exact ⟨s1, e, hl, hb⟩

/-- Witness of C9 on the string created by `json_string("hi")`: the append is the insert
    at offset 2, and the erase of 5 bytes at offset 1 changes nothing. -/
theorem string_store_refines_byte_list_witness :
    json_string [104, 105] = some ⟨[some 104, some 105, some 0, none], 2, 4⟩ ∧
    json_string_append ⟨[some 104, some 105, some 0, none], 2, 4⟩ [33] 1 =
      json_string_insert ⟨[some 104, some 105, some 0, none], 2, 4⟩ [33] 1 2 ∧
    json_string_erase ⟨[some 104, some 105, some 0, none], 2, 4⟩ 1 5 =
      ⟨[some 104, some 105, some 0, none], 2, 4⟩ :=
  ⟨by decide, (string_store_refines_byte_list _
    (StringReach.mk [104, 105] _ (by norm_num) (by decide)) [33] 1 2).2.1,
    (string_store_refines_byte_list _
      (StringReach.mk [104, 105] _ (by norm_num) (by decide)) [] 5 1).2.2.1
      (by decide) (by norm_num)⟩

/-- C10: String Store invariant.  Every string produced by `json_string` or
    `json__string_new`, and every string obtained from such a string by any sequence of
    `json_string_append`, `json_string_insert` and `json_string_erase` calls, has a block of
    `cap` bytes where `cap` is a power of two that is at least 4, has `cap > len`, and has
    the null terminator at offset `len`. -/
theorem string_store_invariant (s : json__string_t) (hs : StringReach s) :
    (∃ k, 2 ≤ k ∧ s.cap = 2 ^ k) ∧ s.len < s.cap ∧ s.data.length = s.cap ∧
      s.data[s.len]? = some (some 0) := by
  obtain ⟨h1, h2, h3, k, k2, _, hk⟩ := hs.string_inv
  exact ⟨⟨k, k2, hk⟩, h2, h1, h3⟩

/-- Witness of C10 on the string created by `json_string("hi")`. -/
theorem string_store_invariant_witness :
    (∃ k, 2 ≤ k ∧ (⟨[some 104, some 105, some 0, none], 2, 4⟩ : json__string_t).cap = 2 ^ k) ∧
      (⟨[some 104, some 105, some 0, none], 2, 4⟩ : json__string_t).len <
        (⟨[some 104, some 105, some 0, none], 2, 4⟩ : json__string_t).cap ∧
      (⟨[some 104, some 105, some 0, none], 2, 4⟩ : json__string_t).data.length =
        (⟨[some 104, some 105, some 0, none], 2, 4⟩ : json__string_t).cap ∧
      (⟨[some 104, some 105, some 0, none], 2, 4⟩ : json__string_t).data[
        (⟨[some 104, some 105, some 0, none], 2, 4⟩ : json__string_t).len]? = some (some 0) :=
  string_store_invariant _ (StringReach.mk [104, 105] _ (by norm_num) (by decide))

/-! ## Numbers -/

theorem qmul_eq (a b : ℚ) : qmul a b = a * b := by
  unfold qmul
  rw [Rat.mul_def, Rat.normalize_eq_mkRat]

theorem qsub_eq (a b : ℚ) : qsub a b = a - b := by
  unfold qsub
  rw [Rat.sub_def']

theorem qneg_eq (a : ℚ) : qneg a = -a := by
  unfold qneg
  rw [Rat.mkRat_eq_div]
  conv_rhs => rw [← Rat.num_div_den a]
  push_cast
  ring

theorem qdiv_eq (a b : ℚ) : qdiv a b = a / b := by
  unfold qdiv
  rw [Rat.mkRat_eq_div]
  conv_rhs => rw [← Rat.num_div_den a, ← Rat.num_div_den b]
  by_cases hb : b.num = 0
  · simp [hb]
  · have h1 : ((b.num.natAbs : ℕ) : ℚ) = (Int.sign b.num : ℚ) * (b.num : ℚ) := by
      rw [Nat.cast_natAbs]
      rcases lt_or_gt_of_ne hb with h | h
      · rw [Int.sign_eq_neg_one_of_neg h, abs_of_neg h]; push_cast; ring
      · rw [Int.sign_eq_one_of_pos h, abs_of_pos h]; push_cast; ring
    have h2 : (Int.sign b.num : ℚ) ≠ 0 := by
      have := Int.sign_eq_zero_iff_zero.not.mpr hb
      exact_mod_cast this
    have h3 : (b.num : ℚ) ≠ 0 := by exact_mod_cast hb
    have h4 : (a.den : ℚ) ≠ 0 := by exact_mod_cast a.den_nz
    have h5 : (b.den : ℚ) ≠ 0 := by exact_mod_cast b.den_nz
    push_cast
    rw [h1]
    field_simp
    ring

theorem pow10_eq (k : Nat) : pow10 k = ((10 ^ k : ℕ) : ℚ) := by
  unfold pow10
  rw [Rat.mkRat_eq_div]
  push_cast
  simp

theorem rat_floor_eq (q : ℚ) : Rat.floor q = ⌊q⌋ := by
  rw [Rat.floor_def', Rat.floor_def]

theorem ilog10_loop_eq : ∀ (fuel n : Nat), n ≤ fuel → ilog10_loop fuel n = Nat.log 10 n := by
  intro fuel
  induction fuel with
  | zero =>
    intro n h
    have : n = 0 := by omega
    subst this
    simp [ilog10_loop]
  | succ f ih =>
    intro n h
    unfold ilog10_loop
    by_cases c : n < 10
    · rw [if_pos c, Nat.log_of_lt c]
    · rw [if_neg c, ih (n / 10) (by omega)]
      exact (Nat.log_of_one_lt_of_le (by norm_num) (by omega)).symm

theorem ilog10_eq (n : Nat) : ilog10 n = Nat.log 10 n := ilog10_loop_eq n n le_rfl

theorem decimal_numeral_loop_fuel : ∀ (fuel n : Nat), n < fuel →
    decimal_numeral_loop fuel n = decimal_numeral_loop (n + 1) n := by
  intro fuel
  induction fuel using Nat.strong_induction_on with
  | _ fuel ih =>
    intro n h
    obtain ⟨f, rfl⟩ : ∃ f, fuel = f + 1 := ⟨fuel - 1, by omega⟩
    by_cases c : n < 10
    · simp [decimal_numeral_loop, c]
    · have e1 : decimal_numeral_loop (f + 1) n
          = decimal_numeral_loop f (n / 10) ++ [48 + n % 10] := by
        simp [decimal_numeral_loop, c]
      have e2 : decimal_numeral_loop (n + 1) n
          = decimal_numeral_loop n (n / 10) ++ [48 + n % 10] := by
        simp [decimal_numeral_loop, c]
      rw [e1, e2, ih f (by omega) (n / 10) (by omega), ih n (by omega) (n / 10) (by omega)]

theorem decimal_numeral_loop_eq (fuel n : Nat) (h : n < fuel) :
    decimal_numeral_loop fuel n =
      if n < 10 then [48 + n] else decimal_numeral (n / 10) ++ [48 + n % 10] := by
  obtain ⟨f, rfl⟩ : ∃ f, fuel = f + 1 := ⟨fuel - 1, by omega⟩
  by_cases c : n < 10
  · simp [decimal_numeral_loop, c]
  · rw [if_neg c]
    have e1 : decimal_numeral_loop (f + 1) n
        = decimal_numeral_loop f (n / 10) ++ [48 + n % 10] := by
      simp [decimal_numeral_loop, c]
    rw [e1, decimal_numeral_loop_fuel f (n / 10) (by omega)]
    rfl

theorem decimal_numeral_eq (n : Nat) :
    decimal_numeral n =
      if n < 10 then [48 + n] else decimal_numeral (n / 10) ++ [48 + n % 10] :=
  decimal_numeral_loop_eq (n + 1) n (by omega)

theorem decimal_numeral_snoc (m : Nat) (h : m / 10 ≠ 0) :
    decimal_numeral (m / 10) ++ [48 + m % 10] = decimal_numeral m := by
  conv_rhs => rw [decimal_numeral_eq]
  rw [if_neg (by omega)]

theorem decimal_numeral_small (m : Nat) (h : m / 10 = 0) : [48 + m % 10] = decimal_numeral m := by
  conv_rhs => rw [decimal_numeral_eq]
  rw [if_pos (by omega), Nat.mod_eq_of_lt (by omega)]

theorem json_dtoa_loop_step (v k p : Nat) (out : List Nat) :
    json_dtoa_loop (p + 1) (v : ℚ) (pow10 k) (k : ℤ) out =
      if k = 0 then (-1, out ++ [48 + (v / 10 ^ k) % 10])
      else json_dtoa_loop p (v : ℚ) (pow10 (k - 1)) ((k - 1 : ℕ) : ℤ)
        (out ++ [48 + (v / 10 ^ k) % 10]) := by
  have hres : Rat.floor (qdiv (v : ℚ) (pow10 k)) = ((v / 10 ^ k : ℕ) : ℤ) := by
    rw [qdiv_eq, pow10_eq, rat_floor_eq, Rat.floor_natCast_div_natCast]
    norm_cast
  have hdig : (Int.fmod ((v / 10 ^ k : ℕ) : ℤ) 10).toNat = (v / 10 ^ k) % 10 := by
    rw [Int.fmod_eq_emod _ (by norm_num)]
    omega
  have hk : ¬ ((k : ℤ) = -1) := by omega
  rw [json_dtoa_loop]
  simp only [hres, hdig, hk, if_false]
  by_cases c : k = 0
  · subst c
    have hz : qsub (v : ℚ) (qmul (mkRat ((v / 10 ^ 0 : ℕ) : ℤ) 1) (pow10 0)) ≤ 0 := by
      rw [qsub_eq, qmul_eq, pow10_eq, Rat.mkRat_eq_div]
      simp
    rw [if_pos ⟨by simp, hz⟩]
    simp
  · have hn : ¬ ((k : ℤ) ≤ 0) := by omega
    rw [if_neg (fun h => hn h.1), if_neg c]
    have e1 : qdiv (pow10 k) 10 = pow10 (k - 1) := by
      obtain ⟨j, rfl⟩ : ∃ j, k = j + 1 := ⟨k - 1, by omega⟩
      rw [qdiv_eq, pow10_eq, pow10_eq]
      simp only [Nat.add_sub_cancel]
      push_cast
      rw [pow_succ]
      field_simp
    have e2 : (k : ℤ) - 1 = ((k - 1 : ℕ) : ℤ) := by omega
    rw [e1, e2]

theorem json_dtoa_loop_int (v : Nat) : ∀ (k p : Nat) (out0 out : List Nat), k < p →
    (k = 0 ∨ 10 ^ k ≤ v) →
    ((v / 10 ^ (k + 1) = 0 ∧ out = out0) ∨
      (v / 10 ^ (k + 1) ≠ 0 ∧ out = out0 ++ decimal_numeral (v / 10 ^ (k + 1)))) →
    json_dtoa_loop p (v : ℚ) (pow10 k) (k : ℤ) out = (-1, out0 ++ decimal_numeral v) := by
  intro k
  induction k with
  | zero =>
    intro p out0 out hp _ ho
    obtain ⟨q, rfl⟩ : ∃ q, p = q + 1 := ⟨p - 1, by omega⟩
    have := json_dtoa_loop_step v 0 q out
    simp only [Nat.cast_zero] at this ⊢
    rw [this, if_pos trivial]
    simp only [pow_zero, Nat.div_one, zero_add, pow_one] at ho ⊢
    rcases ho with ⟨h1, h2⟩ | ⟨h1, h2⟩
    · rw [h2, decimal_numeral_small v h1]
    · rw [h2, List.append_assoc, decimal_numeral_snoc v h1]
  | succ k ih =>
    intro p out0 out hp hv ho
    obtain ⟨q, rfl⟩ : ∃ q, p = q + 1 := ⟨p - 1, by omega⟩
    rw [json_dtoa_loop_step v (k + 1) q out, if_neg (by omega)]
    simp only [Nat.add_sub_cancel]
    have h10 : 10 ^ (k + 1) ≤ v := by
      rcases hv with h | h
      · omega
      · exact h
    have hm : v / 10 ^ (k + 1) ≠ 0 := by
      have := Nat.div_pos h10 (by positivity)
      omega
    have hdd : v / 10 ^ (k + 1) / 10 = v / 10 ^ (k + 1 + 1) := by
      rw [Nat.div_div_eq_div_mul, ← pow_succ]
    apply ih q out0 _ (by omega)
    · right
      exact le_trans (Nat.pow_le_pow_right (by norm_num) (Nat.le_succ k)) h10
    · right
      refine ⟨hm, ?_⟩
      rcases ho with ⟨h1, h2⟩ | ⟨h1, h2⟩
      · rw [h2, decimal_numeral_small _ (by rw [hdd]; exact h1)]
      · rw [h2, List.append_assoc, ← hdd, decimal_numeral_snoc _ (by rw [hdd]; exact h1)]

theorem log10_int_nat (v : Nat) (h : v ≠ 0) : log10_int (v : ℚ) = (Nat.log 10 v : ℤ) := by
  unfold log10_int
  have h1 : ¬ ((v : ℚ) = 0) := by exact_mod_cast h
  have h2 : (1 : ℚ) ≤ (v : ℚ) := by exact_mod_cast Nat.one_le_iff_ne_zero.mpr h
  rw [if_neg h1, if_pos h2, rat_floor_eq, ilog10_eq]
  simp

theorem json_dtoa_nat (v : Nat) (h : v < 10 ^ 12) (out : List Nat) :
    json_dtoa_loop 12 (v : ℚ)
        (pow10 (if log10_int (v : ℚ) < 0 then 0 else log10_int (v : ℚ)).toNat)
        (if log10_int (v : ℚ) < 0 then 0 else log10_int (v : ℚ)) out
      = (-1, out ++ decimal_numeral v) := by
  by_cases hv : v = 0
  · subst hv
    have e : log10_int ((0 : ℕ) : ℚ) = -2147483648 := by simp [log10_int]
    rw [e]
    simp only [show ((-2147483648 : ℤ) < 0) from by norm_num, if_true, Int.toNat_zero]
    have := json_dtoa_loop_int 0 0 12 out out (by norm_num) (Or.inl rfl) (Or.inl ⟨by simp, rfl⟩)
    simpa using this
  · rw [log10_int_nat v hv]
    have hk : ¬ ((Nat.log 10 v : ℤ) < 0) := by omega
    rw [if_neg hk]
    simp only [Int.toNat_ofNat]
    have hlt : Nat.log 10 v < 12 := by
      apply Nat.log_lt_of_lt_pow hv h
    apply json_dtoa_loop_int v (Nat.log 10 v) 12 out out hlt
    · right; exact Nat.pow_log_le_self 10 hv
    · left
      exact ⟨Nat.div_eq_of_lt (Nat.lt_pow_succ_log_self (by norm_num) v), rfl⟩

/-- Serializer numerals: an integer of at most 12 digits is written as its ordinary
    decimal numeral. -/
theorem json_dtoa_int (n : Int) (h : n.natAbs < 10 ^ 12) :
    json_dtoa (.finite (n : ℚ)) 12 = int_numeral n := by
  unfold json_dtoa int_numeral
  simp only []
  by_cases c : n < 0
  · have c1 : ((n : ℚ) < 0) := by exact_mod_cast c
    have e : qneg (n : ℚ) = ((n.natAbs : ℕ) : ℚ) := by
      rw [qneg_eq, Nat.cast_natAbs, abs_of_neg c]
      push_cast; ring
    simp only [c1, c, if_true, e]
    rw [json_dtoa_nat _ h]
    simp
  · have c1 : ¬ ((n : ℚ) < 0) := by exact_mod_cast c
    have e : (n : ℚ) = ((n.natAbs : ℕ) : ℚ) := by
      rw [Nat.cast_natAbs, abs_of_nonneg (by omega)]
    simp only [c1, c, if_false]
    rw [e, json_dtoa_nat _ h]
    simp

theorem decimal_numeral_digits (v : Nat) : ∀ b ∈ decimal_numeral v, 48 ≤ b ∧ b ≤ 57 := by
  induction v using Nat.strong_induction_on with
  | _ v ih =>
    intro b hb
    rw [decimal_numeral_eq] at hb
    by_cases c : v < 10
    · rw [if_pos c] at hb
      simp only [List.mem_singleton] at hb
      omega
    · rw [if_neg c] at hb
      rcases List.mem_append.mp hb with h | h
      · exact ih (v / 10) (by omega) b h
      · simp only [List.mem_singleton] at h
        omega

theorem decimal_numeral_ne_nil (v : Nat) : decimal_numeral v ≠ [] := by
  rw [decimal_numeral_eq]
  split <;> simp

theorem decimal_value_append (l : List Nat) (d : Nat) :
    decimal_value (l ++ [d]) = decimal_value l * 10 + (d - 48) := by
  simp [decimal_value, List.foldl_append]

theorem decimal_value_numeral (v : Nat) : decimal_value (decimal_numeral v) = v := by
  induction v using Nat.strong_induction_on with
  | _ v ih =>
    rw [decimal_numeral_eq]
    by_cases c : v < 10
    · rw [if_pos c]
      simp [decimal_value]
    · rw [if_neg c, decimal_value_append, ih (v / 10) (by omega)]
      omega

theorem delimiter_not_digit (b : Nat) (h : delimiter b) : isdigit b = false := by
  unfold delimiter at h
  simp only [isdigit, Bool.and_eq_false_imp, decide_eq_true_eq, decide_eq_false_iff_not]
  omega

theorem takeWhile_digits (dn rest : List Nat) (hd : ∀ b ∈ dn, 48 ≤ b ∧ b ≤ 57)
    (hr : delimited rest) : (dn ++ rest).takeWhile isdigit = dn := by
  induction dn with
  | nil =>
    cases rest with
    | nil => rfl
    | cons b r =>
      have := delimiter_not_digit b (hr b rfl)
      simp [List.takeWhile, this]
  | cons d ds ih =>
    have h1 : isdigit d = true := by
      have := hd d (List.mem_cons_self _ _)
      simp [isdigit, this.1, this.2]
    rw [List.cons_append, List.takeWhile_cons, h1, if_pos rfl,
      ih (fun b hb => hd b (List.mem_cons_of_mem _ hb))]

theorem strtod_mantissa_digits (dn rest : List Nat) (hd : ∀ b ∈ dn, 48 ≤ b ∧ b ≤ 57)
    (hr : delimited rest) : strtod_mantissa isdigit (dn ++ rest) = (dn, [], dn.length) := by
  unfold strtod_mantissa
  simp only [takeWhile_digits dn rest hd hr, List.drop_left]
  cases rest with
  | nil => rfl
  | cons b r =>
    have := hr b rfl
    unfold delimiter at this
    have hb : b ≠ 46 := by omega
    split
    · rename_i r2 heq
      simp only [List.cons.injEq] at heq
      exact absurd heq.1 hb
    · rfl

theorem strtod_exponent_delimited (marker : Nat) (hm : marker = 101 ∨ marker = 112)
    (rest : List Nat)
    (hr : delimited rest) : strtod_exponent marker rest = (0, 0) := by
  cases rest with
  | nil => rfl
  | cons b r =>
    have := hr b rfl
    unfold delimiter at this
    have hb : tolower b ≠ marker := by
      unfold tolower
      by_cases c : 65 ≤ b ∧ b ≤ 90
      · rw [if_pos c]; omega
      · rw [if_neg c]; omega
    simp [strtod_exponent, hb]

theorem scale_zero (m : Nat) : scale 10 m 0 = (m : ℚ) := by
  simp [scale, Rat.mkRat_eq_div]

theorem strtod_digits (d : Nat) (ds rest : List Nat) (hd : ∀ b ∈ d :: ds, 48 ≤ b ∧ b ≤ 57)
    (hr : delimited rest) :
    strtod (d :: ds ++ rest) = (.finite (decimal_value (d :: ds)), (d :: ds).length) ∧
    strtod (45 :: d :: ds ++ rest)
      = (.finite (qneg (decimal_value (d :: ds))), (d :: ds).length + 1) := by
  have hd0 := hd d (List.mem_cons_self _ _)
  have hlow : tolower d = d := by
    unfold tolower; rw [if_neg (by omega)]
  have hsecond : ∀ x, (ds ++ rest).head? = some x → tolower x ≠ 120 := by
    intro x hx
    cases ds with
    | nil =>
      have := hr x (by simpa using hx)
      unfold delimiter at this
      unfold tolower; split <;> omega
    | cons e es =>
      simp only [List.cons_append, List.head?_cons, Option.some.injEq] at hx
      have := hd e (by simp)
      subst hx
      unfold tolower; split <;> omega
  have key : ∀ (neg : Bool) (k : Nat) (s : List Nat), strtod_sign s = (neg, k) →
      s.drop k = d :: ds ++ rest →
      strtod s = (.finite (if neg then qneg (decimal_value (d :: ds)) else decimal_value (d :: ds)),
        k + (d :: ds).length) := by
    intro neg k s hs hdrop
    unfold strtod
    simp only [hs, hdrop]
    have h8 : (List.map tolower (List.take 8 (d :: ds ++ rest))) =
        d :: List.map tolower (List.take 7 (ds ++ rest)) := by
      simp [hlow]
    rw [h8]
    have n1 : ¬ (d :: List.map tolower (List.take 7 (ds ++ rest))
        = [105, 110, 102, 105, 110, 105, 116, 121]) := by
      intro h; injection h with h _; omega
    have n2 : ¬ ((d :: List.map tolower (List.take 7 (ds ++ rest))).take 3
        = [105, 110, 102]) := by
      intro h; simp only [List.take_succ_cons] at h; injection h with h _; omega
    have n3 : ¬ ((d :: List.map tolower (List.take 7 (ds ++ rest))).take 3
        = [110, 97, 110]) := by
      intro h; simp only [List.take_succ_cons] at h; injection h with h _; omega
    have n4 : ¬ ((d :: List.map tolower (List.take 7 (ds ++ rest))).take 2
        = [48, 120]) := by
      intro h
      simp only [List.take_succ_cons] at h
      injection h with _ h
      cases hq : ds ++ rest with
      | nil => rw [hq] at h; simp at h
      | cons x xs =>
        rw [hq] at h
        simp only [List.take_succ_cons, List.map_cons, List.take_zero] at h
        injection h with h _
        exact hsecond x (by rw [hq]; rfl) h
    rw [if_neg n1, if_neg n2, if_neg n3, if_neg (fun h => n4 h.1)]
    have hm := strtod_mantissa_digits (d :: ds) rest hd hr
    simp only [hm]
    have hdr : List.drop (d :: ds).length (d :: ds ++ rest) = rest := List.drop_left (d :: ds) rest
    simp [hdr, strtod_exponent_delimited 101 (Or.inl rfl) rest hr, scale_zero]
  constructor
  · have := key false 0 (d :: ds ++ rest) (by
      simp only [List.cons_append, strtod_sign]
      split
      · rename_i heq; injection heq with h _; omega
      · rename_i heq; injection heq with h _; omega
      · rfl) rfl
    simpa using this
  · have := key true 1 (45 :: d :: ds ++ rest) (by simp [strtod_sign]) rfl
    rw [this]
    simp [Nat.add_comm]

/-- The library conversion reads back what the serializer writes for an integer. -/
theorem strtod_int_numeral (n : Int) (rest : List Nat) (hr : delimited rest) :
    strtod (int_numeral n ++ rest) = (.finite (n : ℚ), (int_numeral n).length) := by
  obtain ⟨d, ds, hdn⟩ : ∃ d ds, decimal_numeral n.natAbs = d :: ds := by
    cases h : decimal_numeral n.natAbs with
    | nil => exact absurd h (decimal_numeral_ne_nil _)
    | cons d ds => exact ⟨d, ds, rfl⟩
  have hd : ∀ b ∈ d :: ds, 48 ≤ b ∧ b ≤ 57 := by
    rw [← hdn]; exact decimal_numeral_digits _
  have hv : decimal_value (d :: ds) = n.natAbs := by
    rw [← hdn]; exact decimal_value_numeral _
  have := strtod_digits d ds rest hd hr
  unfold int_numeral
  by_cases c : n < 0
  · rw [if_pos c, hdn]
    have e : qneg ((n.natAbs : ℕ) : ℚ) = (n : ℚ) := by
      rw [qneg_eq, Nat.cast_natAbs, abs_of_neg c]
      push_cast; ring
    rw [this.2, hv, e]
    simp
  · rw [if_neg c, hdn, this.1, hv]
    have e : ((n.natAbs : ℕ) : ℚ) = (n : ℚ) := by
      rw [Nat.cast_natAbs, abs_of_nonneg (by omega)]
    rw [e]

/-! ## Value trees in the heap -/

theorem value_induction {P : Value → Prop} {Q : List Value → Prop}
    {R : List (List Nat × Value) → Prop}
    (hnull : P .null) (hbool : ∀ b, P (.bool b)) (hnum : ∀ n, P (.number n))
    (hstr : ∀ s, P (.string s))
    (harr : ∀ items, Q items → P (.array items))
    (hobj : ∀ entries, R entries → P (.object entries))
    (hnil : Q []) (hcons : ∀ t ts, P t → Q ts → Q (t :: ts))
    (hnil2 : R []) (hcons2 : ∀ k t es, P t → R es → R ((k, t) :: es)) :
    (∀ t, P t) ∧ (∀ l, Q l) ∧ (∀ l, R l) := by
  have hP : ∀ t, P t := fun t =>
    @Value.rec P Q R (fun e => P e.2) hnull hbool hnum hstr harr hobj hnil hcons hnil2
      (fun e es he hes => hcons2 e.1 e.2 es he hes) (fun _ _ h => h) t
  refine ⟨hP, ?_, ?_⟩
  · intro l
    induction l with
    | nil => exact hnil
    | cons t ts ih => exact hcons t ts (hP t) ih
  · intro l
    induction l with
    | nil => exact hnil2
    | cons e es ih => exact hcons2 e.1 e.2 es (hP e.2) ih

theorem represents_frame :
    (∀ t, ∀ (h h2 : List heap_cell) (lo : Nat) (v : json_t),
      (∀ q, lo ≤ q → q < h.length → h2[q]? = h[q]?) →
      Represents h lo v t → Represents h2 lo v t) ∧
    (∀ ts, ∀ (h h2 : List heap_cell) (lo : Nat) (hs : List json_t),
      (∀ q, lo ≤ q → q < h.length → h2[q]? = h[q]?) →
      RepresentsItems h lo hs ts → RepresentsItems h2 lo hs ts) ∧
    (∀ es, ∀ (h h2 : List heap_cell) (lo : Nat) (bs : List json_bucket_t),
      (∀ q, lo ≤ q → q < h.length → h2[q]? = h[q]?) →
      RepresentsEntries h lo bs es → RepresentsEntries h2 lo bs es) := by
  apply value_induction
  · intro h h2 lo v _ hr; simpa [Represents] using hr
  · intro b h h2 lo v _ hr; simpa [Represents] using hr
  · intro n h h2 lo v _ hr; simpa [Represents] using hr
  · intro s h h2 lo v hf hr
    simp only [Represents] at hr ⊢
    obtain ⟨p, str, e, hp, hc, hi, hb⟩ := hr
    have hlt : p < h.length := (List.getElem?_eq_some_iff.mp hc).1
    exact ⟨p, str, e, hp, by rw [hf p hp hlt]; exact hc, hi, hb⟩
  · intro items ih h h2 lo v hf hr
    simp only [Represents] at hr ⊢
    obtain ⟨p, arr, hs, e, hp, hc, hi, hb⟩ := hr
    have hlt : p < h.length := (List.getElem?_eq_some_iff.mp hc).1
    exact ⟨p, arr, hs, e, hp, by rw [hf p hp hlt]; exact hc, hi,
      ih h h2 (p + 1) hs (fun q hq hq2 => hf q (by omega) hq2) hb⟩
  · intro entries ih h h2 lo v hf hr
    simp only [Represents] at hr ⊢
    obtain ⟨p, obj, bs, e, hp, hc, hi, hb⟩ := hr
    have hlt : p < h.length := (List.getElem?_eq_some_iff.mp hc).1
    exact ⟨p, obj, bs, e, hp, by rw [hf p hp hlt]; exact hc, hi,
      ih h h2 (p + 1) bs (fun q hq hq2 => hf q (by omega) hq2) hb⟩
  · intro h h2 lo hs _ hr
    cases hs with
    | nil => simp [RepresentsItems]
    | cons a as => simp [RepresentsItems] at hr
  · intro t ts iht ihts h h2 lo hs hf hr
    cases hs with
    | nil => simp [RepresentsItems] at hr
    | cons a as =>
      simp only [RepresentsItems] at hr ⊢
      exact ⟨iht h h2 lo a hf hr.1, ihts h h2 lo as hf hr.2⟩
  · intro h h2 lo bs _ hr
    cases bs with
    | nil => simp [RepresentsEntries]
    | cons a as => simp [RepresentsEntries] at hr
  · intro k t es iht ihes h h2 lo bs hf hr
    cases bs with
    | nil => simp [RepresentsEntries] at hr
    | cons a as =>
      simp only [RepresentsEntries] at hr ⊢
      exact ⟨hr.1, iht h h2 lo a.val hf hr.2.1, ihes h h2 lo as hf hr.2.2⟩

theorem represents_mono (h : List heap_cell) (lo lo2 : Nat) (hle : lo2 ≤ lo) (v : json_t)
    (t : Value) (hr : Represents h lo v t) : Represents h lo2 v t := by
  cases t with
  | null => simpa [Represents] using hr
  | bool b => simpa [Represents] using hr
  | number n => simpa [Represents] using hr
  | string s =>
    simp only [Represents] at hr ⊢
    obtain ⟨p, str, e, hp, hc⟩ := hr
    exact ⟨p, str, e, by omega, hc⟩
  | array items =>
    simp only [Represents] at hr ⊢
    obtain ⟨p, arr, hs, e, hp, hc⟩ := hr
    exact ⟨p, arr, hs, e, by omega, hc⟩
  | object entries =>
    simp only [Represents] at hr ⊢
    obtain ⟨p, obj, bs, e, hp, hc⟩ := hr
    exact ⟨p, obj, bs, e, by omega, hc⟩

theorem representsItems_append (h : List heap_cell) (lo : Nat) :
    ∀ (hs : List json_t) (ts : List Value) (v : json_t) (t : Value),
      RepresentsItems h lo hs ts → Represents h lo v t →
      RepresentsItems h lo (hs ++ [v]) (ts ++ [t]) := by
  intro hs
  induction hs with
  | nil =>
    intro ts v t h1 h2
    cases ts with
    | nil => simpa [RepresentsItems] using h2
    | cons a as => simp [RepresentsItems] at h1
  | cons x xs ih =>
    intro ts v t h1 h2
    cases ts with
    | nil => simp [RepresentsItems] at h1
    | cons a as =>
      simp only [RepresentsItems, List.cons_append] at h1 ⊢
      exact ⟨h1.1, ih as v t h1.2 h2⟩

theorem representsEntries_append (h : List heap_cell) (lo : Nat) :
    ∀ (bs : List json_bucket_t) (es : List (List Nat × Value)) (k : List Nat) (v : json_t)
      (t : Value),
      RepresentsEntries h lo bs es → Represents h lo v t →
      RepresentsEntries h lo (bs ++ [⟨k, v⟩]) (es ++ [(k, t)]) := by
  intro bs
  induction bs with
  | nil =>
    intro es k v t h1 h2
    cases es with
    | nil => simpa [RepresentsEntries] using h2
    | cons a as => simp [RepresentsEntries] at h1
  | cons x xs ih =>
    intro es k v t h1 h2
    cases es with
    | nil => simp [RepresentsEntries] at h1
    | cons a as =>
      obtain ⟨ak, at_⟩ := a
      simp only [RepresentsEntries, List.cons_append] at h1 ⊢
      exact ⟨h1.1, h1.2.1, ih as k v t h1.2.2 h2⟩

theorem representsEntries_keys (h : List heap_cell) (lo : Nat) :
    ∀ (bs : List json_bucket_t) (es : List (List Nat × Value)),
      RepresentsEntries h lo bs es → bs.map (fun b => b.key) = es.map (fun e => e.1) := by
  intro bs
  induction bs with
  | nil =>
    intro es h1
    cases es with
    | nil => rfl
    | cons a as => simp [RepresentsEntries] at h1
  | cons x xs ih =>
    intro es h1
    cases es with
    | nil => simp [RepresentsEntries] at h1
    | cons a as =>
      obtain ⟨ak, at_⟩ := a
      simp only [RepresentsEntries] at h1
      simp [h1.1, ih as h1.2.2]

theorem heap_json_array_push_spec (h : List heap_cell) (p : Nat) (arr : json__array_t)
    (hs : List json_t) (v : json_t) (hc : h[p]? = some (.array arr)) (hi : ArrayInv arr hs)
    (hlen : hs.length < 2 ^ 30) :
    ∃ arr2, heap_json_array_push h (.JSON_ARRAY p) v = some (h.set p (.array arr2)) ∧
      ArrayInv arr2 (hs ++ [v]) := by
  have hl : arr.len = hs.length := hi.2.1
  obtain ⟨a1, e1, i1⟩ := json_array_insert_spec arr hs arr.len v hi (le_refl _) (by omega)
  refine ⟨a1, ?_, ?_⟩
  · simp [heap_json_array_push, hc, json_array_push, e1]
  · rw [hl, List.insertIdx_length_self] at i1
    exact i1

theorem c_string_bytes (k : List Nat) (h0 : ∀ b ∈ k, b ≠ 0) (rest : List (Option Nat)) :
    c_string (k.map some ++ some 0 :: rest) = some k := by
  induction k with
  | nil => simp [c_string]
  | cons b bs ih =>
    have hb : b ≠ 0 := h0 b (List.mem_cons_self _ _)
    have e : c_string (some b :: (List.map some bs ++ some 0 :: rest))
        = (c_string (List.map some bs ++ some 0 :: rest)).map (fun s => b :: s) := by
      rw [c_string, if_neg hb]
    rw [List.map_cons, List.cons_append, e, ih (fun x hx => h0 x (List.mem_cons_of_mem _ hx))]
    rfl

theorem heap_json__object_set_spec (h : List heap_cell) (p : Nat) (obj : json__object_t)
    (bs : List json_bucket_t) (key : List (Option Nat)) (k : List Nat) (v : json_t) (c : Bool)
    (hc : h[p]? = some (.object obj)) (hi : ObjectInv obj bs) (hk : c_string key = some k)
    (hnew : k ∉ bs.map (fun b => b.key)) (hlen : bs.length < 255) :
    ∃ obj2, heap_json__object_set h (.JSON_OBJECT p) key v c = some (h.set p (.object obj2)) ∧
      ObjectInv obj2 (bs ++ [⟨k, v⟩]) := by
  have hs : specSet bs k v = bs ++ [⟨k, v⟩] := by
    unfold specSet; rw [if_neg hnew]
  obtain ⟨o1, e1, i1⟩ := json__object_set_spec hi k v c (by rw [hs]; simp; omega) 1
  refine ⟨o1, ?_, by rw [← hs]; exact i1⟩
  have e2 : json__object_set objectDepth obj k v c = some o1 := e1
  simp [heap_json__object_set, hc, hk, e2]

/-! ## Steps of the parser -/

theorem drop_add (text : List Nat) (c k : Nat) : text.drop (c + k) = (text.drop c).drop k := by
  rw [List.drop_drop, Nat.add_comm]

theorem drop_add_append (text : List Nat) (c : Nat) (a b : List Nat)
    (h : text.drop c = a ++ b) : text.drop (c + a.length) = b := by
  rw [drop_add, h, List.drop_left]

theorem char_at_of_drop (text : List Nat) (c b : Nat) (r : List Nat)
    (h : text.drop c = b :: r) : char_at text c = b := by
  have h1 : text[c]? = some b := by
    rw [← List.head?_drop, h]; rfl
  unfold char_at
  rw [List.getD_eq_getElem?_getD, h1]
  rfl

theorem takeWhile_whitespace (w : List Nat) (b : Nat) (r : List Nat) (hw : whitespace w)
    (hb : 32 < b) (hb2 : b < 128) :
    ((w ++ b :: r).takeWhile (fun b => b ≠ 0 ∧ charToInt b ≤ 32)).length = w.length := by
  induction w with
  | nil =>
    have : ¬ (b ≠ 0 ∧ charToInt b ≤ 32) := by
      unfold charToInt; rw [if_pos hb2]; omega
    simp [List.takeWhile_cons, this]
  | cons a as ih =>
    have ha := hw a (List.mem_cons_self _ _)
    have : (a ≠ 0 ∧ charToInt a ≤ 32) := by
      unfold charToInt; rw [if_pos (by omega)]; omega
    rw [List.cons_append, List.takeWhile_cons, if_pos (by simpa using this), List.length_cons,
      ih (fun x hx => hw x (List.mem_cons_of_mem _ hx))]
    rfl

theorem json_skip_whitespace_at (text : List Nat) (c : Nat) (w : List Nat) (b : Nat)
    (r : List Nat) (h : text.drop c = w ++ b :: r) (hw : whitespace w) (hb : 32 < b)
    (hb2 : b < 128) : json_skip_whitespace text c = c + w.length := by
  unfold json_skip_whitespace
  rw [h, takeWhile_whitespace w b r hw hb hb2]

theorem json_parse_step_at (text : List Nat) (s : json_parse_locals) (w : List Nat) (b : Nat)
    (r : List Nat) (h : text.drop s.c = w ++ b :: r) (hw : whitespace w) (hb : 32 < b)
    (hb2 : b < 128) :
    json_parse_step text s = json_parse_body text { s with c := s.c + w.length } ∧
      text.drop (s.c + w.length) = b :: r := by
  have hd := drop_add_append text s.c w (b :: r) h
  refine ⟨?_, hd⟩
  unfold json_parse_step
  simp only [json_skip_whitespace_at text s.c w b r h hw hb hb2, char_at_of_drop _ _ _ _ hd]
  rw [if_neg (by omega)]

theorem json_parse_steps_one (text : List Nat) (s s1 : json_parse_locals)
    (h : json_parse_step text s = some (true, s1)) : json_parse_steps text 1 s = some s1 := by
  simp [json_parse_steps, h]

theorem json_parse_steps_add (text : List Nat) :
    ∀ (n m : Nat) (s s1 s2 : json_parse_locals), json_parse_steps text n s = some s1 →
      json_parse_steps text m s1 = some s2 → json_parse_steps text (n + m) s = some s2 := by
  intro n
  induction n with
  | zero =>
    intro m s s1 s2 h1 h2
    simp only [json_parse_steps, Option.some.injEq] at h1
    subst h1
    simpa using h2
  | succ n ih =>
    intro m s s1 s2 h1 h2
    rw [show n + 1 + m = (n + m) + 1 from by omega]
    rw [json_parse_steps] at h1 ⊢
    cases hs : json_parse_step text s with
    | none => rw [hs] at h1; simp at h1
    | some r =>
      obtain ⟨f, s3⟩ := r
      cases f with
      | false => rw [hs] at h1; simp at h1
      | true =>
        rw [hs] at h1
        simp only at h1 ⊢
        exact ih m s3 s1 s2 h1 h2

theorem json_parse_loop_steps (text : List Nat) :
    ∀ (n f : Nat) (s s1 : json_parse_locals), json_parse_steps text n s = some s1 →
      json_parse_loop text (n + f) s = json_parse_loop text f s1 := by
  intro n
  induction n with
  | zero =>
    intro f s s1 h1
    simp only [json_parse_steps, Option.some.injEq] at h1
    subst h1
    simp
  | succ n ih =>
    intro f s s1 h1
    rw [show n + 1 + f = (n + f) + 1 from by omega]
    rw [json_parse_steps] at h1
    rw [json_parse_loop]
    cases hs : json_parse_step text s with
    | none => rw [hs] at h1; simp at h1
    | some r =>
      obtain ⟨b, s3⟩ := r
      cases b with
      | false => rw [hs] at h1; simp at h1
      | true =>
        rw [hs] at h1
        simp only at h1 ⊢
        exact ih f s3 s1 h1

theorem json_parse_body_colon (text : List Nat) (s : json_parse_locals) (r : List Nat)
    (hd : text.drop s.c = 58 :: r) (hs : s.state = JSON_OBJECT_COLON) :
    json_parse_body text s = some (true, { s with c := s.c + 1, state := JSON_OBJECT_VAL }) := by
  unfold json_parse_body
  simp only [char_at_of_drop _ _ _ _ hd, hs]
  rfl

theorem json_parse_body_comma (text : List Nat) (s : json_parse_locals) (r : List Nat)
    (top : json_t) (hd : text.drop s.c = 44 :: r) (hs : next_state s.state)
    (ht : s.stack[s.sp]? = some top) :
    json_parse_body text s =
      some (true, { s with c := s.c + 1, state := json_parse_comma_state top }) := by
  unfold json_parse_body
  simp only [char_at_of_drop _ _ _ _ hd, ht]
  rcases hs with hs | hs <;> rw [hs] <;> rfl

theorem json_parse_body_close (text : List Nat) (s : json_parse_locals) (r : List Nat) (b : Nat)
    (hd : text.drop s.c = b :: r) (hb : b = 93 ∨ b = 125) (hs : next_state s.state)
    (hsp : s.sp ≠ 0) :
    json_parse_body text s = some (true, { s with sp := s.sp - 1, c := s.c + 1 }) := by
  unfold json_parse_body
  simp only [char_at_of_drop _ _ _ _ hd]
  rcases hb with hb | hb <;> subst hb <;> rcases hs with hs | hs <;> rw [hs] <;>
    simp [json_type, json_state_mask, JSON_OBJECT_START, JSON_OBJECT_NEXT, JSON_ARRAY_START,
      JSON_ARRAY_NEXT, hsp]

theorem json_parse_body_end (text : List Nat) (s : json_parse_locals) (r : List Nat) (b : Nat)
    (hd : text.drop s.c = b :: r) (hb : b = 93 ∨ b = 125)
    (hs : next_state s.state ∨ s.state = JSON_ARRAY_START ∨ s.state = JSON_OBJECT_START)
    (hsp : s.sp = 0) :
    json_parse_body text s = some (false, s) := by
  unfold json_parse_body
  simp only [char_at_of_drop _ _ _ _ hd]
  rcases hb with hb | hb <;> subst hb <;> rcases hs with (hs | hs) | hs | hs <;> rw [hs] <;>
    simp [json_type, json_state_mask, JSON_OBJECT_START, JSON_OBJECT_NEXT, JSON_ARRAY_START,
      JSON_ARRAY_NEXT, hsp]

theorem json_parse_add_ready (s : json_parse_locals) (p : Nat) (slot : Slot) (flags : Bool)
    (hr : ParentReady s p slot) (hsp : flags = true → s.sp + 1 < 128) :
    ∃ s1, json_parse_add s flags = some (true, s1) ∧ s1.c = s.c ∧
      ParentDone s1.heap p s.val slot ∧ s1.heap.length = s.heap.length ∧
      (∀ q, q ≠ p → s1.heap[q]? = s.heap[q]?) ∧
      (flags = false → s1.sp = s.sp ∧ s1.stack = s.stack ∧ next_state s1.state) ∧
      (flags = true → s1.sp = s.sp + 1 ∧ s1.stack = s.stack.set (s.sp + 1) s.val ∧
        s1.state = json_parse_start_state s.val) := by
  cases slot with
  | item hs =>
    obtain ⟨htop, hstate, ⟨arr, hcell, hinv⟩, hlen⟩ := hr
    obtain ⟨arr2, e, inv2⟩ := heap_json_array_push_spec s.heap p arr hs s.val hcell hinv hlen
    have hp : p < s.heap.length := (List.getElem?_eq_some_iff.mp hcell).1
    have h1 : ¬ (s.state = JSON_OBJECT_START ∨ s.state = JSON_OBJECT_VAL) := by
      rcases hstate with h | h <;> rw [h] <;> decide
    unfold json_parse_add
    simp only [htop, if_neg h1, if_pos hstate, e]
    cases flags with
    | false =>
      refine ⟨_, rfl, rfl, ⟨arr2, by simp [hp], inv2⟩, by simp, ?_, ?_, ?_⟩
      · intro q hq; simp [List.getElem?_set_ne (Ne.symm hq)]
      · intro _; exact ⟨rfl, rfl, Or.inr rfl⟩
      · intro h; exact absurd h (by simp)
    | true =>
      have := hsp rfl
      simp only [if_true, if_pos this]
      refine ⟨_, rfl, rfl, ⟨arr2, by simp [hp], inv2⟩, by simp, ?_, ?_, ?_⟩
      · intro q hq; simp [List.getElem?_set_ne (Ne.symm hq)]
      · intro h; exact absurd h (by simp)
      · intro _; exact ⟨rfl, rfl, rfl⟩
  | entry bs k =>
    obtain ⟨htop, hstate, ⟨obj, hcell, hinv⟩, hkey, hfresh, hlen⟩ := hr
    obtain ⟨obj2, e, inv2⟩ :=
      heap_json__object_set_spec s.heap p obj bs s.key k s.val false hcell hinv hkey hfresh hlen
    have hp : p < s.heap.length := (List.getElem?_eq_some_iff.mp hcell).1
    unfold json_parse_add
    simp only [htop, if_pos (Or.inr hstate : s.state = JSON_OBJECT_START ∨ s.state = JSON_OBJECT_VAL), e]
    cases flags with
    | false =>
      refine ⟨_, rfl, rfl, ⟨obj2, by simp [hp], inv2⟩, by simp, ?_, ?_, ?_⟩
      · intro q hq; simp [List.getElem?_set_ne (Ne.symm hq)]
      · intro _; exact ⟨rfl, rfl, Or.inl rfl⟩
      · intro h; exact absurd h (by simp)
    | true =>
      have := hsp rfl
      simp only [if_true, if_pos this]
      refine ⟨_, rfl, rfl, ⟨obj2, by simp [hp], inv2⟩, by simp, ?_, ?_, ?_⟩
      · intro q hq; simp [List.getElem?_set_ne (Ne.symm hq)]
      · intro h; exact absurd h (by simp)
      · intro _; exact ⟨rfl, rfl, rfl⟩

theorem parentReady_congr (s s0 : json_parse_locals) (p : Nat) (slot : Slot)
    (h1 : s0.stack = s.stack) (h2 : s0.sp = s.sp) (h3 : s0.state = s.state)
    (h4 : s0.heap[p]? = s.heap[p]?) (h5 : s0.key = s.key) (hr : ParentReady s p slot) :
    ParentReady s0 p slot := by
  cases slot with
  | item hs =>
    unfold ParentReady at hr ⊢
    rw [h1, h2, h3, h4]; exact hr
  | entry bs k =>
    unfold ParentReady at hr ⊢
    rw [h1, h2, h3, h4, h5]; exact hr

theorem parentDone_congr (h h0 : List heap_cell) (p : Nat) (v : json_t) (slot : Slot)
    (h4 : h0[p]? = h[p]?) (hr : ParentDone h p v slot) : ParentDone h0 p v slot := by
  cases slot with
  | item hs =>
    unfold ParentDone at hr ⊢
    rw [h4]; exact hr
  | entry bs k =>
    unfold ParentDone at hr ⊢
    rw [h4]; exact hr

theorem parentReady_lt (s : json_parse_locals) (p : Nat) (slot : Slot)
    (hr : ParentReady s p slot) : p < s.heap.length := by
  cases slot with
  | item hs =>
    obtain ⟨_, _, ⟨arr, hc, _⟩, _⟩ := hr
    exact (List.getElem?_eq_some_iff.mp hc).1
  | entry bs k =>
    obtain ⟨_, _, ⟨obj, hc, _⟩, _⟩ := hr
    exact (List.getElem?_eq_some_iff.mp hc).1

theorem preserved_refl (s : json_parse_locals) (p : Nat) : Preserved s s p :=
  ⟨rfl, rfl, fun _ _ => rfl, le_refl _, fun _ _ _ => rfl⟩

theorem preserved_trans (a b c : json_parse_locals) (p : Nat) (h1 : Preserved a b p)
    (h2 : Preserved b c p) : Preserved a c p := by
  obtain ⟨a1, a2, a3, a4, a5⟩ := h1
  obtain ⟨b1, b2, b3, b4, b5⟩ := h2
  refine ⟨by rw [b1, a1], by rw [b2, a2], fun i hi => ?_, le_trans a4 b4, fun q hq hqp => ?_⟩
  · rw [b3 i (by rw [a1]; exact hi), a3 i hi]
  · rw [b5 q (by omega) hqp, a5 q hq hqp]

theorem value_state_of_ready (s : json_parse_locals) (p : Nat) (slot : Slot)
    (hr : ParentReady s p slot) :
    s.state = JSON_OBJECT_VAL ∨ s.state = JSON_ARRAY_START ∨ s.state = JSON_ARRAY_VAL := by
  cases slot with
  | item hs => exact Or.inr hr.2.1
  | entry bs k => exact Or.inl hr.2.1

theorem json_parse_body_number (text : List Nat) (s : json_parse_locals) (n : Int)
    (rest : List Nat) (hd : text.drop s.c = int_numeral n ++ rest) (hr : delimited rest)
    (hs : s.state = JSON_OBJECT_VAL ∨ s.state = JSON_ARRAY_START ∨ s.state = JSON_ARRAY_VAL) :
    json_parse_body text s =
      json_parse_add { s with val := .JSON_NUMBER (.finite (n : ℚ)),
                              c := s.c + (int_numeral n).length } false := by
  obtain ⟨b, l, hbl, hb⟩ : ∃ b l, int_numeral n = b :: l ∧ (b = 45 ∨ (48 ≤ b ∧ b ≤ 57)) := by
    unfold int_numeral
    by_cases c : n < 0
    · rw [if_pos c]; exact ⟨45, _, rfl, Or.inl rfl⟩
    · rw [if_neg c]
      cases h : decimal_numeral n.natAbs with
      | nil => exact absurd h (decimal_numeral_ne_nil _)
      | cons d ds =>
        exact ⟨d, ds, rfl, Or.inr (decimal_numeral_digits n.natAbs d (by rw [h]; simp))⟩
  have hty : json_type b = .JSON_NUMBER := by
    unfold json_type
    rcases hb with hb | hb
    · subst hb; rfl
    · obtain ⟨h1, h2⟩ := hb
      interval_cases b <;> rfl
  have hm : ¬ (s.state &&& json_state_mask .JSON_NUMBER = 0) := by
    rcases hs with h | h | h <;> rw [h] <;> decide
  have hc : char_at text s.c = b := char_at_of_drop _ _ _ (l ++ rest) (by rw [hd, hbl]; rfl)
  unfold json_parse_body
  simp only [hc, hty, if_neg hm, hd, strtod_int_numeral n rest hr]
  rfl

theorem json_parse_body_bool (text : List Nat) (s : json_parse_locals) (b : Bool)
    (rest : List Nat)
    (hd : text.drop s.c = (if b then [116, 114, 117, 101] else [102, 97, 108, 115, 101]) ++ rest)
    (hs : s.state = JSON_OBJECT_VAL ∨ s.state = JSON_ARRAY_START ∨ s.state = JSON_ARRAY_VAL) :
    json_parse_body text s =
      json_parse_add { s with val := (if b then .JSON_TRUE else .JSON_FALSE),
                              c := s.c + (if b then 4 else 5) } false := by
  cases b with
  | true =>
    simp only [if_true] at hd ⊢
    have hc : char_at text s.c = 116 := char_at_of_drop _ _ _ _ (by rw [hd]; rfl)
    have hm : ¬ (s.state &&& json_state_mask .JSON_TRUE = 0) := by
      rcases hs with h | h | h <;> rw [h] <;> decide
    unfold json_parse_body
    simp only [hc, show json_type 116 = .JSON_TRUE from rfl, if_neg hm, hd]
    rfl
  | false =>
    simp only [Bool.false_eq_true, if_false] at hd ⊢
    have hc : char_at text s.c = 102 := char_at_of_drop _ _ _ _ (by rw [hd]; rfl)
    have hm : ¬ (s.state &&& json_state_mask .JSON_FALSE = 0) := by
      rcases hs with h | h | h <;> rw [h] <;> decide
    unfold json_parse_body
    simp only [hc, show json_type 102 = .JSON_FALSE from rfl, if_neg hm, hd]
    rfl

theorem json_parse_body_array (text : List Nat) (s : json_parse_locals) (r : List Nat)
    (hd : text.drop s.c = 91 :: r)
    (hs : s.state = JSON_START ∨ s.state = JSON_OBJECT_VAL ∨ s.state = JSON_ARRAY_START ∨
      s.state = JSON_ARRAY_VAL) :
    json_parse_body text s =
      json_parse_add { s with val := .JSON_ARRAY s.heap.length,
                              heap := s.heap ++ [.array (json__array_new 0)],
                              c := s.c + 1 } true := by
  have hm : ¬ (s.state &&& json_state_mask .JSON_ARRAY = 0) := by
    rcases hs with h | h | h | h <;> rw [h] <;> decide
  unfold json_parse_body
  simp only [char_at_of_drop _ _ _ _ hd, show json_type 91 = .JSON_ARRAY from rfl, if_neg hm]
  rfl

theorem json_parse_body_object (text : List Nat) (s : json_parse_locals) (r : List Nat)
    (hd : text.drop s.c = 123 :: r)
    (hs : s.state = JSON_START ∨ s.state = JSON_OBJECT_VAL ∨ s.state = JSON_ARRAY_START ∨
      s.state = JSON_ARRAY_VAL) :
    json_parse_body text s =
      json_parse_add { s with val := .JSON_OBJECT s.heap.length,
                              heap := s.heap ++ [.object (json__object_new 0)],
                              c := s.c + 1 } true := by
  have hm : ¬ (s.state &&& json_state_mask .JSON_OBJECT = 0) := by
    rcases hs with h | h | h | h <;> rw [h] <;> decide
  unfold json_parse_body
  simp only [char_at_of_drop _ _ _ _ hd, show json_type 123 = .JSON_OBJECT from rfl, if_neg hm]
  rfl

theorem strchr_key (k r : List Nat) (hk : ∀ b ∈ k, b ≠ 34 ∧ b ≠ 0) :
    strchr (k ++ 34 :: r) 34 = some k.length := by
  induction k with
  | nil => simp [strchr]
  | cons b bs ih =>
    have hb := hk b (List.mem_cons_self _ _)
    rw [List.cons_append, strchr, if_neg hb.1, if_neg hb.2,
      ih (fun x hx => hk x (List.mem_cons_of_mem _ hx))]
    rfl

theorem string_value_data (k r : List Nat) :
    (memcpy (malloc (k.length + 1)) 0 ((k ++ 34 :: r).map some) k.length).set k.length (some 0)
      = k.map some ++ [some 0] := by
  have h1 : memread ((k ++ 34 :: r).map some) 0 k.length = k.map some := by
    unfold memread
    rw [List.drop_zero, List.map_append, List.take_left' (by simp)]
  have h2 : (malloc (k.length + 1) : List (Option Nat)).drop k.length = [none] := by
    unfold malloc
    rw [List.drop_replicate]
    simp
  unfold memcpy memwrite
  rw [h1, List.take_zero, List.nil_append, List.length_map, Nat.zero_add, h2]
  rw [List.set_append_right _ _ (by simp)]
  simp

theorem key_byte_spec (k : List Nat) (hk : k.all key_byte = true) :
    ∀ b ∈ k, b ≠ 34 ∧ b ≠ 0 ∧ b ≠ 92 ∧ 32 ≤ b ∧ b < 127 := by
  intro b hb
  have := List.all_eq_true.mp hk b hb
  simp only [key_byte, Bool.and_eq_true, decide_eq_true_eq, bne_iff_ne, ne_eq] at this
  omega

theorem text_key_byte_spec (k : List Nat) (hk : k.all text_key_byte = true) :
    ∀ b ∈ k, b ≠ 34 ∧ b ≠ 0 ∧ b ≠ 92 := by
  intro b hb
  have := List.all_eq_true.mp hk b hb
  simp only [text_key_byte, Bool.and_eq_true, decide_eq_true_eq, bne_iff_ne, ne_eq] at this
  omega

theorem json_parse_string_value_key (text : List Nat) (c : Nat) (k r : List Nat)
    (hd : text.drop c = 34 :: (k ++ 34 :: r)) (hks : ∀ b ∈ k, b ≠ 34 ∧ b ≠ 0 ∧ b ≠ 92) :
    json_parse_string_value text c false =
      ({ data := k.map some ++ [some 0], len := k.length, cap := k.length + 1 },
        c + k.length + 2) := by
  have hd1 : text.drop (c + 1) = k ++ 34 :: r := by
    rw [drop_add, hd]; rfl
  have hprev : char_at text (c + 1 + k.length - 1) ≠ 92 := by
    have e : c + 1 + k.length - 1 = c + k.length := by omega
    rw [e]
    rcases List.eq_nil_or_concat k with h | ⟨k2, x, h⟩
    · subst h
      have : char_at text (c + 0) = 34 := char_at_of_drop _ _ _ _ hd
      simp only [List.length_nil]
      rw [this]; decide
    · rw [List.concat_eq_append] at h
      subst h
      have hx := hks x (by simp)
      have hd2 : text.drop (c + (k2 ++ [x]).length) = x :: 34 :: r := by
        rw [drop_add, hd]
        have : (34 :: (k2 ++ [x] ++ 34 :: r)) = (34 :: k2) ++ (x :: 34 :: r) := by simp
        rw [this]
        have hl : (k2 ++ [x]).length = (34 :: k2).length := by simp
        rw [hl, List.drop_left]
      rw [char_at_of_drop _ _ _ _ hd2]
      exact hx.2.2
  unfold json_parse_string_value
  simp only []
  rw [json_parse_string_scan, hd1, strchr_key k r (fun b hb => ⟨(hks b hb).1, (hks b hb).2.1⟩)]
  simp only [if_neg hprev]
  have e1 : c + 1 + k.length - (c + 1) = k.length := by omega
  simp only [Bool.false_eq_true, if_false]
  rw [e1, string_value_data]
  congr 1
  omega

theorem json_parse_body_key (text : List Nat) (s : json_parse_locals) (k r : List Nat)
    (hd : text.drop s.c = 34 :: (k ++ 34 :: r)) (hk : ∀ b ∈ k, b ≠ 34 ∧ b ≠ 0 ∧ b ≠ 92)
    (hs : s.state = JSON_OBJECT_START ∨ s.state = JSON_OBJECT_KEY) :
    json_parse_body text s =
      some (true, { s with key := k.map some ++ [some 0], state := JSON_OBJECT_COLON,
                           c := s.c + k.length + 2 }) := by
  have hm : ¬ (s.state &&& json_state_mask .JSON_STRING = 0) := by
    rcases hs with h | h <;> rw [h] <;> decide
  have hm2 : s.state &&& (JSON_OBJECT_START ||| JSON_OBJECT_KEY) ≠ 0 := by
    rcases hs with h | h <;> rw [h] <;> decide
  unfold json_parse_body
  simp only [char_at_of_drop _ _ _ _ hd, show json_type 34 = .JSON_STRING from rfl, if_neg hm,
    if_pos hm2, json_parse_string_value_key text s.c k r hd hk]

/-! ## The parser on the texts of the fragment -/

theorem parses_leaf (text : List Nat) (s : json_parse_locals) (p : Nat) (slot : Slot)
    (w x rest : List Nat) (v : json_t) (t : Value) (b : Nat) (l : List Nat)
    (hd : text.drop s.c = w ++ (x ++ rest)) (hw : whitespace w) (hx : x = b :: l)
    (hb : 32 < b ∧ b < 128) (hready : ParentReady s p slot)
    (hbody : json_parse_body text { s with c := s.c + w.length } =
      json_parse_add { s with c := s.c + w.length + x.length, val := v } false)
    (hrep : ∀ heap lo, Represents heap lo v t) :
    ∃ n s1 v, json_parse_steps text n s = some s1 ∧ n ≤ w.length + x.length ∧
      s1.c = s.c + w.length + x.length ∧ next_state s1.state ∧ Preserved s s1 p ∧
      ParentDone s1.heap p v slot ∧ Represents s1.heap s.heap.length v t := by
  have hstep := (json_parse_step_at text s w b (l ++ rest) (by rw [hd, hx]; rfl) hw hb.1 hb.2).1
  have hr0 : ParentReady { s with c := s.c + w.length + x.length, val := v } p slot :=
    parentReady_congr s _ p slot rfl rfl rfl rfl rfl hready
  obtain ⟨s1, e1, hc, hdone, hlen, hframe, hf, _⟩ :=
    json_parse_add_ready _ p slot false hr0 (fun h => absurd h (by simp))
  obtain ⟨hsp, hstack, hnext⟩ := hf rfl
  refine ⟨1, s1, v, json_parse_steps_one text s s1 (by rw [hstep, hbody, e1]), ?_, hc, hnext,
    ⟨hsp, by rw [hstack], fun i _ => by rw [hstack], le_of_eq hlen.symm,
      fun q _ hq => hframe q hq⟩, hdone, hrep _ _⟩
  rw [hx]; simp only [List.length_cons]; omega

theorem parses_bool (text : List Nat) (b : Bool) : ParsesValue text (.bool b) := by
  intro s p slot w x rest _ htext hw _ hd hready _ _
  have hx : x = (if b then [116, 114, 117, 101] else [102, 97, 108, 115, 101]) := by
    cases b <;> simpa [Text] using htext
  have hd0 := drop_add_append text s.c w (x ++ rest) hd
  have hbody := json_parse_body_bool text { s with c := s.c + w.length } b rest
    (by rw [← hx]; exact hd0) (value_state_of_ready s p slot hready)
  cases b with
  | true =>
    simp only [if_true] at hx hbody
    exact parses_leaf text s p slot w x rest .JSON_TRUE (.bool true) 116 [114, 117, 101] hd hw hx
      (by decide) hready (by rw [hbody, hx]; rfl) (fun _ _ => by simp [Represents])
  | false =>
    simp only [Bool.false_eq_true, if_false] at hx hbody
    exact parses_leaf text s p slot w x rest .JSON_FALSE (.bool false) 102 [97, 108, 115, 101] hd
      hw hx (by decide) hready (by rw [hbody, hx]; rfl) (fun _ _ => by simp [Represents])

theorem parses_number (text : List Nat) (num : double) : ParsesValue text (.number num) := by
  intro s p slot w x rest hfrag htext hw hrest hd hready _ _
  cases num with
  | inf neg => simp [nested_document] at hfrag
  | nan => simp [nested_document] at hfrag
  | finite q =>
    simp only [Text] at htext
    obtain ⟨n, hq, hx⟩ := htext
    have hd0 := drop_add_append text s.c w (x ++ rest) hd
    have hbody := json_parse_body_number text { s with c := s.c + w.length } n rest
      (by rw [← hx]; exact hd0) hrest (value_state_of_ready s p slot hready)
    obtain ⟨b, l, hbl, hb⟩ : ∃ b l, x = b :: l ∧ (32 < b ∧ b < 128) := by
      rw [hx]
      unfold int_numeral
      by_cases c : n < 0
      · rw [if_pos c]; exact ⟨45, _, rfl, by decide⟩
      · rw [if_neg c]
        cases h : decimal_numeral n.natAbs with
        | nil => exact absurd h (decimal_numeral_ne_nil _)
        | cons d ds =>
          have := decimal_numeral_digits n.natAbs d (by rw [h]; simp)
          exact ⟨d, ds, rfl, by omega⟩
    exact parses_leaf text s p slot w x rest (.JSON_NUMBER (.finite (n : ℚ))) _ b l hd hw hbl hb
      hready (by rw [hbody, hx]) (fun _ _ => by simp [Represents, hq])

theorem whitespace_head_delimited (w : List Nat) (c : Nat) (r : List Nat) (hw : whitespace w)
    (hc : delimiter c) : delimited (w ++ c :: r) := by
  intro b hb
  cases w with
  | nil =>
    simp only [List.nil_append, List.head?_cons, Option.some.injEq] at hb
    subst hb; exact hc
  | cons a as =>
    simp only [List.cons_append, List.head?_cons, Option.some.injEq] at hb
    subst hb
    exact Or.inl (hw a (List.mem_cons_self _ _)).2

theorem textItems_delimited (ts : List Value) (r rest : List Nat)
    (h : TextItems false ts r) : delimited (r ++ rest) := by
  cases ts with
  | nil =>
    simp only [TextItems] at h
    obtain ⟨w, hw, e⟩ := h
    rw [e, List.append_assoc]
    exact whitespace_head_delimited w 93 _ hw (Or.inr (Or.inr (Or.inl rfl)))
  | cons t ts =>
    simp only [TextItems] at h
    obtain ⟨w0, w, x, r2, hw0, _, _, e, _⟩ := h
    rw [e]
    simp only [Bool.false_eq_true, if_false, List.append_assoc, List.singleton_append,
      List.cons_append, List.nil_append]
    exact whitespace_head_delimited w0 44 _ hw0 (Or.inr (Or.inl rfl))

theorem textEntries_delimited (es : List (List Nat × Value)) (r rest : List Nat)
    (h : TextEntries false es r) : delimited (r ++ rest) := by
  cases es with
  | nil =>
    simp only [TextEntries] at h
    obtain ⟨w, hw, e⟩ := h
    rw [e, List.append_assoc]
    exact whitespace_head_delimited w 125 _ hw (Or.inr (Or.inr (Or.inr rfl)))
  | cons e es =>
    obtain ⟨k, t⟩ := e
    simp only [TextEntries] at h
    obtain ⟨w0, w, w1, w2, x, r2, hw0, _, _, _, _, e, _⟩ := h
    rw [e]
    simp only [Bool.false_eq_true, if_false, List.append_assoc, List.singleton_append,
      List.cons_append, List.nil_append]
    exact whitespace_head_delimited w0 44 _ hw0 (Or.inr (Or.inl rfl))

theorem parses_items_nil (text : List Nat) : ParsesItems text [] := by
  intro first s p hs done body rest _ htext hd _ _ hcell hrep _ _ _
  simp only [TextItems] at htext
  obtain ⟨w, hw, e⟩ := htext
  refine ⟨0, s, w, hs, rfl, by rw [e]; simp, hw, by rw [e]; simp; omega, ?_, by simp,
    fun _ => rfl, preserved_refl s p, hcell, by simpa using hrep⟩
  rw [hd, e]; simp

/-- The comma in front of an element or an entry that is not the first. -/
theorem parses_separator (text : List Nat) (s : json_parse_locals) (first : Bool)
    (w0 tail : List Nat) (top : json_t) (st0 : Nat)
    (hd : text.drop s.c = (if first then [] else w0 ++ [44]) ++ tail) (hw0 : whitespace w0)
    (htop : s.stack[s.sp]? = some top)
    (hstate : if first then s.state = st0 else next_state s.state) :
    ∃ n sA, json_parse_steps text n s = some sA ∧
      n ≤ (if first then [] else w0 ++ [44]).length ∧
      sA.c = s.c + (if first then [] else w0 ++ [44]).length ∧
      sA.state = (if first then st0 else json_parse_comma_state top) ∧
      sA.stack = s.stack ∧ sA.sp = s.sp ∧ sA.heap = s.heap ∧ text.drop sA.c = tail := by
  cases first with
  | true =>
    simp only [if_true, List.nil_append] at hd hstate ⊢
    exact ⟨0, s, rfl, by simp, by simp, hstate, rfl, rfl, rfl, hd⟩
  | false =>
    simp only [Bool.false_eq_true, if_false] at hd hstate ⊢
    have hd2 : text.drop s.c = w0 ++ 44 :: tail := by rw [hd]; simp
    obtain ⟨e1, e2⟩ := json_parse_step_at text s w0 44 tail hd2 hw0 (by decide) (by decide)
    have e3 := json_parse_body_comma text { s with c := s.c + w0.length } tail top e2 hstate htop
    refine ⟨1, { s with c := s.c + w0.length + 1, state := json_parse_comma_state top },
      json_parse_steps_one text s _ (by rw [e1, e3]), by simp, ?_, rfl, rfl, rfl, rfl, ?_⟩
    · simp only [List.length_append, List.length_singleton]; omega
    · show text.drop (s.c + w0.length + 1) = tail
      rw [drop_add, e2]; rfl

theorem parses_items_cons (text : List Nat) (t : Value) (ts : List Value)
    (hP : ParsesValue text t) (hQ : ParsesItems text ts) : ParsesItems text (t :: ts) := by
  intro first s p hs done body rest hfrag htext hd htop hstate hcell hrep hlen hstk hdepth
  simp only [TextItems] at htext
  obtain ⟨w0, w, x, r, hw0, hw, htx, hbody, htail⟩ := htext
  simp only [items_document, Bool.and_eq_true] at hfrag
  obtain ⟨hft, hfts⟩ := hfrag
  simp only [depth_items] at hdepth
  simp only [List.length_cons] at hlen
  obtain ⟨nA, sA, eA, hnA, hcA, hstA, hstackA, hspA, hheapA, hdA⟩ :=
    parses_separator text s first w0 (w ++ (x ++ (r ++ rest))) (.JSON_ARRAY p) JSON_ARRAY_START
      (by rw [hd, hbody]; simp) hw0 htop hstate
  generalize (if first = true then [] else w0 ++ [44]) = pre at hbody hnA hcA
  have hreadyA : ParentReady sA p (.item hs) :=
    ⟨by rw [hstackA, hspA]; exact htop,
     by rw [hstA]; cases first <;> simp [json_parse_comma_state],
     by rw [hheapA]; exact hcell, by omega⟩
  obtain ⟨nB, sB, v, eB, hnB, hcB, hnextB, hpresB, hdoneB, hrepB⟩ :=
    hP sA p (.item hs) w x (r ++ rest) hft htx hw (textItems_delimited ts r rest htail) hdA
      hreadyA (by rw [hstackA]; exact hstk) (by rw [hspA]; omega)
  obtain ⟨b1, b2, b3, b4, b5⟩ := hpresB
  have hp : p < s.heap.length := by
    obtain ⟨arr, hc, _⟩ := hcell
    exact (List.getElem?_eq_some_iff.mp hc).1
  have hdB : text.drop sB.c = r ++ rest := by
    rw [hcB, Nat.add_assoc, drop_add, hdA, ← List.append_assoc, ← List.length_append,
      List.drop_left]
  have hrepB2 : RepresentsItems sB.heap (p + 1) (hs ++ [v]) (done ++ [t]) := by
    apply representsItems_append
    · apply represents_frame.2.1 done s.heap sB.heap (p + 1) hs _ hrep
      intro q hq hq2
      rw [b5 q (by rw [hheapA]; exact hq2) (by omega), hheapA]
    · exact represents_mono sB.heap sA.heap.length (p + 1) (by rw [hheapA]; omega) v t hrepB
  obtain ⟨nC, sC, wC, hsC, eC, hnC, hwC, hcC, hdC, hne, hnil, hpresC, hcellC, hrepC⟩ :=
    hQ false sB p (hs ++ [v]) (done ++ [t]) r rest hfts htail hdB
      (by rw [b1, b3 sA.sp (le_refl _), hstackA, hspA]; exact htop) hnextB hdoneB hrepB2
      (by simp only [List.length_append, List.length_singleton]; omega)
      (by rw [b2, hstackA]; exact hstk) (by rw [b1, hspA]; omega)
  have hpresSB : Preserved s sB p :=
    ⟨by rw [b1, hspA], by rw [b2, hstackA],
     fun i hi => by rw [b3 i (by rw [hspA]; exact hi), hstackA],
     by rw [← hheapA]; exact b4,
     fun q hq hqp => by rw [b5 q (by rw [hheapA]; exact hq) hqp, hheapA]⟩
  refine ⟨nA + nB + nC, sC, wC, hsC,
    json_parse_steps_add text _ _ _ _ _ (json_parse_steps_add text _ _ _ _ _ eA eB) eC, ?_, hwC,
    ?_, hdC, ?_, by simp, preserved_trans s sB sC p hpresSB hpresC, hcellC, by simpa using hrepC⟩
  · rw [hbody]; simp only [List.length_append]; omega
  · rw [hbody]; simp only [List.length_append]; omega
  · intro _
    by_cases hts : ts = []
    · rw [hnil hts]; exact hnextB
    · exact hne hts

theorem parses_array (text : List Nat) (items : List Value) (hQ : ParsesItems text items) :
    ParsesValue text (.array items) := by
  intro s p slot w x rest hfrag htext hw _ hd hready hstk hdepth
  simp only [nested_document, Bool.and_eq_true, decide_eq_true_eq, Bool.not_eq_true',
    List.isEmpty_eq_false] at hfrag
  obtain ⟨⟨hne, hlen⟩, hfi⟩ := hfrag
  simp only [Text] at htext
  obtain ⟨body, hx, hbody⟩ := htext
  simp only [depth] at hdepth
  have hp := parentReady_lt s p slot hready
  have hd1 : text.drop s.c = w ++ 91 :: (body ++ rest) := by rw [hd, hx]; rfl
  obtain ⟨e1, e2⟩ := json_parse_step_at text s w 91 (body ++ rest) hd1 hw (by decide) (by decide)
  have e3 := json_parse_body_array text { s with c := s.c + w.length } (body ++ rest) e2
    (Or.inr (value_state_of_ready s p slot hready))
  obtain ⟨s0, hs0⟩ : ∃ s0 : json_parse_locals, s0 = { s with
      c := s.c + w.length + 1, val := .JSON_ARRAY s.heap.length,
      heap := s.heap ++ [.array (json__array_new 0)] } := ⟨_, rfl⟩
  have hr0 : ParentReady s0 p slot :=
    parentReady_congr s s0 p slot (by rw [hs0]) (by rw [hs0]) (by rw [hs0])
      (by rw [hs0]; exact List.getElem?_append_left hp) (by rw [hs0]) hready
  obtain ⟨s1, ea, hc1, hdone1, hlen1, hframe1, _, hf1⟩ :=
    json_parse_add_ready s0 p slot true hr0 (fun _ => by rw [hs0]; show s.sp + 1 < 128; omega)
  obtain ⟨hsp1, hstack1, hstate1⟩ := hf1 rfl
  have estep : json_parse_steps text 1 s = some s1 :=
    json_parse_steps_one text s s1 (by rw [e1, e3, ← ea, hs0])
  rw [hs0] at hc1 hdone1 hlen1 hframe1 hsp1 hstack1 hstate1
  dsimp only at hc1 hdone1 hlen1 hframe1 hsp1 hstack1 hstate1
  simp only [List.length_append, List.length_singleton] at hlen1
  have hcell1 : s1.heap[s.heap.length]? = some (.array (json__array_new 0)) := by
    rw [hframe1 s.heap.length (by omega)]; simp
  have htop1 : s1.stack[s1.sp]? = some (.JSON_ARRAY s.heap.length) := by
    rw [hstack1, hsp1, List.getElem?_set_self (by omega)]
  obtain ⟨n2, s2, w2, hs2, e2s, hn2, hw2, hc2, hd2, hne2, _, hpres2, hcell2, hrep2⟩ :=
    hQ true s1 s.heap.length [] [] body rest hfi hbody
      (by rw [hc1]; show text.drop (s.c + w.length + 1) = _; rw [drop_add, e2]; rfl) htop1
      (by simp only [if_true]; exact hstate1) ⟨_, hcell1, json__array_new_inv 0 (by norm_num)⟩
      (by simp [RepresentsItems]) (by simpa using hlen) (by rw [hstack1]; simpa using hstk)
      (by rw [hsp1]; omega)
  obtain ⟨c1, c2, c3, c4, c5⟩ := hpres2
  obtain ⟨e4, e5⟩ := json_parse_step_at text s2 w2 93 rest hd2 hw2 (by decide) (by decide)
  have e6 := json_parse_body_close text { s2 with c := s2.c + w2.length } rest 93 e5 (Or.inl rfl)
    (hne2 hne) (by show s2.sp ≠ 0; rw [c1, hsp1]; omega)
  refine ⟨1 + n2 + 1, { s2 with sp := s2.sp - 1, c := s2.c + w2.length + 1 },
    .JSON_ARRAY s.heap.length,
    json_parse_steps_add text _ _ _ _ _ (json_parse_steps_add text _ _ _ _ _ estep e2s)
      (json_parse_steps_one text s2 _ (by rw [e4, e6])), ?_, ?_, hne2 hne, ?_, ?_, ?_⟩
  · rw [hx]; simp only [List.length_cons]; omega
  · show s2.c + w2.length + 1 = _
    rw [hx]; simp only [List.length_cons]; omega
  · refine ⟨?_, ?_, ?_, ?_, ?_⟩
    · show s2.sp - 1 = s.sp
      rw [c1, hsp1]; omega
    · show s2.stack.length = s.stack.length
      rw [c2, hstack1]; simp
    · intro i hi
      show s2.stack[i]? = s.stack[i]?
      rw [c3 i (by rw [hsp1]; omega), hstack1, List.getElem?_set_ne (by omega)]
    · show s.heap.length ≤ s2.heap.length
      omega
    · intro q hq hqp
      show s2.heap[q]? = s.heap[q]?
      rw [c5 q (by omega) (by omega), hframe1 q hqp, List.getElem?_append_left hq]
  · exact parentDone_congr s1.heap s2.heap p _ slot (c5 p (by omega) (by omega)) hdone1
  · simp only [Represents]
    obtain ⟨arr, h1, h2⟩ := hcell2
    exact ⟨s.heap.length, arr, hs2, rfl, le_refl _, h1, h2, by simpa using hrep2⟩

theorem parses_entries_nil (text : List Nat) : ParsesEntries text [] := by
  intro first s p bs done body rest _ htext hd _ _ hcell hrep _ _ _ _
  simp only [TextEntries] at htext
  obtain ⟨w, hw, e⟩ := htext
  refine ⟨0, s, w, bs, rfl, by rw [e]; simp, hw, by rw [e]; simp; omega, ?_, by simp,
    fun _ => rfl, preserved_refl s p, hcell, by simpa using hrep⟩
  rw [hd, e]; simp

theorem parses_entries_cons (text : List Nat) (k : List Nat) (t : Value)
    (es : List (List Nat × Value)) (hP : ParsesValue text t) (hR : ParsesEntries text es) :
    ParsesEntries text ((k, t) :: es) := by
  intro first s p bs done body rest hfrag htext hd htop hstate hcell hrep hfresh hlen hstk hdepth
  simp only [TextEntries] at htext
  obtain ⟨w0, w, w1, w2, x, r, hw0, hw, hw1, hw2, htx, hbody, htail⟩ := htext
  simp only [entries_document, Bool.and_eq_true, Bool.not_eq_true', List.any_eq_false,
    beq_iff_eq] at hfrag
  obtain ⟨⟨⟨hkey, hnot⟩, hft⟩, hfes⟩ := hfrag
  simp only [depth_entries] at hdepth
  simp only [List.length_cons] at hlen
  obtain ⟨nA, sA, eA, hnA, hcA, hstA, hstackA, hspA, hheapA, hdA⟩ :=
    parses_separator text s first w0
      (w ++ 34 :: (k ++ 34 :: (w1 ++ 58 :: (w2 ++ (x ++ (r ++ rest))))))
      (.JSON_OBJECT p) JSON_OBJECT_START (by rw [hd, hbody]; simp) hw0 htop hstate
  generalize (if first = true then [] else w0 ++ [44]) = pre at hbody hnA hcA
  have hstA2 : sA.state = JSON_OBJECT_START ∨ sA.state = JSON_OBJECT_KEY := by
    rw [hstA]; cases first <;> simp [json_parse_comma_state]
  -- the key
  obtain ⟨k1, k2⟩ := json_parse_step_at text sA w 34 _ hdA hw (by decide) (by decide)
  have k3 := json_parse_body_key text { sA with c := sA.c + w.length } k _ k2
    (text_key_byte_spec k hkey) hstA2
  obtain ⟨sK, hsK⟩ : ∃ sK : json_parse_locals, sK = { sA with
      key := k.map some ++ [some 0], state := JSON_OBJECT_COLON,
      c := sA.c + w.length + k.length + 2 } := ⟨_, rfl⟩
  have eK : json_parse_steps text 1 sA = some sK :=
    json_parse_steps_one text sA sK (by rw [k1, k3, hsK])
  have hdK : text.drop sK.c = w1 ++ 58 :: (w2 ++ (x ++ (r ++ rest))) := by
    rw [hsK]
    show text.drop (sA.c + w.length + k.length + 2) = _
    rw [show sA.c + w.length + k.length + 2 = sA.c + w.length + (1 + k.length + 1) from by omega,
      drop_add, k2]
    have : (34 :: (k ++ 34 :: (w1 ++ 58 :: (w2 ++ (x ++ (r ++ rest))))))
        = (34 :: k ++ [34]) ++ (w1 ++ 58 :: (w2 ++ (x ++ (r ++ rest)))) := by simp
    rw [this]
    have hl : 1 + k.length + 1 = (34 :: k ++ [34]).length := by simp; omega
    rw [hl, List.drop_left]
  -- the colon
  obtain ⟨c1, c2⟩ := json_parse_step_at text sK w1 58 _ hdK hw1 (by decide) (by decide)
  have c3 := json_parse_body_colon text { sK with c := sK.c + w1.length } _ c2 (by rw [hsK])
  obtain ⟨sC, hsC⟩ : ∃ sC : json_parse_locals, sC = { sK with
      c := sK.c + w1.length + 1, state := JSON_OBJECT_VAL } := ⟨_, rfl⟩
  have eC : json_parse_steps text 1 sK = some sC :=
    json_parse_steps_one text sK sC (by rw [c1, c3, hsC])
  have hdC : text.drop sC.c = w2 ++ (x ++ (r ++ rest)) := by
    rw [hsC]
    show text.drop (sK.c + w1.length + 1) = _
    rw [drop_add, c2]; rfl
  have hkz := text_key_byte_spec k hkey
  have hreadyC : ParentReady sC p (.entry bs k) := by
    refine ⟨?_, ?_, ?_, ?_, hfresh (k, t) (List.mem_cons_self _ _), by omega⟩
    · rw [hsC, hsK]; show sA.stack[sA.sp]? = _; rw [hstackA, hspA]; exact htop
    · rw [hsC]
    · rw [hsC, hsK]; show ∃ obj, sA.heap[p]? = _ ∧ _; rw [hheapA]; exact hcell
    · rw [hsC, hsK]
      exact c_string_bytes k (fun b hb => (hkz b hb).2.1) []
  have hstackC : sC.stack = s.stack := by rw [hsC, hsK]; exact hstackA
  have hspC : sC.sp = s.sp := by rw [hsC, hsK]; exact hspA
  have hheapC : sC.heap = s.heap := by rw [hsC, hsK]; exact hheapA
  have hcC : sC.c = s.c + pre.length + w.length + k.length + 2 + w1.length + 1 := by
    rw [hsC, hsK]; show sA.c + w.length + k.length + 2 + w1.length + 1 = _; rw [hcA]
  obtain ⟨nB, sB, v, eB, hnB, hcB, hnextB, hpresB, hdoneB, hrepB⟩ :=
    hP sC p (.entry bs k) w2 x (r ++ rest) hft htx hw2 (textEntries_delimited es r rest htail) hdC
      hreadyC (by rw [hstackC]; exact hstk) (by rw [hspC]; omega)
  obtain ⟨b1, b2, b3, b4, b5⟩ := hpresB
  have hp : p < s.heap.length := by
    obtain ⟨obj, hc, _⟩ := hcell
    exact (List.getElem?_eq_some_iff.mp hc).1
  have hdB : text.drop sB.c = r ++ rest := by
    rw [hcB, Nat.add_assoc, drop_add, hdC, ← List.append_assoc, ← List.length_append,
      List.drop_left]
  have hrepB2 : RepresentsEntries sB.heap (p + 1) (bs ++ [⟨k, v⟩]) (done ++ [(k, t)]) := by
    apply representsEntries_append
    · apply represents_frame.2.2 done s.heap sB.heap (p + 1) bs _ hrep
      intro q hq hq2
      rw [b5 q (by rw [hheapC]; exact hq2) (by omega), hheapC]
    · exact represents_mono sB.heap sC.heap.length (p + 1) (by rw [hheapC]; omega) v t hrepB
  have hfresh2 : ∀ e ∈ es,
      e.1 ∉ (bs ++ [(⟨k, v⟩ : json_bucket_t)]).map (fun b => b.key) := by
    intro e he hmem
    simp only [List.map_append, List.map_cons, List.map_nil, List.mem_append,
      List.mem_singleton] at hmem
    rcases hmem with h | h
    · exact hfresh e (List.mem_cons_of_mem _ he) h
    · exact hnot e he h
  obtain ⟨nC, sD, wC, bsC, eD, hnC, hwC, hcD, hdD, hne, hnil, hpresC, hcellC, hrepC⟩ :=
    hR false sB p (bs ++ [(⟨k, v⟩ : json_bucket_t)]) (done ++ [(k, t)]) r rest hfes htail hdB
      (by rw [b1, b3 sC.sp (le_refl _), hstackC, hspC]; exact htop) hnextB hdoneB hrepB2 hfresh2
      (by simp only [List.length_append, List.length_singleton]; omega)
      (by rw [b2, hstackC]; exact hstk) (by rw [b1, hspC]; omega)
  have hpresSB : Preserved s sB p :=
    ⟨by rw [b1, hspC], by rw [b2, hstackC],
     fun i hi => by rw [b3 i (by rw [hspC]; exact hi), hstackC],
     by rw [← hheapC]; exact b4,
     fun q hq hqp => by rw [b5 q (by rw [hheapC]; exact hq) hqp, hheapC]⟩
  refine ⟨nA + 1 + 1 + nB + nC, sD, wC, bsC,
    json_parse_steps_add text _ _ _ _ _ (json_parse_steps_add text _ _ _ _ _
      (json_parse_steps_add text _ _ _ _ _ (json_parse_steps_add text _ _ _ _ _ eA eK) eC) eB) eD,
    ?_, hwC, ?_, hdD, ?_, by simp, preserved_trans s sB sD p hpresSB hpresC, hcellC,
    by simpa using hrepC⟩
  · rw [hbody]; simp only [List.length_append, List.length_cons]; omega
  · rw [hbody]; simp only [List.length_append, List.length_cons]; omega
  · intro _
    by_cases hes : es = []
    · rw [hnil hes]; exact hnextB
    · exact hne hes

theorem parses_object (text : List Nat) (entries : List (List Nat × Value))
    (hR : ParsesEntries text entries) : ParsesValue text (.object entries) := by
  intro s p slot w x rest hfrag htext hw _ hd hready hstk hdepth
  simp only [nested_document, Bool.and_eq_true, decide_eq_true_eq, Bool.not_eq_true',
    List.isEmpty_eq_false] at hfrag
  obtain ⟨⟨hne, hlen⟩, hfi⟩ := hfrag
  simp only [Text] at htext
  obtain ⟨body, hx, hbody⟩ := htext
  simp only [depth] at hdepth
  have hp := parentReady_lt s p slot hready
  have hd1 : text.drop s.c = w ++ 123 :: (body ++ rest) := by rw [hd, hx]; rfl
  obtain ⟨e1, e2⟩ := json_parse_step_at text s w 123 (body ++ rest) hd1 hw (by decide) (by decide)
  have e3 := json_parse_body_object text { s with c := s.c + w.length } (body ++ rest) e2
    (Or.inr (value_state_of_ready s p slot hready))
  obtain ⟨s0, hs0⟩ : ∃ s0 : json_parse_locals, s0 = { s with
      c := s.c + w.length + 1, val := .JSON_OBJECT s.heap.length,
      heap := s.heap ++ [.object (json__object_new 0)] } := ⟨_, rfl⟩
  have hr0 : ParentReady s0 p slot :=
    parentReady_congr s s0 p slot (by rw [hs0]) (by rw [hs0]) (by rw [hs0])
      (by rw [hs0]; exact List.getElem?_append_left hp) (by rw [hs0]) hready
  obtain ⟨s1, ea, hc1, hdone1, hlen1, hframe1, _, hf1⟩ :=
    json_parse_add_ready s0 p slot true hr0 (fun _ => by rw [hs0]; show s.sp + 1 < 128; omega)
  obtain ⟨hsp1, hstack1, hstate1⟩ := hf1 rfl
  have estep : json_parse_steps text 1 s = some s1 :=
    json_parse_steps_one text s s1 (by rw [e1, e3, ← ea, hs0])
  rw [hs0] at hc1 hdone1 hlen1 hframe1 hsp1 hstack1 hstate1
  dsimp only at hc1 hdone1 hlen1 hframe1 hsp1 hstack1 hstate1
  simp only [List.length_append, List.length_singleton] at hlen1
  have hcell1 : s1.heap[s.heap.length]? = some (.object (json__object_new 0)) := by
    rw [hframe1 s.heap.length (by omega)]; simp
  have htop1 : s1.stack[s1.sp]? = some (.JSON_OBJECT s.heap.length) := by
    rw [hstack1, hsp1, List.getElem?_set_self (by omega)]
  obtain ⟨n2, s2, w2, hs2, e2s, hn2, hw2, hc2, hd2, hne2, _, hpres2, hcell2, hrep2⟩ :=
    hR true s1 s.heap.length [] [] body rest hfi hbody
      (by rw [hc1]; show text.drop (s.c + w.length + 1) = _; rw [drop_add, e2]; rfl) htop1
      (by simp only [if_true]; exact hstate1)
      ⟨_, hcell1, (json__object_new_inv 0 (by norm_num)).1⟩
      (by simp [RepresentsEntries]) (by simp) (by simpa using hlen)
      (by rw [hstack1]; simpa using hstk) (by rw [hsp1]; omega)
  obtain ⟨c1, c2, c3, c4, c5⟩ := hpres2
  obtain ⟨e4, e5⟩ := json_parse_step_at text s2 w2 125 rest hd2 hw2 (by decide) (by decide)
  have e6 := json_parse_body_close text { s2 with c := s2.c + w2.length } rest 125 e5 (Or.inr rfl)
    (hne2 hne) (by show s2.sp ≠ 0; rw [c1, hsp1]; omega)
  refine ⟨1 + n2 + 1, { s2 with sp := s2.sp - 1, c := s2.c + w2.length + 1 },
    .JSON_OBJECT s.heap.length,
    json_parse_steps_add text _ _ _ _ _ (json_parse_steps_add text _ _ _ _ _ estep e2s)
      (json_parse_steps_one text s2 _ (by rw [e4, e6])), ?_, ?_, hne2 hne, ?_, ?_, ?_⟩
  · rw [hx]; simp only [List.length_cons]; omega
  · show s2.c + w2.length + 1 = _
    rw [hx]; simp only [List.length_cons]; omega
  · refine ⟨?_, ?_, ?_, ?_, ?_⟩
    · show s2.sp - 1 = s.sp
      rw [c1, hsp1]; omega
    · show s2.stack.length = s.stack.length
      rw [c2, hstack1]; simp
    · intro i hi
      show s2.stack[i]? = s.stack[i]?
      rw [c3 i (by rw [hsp1]; omega), hstack1, List.getElem?_set_ne (by omega)]
    · show s.heap.length ≤ s2.heap.length
      omega
    · intro q hq hqp
      show s2.heap[q]? = s.heap[q]?
      rw [c5 q (by omega) (by omega), hframe1 q hqp, List.getElem?_append_left hq]
  · exact parentDone_congr s1.heap s2.heap p _ slot (c5 p (by omega) (by omega)) hdone1
  · simp only [Represents]
    obtain ⟨obj, h1, h2⟩ := hcell2
    exact ⟨s.heap.length, obj, hs2, rfl, le_refl _, h1, h2, by simpa using hrep2⟩

/-- The parser on the nested values it reads, on array elements and on object
    entries. -/
theorem parses_all (text : List Nat) :
    (∀ t, ParsesValue text t) ∧ (∀ ts, ParsesItems text ts) ∧ (∀ es, ParsesEntries text es) := by
  apply value_induction
  · intro s p slot w x rest hfrag; simp [nested_document] at hfrag
  · exact parses_bool text
  · exact parses_number text
  · intro b s p slot w x rest hfrag; simp [nested_document] at hfrag
  · exact parses_array text
  · exact parses_object text
  · exact parses_items_nil text
  · exact parses_items_cons text
  · exact parses_entries_nil text
  · exact fun k t es => parses_entries_cons text k t es

theorem json_parse_add_start (s : json_parse_locals) (flags : Bool) (top : json_t)
    (hs : s.state = JSON_START) (ht : s.stack[s.sp]? = some top) :
    json_parse_add s flags = some (true,
      ⟨s.stack.set s.sp s.val, s.sp, s.key, s.val, json_parse_start_state s.val, s.c, s.heap⟩) := by
  unfold json_parse_add
  simp only [ht, hs]
  rfl

theorem json_parse_init_top : json_parse_init.stack[json_parse_init.sp]? = some .JSON_NONE := by
  show (List.replicate 128 json_t.JSON_NONE)[0]? = _
  rw [List.getElem?_replicate]
  rfl

theorem json_parse_loop_end (text : List Nat) (n fuel : Nat) (s s1 s2 : json_parse_locals)
    (h1 : json_parse_steps text n s = some s1) (h2 : json_parse_step text s1 = some (false, s2))
    (hf : n < fuel) : json_parse_loop text fuel s = some s2 := by
  obtain ⟨f, rfl⟩ : ∃ f, fuel = n + (f + 1) := ⟨fuel - n - 1, by omega⟩
  rw [json_parse_loop_steps text n (f + 1) s s1 h1, json_parse_loop, h2]

theorem json_parse_array (items : List Value) (w body trailing : List Nat)
    (hfrag : document (.array items) = true) (hw : whitespace w)
    (hbody : TextItems true items body) :
    ∃ v h, json_parse (w ++ (91 :: body ++ trailing)) = some (v, h) ∧
      Represents h 0 v (.array items) := by
  obtain ⟨text, htext⟩ : ∃ text, text = w ++ (91 :: body ++ trailing) := ⟨_, rfl⟩
  rw [← htext]
  simp only [document, Bool.and_eq_true, decide_eq_true_eq, depth] at hfrag
  obtain ⟨⟨hlen, hfi⟩, hdepth⟩ := hfrag
  have hd : text.drop json_parse_init.c = w ++ 91 :: (body ++ trailing) := by
    rw [htext]; rfl
  obtain ⟨e1, e2⟩ := json_parse_step_at text json_parse_init w 91 _ hd hw (by decide) (by decide)
  have e3 := json_parse_body_array text { json_parse_init with c := json_parse_init.c + w.length }
    _ e2 (Or.inl rfl)
  obtain ⟨s1, hs1⟩ : ∃ s1 : json_parse_locals, s1 =
      { stack := (List.replicate 128 json_t.JSON_NONE).set 0 (.JSON_ARRAY 0), sp := 0, key := [],
        val := .JSON_ARRAY 0, state := JSON_ARRAY_START, c := w.length + 1,
        heap := [.array (json__array_new 0)] } := ⟨_, rfl⟩
  have estep : json_parse_steps text 1 json_parse_init = some s1 := by
    apply json_parse_steps_one
    have e3b : json_parse_body text
        { json_parse_init with c := json_parse_init.c + w.length } = json_parse_add
        ⟨json_parse_init.stack, 0, [], .JSON_ARRAY 0, JSON_START, w.length + 1, [.array (json__array_new 0)]⟩ true := by
      rw [e3]; simp only [json_parse_init, Nat.zero_add]; rfl
    rw [e1, e3b, json_parse_add_start
      ⟨json_parse_init.stack, 0, [], .JSON_ARRAY 0, JSON_START, w.length + 1, [.array (json__array_new 0)]⟩
      true .JSON_NONE rfl json_parse_init_top, hs1]
    rfl
  have hstack1 : s1.stack = (List.replicate 128 json_t.JSON_NONE).set 0 (.JSON_ARRAY 0) := by
    rw [hs1]
  have htop0 : s1.stack[0]? = some (.JSON_ARRAY 0) := by
    rw [hstack1, List.getElem?_set_self (by rw [List.length_replicate]; norm_num)]
  have htop1 : s1.stack[s1.sp]? = some (.JSON_ARRAY 0) := by
    rw [show s1.sp = 0 from by rw [hs1]]; exact htop0
  have hlen1 : s1.stack.length = 128 := by
    rw [hstack1, List.length_set, List.length_replicate]
  obtain ⟨n2, s2, w2, hs2, e2s, hn2, hw2, hc2, hd2, hne2, hnil2, hpres2, hcell2, hrep2⟩ :=
    (parses_all text).2.1 items true s1 0 [] [] body trailing hfi hbody
      (by rw [hs1]; show text.drop (w.length + 1) = _
          have := e2
          simp only [json_parse_init, Nat.zero_add] at this
          rw [drop_add, this]; rfl)
      htop1 (by rw [hs1]; simp)
      ⟨_, by rw [hs1]; rfl, json__array_new_inv 0 (by norm_num)⟩
      (by simp [RepresentsItems]) (by simpa using hlen) hlen1
      (by rw [hs1]; show 0 + depth_items items < 128; omega)
  obtain ⟨c1, c2, c3, c4, c5⟩ := hpres2
  obtain ⟨e4, e5⟩ := json_parse_step_at text s2 w2 93 trailing hd2 hw2 (by decide) (by decide)
  have hst : next_state s2.state ∨ s2.state = JSON_ARRAY_START ∨ s2.state = JSON_OBJECT_START := by
    by_cases h : items = []
    · right; left; rw [hnil2 h, hs1]
    · left; exact hne2 h
  have e6 := json_parse_body_end text { s2 with c := s2.c + w2.length } trailing 93 e5 (Or.inl rfl)
    hst (by show s2.sp = 0; rw [c1, hs1])
  have hlt : text.length = w.length + (1 + body.length + trailing.length) := by
    rw [htext]; simp; omega
  have hloop := json_parse_loop_end text (1 + n2) (2 * text.length + 2) json_parse_init s2 _
    (json_parse_steps_add text _ _ _ _ _ estep e2s) (by rw [e4, e6]) (by omega)
  have htop : s2.stack[0]? = some (.JSON_ARRAY 0) := by
    rw [c3 0 (by omega)]; exact htop0
  refine ⟨.JSON_ARRAY 0, s2.heap, ?_, ?_⟩
  · unfold json_parse
    rw [hloop]
    simp only [Option.map_some', List.getD_eq_getElem?_getD, htop, Option.getD_some]
  · simp only [Represents]
    obtain ⟨arr, h1, h2⟩ := hcell2
    exact ⟨0, arr, hs2, rfl, le_refl _, h1, h2, by simpa using hrep2⟩

theorem json_parse_object (entries : List (List Nat × Value)) (w body trailing : List Nat)
    (hfrag : document (.object entries) = true) (hw : whitespace w)
    (hbody : TextEntries true entries body) :
    ∃ v h, json_parse (w ++ (123 :: body ++ trailing)) = some (v, h) ∧
      Represents h 0 v (.object entries) := by
  obtain ⟨text, htext⟩ : ∃ text, text = w ++ (123 :: body ++ trailing) := ⟨_, rfl⟩
  rw [← htext]
  simp only [document, Bool.and_eq_true, decide_eq_true_eq, depth] at hfrag
  obtain ⟨⟨hlen, hfi⟩, hdepth⟩ := hfrag
  have hd : text.drop json_parse_init.c = w ++ 123 :: (body ++ trailing) := by
    rw [htext]; rfl
  obtain ⟨e1, e2⟩ := json_parse_step_at text json_parse_init w 123 _ hd hw (by decide) (by decide)
  have e3 := json_parse_body_object text { json_parse_init with c := json_parse_init.c + w.length }
    _ e2 (Or.inl rfl)
  obtain ⟨s1, hs1⟩ : ∃ s1 : json_parse_locals, s1 =
      { stack := (List.replicate 128 json_t.JSON_NONE).set 0 (.JSON_OBJECT 0), sp := 0, key := [],
        val := .JSON_OBJECT 0, state := JSON_OBJECT_START, c := w.length + 1,
        heap := [.object (json__object_new 0)] } := ⟨_, rfl⟩
  have estep : json_parse_steps text 1 json_parse_init = some s1 := by
    apply json_parse_steps_one
    have e3b : json_parse_body text
        { json_parse_init with c := json_parse_init.c + w.length } = json_parse_add
        ⟨json_parse_init.stack, 0, [], .JSON_OBJECT 0, JSON_START, w.length + 1, [.object (json__object_new 0)]⟩ true := by
      rw [e3]; simp only [json_parse_init, Nat.zero_add]; rfl
    rw [e1, e3b, json_parse_add_start
      ⟨json_parse_init.stack, 0, [], .JSON_OBJECT 0, JSON_START, w.length + 1, [.object (json__object_new 0)]⟩
      true .JSON_NONE rfl json_parse_init_top, hs1]
    rfl
  have hstack1 : s1.stack = (List.replicate 128 json_t.JSON_NONE).set 0 (.JSON_OBJECT 0) := by
    rw [hs1]
  have htop0 : s1.stack[0]? = some (.JSON_OBJECT 0) := by
    rw [hstack1, List.getElem?_set_self (by rw [List.length_replicate]; norm_num)]
  have htop1 : s1.stack[s1.sp]? = some (.JSON_OBJECT 0) := by
    rw [show s1.sp = 0 from by rw [hs1]]; exact htop0
  have hlen1 : s1.stack.length = 128 := by
    rw [hstack1, List.length_set, List.length_replicate]
  obtain ⟨n2, s2, w2, hs2, e2s, hn2, hw2, hc2, hd2, hne2, hnil2, hpres2, hcell2, hrep2⟩ :=
    (parses_all text).2.2 entries true s1 0 [] [] body trailing hfi hbody
      (by rw [hs1]; show text.drop (w.length + 1) = _
          have := e2
          simp only [json_parse_init, Nat.zero_add] at this
          rw [drop_add, this]; rfl)
      htop1 (by rw [hs1]; simp)
      ⟨_, by rw [hs1]; rfl, (json__object_new_inv 0 (by norm_num)).1⟩
      (by simp [RepresentsEntries]) (by simp) (by simpa using hlen) hlen1
      (by rw [hs1]; show 0 + depth_entries entries < 128; omega)
  obtain ⟨c1, c2, c3, c4, c5⟩ := hpres2
  obtain ⟨e4, e5⟩ := json_parse_step_at text s2 w2 125 trailing hd2 hw2 (by decide) (by decide)
  have hst : next_state s2.state ∨ s2.state = JSON_ARRAY_START ∨ s2.state = JSON_OBJECT_START := by
    by_cases h : entries = []
    · right; right; rw [hnil2 h, hs1]
    · left; exact hne2 h
  have e6 := json_parse_body_end text { s2 with c := s2.c + w2.length } trailing 125 e5 (Or.inr rfl)
    hst (by show s2.sp = 0; rw [c1, hs1])
  have hlt : text.length = w.length + (1 + body.length + trailing.length) := by
    rw [htext]; simp; omega
  have hloop := json_parse_loop_end text (1 + n2) (2 * text.length + 2) json_parse_init s2 _
    (json_parse_steps_add text _ _ _ _ _ estep e2s) (by rw [e4, e6]) (by omega)
  have htop : s2.stack[0]? = some (.JSON_OBJECT 0) := by
    rw [c3 0 (by omega)]; exact htop0
  refine ⟨.JSON_OBJECT 0, s2.heap, ?_, ?_⟩
  · unfold json_parse
    rw [hloop]
    simp only [Option.map_some', List.getD_eq_getElem?_getD, htop, Option.getD_some]
  · simp only [Represents]
    obtain ⟨obj, h1, h2⟩ := hcell2
    exact ⟨0, obj, hs2, rfl, le_refl _, h1, h2, by simpa using hrep2⟩

/-- The parser on the documents it reads: every text of such a tree, after any white
    space and before any trailing bytes, is parsed into a handle that denotes the tree. -/
theorem json_parse_document (t : Value) (w x trailing : List Nat) (hdoc : document t = true)
    (hw : whitespace w) (hx : Text t x) :
    ∃ v h, json_parse (w ++ (x ++ trailing)) = some (v, h) ∧ Represents h 0 v t := by
  cases t with
  | null => simp [document] at hdoc
  | bool b => simp [document] at hdoc
  | number n => simp [document] at hdoc
  | string s => simp [document] at hdoc
  | array items =>
    simp only [Text] at hx
    obtain ⟨body, e, hb⟩ := hx
    rw [e]
    exact json_parse_array items w body trailing hdoc hw hb
  | object entries =>
    simp only [Text] at hx
    obtain ⟨body, e, hb⟩ := hx
    rw [e]
    exact json_parse_object entries w body trailing hdoc hw hb

theorem fragment_document_all :
    (∀ t, nested_fragment t = true → nested_document t = true) ∧
    (∀ ts, items_fragment ts = true → items_document ts = true) ∧
    (∀ es, entries_fragment es = true → entries_document es = true) := by
  apply value_induction
  · intro h; simp [nested_fragment] at h
  · intro b _; rfl
  · intro num h
    cases num with
    | inf neg => simp [nested_fragment] at h
    | nan => simp [nested_fragment] at h
    | finite q =>
      simp only [nested_fragment, Bool.and_eq_true, decide_eq_true_eq] at h
      simp only [nested_document, Bool.and_eq_true, decide_eq_true_eq]
      exact ⟨h.1, le_trans (le_of_lt h.2) (by norm_num)⟩
  · intro s h; simp [nested_fragment] at h
  · intro items ih h
    simp only [nested_fragment, Bool.and_eq_true] at h
    simp only [nested_document, Bool.and_eq_true]
    exact ⟨h.1, ih h.2⟩
  · intro entries ih h
    simp only [nested_fragment, Bool.and_eq_true] at h
    simp only [nested_document, Bool.and_eq_true]
    exact ⟨h.1, ih h.2⟩
  · intro _; rfl
  · intro t ts iht ihts h
    simp only [items_fragment, Bool.and_eq_true] at h
    simp only [items_document, Bool.and_eq_true]
    exact ⟨iht h.1, ihts h.2⟩
  · intro _; rfl
  · intro k t es iht ihes h
    simp only [entries_fragment, Bool.and_eq_true] at h
    simp only [entries_document, Bool.and_eq_true]
    refine ⟨⟨⟨?_, h.1.1.2⟩, iht h.1.2⟩, ihes h.2⟩
    rw [List.all_eq_true]
    intro b hb
    have := key_byte_spec k h.1.1.1 b hb
    simp only [text_key_byte, Bool.and_eq_true, decide_eq_true_eq, bne_iff_ne, ne_eq]
    omega

theorem fragment_document (t : Value) (h : fragment t = true) : document t = true := by
  cases t with
  | null => simp [fragment] at h
  | bool b => simp [fragment] at h
  | number n => simp [fragment] at h
  | string s => simp [fragment] at h
  | array items =>
    simp only [fragment, Bool.and_eq_true] at h
    simp only [document, Bool.and_eq_true]
    exact ⟨⟨h.1.1, fragment_document_all.2.1 items h.1.2⟩, h.2⟩
  | object entries =>
    simp only [fragment, Bool.and_eq_true] at h
    simp only [document, Bool.and_eq_true]
    exact ⟨⟨h.1.1, fragment_document_all.2.2 entries h.1.2⟩, h.2⟩

/-- The parser on the documents of the fragment: every text of a tree of the fragment,
    after any white space and before any trailing bytes, is parsed into a handle that
    denotes the tree. -/
theorem json_parse_text (t : Value) (w x trailing : List Nat) (hfrag : fragment t = true)
    (hw : whitespace w) (hx : Text t x) :
    ∃ v h, json_parse (w ++ (x ++ trailing)) = some (v, h) ∧ Represents h 0 v t :=
  json_parse_document t w x trailing (fragment_document t hfrag) hw hx

/-! ## The serializer writes texts of the fragment -/

theorem whitespace_newline_tabs (d : Nat) : whitespace (10 :: tabs d) := by
  intro b hb
  rcases List.mem_cons.mp hb with h | h
  · subst h; decide
  · have := List.eq_of_mem_replicate h
    subst this; decide

theorem whitespace_nil : whitespace [] := fun b hb => absurd hb (List.not_mem_nil b)

theorem render_text_all :
    (∀ t, ∀ d, nested_fragment t = true → Text t (render t d)) ∧
    (∀ ts, ∀ d, items_fragment ts = true →
      TextItems true ts (10 :: (render_items ts d ++ (tabs d ++ [93]))) ∧
      TextItems false ts ((if ts.isEmpty then [] else [44]) ++
        (10 :: (render_items ts d ++ (tabs d ++ [93]))))) ∧
    (∀ es, ∀ d, entries_fragment es = true →
      TextEntries true es (10 :: (render_entries es d ++ (tabs d ++ [125]))) ∧
      TextEntries false es ((if es.isEmpty then [] else [44]) ++
        (10 :: (render_entries es d ++ (tabs d ++ [125]))))) := by
  apply value_induction
  · intro d h; simp [nested_fragment] at h
  · intro b d _
    cases b <;> simp [Text, render]
  · intro n d h
    cases n with
    | inf neg => simp [nested_fragment] at h
    | nan => simp [nested_fragment] at h
    | finite q =>
      simp only [nested_fragment, Bool.and_eq_true, beq_iff_eq, decide_eq_true_eq] at h
      have hq : q = (q.num : ℚ) := (Rat.den_eq_one_iff q).mp h.1 |>.symm
      simp only [Text, render]
      refine ⟨q.num, hq, ?_⟩
      rw [hq]
      exact json_dtoa_int q.num (by simpa using h.2)
  · intro s d h; simp [nested_fragment] at h
  · intro items ih d h
    simp only [nested_fragment, Bool.and_eq_true] at h
    simp only [Text, render]
    exact ⟨_, by simp, (ih d h.2).1⟩
  · intro entries ih d h
    simp only [nested_fragment, Bool.and_eq_true] at h
    simp only [Text, render]
    exact ⟨_, by simp, (ih d h.2).1⟩
  · intro d _
    simp only [TextItems, render_items, List.isEmpty_nil, if_true, List.nil_append]
    exact ⟨⟨10 :: tabs d, whitespace_newline_tabs d, by simp⟩,
      ⟨10 :: tabs d, whitespace_newline_tabs d, by simp⟩⟩
  · intro t ts iht ihts d h
    simp only [items_fragment, Bool.and_eq_true] at h
    have h1 := iht (d + 1) h.1
    have h2 := (ihts d h.2).2
    simp only [TextItems, render_items]
    refine ⟨⟨[], 10 :: tabs (d + 1), render t (d + 1), _, whitespace_nil,
      whitespace_newline_tabs _, h1, ?_, h2⟩, ⟨[], 10 :: tabs (d + 1), render t (d + 1), _,
      whitespace_nil, whitespace_newline_tabs _, h1, ?_, h2⟩⟩
    · simp
    · simp
  · intro d _
    simp only [TextEntries, render_entries, List.isEmpty_nil, if_true, List.nil_append]
    exact ⟨⟨10 :: tabs d, whitespace_newline_tabs d, by simp⟩,
      ⟨10 :: tabs d, whitespace_newline_tabs d, by simp⟩⟩
  · intro k t es iht ihes d h
    simp only [entries_fragment, Bool.and_eq_true] at h
    have h1 := iht (d + 1) h.1.2
    have h2 := (ihes d h.2).2
    simp only [TextEntries, render_entries]
    have hsp : whitespace [32] := by
      intro b hb; simp only [List.mem_singleton] at hb; subst hb; decide
    refine ⟨⟨[], 10 :: tabs (d + 1), [], [32], render t (d + 1), _, whitespace_nil,
      whitespace_newline_tabs _, whitespace_nil, hsp, h1, ?_, h2⟩,
      ⟨[], 10 :: tabs (d + 1), [], [32], render t (d + 1), _, whitespace_nil,
      whitespace_newline_tabs _, whitespace_nil, hsp, h1, ?_, h2⟩⟩
    · simp
    · simp

/-- The rendering of a document of the fragment is one of its texts. -/
theorem render_text (t : Value) (hfrag : fragment t = true) : Text t (render t 0) := by
  cases t with
  | null => simp [fragment] at hfrag
  | bool b => simp [fragment] at hfrag
  | number n => simp [fragment] at hfrag
  | string s => simp [fragment] at hfrag
  | array items =>
    simp only [fragment, Bool.and_eq_true] at hfrag
    simp only [Text, render]
    exact ⟨_, by simp, (render_text_all.2.1 items 0 hfrag.1.2).1⟩
  | object entries =>
    simp only [fragment, Bool.and_eq_true] at hfrag
    simp only [Text, render]
    exact ⟨_, by simp, (render_text_all.2.2 entries 0 hfrag.1.2).1⟩

/-! ## Trees built with the construction API -/

theorem builds_items_cons (t : Value) (ts : List Value) (hP : BuildsValue t)
    (hQ : BuildsItems ts) : BuildsItems (t :: ts) := by
  intro h p arr hs done hfrag hcell hinv hrep hlen
  simp only [items_fragment, Bool.and_eq_true] at hfrag
  simp only [List.length_cons] at hlen
  have hp : p < h.length := (List.getElem?_eq_some_iff.mp hcell).1
  obtain ⟨v, h1, e1, r1, l1, f1⟩ := hP h hfrag.1
  obtain ⟨arr1, e2, i2⟩ := heap_json_array_push_spec h1 p arr hs v (by rw [f1 p hp]; exact hcell)
    hinv (by omega)
  have hp1 : p < h1.length := by omega
  have hrep2 : RepresentsItems (h1.set p (.array arr1)) (p + 1) (hs ++ [v]) (done ++ [t]) := by
    apply representsItems_append
    · apply represents_frame.2.1 done h _ (p + 1) hs _ hrep
      intro q hq hq2
      rw [List.getElem?_set_ne (by omega), f1 q hq2]
    · apply represents_mono _ h.length (p + 1) (by omega)
      apply represents_frame.1 t h1 _ h.length v _ r1
      intro q hq _
      rw [List.getElem?_set_ne (by omega)]
  obtain ⟨h3, arr3, hs3, e3, c3, i3, r3, l3, f3⟩ := hQ (h1.set p (.array arr1)) p arr1 (hs ++ [v])
    (done ++ [t]) hfrag.2 (by rw [List.getElem?_set_self hp1]) i2 hrep2
    (by simp only [List.length_append, List.length_singleton]; omega)
  refine ⟨h3, arr3, hs3, ?_, c3, i3, by simpa using r3, ?_, ?_⟩
  · simp only [build_items, e1, e2, e3]
  · rw [List.length_set] at l3; omega
  · intro q hq hqp
    rw [f3 q (by rw [List.length_set]; omega) hqp, List.getElem?_set_ne (Ne.symm hqp), f1 q hq]

theorem builds_entries_cons (k : List Nat) (t : Value) (es : List (List Nat × Value))
    (hP : BuildsValue t) (hR : BuildsEntries es) : BuildsEntries ((k, t) :: es) := by
  intro h p obj bs done hfrag hcell hinv hrep hfresh hlen
  simp only [entries_fragment, Bool.and_eq_true, Bool.not_eq_true', List.any_eq_false,
    beq_iff_eq] at hfrag
  obtain ⟨⟨⟨hkey, hnot⟩, hft⟩, hfes⟩ := hfrag
  simp only [List.length_cons] at hlen
  have hp : p < h.length := (List.getElem?_eq_some_iff.mp hcell).1
  have hkz := key_byte_spec k hkey
  obtain ⟨v, h1, e1, r1, l1, f1⟩ := hP h hft
  obtain ⟨obj1, e2, i2⟩ := heap_json__object_set_spec h1 p obj bs (k.map some ++ [some 0]) k v true
    (by rw [f1 p hp]; exact hcell) hinv (c_string_bytes k (fun b hb => (hkz b hb).2.1) [])
    (hfresh (k, t) (List.mem_cons_self _ _)) (by omega)
  have hp1 : p < h1.length := by omega
  have hrep2 : RepresentsEntries (h1.set p (.object obj1)) (p + 1) (bs ++ [⟨k, v⟩])
      (done ++ [(k, t)]) := by
    apply representsEntries_append
    · apply represents_frame.2.2 done h _ (p + 1) bs _ hrep
      intro q hq hq2
      rw [List.getElem?_set_ne (by omega), f1 q hq2]
    · apply represents_mono _ h.length (p + 1) (by omega)
      apply represents_frame.1 t h1 _ h.length v _ r1
      intro q hq _
      rw [List.getElem?_set_ne (by omega)]
  have hfresh2 : ∀ e ∈ es,
      e.1 ∉ (bs ++ [(⟨k, v⟩ : json_bucket_t)]).map (fun b => b.key) := by
    intro e he hmem
    simp only [List.map_append, List.map_cons, List.map_nil, List.mem_append,
      List.mem_singleton] at hmem
    rcases hmem with hm | hm
    · exact hfresh e (List.mem_cons_of_mem _ he) hm
    · exact hnot e he hm
  obtain ⟨h3, obj3, bs3, e3, c3, i3, r3, l3, f3⟩ := hR (h1.set p (.object obj1)) p obj1
    (bs ++ [(⟨k, v⟩ : json_bucket_t)]) (done ++ [(k, t)]) hfes
    (by rw [List.getElem?_set_self hp1]) i2 hrep2 hfresh2
    (by simp only [List.length_append, List.length_singleton]; omega)
  refine ⟨h3, obj3, bs3, ?_, c3, i3, by simpa using r3, ?_, ?_⟩
  · simp only [build_entries, e1, heap_json_object_set, e2, e3]
  · rw [List.length_set] at l3; omega
  · intro q hq hqp
    rw [f3 q (by rw [List.length_set]; omega) hqp, List.getElem?_set_ne (Ne.symm hqp), f1 q hq]

theorem builds_array (items : List Value) (hQ : BuildsItems items) (h : List heap_cell)
    (hfi : items_fragment items = true) (hlen : items.length < 2 ^ 30) :
    ∃ v h2, build (.array items) h = some (v, h2) ∧ Represents h2 h.length v (.array items) ∧
      h.length ≤ h2.length ∧ ∀ q, q < h.length → h2[q]? = h[q]? := by
  obtain ⟨h3, arr3, hs3, e3, c3, i3, r3, l3, f3⟩ :=
    hQ (h ++ [.array (json__array_new 0)]) h.length (json__array_new 0) [] [] hfi (by simp)
      (json__array_new_inv 0 (by norm_num)) (by simp [RepresentsItems]) (by simpa using hlen)
  refine ⟨.JSON_ARRAY h.length, h3, ?_, ?_, ?_, ?_⟩
  · simp only [build, heap_json_array, e3, Option.map_some']
  · simp only [Represents]
    exact ⟨h.length, arr3, hs3, rfl, le_refl _, c3, i3, by simpa using r3⟩
  · simp only [List.length_append, List.length_singleton] at l3; omega
  · intro q hq
    rw [f3 q (by simp; omega) (by omega), List.getElem?_append_left hq]

theorem builds_object (entries : List (List Nat × Value)) (hR : BuildsEntries entries)
    (h : List heap_cell) (hfi : entries_fragment entries = true) (hlen : entries.length < 255) :
    ∃ v h2, build (.object entries) h = some (v, h2) ∧
      Represents h2 h.length v (.object entries) ∧
      h.length ≤ h2.length ∧ ∀ q, q < h.length → h2[q]? = h[q]? := by
  obtain ⟨h3, obj3, bs3, e3, c3, i3, r3, l3, f3⟩ :=
    hR (h ++ [.object (json__object_new 0)]) h.length (json__object_new 0) [] [] hfi (by simp)
      (json__object_new_inv 0 (by norm_num)).1 (by simp [RepresentsEntries]) (by simp)
      (by simpa using hlen)
  refine ⟨.JSON_OBJECT h.length, h3, ?_, ?_, ?_, ?_⟩
  · simp only [build, heap_json_object, e3, Option.map_some']
  · simp only [Represents]
    exact ⟨h.length, obj3, bs3, rfl, le_refl _, c3, i3, by simpa using r3⟩
  · simp only [List.length_append, List.length_singleton] at l3; omega
  · intro q hq
    rw [f3 q (by simp; omega) (by omega), List.getElem?_append_left hq]

theorem builds_all :
    (∀ t, BuildsValue t) ∧ (∀ ts, BuildsItems ts) ∧ (∀ es, BuildsEntries es) := by
  apply value_induction
  · intro h hf; simp [nested_fragment] at hf
  · intro b h _
    refine ⟨_, h, rfl, ?_, le_refl _, fun _ _ => rfl⟩
    cases b <;> simp [Represents, json_bool]
  · intro n h _
    exact ⟨_, h, rfl, by simp [Represents, json_number], le_refl _, fun _ _ => rfl⟩
  · intro s h hf; simp [nested_fragment] at hf
  · intro items ih h hf
    simp only [nested_fragment, Bool.and_eq_true, decide_eq_true_eq] at hf
    exact builds_array items ih h hf.2 hf.1.2
  · intro entries ih h hf
    simp only [nested_fragment, Bool.and_eq_true, decide_eq_true_eq] at hf
    exact builds_object entries ih h hf.2 hf.1.2
  · intro h p arr hs done _ hcell hinv hrep _
    exact ⟨h, arr, hs, rfl, hcell, hinv, by simpa using hrep, le_refl _, fun _ _ _ => rfl⟩
  · exact builds_items_cons
  · intro h p obj bs done _ hcell hinv hrep _ _
    exact ⟨h, obj, bs, rfl, hcell, hinv, by simpa using hrep, le_refl _, fun _ _ _ => rfl⟩
  · exact builds_entries_cons

/-- The construction API builds every document of the fragment. -/
theorem build_spec (t : Value) (hfrag : fragment t = true) :
    ∃ v h, build t [] = some (v, h) ∧ Represents h 0 v t := by
  cases t with
  | null => simp [fragment] at hfrag
  | bool b => simp [fragment] at hfrag
  | number n => simp [fragment] at hfrag
  | string s => simp [fragment] at hfrag
  | array items =>
    simp only [fragment, Bool.and_eq_true, decide_eq_true_eq] at hfrag
    obtain ⟨v, h2, e, r, _, _⟩ := builds_array items (builds_all.2.1 items) [] hfrag.1.2 hfrag.1.1
    exact ⟨v, h2, e, r⟩
  | object entries =>
    simp only [fragment, Bool.and_eq_true, decide_eq_true_eq] at hfrag
    obtain ⟨v, h2, e, r, _, _⟩ :=
      builds_object entries (builds_all.2.2 entries) [] hfrag.1.2 hfrag.1.1
    exact ⟨v, h2, e, r⟩

/-! ## The serializer -/

theorem length_json_string_bytes (s : json__string_t) (hs : StringInv s) :
    (json_string_bytes s).length = s.len := by
  obtain ⟨h1, h2, _, _⟩ := hs
  unfold json_string_bytes
  rw [List.length_take]; omega

theorem dumped_refl (dst : json__string_t) (hs : StringInv dst) : Dumped dst dst [] :=
  ⟨hs, by simp, by simp⟩

theorem dumped_trans (a b c : json__string_t) (x y : List Nat) (h1 : Dumped a b x)
    (h2 : Dumped b c y) : Dumped a c (x ++ y) := by
  obtain ⟨_, a2, a3⟩ := h1
  obtain ⟨b1, b2, b3⟩ := h2
  refine ⟨b1, ?_, ?_⟩
  · rw [b2, a2, List.length_append]; omega
  · rw [b3, a3, List.map_append, List.append_assoc]

theorem json_string_append_dumped (s : json__string_t) (seq : List Nat) (hs : StringInv s)
    (hlen : s.len + seq.length < 2 ^ 30) :
    ∃ s2, json_string_append s seq seq.length = some s2 ∧ Dumped s s2 seq := by
  obtain ⟨s2, e, inv, hl, hb⟩ := json_string_insert_spec s seq seq.length s.len hs (le_refl _)
    (le_refl _) hlen
  refine ⟨s2, e, inv, hl, ?_⟩
  have hbl := length_json_string_bytes s hs
  rw [hb, List.take_of_length_le (by omega), List.drop_of_length_le (by omega), List.take_length,
    List.append_nil]

theorem json_dump_indent_dumped : ∀ (d : Nat) (dst : json__string_t), StringInv dst →
    dst.len + d < 2 ^ 30 → ∃ dst2, json_dump_indent d dst = some dst2 ∧ Dumped dst dst2 (tabs d) := by
  intro d
  induction d with
  | zero =>
    intro dst hs _
    exact ⟨dst, rfl, dumped_refl dst hs⟩
  | succ d ih =>
    intro dst hs hlen
    obtain ⟨s1, e1, h1⟩ := json_string_append_dumped dst [9] hs (by simp; omega)
    obtain ⟨s2, e2, h2⟩ := ih s1 h1.1 (by rw [h1.2.1]; simp; omega)
    refine ⟨s2, ?_, ?_⟩
    · simp only [List.length_singleton] at e1
      simp only [json_dump_indent, e1, Option.some_bind, e2]
    · have := dumped_trans dst s1 s2 [9] (tabs d) h1 h2
      simpa [tabs, List.replicate_succ] using this

theorem decimal_numeral_length : ∀ (k v : Nat), v < 10 ^ (k + 1) →
    (decimal_numeral v).length ≤ k + 1 := by
  intro k
  induction k with
  | zero =>
    intro v hv
    rw [decimal_numeral_eq, if_pos (by simpa using hv)]
    simp
  | succ k ih =>
    intro v hv
    rw [decimal_numeral_eq]
    by_cases c : v < 10
    · rw [if_pos c]; simp
    · rw [if_neg c, List.length_append, List.length_singleton]
      have : v / 10 < 10 ^ (k + 1) := by
        rw [Nat.div_lt_iff_lt_mul (by norm_num)]
        rw [pow_succ] at hv; exact hv
      have := ih (v / 10) this
      omega

theorem int_numeral_length (n : Int) (h : n.natAbs < 10 ^ 12) : (int_numeral n).length ≤ 13 := by
  have := decimal_numeral_length 11 n.natAbs h
  unfold int_numeral
  split
  · simp only [List.length_cons]; omega
  · omega

theorem json_dump_number_dumped (dst : json__string_t) (digits : List Nat) (hs : StringInv dst)
    (hd : digits.length < 32) (hlen : dst.len + 32 < 2 ^ 30) :
    ∃ dst2,
      (if (json__string_reserve dst (dst.len + 32)).len + digits.length <
          (json__string_reserve dst (dst.len + 32)).cap then
        some { json__string_reserve dst (dst.len + 32) with
          data := memwrite (json__string_reserve dst (dst.len + 32)).data
            (json__string_reserve dst (dst.len + 32)).len (digits.map some ++ [some 0]),
          len := (json__string_reserve dst (dst.len + 32)).len + digits.length }
      else none) = some dst2 ∧ Dumped dst dst2 digits := by
  obtain ⟨r1, r2, r3, r4⟩ := json__string_reserve_spec dst (dst.len + 32) hs.1 (le_of_lt hs.2.1)
    hlen (fun _ => hs)
  generalize json__string_reserve dst (dst.len + 32) = r at r1 r2 r3 r4
  obtain ⟨i1, i2, i3, i4⟩ := r1
  rw [if_pos (by omega)]
  refine ⟨_, rfl, ⟨?_, ?_, ?_, i4⟩, by show r.len + digits.length = _; rw [r2], ?_⟩
  · show (memwrite r.data r.len _).length = r.cap
    rw [length_memwrite _ _ _ (by simp; omega), i1]
  · show r.len + digits.length < r.cap
    omega
  · show (memwrite r.data r.len _)[r.len + digits.length]? = some (some 0)
    rw [getElem?_memwrite _ _ _ (by omega), if_neg (by omega), if_pos (by simp)]
    simp
  · show List.take (r.len + digits.length) (memwrite r.data r.len _) = _
    have hdl : (json_string_bytes dst).length = dst.len := length_json_string_bytes dst hs
    apply List.ext_getElem?
    intro j
    rw [List.getElem?_take, getElem?_memwrite _ _ _ (by omega)]
    by_cases c1 : j < dst.len
    · rw [if_pos (by omega), if_pos (by omega), r4 j c1,
        List.getElem?_append_left (by rw [hdl]; exact c1)]
      unfold json_string_bytes
      rw [List.getElem?_take, if_pos c1]
    · have hrhs : (json_string_bytes dst ++ List.map some digits)[j]?
          = (List.map some digits)[j - dst.len]? := by
        rw [List.getElem?_append_right (by rw [hdl]; omega), hdl]
      rw [hrhs]
      by_cases c2 : j < r.len + digits.length
      · rw [if_pos c2, if_neg (by omega), if_pos (by simp; omega),
          List.getElem?_append_left (by simp; omega), r2]
      · rw [if_neg c2]
        symm
        rw [List.getElem?_eq_none_iff]
        simp; omega

/-! ## The length of a formatted number -/

theorem json_dtoa_loop_length : ∀ (p : Nat) (value divisor : ℚ) (e : Int) (buf : List Nat),
    (json_dtoa_loop p value divisor e buf).1 ≤ e ∧
    (json_dtoa_loop p value divisor e buf).2.length ≤
      buf.length + p + (if -1 ≤ e then 1 else 0) := by
  intro p
  induction p with
  | zero =>
    intro value divisor e buf
    simp only [json_dtoa_loop]
    exact ⟨le_refl _, by split_ifs <;> omega⟩
  | succ p ih =>
    intro value divisor e buf
    rw [json_dtoa_loop]
    generalize hb : (if e = -1 then buf ++ [46] else buf) = b1
    have hbl : b1.length = buf.length + (if e = -1 then 1 else 0) := by
      rw [← hb]; split_ifs <;> simp
    generalize hd : Int.fmod (Rat.floor (qdiv value divisor)) 10 = digit
    by_cases hc : e ≤ 0 ∧
        qsub value (qmul (mkRat (Rat.floor (qdiv value divisor)) 1) divisor) ≤ 0
    · rw [if_pos hc]
      refine ⟨by show e - 1 ≤ e; omega, ?_⟩
      show (b1 ++ [_]).length ≤ _
      rw [List.length_append, List.length_singleton, hbl]
      split_ifs <;> omega
    · rw [if_neg hc]
      obtain ⟨i1, i2⟩ := ih value (qdiv divisor 10) (e - 1) (b1 ++ [48 + digit.toNat])
      refine ⟨by omega, ?_⟩
      rw [List.length_append, List.length_singleton, hbl] at i2
      split_ifs at i2 ⊢ <;> omega

theorem json_dtoa_exponent_length : ∀ (fuel exponent div : Nat),
    (json_dtoa_exponent fuel exponent div).length ≤ Nat.log 10 div + 1 := by
  intro fuel
  induction fuel with
  | zero => intro exponent div; simp [json_dtoa_exponent]
  | succ fuel ih =>
    intro exponent div
    rw [json_dtoa_exponent]
    by_cases c : div > 0
    · rw [if_pos c, List.length_cons]
      by_cases c2 : div < 10
      · have hz : div / 10 = 0 := Nat.div_eq_of_lt c2
        have := ih exponent (div / 10)
        rw [hz] at this
        simp only [Nat.log_zero_right] at this
        have h0 : (json_dtoa_exponent fuel exponent 0).length = 0 := by
          cases fuel <;> simp [json_dtoa_exponent]
        rw [hz, h0]
        omega
      · have := ih exponent (div / 10)
        rw [Nat.log_div_base] at this
        have hpos : 0 < Nat.log 10 div := Nat.log_pos (by norm_num) (by omega)
        omega
    · rw [if_neg c]; simp

theorem log10_int_le (value : ℚ) (h0 : 0 ≤ value) (k : Nat) (hk : value < (10 : ℚ) ^ (k + 1)) :
    log10_int value ≤ k := by
  unfold log10_int
  split_ifs with c0 c1
  · omega
  · rw [ilog10_eq]
    have hfl : (Rat.floor value).toNat < 10 ^ (k + 1) := by
      rw [rat_floor_eq]
      have h1 : (⌊value⌋ : ℚ) ≤ value := Int.floor_le value
      have h2 : (0 : Int) ≤ ⌊value⌋ := Int.floor_nonneg.mpr h0
      have h3 : ((⌊value⌋.toNat : ℕ) : ℚ) = (⌊value⌋ : ℚ) := by
        have : ((⌊value⌋.toNat : ℕ) : Int) = ⌊value⌋ := Int.toNat_of_nonneg h2
        exact_mod_cast this
      have h4 : ((⌊value⌋.toNat : ℕ) : ℚ) < ((10 ^ (k + 1) : ℕ) : ℚ) := by
        rw [h3]; push_cast; exact lt_of_le_of_lt h1 hk
      exact_mod_cast h4
    by_cases hz : (Rat.floor value).toNat = 0
    · rw [hz]; simp
    · have := Nat.log_lt_of_lt_pow hz hfl
      omega
  · have : (0 : Int) ≤ (ilog10 (Rat.floor (qdiv 1 value)).toNat : Int) := Int.natCast_nonneg _
    omega

set_option exponentiation.threshold 400 in
theorem json_dtoa_length (num : double) (h : dumpable (.number num) = true) :
    (json_dtoa num 12).length < 32 := by
  cases num with
  | nan => decide
  | inf neg => simp [json_dtoa]
  | finite q =>
    simp only [dumpable, Bool.and_eq_true, beq_iff_eq, decide_eq_true_eq] at h
    have h : q.num.natAbs < 10 ^ 309 * q.den := by
      rw [h.1, Nat.mul_one]
      exact lt_trans h.2 (Nat.pow_lt_pow_right (by norm_num) (by norm_num))
    have habs : |q| < (10 : ℚ) ^ 309 := by
      have hden : (0 : ℚ) < q.den := by exact_mod_cast q.den_pos
      have e1 : |q| = (q.num.natAbs : ℚ) / q.den := by
        conv_lhs => rw [← Rat.num_div_den q]
        rw [abs_div, abs_of_pos hden, Nat.cast_natAbs, Int.cast_abs]
      rw [e1, div_lt_iff₀ hden]
      exact_mod_cast h
    unfold json_dtoa
    simp only []
    generalize hv : (if q < 0 then qneg q else q) = value
    have hval : value = |q| := by
      rw [← hv]
      split_ifs with c
      · rw [qneg_eq, abs_of_neg c]
      · rw [abs_of_nonneg (not_lt.mp c)]
    generalize hb : (if q < 0 then [45] else []) = b0
    have hbl : b0.length ≤ 1 := by rw [← hb]; split_ifs <;> simp
    have hlog := log10_int_le value (by rw [hval]; exact abs_nonneg q) 308 (by rw [hval]; exact habs)
    generalize he : (if log10_int value < 0 then 0 else log10_int value) = e0
    have he0 : e0 ≤ 308 := by rw [← he]; split_ifs <;> omega
    have he1 : 0 ≤ e0 := by rw [← he]; split_ifs <;> omega
    obtain ⟨l1, l2⟩ := json_dtoa_loop_length 12 value (pow10 e0.toNat) e0 b0
    generalize json_dtoa_loop 12 value (pow10 e0.toNat) e0 b0 = r at l1 l2
    obtain ⟨e1, buf⟩ := r
    simp only at l1 l2 ⊢
    rw [if_pos (by omega)] at l2
    split_ifs with c
    · have hx := json_dtoa_exponent_length (10 ^ ilog10 (e1 + 1).toNat + 1) (e1 + 1).toNat
        (10 ^ ilog10 (e1 + 1).toNat)
      rw [Nat.log_pow (by norm_num)] at hx
      have hlog2 : ilog10 (e1 + 1).toNat < 3 := by
        rw [ilog10_eq]
        exact Nat.log_lt_of_lt_pow (by omega) (by omega)
      clear h habs
      simp only [List.length_append, List.length_cons, List.length_nil]
      omega
    · clear h habs
      omega

/-! ## Trees denoted by handles -/

theorem getElem?_of_getD {α : Type} (l : List (Option α)) (j : Nat) (b : α)
    (h : l.getD j none = some b) : l[j]? = some (some b) := by
  rw [List.getD_eq_getElem?_getD] at h
  cases hj : l[j]? with
  | none => rw [hj] at h; simp at h
  | some x => rw [hj] at h; simp at h; rw [h]

theorem represents_denotes :
    (∀ t, ∀ (h : List heap_cell) (lo : Nat) (v : json_t), Represents h lo v t → Denotes h v t) ∧
    (∀ ts, ∀ (h : List heap_cell) (lo : Nat) (hs : List json_t), RepresentsItems h lo hs ts →
      DenotesItems h hs ts) ∧
    (∀ es, ∀ (h : List heap_cell) (lo : Nat) (bs : List json_bucket_t),
      RepresentsEntries h lo bs es → DenotesEntries h bs es) := by
  apply value_induction
  · intro h lo v hr; simpa [Represents, Denotes] using hr
  · intro b h lo v hr; simpa [Represents, Denotes] using hr
  · intro n h lo v hr; simpa [Represents, Denotes] using hr
  · intro s h lo v hr
    simp only [Represents] at hr
    obtain ⟨p, str, hv, _, hc, hinv, hb⟩ := hr
    simp only [Denotes]
    refine ⟨p, str, hv, hc, ?_, hb⟩
    have := length_json_string_bytes str hinv
    rw [hb, List.length_map] at this
    exact this.symm
  · intro items ih h lo v hr
    simp only [Represents] at hr
    obtain ⟨p, arr, hs, hv, _, hc, hinv, hi⟩ := hr
    simp only [Denotes]
    exact ⟨p, arr, hs, hv, hc, hinv.2.1,
      fun j hj => hinv.2.2.2.2 j (by rw [hinv.2.1]; exact hj), ih h (p + 1) hs hi⟩
  · intro entries ih h lo v hr
    simp only [Represents] at hr
    obtain ⟨p, obj, bs, hv, _, hc, hinv, hi⟩ := hr
    simp only [Denotes]
    refine ⟨p, obj, bs, hv, hc, hinv.len_eq, fun j hj => ?_, ih h (p + 1) bs hi⟩
    have := hinv.bucket j hj
    have hb : bs[j]? = some bs[j] := List.getElem?_eq_getElem hj
    rw [hb] at this ⊢
    exact getElem?_of_getD _ _ _ this
  · intro h lo hs hr
    cases hs with
    | nil => simp [DenotesItems]
    | cons a as => simp [RepresentsItems] at hr
  · intro t ts iht ihts h lo hs hr
    cases hs with
    | nil => simp [RepresentsItems] at hr
    | cons a as =>
      simp only [RepresentsItems] at hr
      simp only [DenotesItems]
      exact ⟨iht h lo a hr.1, ihts h lo as hr.2⟩
  · intro h lo bs hr
    cases bs with
    | nil => simp [DenotesEntries]
    | cons a as => simp [RepresentsEntries] at hr
  · intro k t es iht ihes h lo bs hr
    cases bs with
    | nil => simp [RepresentsEntries] at hr
    | cons a as =>
      simp only [RepresentsEntries] at hr
      simp only [DenotesEntries]
      exact ⟨hr.1, iht h lo a.val hr.2.1, ihes h lo as hr.2.2⟩

theorem denotesItems_length (h : List heap_cell) :
    ∀ (hs : List json_t) (ts : List Value), DenotesItems h hs ts → hs.length = ts.length := by
  intro hs
  induction hs with
  | nil =>
    intro ts hr
    cases ts with
    | nil => rfl
    | cons a as => simp [DenotesItems] at hr
  | cons x xs ih =>
    intro ts hr
    cases ts with
    | nil => simp [DenotesItems] at hr
    | cons a as =>
      simp only [DenotesItems] at hr
      simp [ih as hr.2]

theorem denotesEntries_length (h : List heap_cell) :
    ∀ (bs : List json_bucket_t) (es : List (List Nat × Value)), DenotesEntries h bs es →
      bs.length = es.length := by
  intro bs
  induction bs with
  | nil =>
    intro es hr
    cases es with
    | nil => rfl
    | cons a as => simp [DenotesEntries] at hr
  | cons x xs ih =>
    intro es hr
    cases es with
    | nil => simp [DenotesEntries] at hr
    | cons a as =>
      obtain ⟨k, t⟩ := a
      simp only [DenotesEntries] at hr
      simp [ih as hr.2.2]

theorem list_eq_of_cells {α : Type} (data : List (Option α)) (l1 l2 : List α)
    (hlen : l1.length = l2.length) (h1 : ∀ j, j < l1.length → data[j]? = some l1[j]?)
    (h2 : ∀ j, j < l2.length → data[j]? = some l2[j]?) : l1 = l2 := by
  apply List.ext_getElem?
  intro j
  by_cases c : j < l1.length
  · have a := h1 j c
    have b := h2 j (by omega)
    rw [a] at b
    exact Option.some.inj b
  · rw [List.getElem?_eq_none (by omega), List.getElem?_eq_none (by omega)]

theorem denotes_unique (h : List heap_cell) :
    (∀ t, ∀ (v : json_t) (t2 : Value), Denotes h v t → Denotes h v t2 → t = t2) ∧
    (∀ ts, ∀ (hs : List json_t) (ts2 : List Value), DenotesItems h hs ts →
      DenotesItems h hs ts2 → ts = ts2) ∧
    (∀ es, ∀ (bs : List json_bucket_t) (es2 : List (List Nat × Value)), DenotesEntries h bs es →
      DenotesEntries h bs es2 → es = es2) := by
  apply value_induction
  · intro v t2 h1 h2
    simp only [Denotes] at h1
    subst h1
    cases t2 with
    | null => rfl
    | bool b => cases b <;> simp [Denotes] at h2
    | number n => simp [Denotes] at h2
    | string s => simp [Denotes] at h2
    | array items => simp [Denotes] at h2
    | object entries => simp [Denotes] at h2
  · intro b v t2 h1 h2
    simp only [Denotes] at h1
    subst h1
    cases t2 with
    | null => cases b <;> simp [Denotes] at h2
    | bool b2 => cases b <;> cases b2 <;> simp [Denotes] at h2 ⊢
    | number n => cases b <;> simp [Denotes] at h2
    | string s => cases b <;> simp [Denotes] at h2
    | array items => cases b <;> simp [Denotes] at h2
    | object entries => cases b <;> simp [Denotes] at h2
  · intro n v t2 h1 h2
    simp only [Denotes] at h1
    subst h1
    cases t2 with
    | null => simp [Denotes] at h2
    | bool b => cases b <;> simp [Denotes] at h2
    | number n2 => simp only [Denotes, json_t.JSON_NUMBER.injEq] at h2; rw [h2]
    | string s => simp [Denotes] at h2
    | array items => simp [Denotes] at h2
    | object entries => simp [Denotes] at h2
  · intro s v t2 h1 h2
    simp only [Denotes] at h1
    obtain ⟨p, str, hv, hc, hl, hb⟩ := h1
    subst hv
    cases t2 with
    | null => simp [Denotes] at h2
    | bool b => cases b <;> simp [Denotes] at h2
    | number n => simp [Denotes] at h2
    | string s2 =>
      simp only [Denotes, json_t.JSON_STRING.injEq] at h2
      obtain ⟨p2, str2, hp, hc2, _, hb2⟩ := h2
      subst hp
      rw [hc] at hc2
      simp only [Option.some.injEq, heap_cell.string.injEq] at hc2
      subst hc2
      rw [hb] at hb2
      rw [List.map_injective_iff.mpr (Option.some_injective _) hb2]
    | array items => simp [Denotes] at h2
    | object entries => simp [Denotes] at h2
  · intro items ih v t2 h1 h2
    simp only [Denotes] at h1
    obtain ⟨p, arr, hs, hv, hc, hl, hd, hi⟩ := h1
    subst hv
    cases t2 with
    | null => simp [Denotes] at h2
    | bool b => cases b <;> simp [Denotes] at h2
    | number n => simp [Denotes] at h2
    | string s => simp [Denotes] at h2
    | array items2 =>
      simp only [Denotes, json_t.JSON_ARRAY.injEq] at h2
      obtain ⟨p2, arr2, hs2, hp, hc2, hl2, hd2, hi2⟩ := h2
      subst hp
      rw [hc] at hc2
      simp only [Option.some.injEq, heap_cell.array.injEq] at hc2
      subst hc2
      have e := list_eq_of_cells arr.data hs hs2 (by omega) hd hd2
      subst e
      rw [ih hs items2 hi hi2]
    | object entries => simp [Denotes] at h2
  · intro entries ih v t2 h1 h2
    simp only [Denotes] at h1
    obtain ⟨p, obj, bs, hv, hc, hl, hd, hi⟩ := h1
    subst hv
    cases t2 with
    | null => simp [Denotes] at h2
    | bool b => cases b <;> simp [Denotes] at h2
    | number n => simp [Denotes] at h2
    | string s => simp [Denotes] at h2
    | array items => simp [Denotes] at h2
    | object entries2 =>
      simp only [Denotes, json_t.JSON_OBJECT.injEq] at h2
      obtain ⟨p2, obj2, bs2, hp, hc2, hl2, hd2, hi2⟩ := h2
      subst hp
      rw [hc] at hc2
      simp only [Option.some.injEq, heap_cell.object.injEq] at hc2
      subst hc2
      have e := list_eq_of_cells obj.buckets bs bs2 (by omega) hd hd2
      subst e
      rw [ih bs entries2 hi hi2]
  · intro hs ts2 h1 h2
    cases hs with
    | nil =>
      cases ts2 with
      | nil => rfl
      | cons a as => simp [DenotesItems] at h2
    | cons x xs => simp [DenotesItems] at h1
  · intro t ts iht ihts hs ts2 h1 h2
    cases hs with
    | nil => simp [DenotesItems] at h1
    | cons x xs =>
      cases ts2 with
      | nil => simp [DenotesItems] at h2
      | cons a as =>
        simp only [DenotesItems] at h1 h2
        rw [iht x a h1.1 h2.1, ihts xs as h1.2 h2.2]
  · intro bs es2 h1 h2
    cases bs with
    | nil =>
      cases es2 with
      | nil => rfl
      | cons a as => simp [DenotesEntries] at h2
    | cons x xs => simp [DenotesEntries] at h1
  · intro k t es iht ihes bs es2 h1 h2
    cases bs with
    | nil => simp [DenotesEntries] at h1
    | cons x xs =>
      cases es2 with
      | nil => simp [DenotesEntries] at h2
      | cons a as =>
        obtain ⟨k2, t2⟩ := a
        simp only [DenotesEntries] at h1 h2
        rw [← h1.1, ← h2.1, iht x.val t2 h1.2.1 h2.2.1, ihes xs as h1.2.2 h2.2.2]

theorem denotes_object_handle (h : List heap_cell) (p : Nat) (t : Value)
    (hd : Denotes h (.JSON_OBJECT p) t) : ∃ obj, h[p]? = some (.object obj) := by
  cases t with
  | null => simp [Denotes] at hd
  | bool b => cases b <;> simp [Denotes] at hd
  | number n => simp [Denotes] at hd
  | string s => simp [Denotes] at hd
  | array items => simp [Denotes] at hd
  | object entries =>
    simp only [Denotes, json_t.JSON_OBJECT.injEq] at hd
    obtain ⟨p2, obj, bs, hp, hc, _⟩ := hd
    subst hp
    exact ⟨obj, hc⟩

theorem denotes_array_handle (h : List heap_cell) (p : Nat) (t : Value)
    (hd : Denotes h (.JSON_ARRAY p) t) : ∃ arr, h[p]? = some (.array arr) := by
  cases t with
  | null => simp [Denotes] at hd
  | bool b => cases b <;> simp [Denotes] at hd
  | number n => simp [Denotes] at hd
  | string s => simp [Denotes] at hd
  | array items =>
    simp only [Denotes, json_t.JSON_ARRAY.injEq] at hd
    obtain ⟨p2, arr, hs, hp, hc, _⟩ := hd
    subst hp
    exact ⟨arr, hc⟩
  | object entries => simp [Denotes] at hd

/-- Along a deepest path of a denoted tree the containers lie at distinct addresses: there
    is a set of as many addresses as the tree is deep, each of which holds a container
    that denotes a tree with no more nodes. -/
theorem denotes_path (h : List heap_cell) :
    (∀ t, ∀ (v : json_t), Denotes h v t → ∃ S : Finset Nat, S.card = depth t ∧
      ∀ p ∈ S, p < h.length ∧ ∃ t2, (Denotes h (.JSON_ARRAY p) t2 ∨
        Denotes h (.JSON_OBJECT p) t2) ∧ nodes t2 ≤ nodes t) ∧
    (∀ ts, ∀ (hs : List json_t), DenotesItems h hs ts → ∃ S : Finset Nat,
      S.card = depth_items ts ∧
      ∀ p ∈ S, p < h.length ∧ ∃ t2, (Denotes h (.JSON_ARRAY p) t2 ∨
        Denotes h (.JSON_OBJECT p) t2) ∧ nodes t2 ≤ nodes_items ts) ∧
    (∀ es, ∀ (bs : List json_bucket_t), DenotesEntries h bs es → ∃ S : Finset Nat,
      S.card = depth_entries es ∧
      ∀ p ∈ S, p < h.length ∧ ∃ t2, (Denotes h (.JSON_ARRAY p) t2 ∨
        Denotes h (.JSON_OBJECT p) t2) ∧ nodes t2 ≤ nodes_entries es) := by
  apply value_induction
  · intro v _; exact ⟨∅, rfl, fun p hp => absurd hp (Finset.not_mem_empty p)⟩
  · intro b v _; exact ⟨∅, rfl, fun p hp => absurd hp (Finset.not_mem_empty p)⟩
  · intro n v _; exact ⟨∅, rfl, fun p hp => absurd hp (Finset.not_mem_empty p)⟩
  · intro s v _; exact ⟨∅, rfl, fun p hp => absurd hp (Finset.not_mem_empty p)⟩
  · intro items ih v hd
    have hd0 := hd
    simp only [Denotes] at hd
    obtain ⟨p, arr, hs, hv, hc, _, _, hi⟩ := hd
    subst hv
    obtain ⟨S, hS, hp⟩ := ih hs hi
    have hnot : p ∉ S := by
      intro hmem
      obtain ⟨_, t2, h2, hn⟩ := hp p hmem
      rcases h2 with h2 | h2
      · have := (denotes_unique h).1 t2 _ _ h2 hd0
        subst this
        simp only [nodes] at hn
        omega
      · obtain ⟨obj, ho⟩ := denotes_object_handle h p t2 h2
        rw [hc] at ho
        simp at ho
    refine ⟨insert p S, by rw [Finset.card_insert_of_not_mem hnot, hS]; rfl, fun q hq => ?_⟩
    rcases Finset.mem_insert.mp hq with e | e
    · subst e
      exact ⟨(List.getElem?_eq_some_iff.mp hc).1, _, Or.inl hd0, le_refl _⟩
    · obtain ⟨a, t2, b, c⟩ := hp q e
      exact ⟨a, t2, b, by simp only [nodes]; omega⟩
  · intro entries ih v hd
    have hd0 := hd
    simp only [Denotes] at hd
    obtain ⟨p, obj, bs, hv, hc, _, _, hi⟩ := hd
    subst hv
    obtain ⟨S, hS, hp⟩ := ih bs hi
    have hnot : p ∉ S := by
      intro hmem
      obtain ⟨_, t2, h2, hn⟩ := hp p hmem
      rcases h2 with h2 | h2
      · obtain ⟨arr, ha⟩ := denotes_array_handle h p t2 h2
        rw [hc] at ha
        simp at ha
      · have := (denotes_unique h).1 t2 _ _ h2 hd0
        subst this
        simp only [nodes] at hn
        omega
    refine ⟨insert p S, by rw [Finset.card_insert_of_not_mem hnot, hS]; rfl, fun q hq => ?_⟩
    rcases Finset.mem_insert.mp hq with e | e
    · subst e
      exact ⟨(List.getElem?_eq_some_iff.mp hc).1, _, Or.inr hd0, le_refl _⟩
    · obtain ⟨a, t2, b, c⟩ := hp q e
      exact ⟨a, t2, b, by simp only [nodes]; omega⟩
  · intro hs _; exact ⟨∅, rfl, fun p hp => absurd hp (Finset.not_mem_empty p)⟩
  · intro t ts iht ihts hs hd
    cases hs with
    | nil => simp [DenotesItems] at hd
    | cons x xs =>
      simp only [DenotesItems] at hd
      obtain ⟨S1, c1, p1⟩ := iht x hd.1
      obtain ⟨S2, c2, p2⟩ := ihts xs hd.2
      simp only [depth_items, nodes_items]
      by_cases c : depth_items ts ≤ depth t
      · refine ⟨S1, by rw [c1, max_eq_left c], fun q hq => ?_⟩
        obtain ⟨a, t2, b, d⟩ := p1 q hq
        exact ⟨a, t2, b, by omega⟩
      · refine ⟨S2, by rw [c2, max_eq_right (by omega)], fun q hq => ?_⟩
        obtain ⟨a, t2, b, d⟩ := p2 q hq
        exact ⟨a, t2, b, by omega⟩
  · intro bs _; exact ⟨∅, rfl, fun p hp => absurd hp (Finset.not_mem_empty p)⟩
  · intro k t es iht ihes bs hd
    cases bs with
    | nil => simp [DenotesEntries] at hd
    | cons x xs =>
      simp only [DenotesEntries] at hd
      obtain ⟨S1, c1, p1⟩ := iht x.val hd.2.1
      obtain ⟨S2, c2, p2⟩ := ihes xs hd.2.2
      simp only [depth_entries, nodes_entries]
      by_cases c : depth_entries es ≤ depth t
      · refine ⟨S1, by rw [c1, max_eq_left c], fun q hq => ?_⟩
        obtain ⟨a, t2, b, d⟩ := p1 q hq
        exact ⟨a, t2, b, by omega⟩
      · refine ⟨S2, by rw [c2, max_eq_right (by omega)], fun q hq => ?_⟩
        obtain ⟨a, t2, b, d⟩ := p2 q hq
        exact ⟨a, t2, b, by omega⟩

theorem denotes_depth (h : List heap_cell) (v : json_t) (t : Value) (hd : Denotes h v t) :
    depth t ≤ h.length := by
  obtain ⟨S, hS, hp⟩ := (denotes_path h).1 t v hd
  have hsub : S ⊆ Finset.range h.length := fun p hm => Finset.mem_range.mpr (hp p hm).1
  have := Finset.card_le_card hsub
  rw [Finset.card_range] at this
  omega

theorem representsItems_length (h : List heap_cell) (lo : Nat) :
    ∀ (hs : List json_t) (ts : List Value), RepresentsItems h lo hs ts → hs.length = ts.length := by
  intro hs
  induction hs with
  | nil =>
    intro ts hr
    cases ts with
    | nil => rfl
    | cons a as => simp [RepresentsItems] at hr
  | cons x xs ih =>
    intro ts hr
    cases ts with
    | nil => simp [RepresentsItems] at hr
    | cons a as =>
      simp only [RepresentsItems] at hr
      simp [ih as hr.2]

theorem representsEntries_length (h : List heap_cell) (lo : Nat) :
    ∀ (bs : List json_bucket_t) (es : List (List Nat × Value)), RepresentsEntries h lo bs es →
      bs.length = es.length := by
  intro bs
  induction bs with
  | nil =>
    intro es hr
    cases es with
    | nil => rfl
    | cons a as => simp [RepresentsEntries] at hr
  | cons x xs ih =>
    intro es hr
    cases es with
    | nil => simp [RepresentsEntries] at hr
    | cons a as =>
      obtain ⟨k, t⟩ := a
      simp only [RepresentsEntries] at hr
      simp [ih as hr.2.2]

theorem dumps_items_cons (t : Value) (ts : List Value) (hP : DumpsValue t)
    (hQ : DumpsItems ts) : DumpsItems (t :: ts) := by
  intro h hs arr d fuel i dst hfrag hrep hdata hlen hdepth hinv hbound
  cases hs with
  | nil => simp [DenotesItems] at hrep
  | cons v vs =>
    simp only [DenotesItems] at hrep
    simp only [items_dumpable, Bool.and_eq_true] at hfrag
    simp only [depth_items, max_lt_iff] at hdepth
    simp only [List.length_cons] at hlen
    have hvl := denotesItems_length h vs ts hrep.2
    have hnode : arr.data[i]? = some (some v) := by
      have := hdata 0 (by simp)
      simpa using this
    obtain ⟨cm, hcm⟩ : ∃ cm, cm = (if ts.isEmpty then [] else [44]) := ⟨_, rfl⟩
    have hcl : cm.length ≤ 1 := by rw [hcm]; split <;> simp
    have hrl : (render_items (t :: ts) d).length =
        (d + 1) + (render t (d + 1)).length + cm.length + 1 + (render_items ts d).length := by
      simp only [render_items, ← hcm, List.length_append, tabs, List.length_replicate,
        List.length_singleton]
    obtain ⟨s1, e1, h1⟩ := json_dump_indent_dumped (d + 1) dst hinv (by omega)
    have l1 : s1.len = dst.len + (d + 1) := by rw [h1.2.1]; simp [tabs]
    obtain ⟨s2, e2, h2⟩ := hP h v (d + 1) fuel s1 hfrag.1 hrep.1 (by omega) h1.1 (by omega)
    have l2 := h2.2.1
    obtain ⟨s3, e3, h3⟩ : ∃ s3, (if i < arr.len - 1 then json_string_append s2 [44] 1
        else some s2) = some s3 ∧ Dumped s2 s3 cm := by
      by_cases c : ts = []
      · have : ¬ (i < arr.len - 1) := by
          subst c
          simp only [List.length_nil] at hvl
          omega
        rw [if_neg this]
        refine ⟨s2, rfl, ?_⟩
        rw [hcm, c]; exact dumped_refl s2 h2.1
      · have hpos : 0 < ts.length := List.length_pos.mpr c
        have : i < arr.len - 1 := by omega
        rw [if_pos this]
        have hce : cm = [44] := by
          rw [hcm, if_neg (by simpa using c)]
        rw [hce]
        exact json_string_append_dumped s2 [44] h2.1 (by simp; omega)
    have l3 := h3.2.1
    obtain ⟨s4, e4, h4⟩ := json_string_append_dumped s3 [10] h3.1 (by simp; omega)
    have l4 := h4.2.1
    simp only [List.length_singleton] at e4 l4
    obtain ⟨s5, e5, h5⟩ := hQ h vs arr d fuel (i + 1) s4 hfrag.2 hrep.2
      (fun j hj => by
        have := hdata (j + 1) (by simp; omega)
        rw [show i + 1 + j = i + (j + 1) from by omega, this, List.getElem?_cons_succ])
      (by omega) (by omega) h4.1 (by omega)
    refine ⟨s5, ?_, ?_⟩
    · simp only [List.length_cons, json_dump_elements, hnode, e1, Option.some_bind, e2, e3, e4, e5]
    · have := dumped_trans _ _ _ _ _ (dumped_trans _ _ _ _ _ (dumped_trans _ _ _ _ _
        (dumped_trans _ _ _ _ _ h1 h2) h3) h4) h5
      simpa [render_items, hcm] using this

theorem dumps_array (items : List Value) (hQ : DumpsItems items) :
    ∀ (h : List heap_cell) (v : json_t) (d fuel : Nat) (dst : json__string_t),
    items_dumpable items = true → Denotes h v (.array items) →
    depth (.array items) < fuel → StringInv dst →
    dst.len + (render (.array items) d).length + 32 < 2 ^ 30 →
    ∃ dst2, json_dump_recursive h fuel dst v d = some dst2 ∧
      Dumped dst dst2 (render (.array items) d) := by
  intro h v d fuel dst hfrag hrep hdepth hinv hbound
  simp only [Denotes] at hrep
  obtain ⟨p, arr, hs, hv, hcell, hal0, hdata, hitems⟩ := hrep
  simp only [depth] at hdepth
  obtain ⟨f, rfl⟩ : ∃ f, fuel = f + 1 := ⟨fuel - 1, by omega⟩
  have hl := denotesItems_length h hs items hitems
  have hrl : (render (.array items) d).length = 2 + (render_items items d).length + d + 1 := by
    simp only [render, List.length_append, tabs, List.length_replicate, List.length_singleton,
      List.length_cons, List.length_nil]
  obtain ⟨s1, e1, h1⟩ := json_string_append_dumped dst [91, 10] hinv (by simp; omega)
  have l1 := h1.2.1
  simp only [List.length_cons, List.length_nil] at e1 l1
  obtain ⟨s2, e2, h2⟩ := hQ h hs arr d f 0 s1 hfrag hitems
    (fun j hj => by rw [Nat.zero_add]; exact hdata j hj)
    (by rw [hal0]; omega) (by omega) h1.1 (by omega)
  have l2 := h2.2.1
  obtain ⟨s3, e3, h3⟩ := json_dump_indent_dumped d s2 h2.1 (by omega)
  have l3 : s3.len = s2.len + d := by rw [h3.2.1]; simp [tabs]
  obtain ⟨s4, e4, h4⟩ := json_string_append_dumped s3 [93] h3.1 (by simp; omega)
  simp only [List.length_singleton] at e4
  refine ⟨s4, ?_, ?_⟩
  · rw [hv]
    have hal : arr.len = items.length := by rw [hal0, hl]
    simp only [json_dump_recursive, hcell, e1, Option.some_bind, hal, e2, e3, e4]
  · have := dumped_trans _ _ _ _ _ (dumped_trans _ _ _ _ _ (dumped_trans _ _ _ _ _ h1 h2) h3) h4
    simpa [render] using this

theorem dumps_entries_cons (k : List Nat) (t : Value) (es : List (List Nat × Value))
    (hP : DumpsValue t) (hR : DumpsEntries es) : DumpsEntries ((k, t) :: es) := by
  intro h bs obj d fuel i dst hfrag hrep hdata hlen hdepth hinv hbound
  cases bs with
  | nil => simp [DenotesEntries] at hrep
  | cons b vs =>
    simp only [DenotesEntries] at hrep
    obtain ⟨hbk, hrv, hrest⟩ := hrep
    simp only [entries_dumpable, Bool.and_eq_true] at hfrag
    obtain ⟨⟨hkey, hft⟩, hfes⟩ := hfrag
    simp only [depth_entries, max_lt_iff] at hdepth
    simp only [List.length_cons] at hlen
    have hvl := denotesEntries_length h vs es hrest
    have hnode : obj.buckets[i]? = some (some b) := by
      have := hdata 0 (by simp)
      simpa using this
    have hstrlen : (b.key.takeWhile (· ≠ 0)).length = k.length := by
      rw [hbk, List.takeWhile_eq_self_iff.mpr]
      intro x hx
      simpa using List.all_eq_true.mp hkey x hx
    obtain ⟨cm, hcm⟩ : ∃ cm, cm = (if es.isEmpty then [] else [44]) := ⟨_, rfl⟩
    have hcl : cm.length ≤ 1 := by rw [hcm]; split <;> simp
    have hrl : (render_entries ((k, t) :: es) d).length =
        (d + 1) + 1 + k.length + 3 + (render t (d + 1)).length + cm.length + 1
          + (render_entries es d).length := by
      simp only [render_entries, ← hcm, List.length_append, tabs, List.length_replicate,
        List.length_singleton, List.length_cons, List.length_nil]
    obtain ⟨s1, e1, h1⟩ := json_dump_indent_dumped (d + 1) dst hinv (by omega)
    have l1 : s1.len = dst.len + (d + 1) := by rw [h1.2.1]; simp [tabs]
    obtain ⟨sa, ea, ha⟩ := json_string_append_dumped s1 [34] h1.1 (by simp; omega)
    have la := ha.2.1
    simp only [List.length_singleton] at ea la
    obtain ⟨sb, eb, hb⟩ := json_string_append_dumped sa k ha.1 (by omega)
    have lb := hb.2.1
    obtain ⟨sc, ec, hc⟩ := json_string_append_dumped sb [34, 58, 32] hb.1 (by simp; omega)
    have lc := hc.2.1
    simp only [List.length_cons, List.length_nil] at ec lc
    obtain ⟨s2, e2, h2⟩ := hP h b.val (d + 1) fuel sc hft hrv (by omega) hc.1 (by omega)
    have l2 := h2.2.1
    obtain ⟨s3, e3, h3⟩ : ∃ s3, (if i ≠ obj.len - 1 then json_string_append s2 [44] 1
        else some s2) = some s3 ∧ Dumped s2 s3 cm := by
      by_cases c : es = []
      · have : ¬ (i ≠ obj.len - 1) := by
          subst c
          simp only [List.length_nil] at hvl
          omega
        rw [if_neg this]
        refine ⟨s2, rfl, ?_⟩
        rw [hcm, c]; exact dumped_refl s2 h2.1
      · have hpos : 0 < es.length := List.length_pos.mpr c
        have : i ≠ obj.len - 1 := by omega
        rw [if_pos this]
        have hce : cm = [44] := by
          rw [hcm, if_neg (by simpa using c)]
        rw [hce]
        exact json_string_append_dumped s2 [44] h2.1 (by simp; omega)
    have l3 := h3.2.1
    obtain ⟨s4, e4, h4⟩ := json_string_append_dumped s3 [10] h3.1 (by simp; omega)
    have l4 := h4.2.1
    simp only [List.length_singleton] at e4 l4
    obtain ⟨s5, e5, h5⟩ := hR h vs obj d fuel (i + 1) s4 hfes hrest
      (fun j hj => by
        have := hdata (j + 1) (by simp; omega)
        rw [show i + 1 + j = i + (j + 1) from by omega, this, List.getElem?_cons_succ])
      (by omega) (by omega) h4.1 (by omega)
    refine ⟨s5, ?_, ?_⟩
    · have eb2 : json_string_append sa b.key k.length = some sb := by rw [hbk]; exact eb
      simp only [List.length_cons, json_dump_buckets, hnode, e1, Option.some_bind, ea, hstrlen,
        eb2, ec, e2, e3, e4, e5]
    · have := dumped_trans _ _ _ _ _ (dumped_trans _ _ _ _ _ (dumped_trans _ _ _ _ _
        (dumped_trans _ _ _ _ _ (dumped_trans _ _ _ _ _ (dumped_trans _ _ _ _ _
        (dumped_trans _ _ _ _ _ h1 ha) hb) hc) h2) h3) h4) h5
      simpa [render_entries, hcm] using this

theorem dumps_object (entries : List (List Nat × Value)) (hR : DumpsEntries entries) :
    ∀ (h : List heap_cell) (v : json_t) (d fuel : Nat) (dst : json__string_t),
    entries_dumpable entries = true → Denotes h v (.object entries) →
    depth (.object entries) < fuel → StringInv dst →
    dst.len + (render (.object entries) d).length + 32 < 2 ^ 30 →
    ∃ dst2, json_dump_recursive h fuel dst v d = some dst2 ∧
      Dumped dst dst2 (render (.object entries) d) := by
  intro h v d fuel dst hfrag hrep hdepth hinv hbound
  simp only [Denotes] at hrep
  obtain ⟨p, obj, bs, hv, hcell, hol0, hdata, hitems⟩ := hrep
  simp only [depth] at hdepth
  obtain ⟨f, rfl⟩ : ∃ f, fuel = f + 1 := ⟨fuel - 1, by omega⟩
  have hl := denotesEntries_length h bs entries hitems
  have hrl : (render (.object entries) d).length
      = 2 + (render_entries entries d).length + d + 1 := by
    simp only [render, List.length_append, tabs, List.length_replicate, List.length_singleton,
      List.length_cons, List.length_nil]
  obtain ⟨s1, e1, h1⟩ := json_string_append_dumped dst [123, 10] hinv (by simp; omega)
  have l1 := h1.2.1
  simp only [List.length_cons, List.length_nil] at e1 l1
  obtain ⟨s2, e2, h2⟩ := hR h bs obj d f 0 s1 hfrag hitems
    (fun j hj => by rw [Nat.zero_add]; exact hdata j hj)
    (by rw [hol0]; omega) (by omega) h1.1 (by omega)
  have l2 := h2.2.1
  obtain ⟨s3, e3, h3⟩ := json_dump_indent_dumped d s2 h2.1 (by omega)
  have l3 : s3.len = s2.len + d := by rw [h3.2.1]; simp [tabs]
  obtain ⟨s4, e4, h4⟩ := json_string_append_dumped s3 [125] h3.1 (by simp; omega)
  simp only [List.length_singleton] at e4
  refine ⟨s4, ?_, ?_⟩
  · rw [hv]
    have hal : obj.len = entries.length := by rw [hol0, hl]
    simp only [json_dump_recursive, hcell, e1, Option.some_bind, hal, e2, e3, e4]
  · have := dumped_trans _ _ _ _ _ (dumped_trans _ _ _ _ _ (dumped_trans _ _ _ _ _ h1 h2) h3) h4
    simpa [render] using this

theorem allSome_map_some {α : Type} (l : List α) : (l.map some).allSome = some l := by
  induction l with
  | nil => rfl
  | cons a as ih =>
    simp only [List.allSome] at ih ⊢
    rw [List.map_cons, List.mapM_cons, ih]
    rfl

theorem dumps_all :
    (∀ t, DumpsValue t) ∧ (∀ ts, DumpsItems ts) ∧ (∀ es, DumpsEntries es) := by
  apply value_induction
  · intro h v d fuel dst _ hrep hdepth hinv hbound
    obtain ⟨f, rfl⟩ : ∃ f, fuel = f + 1 := ⟨fuel - 1, by omega⟩
    simp only [Denotes] at hrep
    obtain ⟨s1, e1, h1⟩ := json_string_append_dumped dst [110, 117, 108, 108] hinv
      (by simp; omega)
    exact ⟨s1, by rw [hrep]; simpa [json_dump_recursive] using e1, by simpa [render] using h1⟩
  · intro b h v d fuel dst _ hrep hdepth hinv hbound
    obtain ⟨f, rfl⟩ : ∃ f, fuel = f + 1 := ⟨fuel - 1, by omega⟩
    simp only [Denotes] at hrep
    cases b with
    | true =>
      simp only [if_true] at hrep
      obtain ⟨s1, e1, h1⟩ := json_string_append_dumped dst [116, 114, 117, 101] hinv
        (by simp; omega)
      exact ⟨s1, by rw [hrep]; simpa [json_dump_recursive] using e1, by simpa [render] using h1⟩
    | false =>
      simp only [Bool.false_eq_true, if_false] at hrep
      obtain ⟨s1, e1, h1⟩ := json_string_append_dumped dst [102, 97, 108, 115, 101] hinv
        (by simp; omega)
      exact ⟨s1, by rw [hrep]; simpa [json_dump_recursive] using e1, by simpa [render] using h1⟩
  · intro n h v d fuel dst hf hrep hdepth hinv hbound
    obtain ⟨f, rfl⟩ : ∃ f, fuel = f + 1 := ⟨fuel - 1, by omega⟩
    have hdl := json_dtoa_length n hf
    simp only [Denotes] at hrep
    obtain ⟨s1, e1, h1⟩ := json_dump_number_dumped dst (json_dtoa n 12) hinv hdl (by omega)
    exact ⟨s1, by rw [hrep]; simpa [json_dump_recursive] using e1, by simpa [render] using h1⟩
  · intro s h v d fuel dst _ hrep hdepth hinv hbound
    obtain ⟨f, rfl⟩ : ∃ f, fuel = f + 1 := ⟨fuel - 1, by omega⟩
    simp only [Denotes] at hrep
    obtain ⟨p, str, hv, hc, hl, hb⟩ := hrep
    have hrl : (render (.string s) d).length = s.length := rfl
    obtain ⟨s1, e1, h1⟩ := json_string_append_dumped dst s hinv (by omega)
    refine ⟨s1, ?_, by simpa [render] using h1⟩
    have hb2 : List.take str.len str.data = s.map some := hb
    rw [hl] at hb2
    rw [hv]
    simp only [json_dump_recursive, hc, hb2, allSome_map_some, Option.some_bind, hl]
    exact e1
  · intro items ih h v d fuel dst hf
    simp only [dumpable] at hf
    exact dumps_array items ih h v d fuel dst hf
  · intro entries ih h v d fuel dst hf
    simp only [dumpable] at hf
    exact dumps_object entries ih h v d fuel dst hf
  · intro h hs arr d fuel i dst _ _ _ _ _ hinv _
    exact ⟨dst, rfl, by simpa [render_items] using dumped_refl dst hinv⟩
  · exact dumps_items_cons
  · intro h bs obj d fuel i dst _ _ _ _ _ hinv _
    exact ⟨dst, rfl, by simpa [render_entries] using dumped_refl dst hinv⟩
  · exact dumps_entries_cons

theorem represents_depth :
    (∀ t, ∀ (h : List heap_cell) (lo : Nat) (v : json_t), Represents h lo v t →
      depth t = 0 ∨ lo + depth t ≤ h.length) ∧
    (∀ ts, ∀ (h : List heap_cell) (lo : Nat) (hs : List json_t), RepresentsItems h lo hs ts →
      depth_items ts = 0 ∨ lo + depth_items ts ≤ h.length) ∧
    (∀ es, ∀ (h : List heap_cell) (lo : Nat) (bs : List json_bucket_t),
      RepresentsEntries h lo bs es → depth_entries es = 0 ∨ lo + depth_entries es ≤ h.length) := by
  apply value_induction
  · intro h lo v _; left; rfl
  · intro b h lo v _; left; rfl
  · intro n h lo v _; left; rfl
  · intro s h lo v _; left; rfl
  · intro items ih h lo v hr
    simp only [Represents] at hr
    obtain ⟨p, arr, hs, _, hp, hc, _, hi⟩ := hr
    have hlt : p < h.length := (List.getElem?_eq_some_iff.mp hc).1
    simp only [depth]
    rcases ih h (p + 1) hs hi with h0 | h0 <;> right <;> omega
  · intro entries ih h lo v hr
    simp only [Represents] at hr
    obtain ⟨p, obj, bs, _, hp, hc, _, hi⟩ := hr
    have hlt : p < h.length := (List.getElem?_eq_some_iff.mp hc).1
    simp only [depth]
    rcases ih h (p + 1) bs hi with h0 | h0 <;> right <;> omega
  · intro h lo hs _; left; rfl
  · intro t ts iht ihts h lo hs hr
    cases hs with
    | nil => simp [RepresentsItems] at hr
    | cons a as =>
      simp only [RepresentsItems] at hr
      simp only [depth_items]
      rcases iht h lo a hr.1 with h1 | h1 <;> rcases ihts h lo as hr.2 with h2 | h2 <;> omega
  · intro h lo bs _; left; rfl
  · intro k t es iht ihes h lo bs hr
    cases bs with
    | nil => simp [RepresentsEntries] at hr
    | cons a as =>
      simp only [RepresentsEntries] at hr
      simp only [depth_entries]
      rcases iht h lo a.val hr.2.1 with h1 | h1 <;> rcases ihes h lo as hr.2.2 with h2 | h2 <;>
        omega

set_option exponentiation.threshold 400 in
theorem fragment_dumpable_all :
    (∀ t, nested_fragment t = true → dumpable t = true) ∧
    (∀ ts, items_fragment ts = true → items_dumpable ts = true) ∧
    (∀ es, entries_fragment es = true → entries_dumpable es = true) := by
  apply value_induction
  · intro _; rfl
  · intro b _; rfl
  · intro num h
    cases num with
    | inf neg => rfl
    | nan => rfl
    | finite q =>
      simp only [nested_fragment] at h
      simp only [dumpable]
      exact h
  · intro s _; rfl
  · intro items ih h
    simp only [nested_fragment, Bool.and_eq_true] at h
    simp only [dumpable]
    exact ih h.2
  · intro entries ih h
    simp only [nested_fragment, Bool.and_eq_true] at h
    simp only [dumpable]
    exact ih h.2
  · intro _; rfl
  · intro t ts iht ihts h
    simp only [items_fragment, Bool.and_eq_true] at h
    simp only [items_dumpable, Bool.and_eq_true]
    exact ⟨iht h.1, ihts h.2⟩
  · intro _; rfl
  · intro k t es iht ihes h
    simp only [entries_fragment, Bool.and_eq_true] at h
    simp only [entries_dumpable, Bool.and_eq_true]
    refine ⟨⟨?_, iht h.1.2⟩, ihes h.2⟩
    rw [List.all_eq_true]
    intro b hb
    have := key_byte_spec k h.1.1.1 b hb
    simp only [bne_iff_ne, ne_eq]
    omega

theorem fragment_dumpable (t : Value) (h : fragment t = true) : dumpable t = true := by
  cases t with
  | null => simp [fragment] at h
  | bool b => simp [fragment] at h
  | number n => simp [fragment] at h
  | string s => simp [fragment] at h
  | array items =>
    simp only [fragment, Bool.and_eq_true] at h
    simp only [dumpable]
    exact fragment_dumpable_all.2.1 items h.1.2
  | object entries =>
    simp only [fragment, Bool.and_eq_true] at h
    simp only [dumpable]
    exact fragment_dumpable_all.2.2 entries h.1.2

/-- The serializer on every tree with C-string keys and numbers on which `json_dtoa` is
    exact: the store returned by `json_dump` is well formed and holds the rendering of
    the tree that the handle denotes. -/
theorem json_dump_tree (t : Value) (h : List heap_cell) (v : json_t)
    (hd : dumpable t = true) (hden : Denotes h v t)
    (hlen : (render t 0).length + 32 < 2 ^ 30) :
    ∃ s, json_dump h v = some s ∧ StringInv s ∧ json_string_bytes s = (render t 0).map some := by
  obtain ⟨inv0, len0⟩ := json__string_new_inv 0 (by norm_num)
  obtain ⟨s0, e0, d0⟩ := json_string_append_dumped (json__string_new 0) [] inv0
    (by rw [len0]; norm_num)
  have e0b : json_string [] = some s0 := e0
  have hl0 : s0.len = 0 := by rw [d0.2.1, len0]; rfl
  have hb0 : json_string_bytes s0 = [] := by
    unfold json_string_bytes; rw [hl0]; rfl
  have hdepth : depth t < h.length + 1 := by
    have := denotes_depth h v t hden
    omega
  obtain ⟨s, e, hdump⟩ := dumps_all.1 t h v 0 _ s0 hd hden hdepth d0.1 (by rw [hl0]; omega)
  refine ⟨s, ?_, hdump.1, ?_⟩
  · unfold json_dump
    rw [e0b]
    exact e
  · rw [hdump.2.2, hb0, List.nil_append]

/-- The serializer on the documents of the fragment: the store returned by `json_dump` is
    well formed and holds the rendering of the tree. -/
theorem json_dump_spec (t : Value) (h : List heap_cell) (v : json_t)
    (hfrag : fragment t = true) (hrep : Represents h 0 v t)
    (hlen : (render t 0).length + 32 < 2 ^ 30) :
    ∃ s, json_dump h v = some s ∧ StringInv s ∧ json_string_bytes s = (render t 0).map some :=
  json_dump_tree t h v (fragment_dumpable t hfrag) (represents_denotes.1 t h 0 v hrep) hlen

/-! ## Round trip -/

/-- C1, as stated, fails for a tree whose root is a scalar.  The tree built by
    `json_number(5)` is dumped as the text `5`, and `json_parse` of that text rejects the
    number in state `JSON_START` and returns the `JSON_NONE` sentinel, which does not denote
    the tree. -/
theorem json_parse_dump_scalar_root :
    build (.number 5) [] = some (.JSON_NUMBER 5, []) ∧
    (json_dump [] (.JSON_NUMBER 5)).map json_string_bytes = some [some 53] ∧
    json_parse [53] = some (.JSON_NONE, []) ∧
    ¬ Represents [] 0 .JSON_NONE (.number 5) := by
  refine ⟨by decide, by decide, by decide, ?_⟩
  simp [Represents]

/-- C1, amended: for every tree of the fragment (the root is an array or an object, the
    nested values are integers of at most 12 digits, `true`, `false`, non-empty arrays and
    non-empty objects with fewer than 255 distinct keys of printable ASCII bytes other than
    the quote and the backslash, at most 128 containers are nested) whose rendering, with
    32 bytes of slack, is shorter than `2 ^ 30` bytes: the construction API builds a handle
    that denotes the tree, `json_dump` of it returns a well-formed string store, and
    `json_parse` of the text in that store returns a handle that denotes the same tree. -/
theorem json_parse_dump_round_trip (t : Value) (hfrag : fragment t = true)
    (hlen : (render t 0).length + 32 < 2 ^ 30) :
    ∃ v h s text v2 h2, build t [] = some (v, h) ∧ Represents h 0 v t ∧
      json_dump h v = some s ∧ StringInv s ∧ json_string_bytes s = text.map some ∧
      json_parse text = some (v2, h2) ∧ Represents h2 0 v2 t := by
  obtain ⟨v, h, e1, r1⟩ := build_spec t hfrag
  obtain ⟨s, e2, i2, b2⟩ := json_dump_spec t h v hfrag r1 hlen
  obtain ⟨v2, h2, e3, r3⟩ := json_parse_text t [] (render t 0) [] hfrag whitespace_nil
    (render_text t hfrag)
  refine ⟨v, h, s, render t 0, v2, h2, e1, r1, e2, i2, b2, ?_, r3⟩
  simpa using e3

/-- Witness of C1 on the object with an array under `a` and the number 20 under `b`. -/
theorem json_parse_dump_round_trip_witness :
    fragment (.object [([97], .array [.number 1, .bool true]), ([98], .number 20)]) = true ∧
    (render (.object [([97], .array [.number 1, .bool true]), ([98], .number 20)]) 0).length + 32
      < 2 ^ 30 ∧
    ∃ v h s text v2 h2,
      build (.object [([97], .array [.number 1, .bool true]), ([98], .number 20)]) [] = some (v, h) ∧
      Represents h 0 v (.object [([97], .array [.number 1, .bool true]), ([98], .number 20)]) ∧
      json_dump h v = some s ∧ StringInv s ∧ json_string_bytes s = text.map some ∧
      json_parse text = some (v2, h2) ∧
      Represents h2 0 v2 (.object [([97], .array [.number 1, .bool true]), ([98], .number 20)]) :=
  ⟨by decide, by decide, json_parse_dump_round_trip _ (by decide) (by decide)⟩

/-! ## The capacity function -/

/-- C11: `json__next_capacity(len)` returns 4 for every `len < 4`; for `4 ≤ len ≤ 2 ^ 30`
    it returns a power of two that is at least `len` and at most every power of two that is
    at least `len`, that is the smallest such power, so that a `len` which is a power of two
    is returned unchanged.  The function is the one of `json.c`, with its count of leading
    zeros on the 32-bit unsigned `len - 1` and its shift. -/
theorem json__next_capacity_smallest_power (len : Int) (hlen : len ≤ 2 ^ 30) :
    (len < 4 → json__next_capacity len = 4) ∧
    (4 ≤ len → ∃ k : Nat, json__next_capacity len = 2 ^ k ∧ len ≤ 2 ^ k ∧
      (∀ j : Nat, len ≤ 2 ^ j → (2 : Int) ^ k ≤ 2 ^ j) ∧
      (∀ j : Nat, len = 2 ^ j → json__next_capacity len = len)) := by
  refine ⟨json__next_capacity_small len, fun h4 => ?_⟩
  obtain ⟨n, rfl⟩ : ∃ n : Nat, len = (n : Int) := ⟨len.toNat, by omega⟩
  have h4n : 4 ≤ n := by omega
  have hn : n ≤ 2 ^ 30 := by
    have : (n : Int) ≤ ((2 ^ 30 : Nat) : Int) := by simpa using hlen
    exact_mod_cast this
  obtain ⟨k, _, _, e, hle, hlt⟩ := json__next_capacity_spec n h4n hn
  have hmin : ∀ j : Nat, n ≤ 2 ^ j → 2 ^ k ≤ 2 ^ j := by
    intro j hj
    by_contra hcon
    have hjk : j + 1 ≤ k := by
      by_contra h2
      exact hcon (Nat.pow_le_pow_right (by norm_num) (by omega))
    have := Nat.pow_le_pow_right (show 0 < 2 by norm_num) hjk
    rw [pow_succ] at this
    omega
  refine ⟨k, e, by exact_mod_cast hle, ?_, ?_⟩
  · intro j hj
    have : n ≤ 2 ^ j := by exact_mod_cast hj
    exact_mod_cast hmin j this
  · intro j hj
    have hj2 : n = 2 ^ j := by exact_mod_cast hj
    have := hmin j (le_of_eq hj2)
    rw [e]
    have : 2 ^ k = n := by omega
    exact_mod_cast this

/-- Witness of C11 at `len = 5`, where the smallest power of two is `8`. -/
theorem json__next_capacity_smallest_power_witness :
    (5 : Int) ≤ 2 ^ 30 ∧ json__next_capacity 5 = 8 ∧
    ((5 : Int) < 4 → json__next_capacity 5 = 4) ∧
    ((4 : Int) ≤ 5 → ∃ k : Nat, json__next_capacity 5 = 2 ^ k ∧ (5 : Int) ≤ 2 ^ k ∧
      (∀ j : Nat, (5 : Int) ≤ 2 ^ j → (2 : Int) ^ k ≤ 2 ^ j) ∧
      (∀ j : Nat, (5 : Int) = 2 ^ j → json__next_capacity 5 = 5)) :=
  ⟨by decide, by decide, json__next_capacity_smallest_power 5 (by decide)⟩

/-! ## The bytes taken by `strtod` and by the string scan -/

theorem length_takeWhile_le {α : Type} (p : α → Bool) (l : List α) :
    (l.takeWhile p).length ≤ l.length :=
  (List.takeWhile_sublist p).length_le

theorem strtod_sign_le (s : List Nat) : (strtod_sign s).2 ≤ s.length := by
  unfold strtod_sign
  split <;> simp

theorem strtod_exponent_le (marker : Nat) (s : List Nat) :
    (strtod_exponent marker s).2 ≤ s.length := by
  cases s with
  | nil => simp [strtod_exponent]
  | cons m r =>
    unfold strtod_exponent
    by_cases c : tolower m = marker
    · simp only [if_pos c]
      by_cases d : List.takeWhile isdigit (r.drop (strtod_sign r).2) = []
      · simp [d]
      · simp only [if_neg d, List.length_cons]
        have h1 := length_takeWhile_le isdigit (r.drop (strtod_sign r).2)
        have h2 := strtod_sign_le r
        rw [List.length_drop] at h1
        omega
    · simp [if_neg c]

theorem strtod_nan_sequence_le (s : List Nat) : strtod_nan_sequence s ≤ s.length := by
  unfold strtod_nan_sequence
  split
  · rename_i r
    simp only []
    split
    · rename_i h
      have hlt : (List.takeWhile (fun c => isdigit c || decide (c = 95) ||
          (decide (97 ≤ tolower c) && decide (tolower c ≤ 122))) r).length < r.length := by
        by_contra hcon
        rw [List.drop_eq_nil_of_le (by omega)] at h
        simp at h
      simp only [List.length_cons]
      omega
    · omega
  · omega

theorem strtod_mantissa_le (digit : Nat → Bool) (s : List Nat) :
    (strtod_mantissa digit s).2.2 ≤ s.length := by
  unfold strtod_mantissa
  have h1 := length_takeWhile_le digit s
  simp only []
  split
  · rename_i r h
    simp only []
    have h2 := length_takeWhile_le digit r
    have h3 : (s.drop (s.takeWhile digit).length).length = r.length + 1 := by rw [h]; rfl
    rw [List.length_drop] at h3
    omega
  · exact h1

theorem strtod_le (s : List Nat) : (strtod s).2 ≤ s.length := by
  have hk := strtod_sign_le s
  have hlow : (((s.drop (strtod_sign s).2).take 8).map tolower).length
      = min 8 (s.length - (strtod_sign s).2) := by
    simp
  unfold strtod
  simp only []
  generalize (strtod_sign s).2 = k at hk hlow
  generalize hl : ((s.drop k).take 8).map tolower = low at hlow
  split
  · rename_i h
    rw [h] at hlow
    simp only [List.length_cons, List.length_nil] at hlow
    show k + 8 ≤ s.length
    omega
  split
  · rename_i h
    have := congrArg List.length h
    simp only [List.length_take, List.length_cons, List.length_nil] at this
    show k + 3 ≤ s.length
    omega
  split
  · rename_i h
    have := congrArg List.length h
    simp only [List.length_take, List.length_cons, List.length_nil] at this
    have h2 := strtod_nan_sequence_le ((s.drop k).drop 3)
    simp only [List.length_drop] at h2
    show k + 3 + strtod_nan_sequence ((s.drop k).drop 3) ≤ s.length
    omega
  split
  · rename_i h
    have := congrArg List.length h.1
    simp only [List.length_take, List.length_cons, List.length_nil] at this
    have h2 := strtod_mantissa_le isxdigit ((s.drop k).drop 2)
    have h3 := strtod_exponent_le 112
      ((s.drop k).drop (2 + (strtod_mantissa isxdigit ((s.drop k).drop 2)).2.2))
    simp only [List.length_drop] at h2 h3
    show k + 2 + (strtod_mantissa isxdigit ((s.drop k).drop 2)).2.2 +
      (strtod_exponent 112
        ((s.drop k).drop (2 + (strtod_mantissa isxdigit ((s.drop k).drop 2)).2.2))).2 ≤ s.length
    omega
  split
  · exact Nat.zero_le _
  · have h2 := strtod_mantissa_le isdigit (s.drop k)
    have h3 := strtod_exponent_le 101 ((s.drop k).drop (strtod_mantissa isdigit (s.drop k)).2.2)
    simp only [List.length_drop] at h2 h3
    show k + (strtod_mantissa isdigit (s.drop k)).2.2 +
      (strtod_exponent 101 ((s.drop k).drop (strtod_mantissa isdigit (s.drop k)).2.2)).2 ≤ s.length
    omega

theorem strchr_lt : ∀ (s : List Nat) (ch k : Nat), strchr s ch = some k → k < s.length := by
  intro s
  induction s with
  | nil => intro ch k h; simp [strchr] at h
  | cons b rest ih =>
    intro ch k h
    rw [strchr] at h
    by_cases c1 : b = ch
    · rw [if_pos c1] at h
      simp only [Option.some.injEq] at h
      subst h; simp
    · rw [if_neg c1] at h
      by_cases c2 : b = 0
      · rw [if_pos c2] at h; simp at h
      · rw [if_neg c2] at h
        cases hr : strchr rest ch with
        | none => rw [hr] at h; simp at h
        | some k2 =>
          rw [hr] at h
          simp only [Option.map_some', Option.some.injEq] at h
          have := ih ch k2 hr
          simp only [List.length_cons]
          omega

theorem json_parse_string_scan_lt (text : List Nat) : ∀ (fuel c c2 : Nat),
    json_parse_string_scan text fuel c = some c2 → c ≤ c2 ∧ c2 < text.length := by
  intro fuel
  induction fuel with
  | zero => intro c c2 h; simp [json_parse_string_scan] at h
  | succ fuel ih =>
    intro c c2 h
    rw [json_parse_string_scan] at h
    cases hs : strchr (text.drop c) 34 with
    | none => rw [hs] at h; simp at h
    | some k =>
      rw [hs] at h
      simp only at h
      have hk := strchr_lt _ _ _ hs
      rw [List.length_drop] at hk
      by_cases c1 : char_at text (c + k - 1) = 92
      · rw [if_pos c1] at h
        have := ih _ _ h
        omega
      · rw [if_neg c1] at h
        simp only [Option.some.injEq] at h
        omega

theorem json_parse_string_value_cursor (text : List Nat) (p : Nat) (pad : Bool)
    (hp : p < text.length) :
    p < (json_parse_string_value text p pad).2 ∧
      (json_parse_string_value text p pad).2 ≤ text.length := by
  unfold json_parse_string_value
  simp only []
  split
  · rename_i c h
    have := json_parse_string_scan_lt text _ _ _ h
    simp only []
    omega
  · simp only []
    omega

/-! ## Invariants of the loop of the parser -/

theorem sameKinds_refl (h : List heap_cell) : SameKinds h h :=
  ⟨fun _ obj hq => ⟨obj, hq⟩, fun _ arr hq => ⟨arr, hq⟩⟩

theorem sameKinds_trans (a b c : List heap_cell) (h1 : SameKinds a b) (h2 : SameKinds b c) :
    SameKinds a c := by
  refine ⟨fun q obj hq => ?_, fun q arr hq => ?_⟩
  · obtain ⟨o, ho⟩ := h1.1 q obj hq
    exact h2.1 q o ho
  · obtain ⟨o, ho⟩ := h1.2 q arr hq
    exact h2.2 q o ho

theorem sameKinds_append (h : List heap_cell) (x : heap_cell) : SameKinds h (h ++ [x]) := by
  refine ⟨fun q obj hq => ⟨obj, ?_⟩, fun q arr hq => ⟨arr, ?_⟩⟩
  · rw [List.getElem?_append_left (List.getElem?_eq_some_iff.mp hq).1]; exact hq
  · rw [List.getElem?_append_left (List.getElem?_eq_some_iff.mp hq).1]; exact hq

theorem sameKinds_set_object (h : List heap_cell) (p : Nat) (obj obj2 : json__object_t)
    (hp : h[p]? = some (.object obj)) : SameKinds h (h.set p (.object obj2)) := by
  have hlt : p < h.length := (List.getElem?_eq_some_iff.mp hp).1
  refine ⟨fun q o hq => ?_, fun q arr hq => ?_⟩
  · by_cases c : p = q
    · subst c; exact ⟨obj2, by rw [List.getElem?_set_self hlt]⟩
    · exact ⟨o, by rw [List.getElem?_set_ne c]; exact hq⟩
  · by_cases c : p = q
    · subst c; rw [hp] at hq; simp at hq
    · exact ⟨arr, by rw [List.getElem?_set_ne c]; exact hq⟩

theorem sameKinds_set_array (h : List heap_cell) (p : Nat) (arr arr2 : json__array_t)
    (hp : h[p]? = some (.array arr)) : SameKinds h (h.set p (.array arr2)) := by
  have hlt : p < h.length := (List.getElem?_eq_some_iff.mp hp).1
  refine ⟨fun q o hq => ?_, fun q a hq => ?_⟩
  · by_cases c : p = q
    · subst c; rw [hp] at hq; simp at hq
    · exact ⟨o, by rw [List.getElem?_set_ne c]; exact hq⟩
  · by_cases c : p = q
    · subst c; exact ⟨arr2, by rw [List.getElem?_set_self hlt]⟩
    · exact ⟨a, by rw [List.getElem?_set_ne c]; exact hq⟩

theorem heap_json__object_set_kinds (h h1 : List heap_cell) (object : json_t)
    (key : List (Option Nat)) (v : json_t) (c : Bool)
    (e : heap_json__object_set h object key v c = some h1) :
    SameKinds h h1 ∧ h1.length = h.length := by
  unfold heap_json__object_set at e
  split at e
  · rename_i p
    split at e
    · rename_i obj name hp _
      cases hr : json__object_set objectDepth obj name v c with
      | none => rw [hr] at e; simp at e
      | some o =>
        rw [hr] at e
        simp only [Option.map_some', Option.some.injEq] at e
        subst e
        exact ⟨sameKinds_set_object h p obj o hp, by simp⟩
    · simp at e
  · simp at e

theorem heap_json_array_push_kinds (h h1 : List heap_cell) (array v : json_t)
    (e : heap_json_array_push h array v = some h1) :
    SameKinds h h1 ∧ h1.length = h.length := by
  unfold heap_json_array_push at e
  split at e
  · rename_i p
    split at e
    · rename_i arr hp
      cases hr : json_array_push arr v with
      | none => rw [hr] at e; simp at e
      | some a =>
        rw [hr] at e
        simp only [Option.map_some', Option.some.injEq] at e
        subst e
        exact ⟨sameKinds_set_array h p arr a hp, by simp⟩
    · simp at e
  · simp at e

theorem json_parse_start_state_ne (v : json_t) : json_parse_start_state v ≠ JSON_START := by
  unfold json_parse_start_state
  split <;> decide

theorem json_parse_start_state_cases (v : json_t) :
    json_parse_start_state v = JSON_OBJECT_START ∨ json_parse_start_state v = JSON_ARRAY_START := by
  unfold json_parse_start_state
  split
  · left; rfl
  · right; rfl

theorem json_parse_comma_state_cases (v : json_t) :
    json_parse_comma_state v = JSON_OBJECT_KEY ∨ json_parse_comma_state v = JSON_ARRAY_VAL := by
  unfold json_parse_comma_state
  split
  · left; rfl
  · right; rfl

theorem json_parse_add_root (s s1 : json_parse_locals) (flags b : Bool)
    (hst : s.state = JSON_START) (h : json_parse_add s flags = some (b, s1)) :
    b = true ∧ s1 = { s with stack := s.stack.set s.sp s.val,
                             state := json_parse_start_state s.val } := by
  unfold json_parse_add at h
  cases ht : s.stack[s.sp]? with
  | none => rw [ht] at h; simp at h
  | some top =>
    rw [ht] at h
    simp only [hst] at h
    rw [if_neg (by decide), if_neg (by decide), if_pos trivial] at h
    simp only [Option.some.injEq, Prod.mk.injEq] at h
    exact ⟨h.1.symm, h.2.symm⟩

theorem json_parse_add_nested (s s1 : json_parse_locals) (flags b : Bool)
    (hst : s.state = JSON_OBJECT_VAL ∨ s.state = JSON_ARRAY_START ∨ s.state = JSON_ARRAY_VAL)
    (h : json_parse_add s flags = some (b, s1)) :
    b = true ∧ s1.c = s.c ∧ SameKinds s.heap s1.heap ∧ s1.heap.length = s.heap.length ∧
    s1.stack.length = s.stack.length ∧ s1.stack[0]? = s.stack[0]? ∧
    (flags = false → s1.sp = s.sp ∧
      (s1.state = JSON_OBJECT_NEXT ∨ s1.state = JSON_ARRAY_NEXT)) ∧
    (flags = true → s.sp + 1 < 128 ∧ s1.sp = s.sp + 1 ∧
      (s1.state = JSON_OBJECT_START ∨ s1.state = JSON_ARRAY_START)) := by
  unfold json_parse_add at h
  cases ht : s.stack[s.sp]? with
  | none => rw [ht] at h; simp at h
  | some top =>
    rw [ht] at h
    simp only [] at h
    by_cases c1 : s.state = JSON_OBJECT_START ∨ s.state = JSON_OBJECT_VAL
    · rw [if_pos c1] at h
      cases hh : heap_json__object_set s.heap top s.key s.val false with
      | none => rw [hh] at h; simp at h
      | some heap =>
        rw [hh] at h
        obtain ⟨k1, k2⟩ := heap_json__object_set_kinds _ _ _ _ _ _ hh
        cases flags with
        | false =>
          simp only [Bool.false_eq_true, if_false, Option.some.injEq, Prod.mk.injEq] at h
          obtain ⟨rfl, rfl⟩ := h
          exact ⟨rfl, rfl, k1, k2, rfl, rfl, fun _ => ⟨rfl, Or.inl rfl⟩,
            fun hf => absurd hf (by simp)⟩
        | true =>
          simp only [if_true] at h
          by_cases c2 : s.sp + 1 < 128
          · rw [if_pos c2] at h
            simp only [Option.some.injEq, Prod.mk.injEq] at h
            obtain ⟨rfl, rfl⟩ := h
            refine ⟨rfl, rfl, k1, k2, by simp, ?_, fun hf => absurd hf (by simp),
              fun _ => ⟨c2, rfl, json_parse_start_state_cases _⟩⟩
            show (s.stack.set (s.sp + 1) s.val)[0]? = _
            rw [List.getElem?_set_ne (by omega)]
          · rw [if_neg c2] at h; simp at h
    · rw [if_neg c1] at h
      have c3 : s.state = JSON_ARRAY_START ∨ s.state = JSON_ARRAY_VAL := by
        rcases hst with h0 | h0 | h0
        · exact absurd (Or.inr h0) c1
        · exact Or.inl h0
        · exact Or.inr h0
      rw [if_pos c3] at h
      cases hh : heap_json_array_push s.heap top s.val with
      | none => rw [hh] at h; simp at h
      | some heap =>
        rw [hh] at h
        obtain ⟨k1, k2⟩ := heap_json_array_push_kinds _ _ _ _ hh
        cases flags with
        | false =>
          simp only [Bool.false_eq_true, if_false, Option.some.injEq, Prod.mk.injEq] at h
          obtain ⟨rfl, rfl⟩ := h
          exact ⟨rfl, rfl, k1, k2, rfl, rfl, fun _ => ⟨rfl, Or.inr rfl⟩,
            fun hf => absurd hf (by simp)⟩
        | true =>
          simp only [if_true] at h
          by_cases c2 : s.sp + 1 < 128
          · rw [if_pos c2] at h
            simp only [Option.some.injEq, Prod.mk.injEq] at h
            obtain ⟨rfl, rfl⟩ := h
            refine ⟨rfl, rfl, k1, k2, by simp, ?_, fun hf => absurd hf (by simp),
              fun _ => ⟨c2, rfl, json_parse_start_state_cases _⟩⟩
            show (s.stack.set (s.sp + 1) s.val)[0]? = _
            rw [List.getElem?_set_ne (by omega)]
          · rw [if_neg c2] at h; simp at h

theorem parse_state_value (st : Nat) (h : parse_state st) (hm : st &&& value_states ≠ 0) :
    st = JSON_OBJECT_VAL ∨ st = JSON_ARRAY_START ∨ st = JSON_ARRAY_VAL := by
  rcases h with h | h | h | h | h | h | h | h | h <;> subst h <;>
    first
    | exact absurd (by decide) hm
    | exact Or.inl rfl
    | exact Or.inr (Or.inl rfl)
    | exact Or.inr (Or.inr rfl)

theorem parse_state_container (st : Nat) (h : parse_state st)
    (hm : st &&& (JSON_START ||| value_states) ≠ 0) :
    st = JSON_START ∨ st = JSON_OBJECT_VAL ∨ st = JSON_ARRAY_START ∨ st = JSON_ARRAY_VAL := by
  rcases h with h | h | h | h | h | h | h | h | h <;> subst h <;>
    first
    | exact absurd (by decide) hm
    | exact Or.inl rfl
    | exact Or.inr (Or.inl rfl)
    | exact Or.inr (Or.inr (Or.inl rfl))
    | exact Or.inr (Or.inr (Or.inr rfl))

theorem parse_state_string (st : Nat) (h : parse_state st)
    (hm : st &&& (JSON_OBJECT_START ||| JSON_OBJECT_KEY ||| value_states) ≠ 0) :
    ((st = JSON_OBJECT_START ∨ st = JSON_OBJECT_KEY) ∧
        st &&& (JSON_OBJECT_START ||| JSON_OBJECT_KEY) ≠ 0) ∨
      ((st = JSON_OBJECT_VAL ∨ st = JSON_ARRAY_START ∨ st = JSON_ARRAY_VAL) ∧
        st &&& (JSON_OBJECT_START ||| JSON_OBJECT_KEY) = 0) := by
  rcases h with h | h | h | h | h | h | h | h | h <;> subst h <;>
    first
    | exact absurd (by decide) hm
    | exact Or.inl ⟨Or.inl rfl, by decide⟩
    | exact Or.inl ⟨Or.inr rfl, by decide⟩
    | exact Or.inr ⟨Or.inl rfl, by decide⟩
    | exact Or.inr ⟨Or.inr (Or.inl rfl), by decide⟩
    | exact Or.inr ⟨Or.inr (Or.inr rfl), by decide⟩

theorem parse_state_colon (st : Nat) (h : parse_state st) (hm : st &&& JSON_OBJECT_COLON ≠ 0) :
    st = JSON_OBJECT_COLON := by
  rcases h with h | h | h | h | h | h | h | h | h <;> subst h <;>
    first
    | exact absurd (by decide) hm
    | rfl

theorem parse_state_comma (st : Nat) (h : parse_state st)
    (hm : st &&& (JSON_OBJECT_NEXT ||| JSON_ARRAY_NEXT) ≠ 0) :
    st = JSON_OBJECT_NEXT ∨ st = JSON_ARRAY_NEXT := by
  rcases h with h | h | h | h | h | h | h | h | h <;> subst h <;>
    first
    | exact absurd (by decide) hm
    | exact Or.inl rfl
    | exact Or.inr rfl

theorem parse_state_scope (st : Nat) (h : parse_state st)
    (hm : st &&& (JSON_OBJECT_START ||| JSON_OBJECT_NEXT ||| JSON_ARRAY_START |||
      JSON_ARRAY_NEXT) ≠ 0) :
    st ≠ JSON_START := by
  rcases h with h | h | h | h | h | h | h | h | h <;> subst h <;>
    first
    | exact absurd (by decide) hm
    | decide

theorem json_type_delta (b : Nat) :
    (json_type b = .JSON_OBJECT → b = 123) ∧ (json_type b = .JSON_ARRAY → b = 91) ∧
    (json_type b = .JSON_SCOPE_END → b = 125 ∨ b = 93) ∧
    (json_type b ≠ .JSON_OBJECT → json_type b ≠ .JSON_ARRAY → json_type b ≠ .JSON_SCOPE_END →
      b ≠ 123 ∧ b ≠ 91 ∧ b ≠ 125 ∧ b ≠ 93) := by
  by_cases h1 : b = 123
  · subst h1; decide
  by_cases h2 : b = 125
  · subst h2; decide
  by_cases h3 : b = 91
  · subst h3; decide
  by_cases h4 : b = 93
  · subst h4; decide
  have e : json_type b ≠ .JSON_OBJECT ∧ json_type b ≠ .JSON_ARRAY ∧
      json_type b ≠ .JSON_SCOPE_END := by
    unfold json_type
    rw [if_neg h1, if_neg h2, if_neg h3, if_neg h4]
    split_ifs <;> simp
  exact ⟨fun h => absurd h e.1, fun h => absurd h e.2.1, fun h => absurd h e.2.2,
    fun _ _ _ => ⟨h1, h3, h2, h4⟩⟩

theorem json_skip_whitespace_le (text : List Nat) (c : Nat) (hc : c ≤ text.length) :
    c ≤ json_skip_whitespace text c ∧ json_skip_whitespace text c ≤ text.length := by
  unfold json_skip_whitespace
  have := length_takeWhile_le (fun b => decide (b ≠ 0 ∧ charToInt b ≤ 32)) (text.drop c)
  rw [List.length_drop] at this
  omega

theorem char_at_lt (text : List Nat) (c : Nat) (h : char_at text c ≠ 0) : c < text.length := by
  by_contra hcon
  apply h
  unfold char_at
  rw [List.getD_eq_getElem?_getD, List.getElem?_eq_none (by omega)]
  rfl

theorem take_eq_length (l : List Nat) (k : Nat) (lit : List Nat) (h : l.take k = lit)
    (hl : lit.length = k) : k ≤ l.length := by
  have := congrArg List.length h
  rw [List.length_take, hl] at this
  omega

theorem json_parse_add_root_fields (s s1 : json_parse_locals) (flags b : Bool)
    (hst : s.state = JSON_START) (h : json_parse_add s flags = some (b, s1)) :
    s1.stack = s.stack.set s.sp s.val ∧ s1.sp = s.sp ∧
    s1.state = json_parse_start_state s.val ∧ s1.c = s.c ∧ s1.heap = s.heap := by
  obtain ⟨-, e⟩ := json_parse_add_root s s1 flags b hst h
  subst e
  exact ⟨rfl, rfl, rfl, rfl, rfl⟩

theorem count_advance (n c c2 : Nat) (P Q : Prop) [Decidable P] [Decidable Q]
    (hn : n ≤ 2 * c + (if P then 1 else 0)) (hc : c < c2) :
    n + 1 ≤ 2 * c2 + (if Q then 1 else 0) := by
  split_ifs at hn ⊢ <;> omega

theorem parse_state_of_start (st : Nat)
    (h : st = JSON_OBJECT_START ∨ st = JSON_ARRAY_START) : parse_state st := by
  rcases h with e | e
  · right; left; exact e
  · right; right; right; right; right; right; left; exact e

theorem parse_state_of_next (st : Nat)
    (h : st = JSON_OBJECT_NEXT ∨ st = JSON_ARRAY_NEXT) : parse_state st := by
  rcases h with e | e
  · right; right; right; right; right; left; exact e
  · right; right; right; right; right; right; right; right; exact e

theorem json_parse_step_open (text : List Nat) (n : Nat) (s s1 : json_parse_locals) (c2 : Nat)
    (val : json_t) (cell : heap_cell) (delta : Int)
    (hi : RunInv text n s) (hc2 : s.c ≤ c2 ∧ c2 < text.length)
    (hst : s.state = JSON_START ∨ s.state = JSON_OBJECT_VAL ∨ s.state = JSON_ARRAY_START ∨
      s.state = JSON_ARRAY_VAL)
    (h : json_parse_add ⟨s.stack, s.sp, s.key, val, s.state, c2 + 1, s.heap ++ [cell]⟩ true
      = some (true, s1)) (hdelta : delta = 1) :
    RunInv text (n + 1) s1 ∧ s1.state ≠ JSON_START ∧
    json_parse_stacked s1 = json_parse_stacked s + delta ∧
    (s.state ≠ JSON_START → s1.stack[0]? = s.stack[0]?) ∧ SameKinds s.heap s1.heap ∧
    s.heap.length ≤ s1.heap.length := by
  obtain ⟨hlen, hsp, hps, hstart, hc, hn⟩ := hi
  rcases hst with hst | hv
  · obtain ⟨r1, r2, r3, r4, r5⟩ := json_parse_add_root_fields _ _ _ _ (by exact hst) h
    dsimp only at r1 r2 r3 r4 r5
    have h0 := hstart hst
    have hne1 : s1.state ≠ JSON_START := by rw [r3]; exact json_parse_start_state_ne _
    refine ⟨⟨by rw [r1]; simp [hlen], by omega, ?_, fun e => absurd e hne1, by rw [r4]; omega,
      by rw [r4]; exact count_advance n s.c (c2 + 1) _ _ hn (by omega)⟩, hne1, ?_,
      fun hne => absurd hst hne, by rw [r5]; exact sameKinds_append _ _,
      by rw [r5]; simp⟩
    · rw [r3]
      exact parse_state_of_start _ (json_parse_start_state_cases val)
    · unfold json_parse_stacked
      rw [hdelta, if_neg hne1, if_pos hst, r2]
      omega
  · obtain ⟨-, k1, k2, k3, k4, k5, -, k7⟩ := json_parse_add_nested _ _ _ _ (by exact hv) h
    obtain ⟨k8, k9, k10⟩ := k7 rfl
    dsimp only at k1 k2 k3 k4 k5 k8 k9
    have hne : s.state ≠ JSON_START := by
      rcases hv with e | e | e <;> rw [e] <;> decide
    have hne1 : s1.state ≠ JSON_START := by
      rcases k10 with e | e <;> rw [e] <;> decide
    refine ⟨⟨by rw [k4, hlen], by omega, parse_state_of_start _ k10, fun e => absurd e hne1,
      by rw [k1]; omega,
      by rw [k1]; exact count_advance n s.c (c2 + 1) _ _ hn (by omega)⟩, hne1, ?_,
      fun _ => k5, sameKinds_trans _ _ _ (sameKinds_append _ _) k2,
      by rw [k3]; simp⟩
    unfold json_parse_stacked
    rw [hdelta, if_neg hne1, if_neg hne, k9]
    push_cast; ring

theorem json_parse_step_value (text : List Nat) (n : Nat) (s s1 : json_parse_locals) (c3 : Nat)
    (val : json_t) (heap : List heap_cell) (delta : Int) (b : Bool)
    (hi : RunInv text n s) (hc3 : s.c ≤ c3 ∧ c3 ≤ text.length)
    (hv : s.state = JSON_OBJECT_VAL ∨ s.state = JSON_ARRAY_START ∨ s.state = JSON_ARRAY_VAL)
    (hheap : SameKinds s.heap heap ∧ s.heap.length ≤ heap.length)
    (h : json_parse_add ⟨s.stack, s.sp, s.key, val, s.state, c3, heap⟩ false = some (b, s1))
    (hdelta : delta = 0) :
    RunInv text (n + 1) s1 ∧ s1.state ≠ JSON_START ∧
    json_parse_stacked s1 = json_parse_stacked s + delta ∧
    (s.state ≠ JSON_START → s1.stack[0]? = s.stack[0]?) ∧ SameKinds s.heap s1.heap ∧
    s.heap.length ≤ s1.heap.length := by
  obtain ⟨hlen, hsp, hps, hstart, hc, hn⟩ := hi
  obtain ⟨-, k1, k2, k3, k4, k5, k6, -⟩ := json_parse_add_nested _ _ _ _ (by exact hv) h
  obtain ⟨k8, k9⟩ := k6 rfl
  dsimp only at k1 k2 k3 k4 k5 k8
  have hne : s.state ≠ JSON_START := by
    rcases hv with e | e | e <;> rw [e] <;> decide
  have hne1 : s1.state ≠ JSON_START := by
    rcases k9 with e | e <;> rw [e] <;> decide
  have hflag : ¬ (s.state = JSON_OBJECT_NEXT ∨ s.state = JSON_ARRAY_NEXT) := by
    rcases hv with e | e | e <;> rw [e] <;> decide
  rw [if_neg hflag] at hn
  refine ⟨⟨by rw [k4, hlen], by omega, parse_state_of_next _ k9, fun e => absurd e hne1,
    by rw [k1]; omega, by rw [k1, if_pos k9]; omega⟩, hne1, ?_,
    fun _ => k5, sameKinds_trans _ _ _ hheap.1 k2, by rw [k3]; exact hheap.2⟩
  unfold json_parse_stacked
  rw [hdelta, if_neg hne1, if_neg hne, k8]
  ring

theorem json_parse_step_inv (text : List Nat) (n : Nat) (s s1 : json_parse_locals)
    (hi : RunInv text n s) (h : json_parse_step text s = some (true, s1)) :
    RunInv text (n + 1) s1 ∧ s1.state ≠ JSON_START ∧
    json_parse_stacked s1 = json_parse_stacked s + json_parse_token_delta text s ∧
    (s.state ≠ JSON_START → s1.stack[0]? = s.stack[0]?) ∧ SameKinds s.heap s1.heap ∧
    s.heap.length ≤ s1.heap.length := by
  have hi0 := hi
  obtain ⟨hlen, hsp, hps, hstart, hc, hn⟩ := hi
  have hdelta : json_parse_token_delta text s =
      (if char_at text (json_skip_whitespace text s.c) = 123 ∨
          char_at text (json_skip_whitespace text s.c) = 91 then 1
        else if char_at text (json_skip_whitespace text s.c) = 125 ∨
          char_at text (json_skip_whitespace text s.c) = 93 then -1 else 0) := rfl
  unfold json_parse_step at h
  simp only [] at h
  have hskip := json_skip_whitespace_le text s.c hc
  generalize json_skip_whitespace text s.c = c2 at h hskip hdelta
  by_cases hz : char_at text c2 = 0
  · rw [if_pos hz] at h; simp at h
  rw [if_neg hz] at h
  have hlt : c2 < text.length := char_at_lt text c2 hz
  unfold json_parse_body at h
  simp only [] at h
  have hty := json_type_delta (char_at text c2)
  generalize char_at text c2 = b at h hdelta hty
  by_cases hm : s.state &&& json_state_mask (json_type b) = 0
  · rw [if_pos hm] at h; simp at h
  rw [if_neg hm] at h
  cases ht : json_type b with
  | JSON_OBJECT =>
    rw [ht] at h hm hty
    simp only [] at h
    exact json_parse_step_open text n s s1 c2 _ _ _ hi0 ⟨hskip.1, hlt⟩
      (parse_state_container _ hps hm) h (by rw [hdelta, if_pos (Or.inl (hty.1 rfl))])
  | JSON_ARRAY =>
    rw [ht] at h hm hty
    simp only [] at h
    exact json_parse_step_open text n s s1 c2 _ _ _ hi0 ⟨hskip.1, hlt⟩
      (parse_state_container _ hps hm) h (by rw [hdelta, if_pos (Or.inr (hty.2.1 rfl))])
  | JSON_STRING =>
    rw [ht] at h hm hty
    simp only [] at h
    obtain ⟨n1, n2, n3, n4⟩ := hty.2.2.2 (by simp) (by simp) (by simp)
    have hd0 : json_parse_token_delta text s = 0 := by
      rw [hdelta, if_neg (by omega), if_neg (by omega)]
    rcases parse_state_string _ hps hm with ⟨hk, hk2⟩ | ⟨hv, hv2⟩
    · rw [if_pos hk2] at h
      simp only [Option.some.injEq, Prod.mk.injEq, true_and] at h
      have hcur := json_parse_string_value_cursor text c2 false hlt
      have hne : s.state ≠ JSON_START := by
        rcases hk with e | e <;> rw [e] <;> decide
      subst h
      have hne1 : JSON_OBJECT_COLON ≠ JSON_START := by decide
      refine ⟨⟨hlen, hsp, Or.inr (Or.inr (Or.inr (Or.inl rfl))),
        fun e => absurd e hne1, hcur.2,
        count_advance n s.c _ _ _ hn
          (by show s.c < (json_parse_string_value text c2 false).2; omega)⟩, hne1, ?_,
        fun _ => rfl,
        sameKinds_refl _, le_refl _⟩
      unfold json_parse_stacked
      rw [hd0, if_neg hne]
      simp only [show JSON_OBJECT_COLON ≠ JSON_START from by decide, if_false]
      ring
    · rw [if_neg (fun hne => hne hv2)] at h
      have hcur := json_parse_string_value_cursor text c2 true hlt
      exact json_parse_step_value text n s s1 _ _ _ _ true hi0 ⟨by omega, hcur.2⟩ hv
        ⟨sameKinds_append _ _, by simp⟩ h hd0
  | JSON_NUMBER =>
    rw [ht] at h hm hty
    simp only [] at h
    obtain ⟨n1, n2, n3, n4⟩ := hty.2.2.2 (by simp) (by simp) (by simp)
    have hd0 : json_parse_token_delta text s = 0 := by
      rw [hdelta, if_neg (by omega), if_neg (by omega)]
    have hle := strtod_le (text.drop c2)
    rw [List.length_drop] at hle
    exact json_parse_step_value text n s s1 _ _ _ _ true hi0 ⟨by omega, by omega⟩
      (parse_state_value _ hps hm) ⟨sameKinds_refl _, le_refl _⟩ h hd0
  | JSON_TRUE =>
    rw [ht] at h hm hty
    simp only [] at h
    obtain ⟨n1, n2, n3, n4⟩ := hty.2.2.2 (by simp) (by simp) (by simp)
    have hd0 : json_parse_token_delta text s = 0 := by
      rw [hdelta, if_neg (by omega), if_neg (by omega)]
    by_cases hl : (text.drop c2).take 4 = [116, 114, 117, 101]
    · rw [if_pos hl] at h
      have hle := take_eq_length _ _ _ hl rfl
      rw [List.length_drop] at hle
      exact json_parse_step_value text n s s1 _ _ _ _ true hi0 ⟨by omega, by omega⟩
        (parse_state_value _ hps hm) ⟨sameKinds_refl _, le_refl _⟩ h hd0
    · rw [if_neg hl] at h; simp at h
  | JSON_FALSE =>
    rw [ht] at h hm hty
    simp only [] at h
    obtain ⟨n1, n2, n3, n4⟩ := hty.2.2.2 (by simp) (by simp) (by simp)
    have hd0 : json_parse_token_delta text s = 0 := by
      rw [hdelta, if_neg (by omega), if_neg (by omega)]
    by_cases hl : (text.drop c2).take 5 = [102, 97, 108, 115, 101]
    · rw [if_pos hl] at h
      have hle := take_eq_length _ _ _ hl rfl
      rw [List.length_drop] at hle
      exact json_parse_step_value text n s s1 _ _ _ _ true hi0 ⟨by omega, by omega⟩
        (parse_state_value _ hps hm) ⟨sameKinds_refl _, le_refl _⟩ h hd0
    · rw [if_neg hl] at h; simp at h
  | JSON_NULL =>
    rw [ht] at h hm hty
    simp only [] at h
    obtain ⟨n1, n2, n3, n4⟩ := hty.2.2.2 (by simp) (by simp) (by simp)
    have hd0 : json_parse_token_delta text s = 0 := by
      rw [hdelta, if_neg (by omega), if_neg (by omega)]
    by_cases hl : (text.drop c2).take 4 = [110, 117, 108, 108]
    · rw [if_pos hl] at h
      have hle := take_eq_length _ _ _ hl rfl
      rw [List.length_drop] at hle
      exact json_parse_step_value text n s s1 _ _ _ _ true hi0 ⟨by omega, by omega⟩
        (parse_state_value _ hps hm) ⟨sameKinds_refl _, le_refl _⟩ h hd0
    · rw [if_neg hl] at h; simp at h
  | JSON_NONE =>
    rw [ht] at hm
    exact absurd (Nat.and_zero _) hm
  | JSON_COLON =>
    rw [ht] at h hm hty
    simp only [Option.some.injEq, Prod.mk.injEq, true_and] at h
    obtain ⟨n1, n2, n3, n4⟩ := hty.2.2.2 (by simp) (by simp) (by simp)
    have hd0 : json_parse_token_delta text s = 0 := by
      rw [hdelta, if_neg (by omega), if_neg (by omega)]
    have hst := parse_state_colon _ hps hm
    have hne : s.state ≠ JSON_START := by rw [hst]; decide
    subst h
    have hne1 : JSON_OBJECT_VAL ≠ JSON_START := by decide
    refine ⟨⟨hlen, hsp, Or.inr (Or.inr (Or.inr (Or.inr (Or.inl rfl)))),
      fun e => absurd e hne1, by show c2 + 1 ≤ _; omega,
      count_advance n s.c _ _ _ hn (by show s.c < c2 + 1; omega)⟩, hne1, ?_, fun _ => rfl,
      sameKinds_refl _, le_refl _⟩
    unfold json_parse_stacked
    rw [hd0, if_neg hne]
    simp only [show JSON_OBJECT_VAL ≠ JSON_START from by decide, if_false]
    ring
  | JSON_COMMA =>
    rw [ht] at h hm hty
    simp only [] at h
    obtain ⟨n1, n2, n3, n4⟩ := hty.2.2.2 (by simp) (by simp) (by simp)
    have hd0 : json_parse_token_delta text s = 0 := by
      rw [hdelta, if_neg (by omega), if_neg (by omega)]
    have hst := parse_state_comma _ hps hm
    have hne : s.state ≠ JSON_START := by
      rcases hst with e | e <;> rw [e] <;> decide
    cases htop : s.stack[s.sp]? with
    | none => rw [htop] at h; simp at h
    | some top =>
      rw [htop] at h
      simp only [Option.some.injEq, Prod.mk.injEq, true_and] at h
      have hcs := json_parse_comma_state_cases top
      have hne1 : json_parse_comma_state top ≠ JSON_START := by
        rcases hcs with e | e <;> rw [e] <;> decide
      subst h
      refine ⟨⟨hlen, hsp, ?_, fun e => absurd e hne1, by show c2 + 1 ≤ _; omega,
        count_advance n s.c _ _ _ hn (by show s.c < c2 + 1; omega)⟩, hne1, ?_, fun _ => rfl,
        sameKinds_refl _, le_refl _⟩
      · rcases hcs with e | e
        · right; right; left; exact e
        · right; right; right; right; right; right; right; left; exact e
      · unfold json_parse_stacked
        rw [hd0, if_neg hne]
        simp only [hne1, if_false]
        ring
  | JSON_SCOPE_END =>
    rw [ht] at h hm hty
    simp only [] at h
    have hb := hty.2.2.1 rfl
    have hd1 : json_parse_token_delta text s = -1 := by
      rw [hdelta, if_neg (by omega), if_pos hb]
    have hne := parse_state_scope _ hps hm
    by_cases h0 : s.sp = 0
    · rw [if_pos h0] at h; simp at h
    · rw [if_neg h0] at h
      simp only [Option.some.injEq, Prod.mk.injEq, true_and] at h
      subst h
      refine ⟨⟨hlen, by show s.sp - 1 < 128; omega, hps, fun e => absurd e hne,
        by show c2 + 1 ≤ _; omega,
        count_advance n s.c _ _ _ hn (by show s.c < c2 + 1; omega)⟩, hne, ?_, fun _ => rfl,
        sameKinds_refl _, le_refl _⟩
      unfold json_parse_stacked
      rw [hd1]
      simp only [hne, if_false]
      omega

theorem runInv_init (text : List Nat) : RunInv text 0 json_parse_init := by
  refine ⟨by simp [json_parse_init], by simp [json_parse_init], Or.inl rfl, fun _ => rfl,
    Nat.zero_le _, Nat.zero_le _⟩

theorem json_parse_run_inv (text : List Nat) :
    ∀ (n k : Nat) (s0 s : json_parse_locals), RunInv text k s0 →
      json_parse_steps text n s0 = some s →
      RunInv text (k + n) s ∧ (s0.state ≠ JSON_START ∨ 0 < n → s.state ≠ JSON_START) ∧
      json_parse_stacked s = json_parse_stacked s0 + json_parse_opens text n s0 ∧
      (s0.state ≠ JSON_START → s.stack[0]? = s0.stack[0]?) ∧ SameKinds s0.heap s.heap ∧
      s0.heap.length ≤ s.heap.length := by
  intro n
  induction n with
  | zero =>
    intro k s0 s hi h
    simp only [json_parse_steps, Option.some.injEq] at h
    subst h
    refine ⟨hi, fun h => ?_, by simp [json_parse_opens], fun _ => rfl, sameKinds_refl _,
      le_refl _⟩
    rcases h with h | h
    · exact h
    · omega
  | succ n ih =>
    intro k s0 s hi h
    rw [json_parse_steps] at h
    rw [json_parse_opens]
    cases hs : json_parse_step text s0 with
    | none => rw [hs] at h; simp at h
    | some r =>
      obtain ⟨f, s1⟩ := r
      cases f with
      | false => rw [hs] at h; simp at h
      | true =>
        rw [hs] at h
        simp only at h ⊢
        obtain ⟨a1, a2, a3, a4, a5, a6⟩ := json_parse_step_inv text k s0 s1 hi hs
        obtain ⟨b1, b2, b3, b4, b5, b6⟩ := ih (k + 1) s1 s a1 h
        refine ⟨by rw [show k + (n + 1) = k + 1 + n from by omega]; exact b1,
          fun _ => b2 (Or.inl a2), by rw [b3, a3]; ring,
          fun hne => by rw [b4 a2, a4 hne], sameKinds_trans _ _ _ a5 b5, by omega⟩

theorem json_parse_steps_bound (text : List Nat) (n : Nat) (s : json_parse_locals)
    (h : json_parse_steps text n json_parse_init = some s) : n ≤ 2 * text.length + 1 := by
  obtain ⟨⟨_, _, _, _, hc, hn⟩, _⟩ := json_parse_run_inv text n 0 _ s (runInv_init text) h
  rw [Nat.zero_add] at hn
  split_ifs at hn <;> omega

theorem json_parse_add_true (s s1 : json_parse_locals) (flags b : Bool)
    (h : json_parse_add s flags = some (b, s1)) : b = true := by
  unfold json_parse_add at h
  simp only [] at h
  split at h
  · simp at h
  · split_ifs at h <;> (try split at h) <;>
      simp only [Option.some.injEq, Prod.mk.injEq, reduceCtorEq] at h <;>
      exact h.1.symm

theorem json_parse_step_end (text : List Nat) (s s2 : json_parse_locals)
    (h : json_parse_step text s = some (false, s2)) :
    s2.stack = s.stack ∧ s2.heap = s.heap ∧ s2.sp = s.sp ∧ s2.state = s.state := by
  unfold json_parse_step at h
  simp only [] at h
  by_cases hz : char_at text (json_skip_whitespace text s.c) = 0
  · rw [if_pos hz] at h
    simp only [Option.some.injEq, Prod.mk.injEq, true_and] at h
    subst h
    exact ⟨rfl, rfl, rfl, rfl⟩
  rw [if_neg hz] at h
  unfold json_parse_body at h
  simp only [] at h
  by_cases hm : s.state &&&
      json_state_mask (json_type (char_at text (json_skip_whitespace text s.c))) = 0
  · rw [if_pos hm] at h
    simp only [Option.some.injEq, Prod.mk.injEq, true_and] at h
    subst h
    exact ⟨rfl, rfl, rfl, rfl⟩
  rw [if_neg hm] at h
  cases ht : json_type (char_at text (json_skip_whitespace text s.c)) <;> rw [ht] at h <;>
    simp only [] at h <;> (try split_ifs at h) <;> (try split at h) <;>
    first
    | exact absurd (json_parse_add_true _ _ _ _ h) (by simp)
    | (simp only [Option.some.injEq, Prod.mk.injEq, true_and] at h
       subst h
       exact ⟨rfl, rfl, rfl, rfl⟩)
    | simp at h

theorem json_parse_loop_result (text : List Nat) :
    ∀ (fuel : Nat) (s0 s2 : json_parse_locals), json_parse_loop text fuel s0 = some s2 →
      ∃ n s, json_parse_steps text n s0 = some s ∧ json_parse_step text s = some (false, s2) := by
  intro fuel
  induction fuel with
  | zero => intro s0 s2 h; simp [json_parse_loop] at h
  | succ fuel ih =>
    intro s0 s2 h
    rw [json_parse_loop] at h
    cases hs : json_parse_step text s0 with
    | none => rw [hs] at h; simp at h
    | some r =>
      obtain ⟨f, s1⟩ := r
      cases f with
      | false =>
        rw [hs] at h
        simp only [Option.some.injEq] at h
        subst h
        exact ⟨0, s0, rfl, hs⟩
      | true =>
        rw [hs] at h
        simp only at h
        obtain ⟨n, s, e1, e2⟩ := ih s1 s2 h
        exact ⟨n + 1, s, by rw [json_parse_steps, hs]; exact e1, e2⟩

theorem json_parse_of_run (text : List Nat) (n : Nat) (s s2 : json_parse_locals)
    (hrun : json_parse_steps text n json_parse_init = some s)
    (hend : json_parse_step text s = some (false, s2)) :
    json_parse text = some (s.stack.getD 0 .JSON_NONE, s.heap) := by
  have hb := json_parse_steps_bound text n s hrun
  obtain ⟨f, hf⟩ : ∃ f, 2 * text.length + 2 = n + (f + 1) := ⟨2 * text.length + 1 - n, by omega⟩
  obtain ⟨e1, e2, _, _⟩ := json_parse_step_end text s s2 hend
  unfold json_parse
  rw [hf, json_parse_loop_steps text n (f + 1) _ s hrun, json_parse_loop, hend]
  simp [e1, e2]

theorem json_parse_fuel (text : List Nat) :
    ∀ (fuel k : Nat) (s0 : json_parse_locals), RunInv text k s0 →
      2 * text.length + 2 ≤ k + fuel → json_parse_loop text fuel s0 = none →
      ∃ n s, json_parse_steps text n s0 = some s ∧ json_parse_step text s = none := by
  intro fuel
  induction fuel with
  | zero =>
    intro k s0 hi hk _
    obtain ⟨_, _, _, _, hc, hn⟩ := hi
    split_ifs at hn <;> omega
  | succ fuel ih =>
    intro k s0 hi hk h
    rw [json_parse_loop] at h
    cases hs : json_parse_step text s0 with
    | none => exact ⟨0, s0, rfl, hs⟩
    | some r =>
      obtain ⟨f, s1⟩ := r
      cases f with
      | false => rw [hs] at h; simp at h
      | true =>
        rw [hs] at h
        simp only at h
        obtain ⟨a1, _⟩ := json_parse_step_inv text k s0 s1 hi hs
        obtain ⟨n, s, e1, e2⟩ := ih (k + 1) s1 a1 (by omega) h
        exact ⟨n + 1, s, by rw [json_parse_steps, hs]; exact e1, e2⟩

/-! ## Rejected tokens and the first token -/

theorem json_parse_step_rejects (text : List Nat) (s : json_parse_locals)
    (hb : char_at text (json_skip_whitespace text s.c) ≠ 0)
    (hm : s.state &&&
      json_state_mask (json_type (char_at text (json_skip_whitespace text s.c))) = 0) :
    json_parse_step text s = some (false, { s with c := json_skip_whitespace text s.c }) := by
  unfold json_parse_step
  simp only []
  rw [if_neg hb]
  unfold json_parse_body
  simp only []
  rw [if_pos hm]

set_option maxRecDepth 100000 in
/-- C12: when the parser has read `n` tokens of a text and the next token (the byte at the
    cursor after the white space) is of a kind whose mask does not contain the current
    state, the loop ends at that token with the stack and the heap as they are, and
    `json_parse` returns the root and the heap built from the `n` tokens before it: nothing
    at or after the token is added.  On the four documents `{"a":}`, `[1,2,]`, `{"a" 1}`
    and `]` the function returns the empty root object, the array of `1` and `2`, the
    empty root object and the `JSON_NONE` sentinel. -/
theorem json_parse_rejects_token (text : List Nat) (n : Nat) (s : json_parse_locals)
    (hrun : json_parse_steps text n json_parse_init = some s)
    (hb : char_at text (json_skip_whitespace text s.c) ≠ 0)
    (hm : s.state &&&
      json_state_mask (json_type (char_at text (json_skip_whitespace text s.c))) = 0) :
    json_parse_step text s = some (false, { s with c := json_skip_whitespace text s.c }) ∧
    json_parse text = some (s.stack.getD 0 .JSON_NONE, s.heap) ∧
    json_parse [123, 34, 97, 34, 58, 125] = some (.JSON_OBJECT 0, [.object (json__object_new 0)]) ∧
    json_parse [91, 49, 44, 50, 44, 93] = build (.array [.number 1, .number 2]) [] ∧
    (build (.array [.number 1, .number 2]) []).isSome = true ∧
    json_parse [123, 34, 97, 34, 32, 49, 125] =
      some (.JSON_OBJECT 0, [.object (json__object_new 0)]) ∧
    json_parse [93] = some (.JSON_NONE, []) := by
  have hend := json_parse_step_rejects text s hb hm
  exact ⟨hend, json_parse_of_run text n s _ hrun hend, by decide, by decide, by decide,
    by decide, by decide⟩

set_option maxRecDepth 100000 in
/-- Witness of C12 on `{"a":}`: after the three tokens `{`, `"a"` and `:` the state is
    `JSON_OBJECT_VAL`, in which the closing brace is not allowed. -/
theorem json_parse_rejects_token_witness :
    json_parse_steps [123, 34, 97, 34, 58, 125] 3 json_parse_init =
      some ⟨(List.replicate 128 .JSON_NONE).set 0 (.JSON_OBJECT 0), 0, [some 97, some 0],
        .JSON_OBJECT 0, JSON_OBJECT_VAL, 5, [.object (json__object_new 0)]⟩ ∧
    json_state_mask (json_type 125) &&& JSON_OBJECT_VAL = 0 ∧
    json_parse [123, 34, 97, 34, 58, 125] =
      some (.JSON_OBJECT 0, [.object (json__object_new 0)]) := by
  have h := json_parse_rejects_token [123, 34, 97, 34, 58, 125] 3
    ⟨(List.replicate 128 .JSON_NONE).set 0 (.JSON_OBJECT 0), 0, [some 97, some 0],
      .JSON_OBJECT 0, JSON_OBJECT_VAL, 5, [.object (json__object_new 0)]⟩
    (by decide) (by decide) (by decide)
  exact ⟨by decide, by decide, h.2.1.trans (by decide)⟩

/-! ## The parser on example documents -/

set_option maxRecDepth 100000 in
/-- C13 fails in the code: on the document `{"x": [1, 2.5, true, null, "hi"]}` the function
    `json_parse` returns what the construction API builds for the object with the single key
    `x` and the array `[1, 2.5, true]` of three elements.  The table `json_type` maps the
    byte `a`, not `n`, to `JSON_NULL`, so the byte `n` of `null` is a `JSON_NONE` token and
    parsing ends there; `json_dump` of the result is the pretty print of the three
    elements, not of the five of the document. -/
theorem json_parse_example_stops_at_null :
    json_parse [123, 34, 120, 34, 58, 32, 91, 49, 44, 32, 50, 46, 53, 44, 32, 116, 114, 117, 101,
      44, 32, 110, 117, 108, 108, 44, 32, 34, 104, 105, 34, 93, 125] =
      build (.object [([120], .array [.number 1, .number (.finite (mkRat 5 2)), .bool true])]) [] ∧
    (build (.object [([120], .array [.number 1, .number (.finite (mkRat 5 2)), .bool true])])
      []).isSome = true ∧
    json_type 110 = .JSON_NONE ∧ json_type 97 = .JSON_NULL ∧
    ((json_parse [123, 34, 120, 34, 58, 32, 91, 49, 44, 32, 50, 46, 53, 44, 32, 116, 114, 117,
      101, 44, 32, 110, 117, 108, 108, 44, 32, 34, 104, 105, 34, 93, 125]).bind
        (fun r => json_dump r.2 r.1)).map json_string_bytes =
      some ((render (.object [([120],
        .array [.number 1, .number (.finite (mkRat 5 2)), .bool true])]) 0).map some) ∧
    render (.object [([120], .array [.number 1, .number (.finite (mkRat 5 2)), .bool true])]) 0 =
      [123, 10, 9, 34, 120, 34, 58, 32, 91, 10, 9, 9, 49, 44, 10, 9, 9, 50, 46, 53, 44, 10,
        9, 9, 116, 114, 117, 101, 10, 9, 93, 10, 125] := by
  decide

set_option maxRecDepth 100000 in
/-- C14, as stated, fails for a document that is a single scalar: for `42`, `"hi"`, `true`
    and `false` the function `json_parse` returns the `JSON_NONE` sentinel and allocates
    nothing, because the masks of these tokens do not contain `JSON_START`. -/
theorem json_parse_scalar_document :
    json_parse [52, 50] = some (.JSON_NONE, []) ∧
    json_parse [34, 104, 105, 34] = some (.JSON_NONE, []) ∧
    json_parse [116, 114, 117, 101] = some (.JSON_NONE, []) ∧
    json_parse [102, 97, 108, 115, 101] = some (.JSON_NONE, []) ∧
    JSON_START &&& json_state_mask .JSON_NUMBER = 0 ∧
    JSON_START &&& json_state_mask .JSON_STRING = 0 ∧
    JSON_START &&& json_state_mask .JSON_TRUE = 0 ∧
    JSON_START &&& json_state_mask .JSON_FALSE = 0 := by
  decide

set_option maxRecDepth 100000 in
/-- C15 fails in the code for `null`: on `[null]` the function `json_parse` returns the
    empty array, because the byte `n` is not mapped to `JSON_NULL` (the table maps `a`).
    The literals `true` and `false` are read as claimed: `[true]` and `[false]` give the
    arrays of the one element, and the spans `trux`, `flase` and `ax`, which start with a
    discriminating byte of the table without being the literal, end the parsing. -/
theorem json_parse_null_literal :
    json_parse [91, 110, 117, 108, 108, 93] = build (.array []) [] ∧
    build (.array []) [] = some (.JSON_ARRAY 0, [.array (json__array_new 0)]) ∧
    json_type 110 = .JSON_NONE ∧
    json_parse [91, 116, 114, 117, 101, 93] = build (.array [.bool true]) [] ∧
    json_parse [91, 102, 97, 108, 115, 101, 93] = build (.array [.bool false]) [] ∧
    (build (.array [.bool true]) []).isSome = true ∧
    (build (.array [.bool false]) []).isSome = true ∧
    json_parse [91, 116, 114, 117, 120, 93] = build (.array []) [] ∧
    json_parse [91, 102, 108, 97, 115, 101, 93] = build (.array []) [] ∧
    json_parse [91, 97, 120, 93] = build (.array []) [] := by
  decide

set_option maxRecDepth 100000 in
/-- C16 fails in the code for an empty nested container: on `[[],1]` the function
    `json_parse` returns what the construction API builds for the array whose one element is
    an empty array, and on `{"a":{},"b":1}` the object whose one key `a` holds an empty
    object.  The closer pops the stack without setting the state, which stays
    `JSON_ARRAY_START` or `JSON_OBJECT_START`, and the comma is not allowed in these states.
    After a nested container that is not empty the state is `JSON_ARRAY_NEXT` or
    `JSON_OBJECT_NEXT` and the document is read to its end, as `[[2],1]` shows. -/
theorem json_parse_empty_nested_container :
    json_parse [91, 91, 93, 44, 49, 93] = build (.array [.array []]) [] ∧
    (build (.array [.array []]) []).isSome = true ∧
    json_parse [123, 34, 97, 34, 58, 123, 125, 44, 34, 98, 34, 58, 49, 125] =
      build (.object [([97], .object [])]) [] ∧
    (build (.object [([97], .object [])]) []).isSome = true ∧
    JSON_ARRAY_START &&& json_state_mask .JSON_COMMA = 0 ∧
    JSON_OBJECT_START &&& json_state_mask .JSON_COMMA = 0 ∧
    json_parse [91, 91, 50, 93, 44, 49, 93] = build (.array [.array [.number 2], .number 1]) [] ∧
    (build (.array [.array [.number 2], .number 1]) []).isSome = true := by
  decide

theorem json_state_mask_start (b : Nat) (h1 : b ≠ 123) (h2 : b ≠ 91) :
    JSON_START &&& json_state_mask (json_type b) = 0 := by
  unfold json_type
  rw [if_neg h1]
  by_cases h3 : b = 125
  · subst h3; decide
  rw [if_neg h3, if_neg h2]
  split_ifs <;> decide

theorem json_parse_first_step (w rest : List Nat) (b : Nat) (hw : whitespace w)
    (hb : b = 123 ∨ b = 91) :
    ∃ s1, json_parse_step (w ++ b :: rest) json_parse_init = some (true, s1) ∧
      s1.stack[0]? = some (if b = 123 then .JSON_OBJECT 0 else .JSON_ARRAY 0) ∧
      s1.heap = [if b = 123 then .object (json__object_new 0)
        else .array (json__array_new 0)] := by
  have hd : (w ++ b :: rest).drop json_parse_init.c = w ++ b :: rest := rfl
  have hlen : (0 : Nat) < (List.replicate 128 json_t.JSON_NONE).length := by
    rw [List.length_replicate]; norm_num
  rcases hb with hb | hb <;> subst hb
  · obtain ⟨e1, e2⟩ := json_parse_step_at _ json_parse_init w 123 _ hd hw (by decide) (by decide)
    have e3 := json_parse_body_object _ { json_parse_init with c := json_parse_init.c + w.length }
      _ e2 (Or.inl rfl)
    have e3b : json_parse_body (w ++ 123 :: rest)
        { json_parse_init with c := json_parse_init.c + w.length } = json_parse_add
        ⟨json_parse_init.stack, 0, [], .JSON_OBJECT 0, JSON_START, w.length + 1, [.object (json__object_new 0)]⟩ true := by
      rw [e3]; simp only [json_parse_init, Nat.zero_add]; rfl
    refine ⟨⟨(List.replicate 128 json_t.JSON_NONE).set 0 (.JSON_OBJECT 0), 0, [], .JSON_OBJECT 0,
      json_parse_start_state (.JSON_OBJECT 0), w.length + 1, [.object (json__object_new 0)]⟩, ?_, ?_, rfl⟩
    · rw [e1, e3b, json_parse_add_start
        ⟨json_parse_init.stack, 0, [], .JSON_OBJECT 0, JSON_START, w.length + 1, [.object (json__object_new 0)]⟩
        true .JSON_NONE rfl json_parse_init_top]
      rfl
    · show ((List.replicate 128 json_t.JSON_NONE).set 0 (.JSON_OBJECT 0))[0]? = _
      rw [List.getElem?_set_self hlen]
      rfl
  · obtain ⟨e1, e2⟩ := json_parse_step_at _ json_parse_init w 91 _ hd hw (by decide) (by decide)
    have e3 := json_parse_body_array _ { json_parse_init with c := json_parse_init.c + w.length }
      _ e2 (Or.inl rfl)
    have e3b : json_parse_body (w ++ 91 :: rest)
        { json_parse_init with c := json_parse_init.c + w.length } = json_parse_add
        ⟨json_parse_init.stack, 0, [], .JSON_ARRAY 0, JSON_START, w.length + 1, [.array (json__array_new 0)]⟩ true := by
      rw [e3]; simp only [json_parse_init, Nat.zero_add]; rfl
    refine ⟨⟨(List.replicate 128 json_t.JSON_NONE).set 0 (.JSON_ARRAY 0), 0, [], .JSON_ARRAY 0,
      json_parse_start_state (.JSON_ARRAY 0), w.length + 1, [.array (json__array_new 0)]⟩, ?_, ?_, rfl⟩
    · rw [e1, e3b, json_parse_add_start
        ⟨json_parse_init.stack, 0, [], .JSON_ARRAY 0, JSON_START, w.length + 1, [.array (json__array_new 0)]⟩
        true .JSON_NONE rfl json_parse_init_top]
      rfl
    · show ((List.replicate 128 json_t.JSON_NONE).set 0 (.JSON_ARRAY 0))[0]? = _
      rw [List.getElem?_set_self hlen]
      rfl

theorem json_parse_root (text : List Nat) (s1 : json_parse_locals) (v root : json_t)
    (h : List heap_cell) (hstep : json_parse_step text json_parse_init = some (true, s1))
    (hroot : s1.stack[0]? = some root) (hp : json_parse text = some (v, h)) :
    v = root ∧ SameKinds s1.heap h := by
  unfold json_parse at hp
  cases hl : json_parse_loop text (2 * text.length + 2) json_parse_init with
  | none => rw [hl] at hp; simp at hp
  | some s2 =>
    rw [hl] at hp
    simp only [Option.map_some', Option.some.injEq, Prod.mk.injEq] at hp
    obtain ⟨n, s, e1, e2⟩ := json_parse_loop_result text _ _ _ hl
    obtain ⟨f1, f2, _, _⟩ := json_parse_step_end text s s2 e2
    cases n with
    | zero =>
      simp only [json_parse_steps, Option.some.injEq] at e1
      subst e1
      rw [hstep] at e2
      simp at e2
    | succ m =>
      rw [json_parse_steps, hstep] at e1
      simp only at e1
      obtain ⟨a1, a2, _⟩ := json_parse_step_inv text 0 _ s1 (runInv_init text) hstep
      obtain ⟨_, _, _, b4, b5, _⟩ := json_parse_run_inv text m 1 s1 s a1 e1
      have hs : s.stack[0]? = some root := by rw [b4 a2]; exact hroot
      refine ⟨?_, ?_⟩
      · rw [← hp.1, f1, List.getD_eq_getElem?_getD, hs]
        rfl
      · rw [← hp.2, f2]; exact b5

theorem json_parse_none (text : List Nat) (h : json_parse text = none) :
    ∃ n s, json_parse_steps text n json_parse_init = some s ∧ json_parse_step text s = none := by
  unfold json_parse at h
  cases hl : json_parse_loop text (2 * text.length + 2) json_parse_init with
  | none => exact json_parse_fuel text _ 0 _ (runInv_init text) (by omega) hl
  | some s => rw [hl] at h; simp at h

/-- C14, amended: in state `JSON_START` the parser accepts an opening brace or bracket and
    nothing else.  For a text whose first token starts with any other byte (a digit, a
    quote, `t`, `f`, a closer, a colon, a comma, any other byte) `json_parse` returns the
    `JSON_NONE` sentinel and allocates nothing.  For a text whose first token is `{` (or
    `[`), `json_parse` returns, whenever it returns, the handle of the object (or array)
    opened by that token, which is the first block of the heap.  The function fails to
    return only when an iteration of its loop misbehaves, never for lack of iterations,
    and on every text of a document that the parser reads (integer leaves of magnitude at
    most `2 ^ 53`, which are `double`s) it returns a handle that denotes the document. -/
theorem json_parse_start_token (w rest : List Nat) (b : Nat) (hw : whitespace w) (hb : 32 < b)
    (hb2 : b < 128) :
    (b ≠ 123 → b ≠ 91 → json_parse (w ++ b :: rest) = some (.JSON_NONE, [])) ∧
    (b = 123 → ∀ v h, json_parse (w ++ b :: rest) = some (v, h) →
      v = .JSON_OBJECT 0 ∧ ∃ obj, h[0]? = some (.object obj)) ∧
    (b = 91 → ∀ v h, json_parse (w ++ b :: rest) = some (v, h) →
      v = .JSON_ARRAY 0 ∧ ∃ arr, h[0]? = some (.array arr)) ∧
    (json_parse (w ++ b :: rest) = none → ∃ n s,
      json_parse_steps (w ++ b :: rest) n json_parse_init = some s ∧
      json_parse_step (w ++ b :: rest) s = none) ∧
    (∀ t x trailing, document t = true → Text t x →
      ∃ v h, json_parse (w ++ (x ++ trailing)) = some (v, h) ∧ Represents h 0 v t) := by
  refine ⟨fun h1 h2 => ?_, fun h1 v h hp => ?_, fun h1 v h hp => ?_, json_parse_none _,
    fun t x trailing hf hx => json_parse_document t w x trailing hf hw hx⟩
  · have hsk : json_skip_whitespace (w ++ b :: rest) json_parse_init.c = 0 + w.length :=
      json_skip_whitespace_at (w ++ b :: rest) 0 w b rest rfl hw hb hb2
    have hch : char_at (w ++ b :: rest) (0 + w.length) = b :=
      char_at_of_drop _ _ _ rest (drop_add_append (w ++ b :: rest) 0 w (b :: rest) rfl)
    have hend := json_parse_step_rejects (w ++ b :: rest) json_parse_init
      (by rw [hsk, hch]; omega) (by rw [hsk, hch]; exact json_state_mask_start b h1 h2)
    have := json_parse_of_run _ 0 json_parse_init _ rfl hend
    rw [this, List.getD_eq_getElem?_getD]
    have ht : json_parse_init.stack[0]? = some .JSON_NONE := json_parse_init_top
    rw [ht]
    rfl
  · subst h1
    obtain ⟨s1, e1, e2, e3⟩ := json_parse_first_step w rest 123 hw (Or.inl rfl)
    obtain ⟨k1, k2⟩ := json_parse_root _ s1 v _ h e1 e2 hp
    rw [e3] at k2
    exact ⟨k1, k2.1 0 _ rfl⟩
  · subst h1
    obtain ⟨s1, e1, e2, e3⟩ := json_parse_first_step w rest 91 hw (Or.inr rfl)
    obtain ⟨k1, k2⟩ := json_parse_root _ s1 v _ h e1 e2 hp
    rw [e3] at k2
    exact ⟨k1, k2.2 0 _ rfl⟩

set_option maxRecDepth 100000 in
/-- Witness of C14 on the text ` 7,` whose first token is a number after one blank. -/
theorem json_parse_start_token_witness :
    whitespace [32] ∧ 32 < 55 ∧ 55 < 128 ∧ json_parse [32, 55, 44] = some (.JSON_NONE, []) :=
  ⟨by simp [whitespace], by decide, by decide,
    (json_parse_start_token [32] [44] 55 (by simp [whitespace]) (by decide) (by decide)).1
      (by decide) (by decide)⟩

/-! ## The serializer and the reference renderer -/

theorem decimal_numeral_nat_digits (n : Nat) (h : n ≠ 0) :
    decimal_numeral n = (Nat.digits 10 n).reverse.map (fun d => 48 + d) := by
  induction n using Nat.strong_induction_on with
  | _ n ih =>
    rw [decimal_numeral_eq]
    by_cases c : n < 10
    · rw [if_pos c, Nat.digits_of_lt 10 n h c]
      rfl
    · rw [if_neg c, ih (n / 10) (by omega) (by omega)]
      have e : Nat.digits 10 n = (n % 10) :: Nat.digits 10 (n / 10) := by
        rw [Nat.digits_def' (by norm_num) (by omega)]
      rw [e]
      simp

/-- C18: for every integer `n` with `|n| < 10 ^ 12`, `json_dtoa` at precision 12 writes
    the ordinary decimal numeral of `|n|` (the decimal digits of Mathlib's `Nat.digits`,
    most significant first, `0` for zero), preceded by `-` when `n < 0`: every byte after
    the sign is a digit, so there is no decimal point and no exponent suffix.  The
    exponent is the truncated decimal logarithm, taken as `0` for zero.  In particular
    `0.0` gives `0` and `-5.0` gives `-5`. -/
theorem json_dtoa_integer (n : Int) (h : n.natAbs < 10 ^ 12) :
    json_dtoa (.finite (n : ℚ)) 12 =
      (if n < 0 then [45] else []) ++
        (if n = 0 then [48] else (Nat.digits 10 n.natAbs).reverse.map (fun d => 48 + d)) ∧
    json_dtoa (.finite (n : ℚ)) 12 = int_numeral n ∧
    (∀ b ∈ json_dtoa (.finite (n : ℚ)) 12, b = 45 ∨ (48 ≤ b ∧ b ≤ 57)) ∧
    json_dtoa (.finite 0) 12 = [48] ∧ json_dtoa (.finite (-5)) 12 = [45, 53] := by
  refine ⟨?_, json_dtoa_int n h, ?_, by decide, by decide⟩
  swap
  · intro b hb
    rw [json_dtoa_int n h] at hb
    unfold int_numeral at hb
    by_cases c : n < 0
    · rw [if_pos c, List.mem_cons] at hb
      rcases hb with hb | hb
      · left; exact hb
      · right; exact decimal_numeral_digits n.natAbs b hb
    · rw [if_neg c] at hb
      right; exact decimal_numeral_digits n.natAbs b hb
  rw [json_dtoa_int n h]
  unfold int_numeral
  by_cases c0 : n = 0
  · subst c0; decide
  · rw [if_neg c0, decimal_numeral_nat_digits n.natAbs (by omega)]
    by_cases c : n < 0
    · rw [if_pos c, if_pos c]; rfl
    · rw [if_neg c, if_neg c]; rfl

/-- Witness of C18 at `-120`. -/
theorem json_dtoa_integer_witness :
    (-120 : Int).natAbs < 10 ^ 12 ∧ json_dtoa (.finite (-120)) 12 = [45, 49, 50, 48] := by
  refine ⟨by decide, ?_⟩
  have h := (json_dtoa_integer (-120) (by decide)).1
  have e : ((-120 : Int) : ℚ) = -120 := by norm_num
  rw [e] at h
  rw [h]
  simp

/-! ## The stack of the parser -/

set_option maxRecDepth 1000000 in
/-- C19: after any `n` iterations of the loop of `json_parse` on any text, the stack has
    its 128 slots and the stack pointer `sp` indexes one of them, so the accesses through
    `sp` (the parent read when a value is added or a comma is met, the root written in
    state `JSON_START`) are inside the stack; the number of containers on the stack, which
    is `sp + 1` once the root is open, is the number of opening tokens minus the number
    of closing tokens read so far.  When the token at the cursor opens a nested container
    and at most 128 containers are open with it, the slot `sp + 1` written by
    `*(++sp) = val` is inside the stack, and after one more iteration the stack pointer
    is again inside.  The closer of the root ends the function, which does not use `sp`
    after the decrement.  The bound is sharp: 128 opening brackets are read, 129 make the
    function write behind the stack. -/
theorem json_parse_stack_bounded (text : List Nat) (n : Nat) (s : json_parse_locals)
    (hrun : json_parse_steps text n json_parse_init = some s)
    (hopen : json_parse_opens text n json_parse_init + json_parse_token_delta text s ≤ 128) :
    s.stack.length = 128 ∧ s.sp < 128 ∧
    json_parse_stacked s = json_parse_opens text n json_parse_init ∧
    (s.state ≠ JSON_START → json_parse_token_delta text s = 1 → s.sp + 1 < 128) ∧
    (∀ s1, json_parse_step text s = some (true, s1) →
      s1.stack.length = 128 ∧ s1.sp < 128 ∧
      json_parse_stacked s1 = json_parse_stacked s + json_parse_token_delta text s) ∧
    (json_parse (List.replicate 128 91)).isSome = true ∧
    json_parse (List.replicate 129 91) = none := by
  obtain ⟨hi, _, hst, _⟩ := json_parse_run_inv text n 0 _ s (runInv_init text) hrun
  have h0 : json_parse_stacked json_parse_init = 0 := rfl
  rw [h0, zero_add] at hst
  refine ⟨hi.1, hi.2.1, hst, fun hne hd => ?_, fun s1 hs1 => ?_, by decide, by decide⟩
  · rw [← hst, hd] at hopen
    unfold json_parse_stacked at hopen
    rw [if_neg hne] at hopen
    omega
  · obtain ⟨a1, _, a3, _⟩ := json_parse_step_inv text _ s s1 hi hs1
    exact ⟨a1.1, a1.2.1, a3⟩

set_option maxRecDepth 100000 in
/-- Witness of C19 on `[[1]]` after its first token: one container is open and the
    second bracket opens a nested one, which is written to the slot `1`. -/
theorem json_parse_stack_bounded_witness :
    json_parse_steps [91, 91, 49, 93, 93] 1 json_parse_init =
      some ⟨(List.replicate 128 .JSON_NONE).set 0 (.JSON_ARRAY 0), 0, [], .JSON_ARRAY 0,
        JSON_ARRAY_START, 1, [.array (json__array_new 0)]⟩ ∧
    json_parse_opens [91, 91, 49, 93, 93] 1 json_parse_init = 1 ∧
    (0 : Nat) + 1 < 128 := by
  have h := json_parse_stack_bounded [91, 91, 49, 93, 93] 1
    ⟨(List.replicate 128 .JSON_NONE).set 0 (.JSON_ARRAY 0), 0, [], .JSON_ARRAY 0,
      JSON_ARRAY_START, 1, [.array (json__array_new 0)]⟩ (by decide) (by decide)
  exact ⟨by decide, by decide, h.2.2.2.1 (by decide) (by decide)⟩

/-! ## The parser on its working fragment -/

/-- C20: for every tree whose root is an array or an object (possibly empty), whose nested
    arrays and objects are non-empty, whose objects have fewer than 255 keys, all distinct
    and made of non-null bytes other than the quote and the backslash, whose leaves are
    integers of magnitude at most `2 ^ 53` (up to which every integer is a `double`, so
    that `strtod` converts the numeral exactly), `true` or `false`, whose arrays have
    fewer than `2 ^ 30` elements (the most an array store holds) and in which at most 128
    containers are nested: `json_parse`
    applied to any JSON text of the tree, with any white space (bytes `1` to `0x20`) before
    it and between its tokens and any bytes after it, returns a handle that denotes the
    tree, the entries of every object and the elements of every array in the order of the
    text. -/
theorem json_parse_fragment_text (t : Value) (w x trailing : List Nat)
    (hdoc : document t = true) (hw : whitespace w) (hx : Text t x) :
    ∃ v h, json_parse (w ++ (x ++ trailing)) = some (v, h) ∧ Represents h 0 v t :=
  json_parse_document t w x trailing hdoc hw hx

/-- Witness of C20 on the text ` { "k\x01" :[1234567890123 , false] }` of an object whose
    key holds a control byte and whose array holds an integer of 13 digits. -/
theorem json_parse_fragment_text_witness :
    document (.object [([107, 1], .array [.number (.finite 1234567890123), .bool false])])
      = true ∧
    ∃ v h, json_parse ([32] ++ ([123, 32, 34, 107, 1, 34, 32, 58, 91, 49, 50, 51, 52, 53, 54,
        55, 56, 57, 48, 49, 50, 51, 32, 44, 32, 102, 97, 108, 115, 101, 93, 32, 125] ++ []))
        = some (v, h) ∧
      Represents h 0 v
        (.object [([107, 1], .array [.number (.finite 1234567890123), .bool false])]) := by
  refine ⟨by decide, json_parse_fragment_text _ [32] _ [] (by decide) (by simp [whitespace]) ?_⟩
  have ws : whitespace [32] := by simp [whitespace]
  have w0 : whitespace [] := by simp [whitespace]
  refine ⟨_, rfl, [], [32], [32], [], [91, 49, 50, 51, 52, 53, 54, 55, 56, 57, 48, 49, 50, 51,
    32, 44, 32, 102, 97, 108, 115, 101, 93], [32, 125], w0, ws, ws, w0, ?_, rfl,
    ⟨[32], ws, rfl⟩⟩
  refine ⟨_, rfl, [], [], [49, 50, 51, 52, 53, 54, 55, 56, 57, 48, 49, 50, 51],
    [32, 44, 32, 102, 97, 108, 115, 101, 93], w0, w0, ⟨1234567890123, by norm_num, by decide⟩,
    rfl, ?_⟩
  exact ⟨[32], [32], [102, 97, 108, 115, 101], [93], ws, ws, rfl, rfl, ⟨[], w0, rfl⟩⟩

/-! ## The scan for the closing quote -/

theorem char_at_drop_add (text : List Nat) (p i : Nat) (l : List Nat) (h : text.drop p = l) :
    char_at text (p + i) = l.getD i 0 := by
  unfold char_at
  rw [List.getD_eq_getElem?_getD, List.getD_eq_getElem?_getD, ← h, List.getElem?_drop]

theorem strchr_some : ∀ (l : List Nat) (ch k : Nat), strchr l ch = some k → l[k]? = some ch := by
  intro l
  induction l with
  | nil => intro ch k h; simp [strchr] at h
  | cons b rest ih =>
    intro ch k h
    rw [strchr] at h
    by_cases c1 : b = ch
    · rw [if_pos c1] at h
      simp only [Option.some.injEq] at h
      subst h; simp [c1]
    · rw [if_neg c1] at h
      by_cases c2 : b = 0
      · rw [if_pos c2] at h; simp at h
      · rw [if_neg c2] at h
        cases hr : strchr rest ch with
        | none => rw [hr] at h; simp at h
        | some k2 =>
          rw [hr] at h
          simp only [Option.map_some', Option.some.injEq] at h
          subst h
          simpa using ih ch k2 hr

theorem json_parse_string_scan_body (text : List Nat) (p : Nat) (body rest : List Nat)
    (hd : text.drop p = 34 :: (body ++ 34 :: rest)) (hb : string_body body) :
    ∀ (fuel j : Nat), j ≤ body.length → body.length - j < fuel →
      json_parse_string_scan text fuel (p + 1 + j) = some (p + 1 + body.length) := by
  obtain ⟨hz, hq, hlast⟩ := hb
  have hch : ∀ i, i ≤ body.length → char_at text (p + i) = (34 :: body).getD i 0 := by
    intro i hi
    rw [char_at_drop_add text p i _ hd, List.getD_eq_getElem?_getD, List.getD_eq_getElem?_getD,
      ← List.cons_append, List.getElem?_append_left (by simp; omega)]
  intro fuel
  induction fuel with
  | zero => intro j _ h; omega
  | succ fuel ih =>
    intro j hj hf
    have hdj : text.drop (p + 1 + j) = body.drop j ++ 34 :: rest := by
      rw [show p + 1 + j = p + (1 + j) from by omega, drop_add, hd]
      rw [show 1 + j = j + 1 from by omega, List.drop_succ_cons, List.drop_append_of_le_length hj]
    obtain ⟨pre, hpre⟩ : ∃ pre, pre = (body.drop j).takeWhile (fun b => decide (b ≠ 34)) := ⟨_, rfl⟩
    have hsplit : body.drop j = pre ++ (body.drop j).dropWhile (fun b => decide (b ≠ 34)) := by
      rw [hpre, List.takeWhile_append_dropWhile]
    have hpq : ∀ b ∈ pre, b ≠ 34 ∧ b ≠ 0 := by
      intro b hbm
      refine ⟨?_, hz b ?_⟩
      · have := List.mem_takeWhile_imp (hpre ▸ hbm)
        simpa using this
      · exact List.mem_of_mem_drop (l := body) (n := j) (by rw [hsplit]; exact List.mem_append_left _ hbm)
    have hlen := congrArg List.length hsplit
    rw [List.length_append, List.length_drop] at hlen
    rw [json_parse_string_scan, hdj]
    cases hsuf : (body.drop j).dropWhile (fun b => decide (b ≠ 34)) with
    | nil =>
      rw [hsuf, List.append_nil] at hsplit
      rw [hsuf, List.length_nil] at hlen
      rw [hsplit, strchr_key pre rest hpq]
      simp only []
      have e : p + 1 + j + pre.length - 1 = p + body.length := by omega
      have hne : char_at text (p + 1 + j + pre.length - 1) ≠ 92 := by
        rw [e, hch body.length (le_refl _), List.getD_eq_getElem?_getD]
        intro hcon
        apply hlast
        cases hx : (34 :: body)[body.length]? with
        | none => exact absurd (List.getElem?_eq_none_iff.mp hx) (by simp)
        | some x => rw [hx] at hcon; simp at hcon; rw [hcon]
      rw [if_neg hne]
      congr 1
      omega
    | cons x suf =>
      have hx : x = 34 := by
        have := List.head_dropWhile_not (fun b => decide (b ≠ 34)) (body.drop j)
          (by rw [hsuf]; simp)
        simp only [hsuf, List.head_cons] at this
        simpa using this
      subst hx
      rw [hsuf] at hsplit hlen
      simp only [List.length_cons] at hlen
      rw [hsplit, List.append_assoc, List.cons_append, strchr_key pre _ hpq]
      simp only []
      have hbq : body[j + pre.length]? = some 34 := by
        rw [← List.getElem?_drop, hsplit, List.getElem?_append_right (le_refl _)]
        simp
      have hesc := hq (j + pre.length) (by omega) hbq
      have e : p + 1 + j + pre.length - 1 = p + (j + pre.length) := by omega
      have h92 : char_at text (p + 1 + j + pre.length - 1) = 92 := by
        rw [e, hch (j + pre.length) (by omega), List.getD_eq_getElem?_getD, hesc]
        rfl
      rw [if_pos h92]
      have := ih (j + pre.length + 1) (by omega) (by omega)
      rw [← this]
      congr 1
      omega

theorem json_parse_string_scan_none (text : List Nat) (p : Nat) (r : List Nat)
    (hd : text.drop p = 34 :: r) (he : escaped_quotes r) :
    ∀ (fuel j : Nat), json_parse_string_scan text fuel (p + 1 + j) = none := by
  intro fuel
  induction fuel with
  | zero => intro j; rfl
  | succ fuel ih =>
    intro j
    rw [json_parse_string_scan]
    cases hs : strchr (text.drop (p + 1 + j)) 34 with
    | none => rfl
    | some k =>
      simp only []
      have h1 := strchr_some _ _ _ hs
      have hdj : text.drop (p + 1 + j) = r.drop j := by
        rw [show p + 1 + j = p + (j + 1) from by omega, drop_add, hd, List.drop_succ_cons]
      rw [hdj, List.getElem?_drop] at h1
      have hlt : j + k < r.length := by
        by_contra hc
        rw [List.getElem?_eq_none (by omega)] at h1
        exact absurd h1 (by simp)
      have hesc := he (j + k) hlt h1
      have e : p + 1 + j + k - 1 = p + (j + k) := by omega
      have h92 : char_at text (p + 1 + j + k - 1) = 92 := by
        rw [e, char_at_drop_add text p (j + k) _ hd, List.getD_eq_getElem?_getD, hesc]
        rfl
      rw [if_pos h92]
      have := ih (j + k + 1)
      rw [← this]
      congr 1
      omega

/-! ## The string token in closed form -/

theorem string_value_block (body r : List Nat) (cap : Nat) (hcap : body.length + 1 ≤ cap) :
    (memcpy (malloc cap) 0 ((body ++ 34 :: r).map some) body.length).set body.length (some 0)
      = body.map some ++ some 0 :: List.replicate (cap - body.length - 1) none := by
  have h1 : memread ((body ++ 34 :: r).map some) 0 body.length = body.map some := by
    unfold memread
    rw [List.drop_zero, List.map_append, List.take_left' (by simp)]
  have h2 : (malloc cap : List (Option Nat)).drop body.length
      = none :: List.replicate (cap - body.length - 1) none := by
    obtain ⟨m, hm⟩ : ∃ m, cap - body.length = m + 1 := ⟨cap - body.length - 1, by omega⟩
    unfold malloc
    rw [List.drop_replicate, hm, List.replicate_succ, Nat.add_sub_cancel]
  unfold memcpy memwrite
  rw [h1, List.take_zero, List.nil_append, List.length_map, Nat.zero_add, h2]
  rw [List.set_append_right _ _ (by simp)]
  simp

theorem string_value_cap (n : Nat) (pad : Bool) (hn : n < 2 ^ 30) :
    n + 1 ≤ (if pad then nextCap (n + 1) else n + 1) := by
  cases pad with
  | false => simp
  | true =>
    obtain ⟨k, _, _, _, h, _⟩ := nextCap_spec (n + 1) (by omega)
    simpa using h

theorem json_parse_string_value_body (text : List Nat) (p : Nat) (body rest : List Nat)
    (pad : Bool) (hd : text.drop p = 34 :: (body ++ 34 :: rest)) (hb : string_body body)
    (hlen : body.length < 2 ^ 30) :
    json_parse_string_value text p pad =
      ({ data := body.map some ++ some 0 :: List.replicate
            ((if pad then nextCap (body.length + 1) else body.length + 1) - body.length - 1) none,
         len := body.length,
         cap := if pad then nextCap (body.length + 1) else body.length + 1 },
        p + body.length + 2) := by
  have hd1 : text.drop (p + 1) = body ++ 34 :: rest := by
    rw [drop_add, hd]; rfl
  have hl : p + (body.length + 2) ≤ text.length := by
    have := congrArg List.length hd
    rw [List.length_drop] at this
    simp only [List.length_cons, List.length_append] at this
    omega
  have hs := json_parse_string_scan_body text p body rest hd hb (text.length + 1) 0
    (Nat.zero_le _) (by omega)
  rw [Nat.add_zero] at hs
  unfold json_parse_string_value
  simp only [hs]
  have e : p + 1 + body.length - (p + 1) = body.length := by omega
  rw [e, hd1, string_value_block body rest _ (string_value_cap _ pad hlen)]
  congr 1
  omega

theorem json_parse_string_value_open (text : List Nat) (p : Nat) (r : List Nat) (pad : Bool)
    (hd : text.drop p = 34 :: r) (he : escaped_quotes r) :
    json_parse_string_value text p pad = ({ data := [], len := 0, cap := 0 }, p + 1) := by
  have hs := json_parse_string_scan_none text p r hd he (text.length + 1) 0
  rw [Nat.add_zero] at hs
  unfold json_parse_string_value
  simp only [hs]

/-! ## String token decoding -/

/-- C21: when the cursor `p` points at an opening quote that is followed by the bytes
    `body` and a quote, where no byte of `body` is null, every quote inside `body`
    follows a backslash and the quote after `body` does not (so that quote is the first
    later quote not immediately preceded by a backslash), `json_parse_string_value`
    returns a store whose first `len` cells are exactly the raw bytes `body` (nothing is
    translated), whose `len` is their number, whose cell `len` is the null terminator,
    and the cursor is advanced to the byte just after the closing quote.  The capacity is
    `len + 1`, or the next capacity of it when padding is asked for, and the block has
    that size.  On the text `"a\"b"` the copy is the four bytes `a\"b`. -/
theorem json_parse_string_value_copies (text : List Nat) (p : Nat) (body rest : List Nat)
    (pad : Bool) (hd : text.drop p = 34 :: (body ++ 34 :: rest)) (hb : string_body body)
    (hlen : body.length < 2 ^ 30) :
    (json_parse_string_value text p pad).1.len = body.length ∧
    (json_parse_string_value text p pad).1.data.take body.length = body.map some ∧
    (json_parse_string_value text p pad).1.data[body.length]? = some (some 0) ∧
    (json_parse_string_value text p pad).2 = p + body.length + 2 ∧
    (json_parse_string_value text p pad).1.cap =
      (if pad then nextCap (body.length + 1) else body.length + 1) ∧
    (json_parse_string_value text p pad).1.data.length =
      (json_parse_string_value text p pad).1.cap ∧
    char_at text p = 34 ∧ char_at text (p + body.length + 1) = 34 ∧
    char_at text (p + body.length) ≠ 92 ∧
    (∀ i, i < body.length → char_at text (p + 1 + i) = 34 → char_at text (p + i) = 92) ∧
    json_parse_string_value [34, 97, 92, 34, 98, 34] 0 false =
      ({ data := [some 97, some 92, some 34, some 98, some 0], len := 4, cap := 5 }, 6) := by
  have hcap := string_value_cap body.length pad hlen
  have hch : ∀ i, char_at text (p + i) = (34 :: (body ++ 34 :: rest)).getD i 0 :=
    fun i => char_at_drop_add text p i _ hd
  rw [json_parse_string_value_body text p body rest pad hd hb hlen]
  refine ⟨rfl, ?_, ?_, rfl, rfl, ?_, ?_, ?_, ?_, ?_, by decide⟩
  · simp only []
    rw [List.take_left' (by simp)]
  · simp only []
    rw [List.getElem?_append_right (by simp)]
    simp
  · simp only [List.length_append, List.length_map, List.length_cons, List.length_replicate]
    omega
  · simpa using hch 0
  · rw [show p + body.length + 1 = p + (body.length + 1) from by omega, hch]
    rw [List.getD_eq_getElem?_getD, List.getElem?_cons_succ,
      List.getElem?_append_right (le_refl _)]
    simp
  · rw [hch, List.getD_eq_getElem?_getD, ← List.cons_append,
      List.getElem?_append_left (by simp)]
    intro hcon
    apply hb.2.2
    cases hx : (34 :: body)[body.length]? with
    | none => exact absurd (List.getElem?_eq_none_iff.mp hx) (by simp)
    | some x => rw [hx] at hcon; simp at hcon; rw [hcon]
  · intro i hi h34
    rw [show p + 1 + i = p + (i + 1) from by omega, hch, List.getD_eq_getElem?_getD,
      List.getElem?_cons_succ, List.getElem?_append_left hi] at h34
    have hbi : body[i]? = some 34 := by
      rw [List.getElem?_eq_getElem hi] at h34 ⊢
      simpa using h34
    rw [hch, List.getD_eq_getElem?_getD, ← List.cons_append,
      List.getElem?_append_left (by simp; omega), hb.2.1 i hi hbi]
    rfl

theorem json_parse_string_value_copies_witness :
    (json_parse_string_value [91, 34, 97, 92, 34, 98, 34, 93] 1 true).1.len = 4 ∧
    (json_parse_string_value [91, 34, 97, 92, 34, 98, 34, 93] 1 true).1.data.take 4
      = [some 97, some 92, some 34, some 98] ∧
    (json_parse_string_value [91, 34, 97, 92, 34, 98, 34, 93] 1 true).1.data[4]?
      = some (some 0) ∧
    (json_parse_string_value [91, 34, 97, 92, 34, 98, 34, 93] 1 true).2 = 7 :=
  have h := json_parse_string_value_copies [91, 34, 97, 92, 34, 98, 34, 93] 1
    [97, 92, 34, 98] [93] true rfl (by decide) (by decide)
  ⟨h.1, h.2.1, h.2.2.1, h.2.2.2.1⟩

/-! ## The cursor after an iteration -/

theorem json_parse_add_c (s s1 : json_parse_locals) (flags b : Bool)
    (h : json_parse_add s flags = some (b, s1)) : s1.c = s.c := by
  unfold json_parse_add at h
  simp only [] at h
  split at h
  · simp at h
  · split_ifs at h <;> (try split at h) <;>
      simp only [Option.some.injEq, Prod.mk.injEq, reduceCtorEq] at h <;>
      (obtain ⟨-, rfl⟩ := h; rfl)

theorem json_type_number (b : Nat) (h : json_type b = .JSON_NUMBER) :
    b = 45 ∨ (48 ≤ b ∧ b < 58) := by
  by_cases h1 : b = 123
  · subst h1; exact absurd h (by decide)
  by_cases h2 : b = 125
  · subst h2; exact absurd h (by decide)
  by_cases h3 : b = 91
  · subst h3; exact absurd h (by decide)
  by_cases h4 : b = 93
  · subst h4; exact absurd h (by decide)
  by_cases h5 : b = 34
  · subst h5; exact absurd h (by decide)
  by_cases h6 : b = 58
  · subst h6; exact absurd h (by decide)
  by_cases h7 : b = 44
  · subst h7; exact absurd h (by decide)
  by_cases h8 : b = 45
  · exact Or.inl h8
  by_cases h9 : 48 ≤ b ∧ b < 58
  · exact Or.inr h9
  by_cases h10 : b = 116
  · subst h10; exact absurd h (by decide)
  by_cases h11 : b = 102
  · subst h11; exact absurd h (by decide)
  by_cases h12 : b = 97
  · subst h12; exact absurd h (by decide)
  unfold json_type at h
  rw [if_neg h1, if_neg h2, if_neg h3, if_neg h4, if_neg h5, if_neg h6, if_neg h7, if_neg h8,
    if_neg h9, if_neg h10, if_neg h11, if_neg h12] at h
  exact absurd h (by decide)

theorem json_skip_whitespace_number (text : List Nat) (c : Nat)
    (h : json_type (char_at text c) = .JSON_NUMBER) : json_skip_whitespace text c = c := by
  have hb := json_type_number _ h
  have hz : char_at text c ≠ 0 := by omega
  have hlt := char_at_lt text c hz
  have hd : text.drop c = char_at text c :: text.drop (c + 1) := by
    rw [List.drop_eq_getElem_cons hlt]
    congr 1
    unfold char_at
    rw [List.getD_eq_getElem?_getD, List.getElem?_eq_getElem hlt]
    rfl
  unfold json_skip_whitespace
  rw [hd, List.takeWhile_cons_of_neg]
  · rfl
  · have hc : ¬ charToInt (char_at text c) ≤ 32 := by
      unfold charToInt
      rw [if_pos (by omega)]
      omega
    simp [hc]

theorem json_parse_step_progress (text : List Nat) (n : Nat) (s s1 : json_parse_locals)
    (hi : RunInv text n s) (h : json_parse_step text s = some (true, s1)) :
    s.c < s1.c ∨
    (s1.c = json_skip_whitespace text s.c ∧
      json_type (char_at text (json_skip_whitespace text s.c)) = .JSON_NUMBER ∧
      (strtod (text.drop (json_skip_whitespace text s.c))).2 = 0 ∧
      (s.state = JSON_OBJECT_VAL ∨ s.state = JSON_ARRAY_START ∨ s.state = JSON_ARRAY_VAL) ∧
      (s1.state = JSON_OBJECT_NEXT ∨ s1.state = JSON_ARRAY_NEXT)) := by
  obtain ⟨hlen, hsp, hps, hstart, hc, hn⟩ := hi
  unfold json_parse_step at h
  simp only [] at h
  have hskip := json_skip_whitespace_le text s.c hc
  generalize json_skip_whitespace text s.c = c2 at h hskip
  by_cases hz : char_at text c2 = 0
  · rw [if_pos hz] at h; simp at h
  rw [if_neg hz] at h
  have hlt : c2 < text.length := char_at_lt text c2 hz
  unfold json_parse_body at h
  simp only [] at h
  generalize char_at text c2 = b at h
  by_cases hm : s.state &&& json_state_mask (json_type b) = 0
  · rw [if_pos hm] at h; simp at h
  rw [if_neg hm] at h
  cases ht : json_type b with
  | JSON_OBJECT =>
    rw [ht] at h
    simp only [] at h
    have e := json_parse_add_c _ _ _ _ h
    dsimp only at e
    left; omega
  | JSON_ARRAY =>
    rw [ht] at h
    simp only [] at h
    have e := json_parse_add_c _ _ _ _ h
    dsimp only at e
    left; omega
  | JSON_STRING =>
    rw [ht] at h
    simp only [] at h
    left
    by_cases hk : s.state &&& (JSON_OBJECT_START ||| JSON_OBJECT_KEY) ≠ 0
    · rw [if_pos hk] at h
      simp only [Option.some.injEq, Prod.mk.injEq, true_and] at h
      have hcur := json_parse_string_value_cursor text c2 false hlt
      subst h
      show s.c < (json_parse_string_value text c2 false).2
      omega
    · rw [if_neg hk] at h
      have hcur := json_parse_string_value_cursor text c2 true hlt
      have e := json_parse_add_c _ _ _ _ h
      dsimp only at e
      omega
  | JSON_NUMBER =>
    rw [ht] at h hm
    simp only [] at h
    have e := json_parse_add_c _ _ _ _ h
    dsimp only at e
    by_cases h0 : (strtod (text.drop c2)).2 = 0
    · right
      have hv := parse_state_value _ hps hm
      obtain ⟨-, -, -, -, -, -, k6, -⟩ := json_parse_add_nested _ _ _ _ (by exact hv) h
      exact ⟨by rw [e, h0]; rfl, rfl, h0, hv, (k6 rfl).2⟩
    · left; omega
  | JSON_TRUE =>
    rw [ht] at h
    simp only [] at h
    by_cases hl : (text.drop c2).take 4 = [116, 114, 117, 101]
    · rw [if_pos hl] at h
      have e := json_parse_add_c _ _ _ _ h
      dsimp only at e
      left; omega
    · rw [if_neg hl] at h; simp at h
  | JSON_FALSE =>
    rw [ht] at h
    simp only [] at h
    by_cases hl : (text.drop c2).take 5 = [102, 97, 108, 115, 101]
    · rw [if_pos hl] at h
      have e := json_parse_add_c _ _ _ _ h
      dsimp only at e
      left; omega
    · rw [if_neg hl] at h; simp at h
  | JSON_NULL =>
    rw [ht] at h
    simp only [] at h
    by_cases hl : (text.drop c2).take 4 = [110, 117, 108, 108]
    · rw [if_pos hl] at h
      have e := json_parse_add_c _ _ _ _ h
      dsimp only at e
      left; omega
    · rw [if_neg hl] at h; simp at h
  | JSON_NONE =>
    rw [ht] at hm
    exact absurd (Nat.and_zero _) hm
  | JSON_COLON =>
    rw [ht] at h
    simp only [Option.some.injEq, Prod.mk.injEq, true_and] at h
    subst h
    left
    show s.c < c2 + 1
    omega
  | JSON_COMMA =>
    rw [ht] at h
    simp only [] at h
    cases htop : s.stack[s.sp]? with
    | none => rw [htop] at h; simp at h
    | some top =>
      rw [htop] at h
      simp only [Option.some.injEq, Prod.mk.injEq, true_and] at h
      subst h
      left
      show s.c < c2 + 1
      omega
  | JSON_SCOPE_END =>
    rw [ht] at h
    simp only [] at h
    by_cases h0 : s.sp = 0
    · rw [if_pos h0] at h; simp at h
    · rw [if_neg h0] at h
      simp only [Option.some.injEq, Prod.mk.injEq, true_and] at h
      subst h
      left
      show s.c < c2 + 1
      omega

/-! ## Termination of the parser -/

set_option maxRecDepth 100000 in
/-- C22: `json_parse` terminates.  After `n` iterations of the loop that do not leave it,
    `n` is at most `2 * length + 1`.  An iteration from a state so reached that does not
    leave the loop either moves the cursor forward by at least one byte, or it reads a
    number token from which `strtod` consumes no byte: then the cursor stays at the token,
    the state goes from a value state to `JSON_OBJECT_NEXT` or `JSON_ARRAY_NEXT`, and the
    following iteration rejects the same token and leaves the loop.  So the loop never
    runs out of the `2 * length + 2` iterations given to it: `json_parse` has no result
    only when an iteration has none (a call made by it misbehaves).  On `[-]` the second
    iteration consumes nothing, the third one ends the loop, and the array of one zero is
    returned. -/
theorem json_parse_terminates (text : List Nat) (n : Nat) (s : json_parse_locals)
    (hrun : json_parse_steps text n json_parse_init = some s) :
    n ≤ 2 * text.length + 1 ∧
    (∀ s1, json_parse_step text s = some (true, s1) →
      s.c < s1.c ∨
      (s1.c = json_skip_whitespace text s.c ∧
        json_type (char_at text (json_skip_whitespace text s.c)) = .JSON_NUMBER ∧
        (strtod (text.drop (json_skip_whitespace text s.c))).2 = 0 ∧
        (s.state = JSON_OBJECT_VAL ∨ s.state = JSON_ARRAY_START ∨ s.state = JSON_ARRAY_VAL) ∧
        (s1.state = JSON_OBJECT_NEXT ∨ s1.state = JSON_ARRAY_NEXT) ∧
        json_parse_step text s1 = some (false, s1))) ∧
    (json_parse text = none →
      ∃ m s2, json_parse_steps text m json_parse_init = some s2 ∧
        json_parse_step text s2 = none) ∧
    (json_parse_steps [91, 45, 93] 1 json_parse_init).map (fun s => (s.state, s.sp, s.c)) =
      some (JSON_ARRAY_START, 0, 1) ∧
    strtod [45, 93] = (.finite 0, 0) ∧
    (json_parse_steps [91, 45, 93] 2 json_parse_init).map (fun s => (s.state, s.sp, s.c)) =
      some (JSON_ARRAY_NEXT, 0, 1) ∧
    json_parse_steps [91, 45, 93] 3 json_parse_init = none ∧
    json_parse [91, 45, 93] = build (.array [.number 0]) [] ∧
    (build (.array [.number 0]) []).isSome = true := by
  have hi := (json_parse_run_inv text n 0 _ s (runInv_init text) hrun).1
  refine ⟨json_parse_steps_bound text n s hrun, fun s1 h => ?_, json_parse_none text,
    by decide, by decide, by decide, by decide, by decide, by decide⟩
  rcases json_parse_step_progress text (0 + n) s s1 hi h with hlt | ⟨e1, e2, e3, e4, e5⟩
  · exact Or.inl hlt
  · refine Or.inr ⟨e1, e2, e3, e4, e5, ?_⟩
    have hty : json_type (char_at text s1.c) = .JSON_NUMBER := by rw [e1]; exact e2
    have hsk := json_skip_whitespace_number text s1.c hty
    have hb := json_type_number _ hty
    have hrej := json_parse_step_rejects text s1 (by rw [hsk]; omega)
      (by rw [hsk, hty]; rcases e5 with e | e <;> rw [e] <;> decide)
    rw [hrej, hsk]

set_option maxRecDepth 100000 in
/-- Witness of C22 on `[-]` after the opening bracket: the iteration that reads `-` leaves
    the cursor at 1 and moves to `JSON_ARRAY_NEXT`. -/
theorem json_parse_terminates_witness :
    json_parse_steps [91, 45, 93] 1 json_parse_init =
      some ⟨(List.replicate 128 .JSON_NONE).set 0 (.JSON_ARRAY 0), 0, [], .JSON_ARRAY 0,
        JSON_ARRAY_START, 1, [.array (json__array_new 0)]⟩ ∧
    (1 : Nat) ≤ 2 * [91, 45, 93].length + 1 ∧
    ∃ s1, json_parse_step [91, 45, 93]
        ⟨(List.replicate 128 .JSON_NONE).set 0 (.JSON_ARRAY 0), 0, [], .JSON_ARRAY 0,
          JSON_ARRAY_START, 1, [.array (json__array_new 0)]⟩ = some (true, s1) ∧
      s1.c = 1 ∧ s1.state = JSON_ARRAY_NEXT ∧
      json_parse_step [91, 45, 93] s1 = some (false, s1) := by
  have h := json_parse_terminates [91, 45, 93] 1
    ⟨(List.replicate 128 .JSON_NONE).set 0 (.JSON_ARRAY 0), 0, [], .JSON_ARRAY 0,
      JSON_ARRAY_START, 1, [.array (json__array_new 0)]⟩ (by decide)
  refine ⟨by decide, h.1, ?_⟩
  cases hs : json_parse_step [91, 45, 93]
      ⟨(List.replicate 128 .JSON_NONE).set 0 (.JSON_ARRAY 0), 0, [], .JSON_ARRAY 0,
        JSON_ARRAY_START, 1, [.array (json__array_new 0)]⟩ with
  | none => exact absurd hs (by decide)
  | some r =>
    obtain ⟨b, s1⟩ := r
    have hb : b = true := by
      have : (json_parse_step [91, 45, 93]
        ⟨(List.replicate 128 .JSON_NONE).set 0 (.JSON_ARRAY 0), 0, [], .JSON_ARRAY 0,
          JSON_ARRAY_START, 1, [.array (json__array_new 0)]⟩).map (fun r => r.1)
          = some true := by decide
      rw [hs] at this
      simpa using this
    subst hb
    have hc : s1.c = 1 ∧ s1.state = JSON_ARRAY_NEXT := by
      have : (json_parse_step [91, 45, 93]
        ⟨(List.replicate 128 .JSON_NONE).set 0 (.JSON_ARRAY 0), 0, [], .JSON_ARRAY 0,
          JSON_ARRAY_START, 1, [.array (json__array_new 0)]⟩).map
            (fun r => (r.2.c, r.2.state)) = some (1, JSON_ARRAY_NEXT) := by decide
      rw [hs] at this
      simpa using this
    rcases h.2.1 s1 hs with hlt | ⟨-, -, -, -, -, hrej⟩
    · exact absurd hlt (by rw [hc.1]; decide)
    · exact ⟨s1, rfl, hc.1, hc.2, hrej⟩

/-! ## A closer keeps the state -/

theorem json_parse_step_closer (text : List Nat) (s : json_parse_locals)
    (hb : char_at text (json_skip_whitespace text s.c) = 125 ∨
      char_at text (json_skip_whitespace text s.c) = 93)
    (hm : s.state &&& json_state_mask .JSON_SCOPE_END ≠ 0) (hsp : s.sp ≠ 0) :
    json_parse_step text s =
      some (true, { s with sp := s.sp - 1, c := json_skip_whitespace text s.c + 1 }) := by
  have ht : json_type (char_at text (json_skip_whitespace text s.c)) = .JSON_SCOPE_END := by
    rcases hb with e | e <;> rw [e] <;> decide
  have hz : char_at text (json_skip_whitespace text s.c) ≠ 0 := by
    rcases hb with e | e <;> rw [e] <;> decide
  unfold json_parse_step
  simp only []
  rw [if_neg hz]
  unfold json_parse_body
  simp only []
  rw [ht, if_neg hm]
  simp only []
  rw [if_neg hsp]

set_option maxRecDepth 100000 in
/-- C23: an iteration of `json_parse` that reads a closer (allowed by the mask, with a
    stack pointer above the bottom) decrements the stack pointer, moves the cursor past
    the closer and changes nothing else: the state is kept as it is, whatever the new top
    of the stack is.  On `{"a":[]1}` the five tokens before `1` leave the state
    `JSON_ARRAY_START` with the root object on top of the stack; the number is allowed in
    this state and the iteration calls `json_array_push` on the object handle, which has
    no defined result.  On `[{}"k":1]` the three tokens `[{}` leave the state
    `JSON_OBJECT_START` with the root array on top, the string is taken for a key, and
    after the colon the number is passed to `json__object_set` on the array handle, which
    has no defined result either. -/
theorem json_parse_closer_keeps_state :
    (∀ (text : List Nat) (s : json_parse_locals),
      (char_at text (json_skip_whitespace text s.c) = 125 ∨
        char_at text (json_skip_whitespace text s.c) = 93) →
      s.state &&& json_state_mask .JSON_SCOPE_END ≠ 0 → s.sp ≠ 0 →
      json_parse_step text s =
        some (true, { s with sp := s.sp - 1, c := json_skip_whitespace text s.c + 1 })) ∧
    (json_parse_steps [123, 34, 97, 34, 58, 91, 93, 49, 125] 4 json_parse_init).map
        (fun s => (s.state, s.sp, s.stack[s.sp]?, s.c)) =
      some (JSON_ARRAY_START, 1, some (.JSON_ARRAY 1), 6) ∧
    (json_parse_steps [123, 34, 97, 34, 58, 91, 93, 49, 125] 5 json_parse_init).map
        (fun s => (s.state, s.sp, s.stack[s.sp]?, s.c)) =
      some (JSON_ARRAY_START, 0, some (.JSON_OBJECT 0), 7) ∧
    JSON_ARRAY_START &&& json_state_mask (json_type 49) ≠ 0 ∧
    (json_parse_steps [123, 34, 97, 34, 58, 91, 93, 49, 125] 5 json_parse_init).map
        (fun s => heap_json_array_push s.heap (.JSON_OBJECT 0) (json_number (.finite 1))) =
      some none ∧
    (json_parse_steps [123, 34, 97, 34, 58, 91, 93, 49, 125] 5 json_parse_init).map
        (json_parse_step [123, 34, 97, 34, 58, 91, 93, 49, 125]) = some none ∧
    json_parse [123, 34, 97, 34, 58, 91, 93, 49, 125] = none ∧
    (json_parse_steps [91, 123, 125, 34, 107, 34, 58, 49, 93] 3 json_parse_init).map
        (fun s => (s.state, s.sp, s.stack[s.sp]?, s.c)) =
      some (JSON_OBJECT_START, 0, some (.JSON_ARRAY 0), 3) ∧
    (json_parse_steps [91, 123, 125, 34, 107, 34, 58, 49, 93] 5 json_parse_init).map
        (fun s => (s.state, s.sp, s.stack[s.sp]?, s.c)) =
      some (JSON_OBJECT_VAL, 0, some (.JSON_ARRAY 0), 7) ∧
    (json_parse_steps [91, 123, 125, 34, 107, 34, 58, 49, 93] 5 json_parse_init).map
        (fun s => s.key) = some [some 107, some 0] ∧
    JSON_OBJECT_VAL &&& json_state_mask (json_type 49) ≠ 0 ∧
    (json_parse_steps [91, 123, 125, 34, 107, 34, 58, 49, 93] 5 json_parse_init).map
        (fun s => heap_json__object_set s.heap (.JSON_ARRAY 0) s.key
          (json_number (.finite 1)) false) = some none ∧
    (json_parse_steps [91, 123, 125, 34, 107, 34, 58, 49, 93] 5 json_parse_init).map
        (json_parse_step [91, 123, 125, 34, 107, 34, 58, 49, 93]) = some none ∧
    json_parse [91, 123, 125, 34, 107, 34, 58, 49, 93] = none :=
  ⟨fun text s hb hm hsp => json_parse_step_closer text s hb hm hsp,
    by decide, by decide, by decide, by decide, by decide, by decide, by decide, by decide,
    by decide, by decide, by decide, by decide, by decide⟩

set_option maxRecDepth 100000 in
/-- Witness of C23 on `{"a":[]1}`: the closing bracket is read in the state
    `JSON_ARRAY_START` with the stack pointer at 1, and the next state is the same. -/
theorem json_parse_closer_keeps_state_witness :
    json_parse_step [123, 34, 97, 34, 58, 91, 93, 49, 125]
        ⟨((List.replicate 128 .JSON_NONE).set 0 (.JSON_OBJECT 0)).set 1 (.JSON_ARRAY 1), 1, [],
          .JSON_ARRAY 1, JSON_ARRAY_START, 6, []⟩ =
      some (true, ⟨((List.replicate 128 .JSON_NONE).set 0 (.JSON_OBJECT 0)).set 1
          (.JSON_ARRAY 1), 0, [], .JSON_ARRAY 1, JSON_ARRAY_START, 7, []⟩) :=
  (json_parse_closer_keeps_state.1 [123, 34, 97, 34, 58, 91, 93, 49, 125]
    ⟨((List.replicate 128 .JSON_NONE).set 0 (.JSON_OBJECT 0)).set 1 (.JSON_ARRAY 1), 1, [],
      .JSON_ARRAY 1, JSON_ARRAY_START, 6, []⟩ (by decide) (by decide) (by decide)).trans
    (by decide)

/-! ## An unterminated key -/

set_option maxRecDepth 100000 in
/-- C24: when no quote after an opening quote ends the string (every later quote follows
    a backslash), `json_parse_string_value` returns the store with a null data pointer,
    shown as the empty block, and moves the cursor past the opening quote only.  On the
    text `{":1}` the key token is such a string: after it the parser is in the state
    `JSON_OBJECT_COLON` with a null pending key, the colon is accepted and leads to the
    state `JSON_OBJECT_VAL`, the number `1` is allowed there, and the iteration that reads
    it calls `json__object_set` on the root object with the null key, which the callee
    cannot read: the call, the iteration and `json_parse` have no defined result. -/
theorem json_parse_unterminated_key :
    (∀ (text : List Nat) (p : Nat) (r : List Nat) (pad : Bool),
      text.drop p = 34 :: r → escaped_quotes r →
      json_parse_string_value text p pad = ({ data := [], len := 0, cap := 0 }, p + 1)) ∧
    json_parse_steps [123, 34, 58, 49, 125] 1 json_parse_init =
      some ⟨(List.replicate 128 .JSON_NONE).set 0 (.JSON_OBJECT 0), 0, [],
        .JSON_OBJECT 0, JSON_OBJECT_START, 1, [.object (json__object_new 0)]⟩ ∧
    json_parse_string_value [123, 34, 58, 49, 125] 1 false =
      ({ data := [], len := 0, cap := 0 }, 2) ∧
    json_parse_steps [123, 34, 58, 49, 125] 2 json_parse_init =
      some ⟨(List.replicate 128 .JSON_NONE).set 0 (.JSON_OBJECT 0), 0, [],
        .JSON_OBJECT 0, JSON_OBJECT_COLON, 2, [.object (json__object_new 0)]⟩ ∧
    json_parse_steps [123, 34, 58, 49, 125] 3 json_parse_init =
      some ⟨(List.replicate 128 .JSON_NONE).set 0 (.JSON_OBJECT 0), 0, [],
        .JSON_OBJECT 0, JSON_OBJECT_VAL, 3, [.object (json__object_new 0)]⟩ ∧
    JSON_OBJECT_VAL &&& json_state_mask (json_type 49) ≠ 0 ∧
    strtod [49, 125] = (.finite 1, 1) ∧
    heap_json__object_set [.object (json__object_new 0)] (.JSON_OBJECT 0) []
      (json_number (.finite 1)) false = none ∧
    json_parse_step [123, 34, 58, 49, 125]
      ⟨(List.replicate 128 .JSON_NONE).set 0 (.JSON_OBJECT 0), 0, [],
        .JSON_OBJECT 0, JSON_OBJECT_VAL, 3, [.object (json__object_new 0)]⟩ = none ∧
    json_parse [123, 34, 58, 49, 125] = none :=
  ⟨fun text p r pad hd he => json_parse_string_value_open text p r pad hd he,
    by decide, by decide, by decide, by decide, by decide, by decide, by decide, by decide,
    by decide⟩

/-- Witness of C24 on `{":1}`: the only quote of the text opens the key. -/
theorem json_parse_unterminated_key_witness :
    escaped_quotes [58, 49, 125] ∧
    json_parse_string_value [123, 34, 58, 49, 125] 1 false =
      ({ data := [], len := 0, cap := 0 }, 2) :=
  ⟨by decide, json_parse_unterminated_key.1 [123, 34, 58, 49, 125] 1 [58, 49, 125] false rfl
    (by decide)⟩

/-! ## Texts that differ in closers outside strings -/

theorem closer_eq_refl (b : Nat) : closer_eq b b := Or.inl rfl

theorem pointwise_closer_eq_refl : ∀ (l : List Nat), List.Forall₂ closer_eq l l
  | [] => List.Forall₂.nil
  | b :: l => List.Forall₂.cons (closer_eq_refl b) (pointwise_closer_eq_refl l)

theorem closerSwap_pointwise (t1 t2 : List Nat) (h : CloserSwap t1 t2) :
    List.Forall₂ closer_eq t1 t2 := by
  induction h with
  | nil => exact List.Forall₂.nil
  | same b r1 r2 _ _ ih => exact List.Forall₂.cons (closer_eq_refl b) ih
  | swap b1 b2 r1 r2 h1 h2 _ ih => exact List.Forall₂.cons (Or.inr ⟨h1, h2⟩) ih
  | string body r1 r2 _ _ ih =>
    exact List.Forall₂.cons (closer_eq_refl 34)
      (List.rel_append (pointwise_closer_eq_refl body) (List.Forall₂.cons (closer_eq_refl 34) ih))
  | open_quote r1 r2 _ _ ih => exact List.Forall₂.cons (closer_eq_refl 34) ih

theorem closerSwap_nil_inv (u2 : List Nat) (h : CloserSwap [] u2) : u2 = [] := by
  have := (closerSwap_pointwise _ _ h).length_eq
  exact List.length_eq_zero.mp this.symm

theorem closerSwap_cons_inv (u1 u2 : List Nat) (h : CloserSwap u1 u2) :
    ∀ (b : Nat) (r : List Nat), u1 = b :: r → b ≠ 34 →
      ∃ b2 r2, u2 = b2 :: r2 ∧ closer_eq b b2 ∧ CloserSwap r r2 := by
  cases h with
  | nil => intro b r e; exact absurd e (by simp)
  | same b0 r1 r2 hb hr =>
    intro b r e _
    obtain ⟨rfl, rfl⟩ := List.cons.inj e
    exact ⟨_, _, rfl, closer_eq_refl _, hr⟩
  | swap b1 b2 r1 r2 h1 h2 hr =>
    intro b r e _
    obtain ⟨rfl, rfl⟩ := List.cons.inj e
    exact ⟨_, _, rfl, Or.inr ⟨h1, h2⟩, hr⟩
  | string body r1 r2 _ _ =>
    intro b r e hb
    exact absurd (List.cons.inj e).1.symm hb
  | open_quote r1 r2 _ _ =>
    intro b r e hb
    exact absurd (List.cons.inj e).1.symm hb

theorem closerSwap_quote_inv (u1 u2 : List Nat) (h : CloserSwap u1 u2) :
    ∀ (r : List Nat), u1 = 34 :: r →
      (∃ body r1 r2, r = body ++ 34 :: r1 ∧ u2 = 34 :: (body ++ 34 :: r2) ∧
        string_body body ∧ CloserSwap r1 r2) ∨
      (∃ r2, u2 = 34 :: r2 ∧ escaped_quotes r ∧ CloserSwap r r2) := by
  cases h with
  | nil => intro r e; exact absurd e (by simp)
  | same b0 r1 r2 hb hr =>
    intro r e
    exact absurd (List.cons.inj e).1 hb
  | swap b1 b2 r1 r2 h1 h2 hr =>
    intro r e
    have := (List.cons.inj e).1
    subst this
    exact absurd h1 (by decide)
  | string body r1 r2 hbody hr =>
    intro r e
    obtain ⟨-, rfl⟩ := List.cons.inj e
    exact Or.inl ⟨body, r1, r2, rfl, rfl, hbody, hr⟩
  | open_quote r1 r2 he hr =>
    intro r e
    obtain ⟨-, rfl⟩ := List.cons.inj e
    exact Or.inr ⟨r2, rfl, he, hr⟩

theorem closerSwap_drop : ∀ (n : Nat) (u1 u2 : List Nat), CloserSwap u1 u2 →
    (∀ i, i < n → u1[i]? ≠ some 34) → CloserSwap (u1.drop n) (u2.drop n) := by
  intro n
  induction n with
  | zero => intro u1 u2 h _; exact h
  | succ n ih =>
    intro u1 u2 h hq
    cases u1 with
    | nil =>
      rw [closerSwap_nil_inv u2 h]
      exact CloserSwap.nil
    | cons b r =>
      have hb : b ≠ 34 := by
        intro e
        exact hq 0 (Nat.succ_pos n) (by simp [e])
      obtain ⟨b2, r2, rfl, -, hr⟩ := closerSwap_cons_inv _ _ h b r rfl hb
      rw [List.drop_succ_cons, List.drop_succ_cons]
      exact ih r r2 hr (fun i hi => by simpa using hq (i + 1) (by omega))

theorem takeWhile_closer_eq (p : Nat → Bool) (hp : ∀ b, closer b → p b = false) :
    ∀ (l1 l2 : List Nat), List.Forall₂ closer_eq l1 l2 → l1.takeWhile p = l2.takeWhile p := by
  intro l1 l2 h
  induction h with
  | nil => rfl
  | @cons a b l1 l2 hab _ ih =>
    rcases hab with e | ⟨ha, hb⟩
    · subst e
      rw [List.takeWhile_cons, List.takeWhile_cons, ih]
    · rw [List.takeWhile_cons, List.takeWhile_cons, hp a ha, hp b hb]
      rfl

theorem take_closer_eq (lit : List Nat) (hlit : ∀ b ∈ lit, ¬ closer b) :
    ∀ (l1 l2 : List Nat), List.Forall₂ closer_eq l1 l2 → l1 = lit → l2 = lit := by
  intro l1 l2 h
  induction h generalizing lit with
  | nil => intro e; exact e
  | @cons a b l1 l2 hab _ ih =>
    intro e
    cases lit with
    | nil => exact absurd e (by simp)
    | cons x lit =>
      obtain ⟨rfl, e2⟩ := List.cons.inj e
      have hx : ¬ closer a := hlit a (List.mem_cons_self _ _)
      rcases hab with e3 | ⟨ha, -⟩
      · subst e3
        rw [ih lit (fun b hb => hlit b (List.mem_cons_of_mem _ hb)) e2]
      · exact absurd ha hx

theorem closer_eq_symm (a b : Nat) (h : closer_eq a b) : closer_eq b a := by
  rcases h with e | ⟨h1, h2⟩
  · exact Or.inl e.symm
  · exact Or.inr ⟨h2, h1⟩

theorem pointwise_closer_eq_symm (l1 l2 : List Nat) (h : List.Forall₂ closer_eq l1 l2) :
    List.Forall₂ closer_eq l2 l1 := by
  induction h with
  | nil => exact List.Forall₂.nil
  | cons hab _ ih => exact List.Forall₂.cons (closer_eq_symm _ _ hab) ih

theorem literal_closer_eq (lit : List Nat) (hlit : ∀ b ∈ lit, ¬ closer b) (n : Nat)
    (l1 l2 : List Nat) (h : List.Forall₂ closer_eq l1 l2) :
    l1.take n = lit ↔ l2.take n = lit :=
  ⟨take_closer_eq lit hlit _ _ (List.forall₂_take n h),
    take_closer_eq lit hlit _ _ (List.forall₂_take n (pointwise_closer_eq_symm _ _ h))⟩

theorem closer_eq_index (l1 l2 : List Nat) (h : List.Forall₂ closer_eq l1 l2) (i x : Nat)
    (hx : ¬ closer x) : l1[i]? = some x → l2[i]? = some x := by
  intro e
  have h1 := List.forall₂_drop i h
  have e1 : (l1.drop i).head? = some x := by rw [List.head?_drop]; exact e
  rw [← List.head?_drop]
  generalize l1.drop i = d1 at h1 e1
  generalize l2.drop i = d2 at h1
  cases h1 with
  | nil => exact absurd e1 (by simp)
  | @cons a b r1 r2 hab _ =>
    simp only [List.head?_cons, Option.some.injEq] at e1
    subst e1
    rcases hab with e3 | ⟨ha, -⟩
    · rw [← e3]; rfl
    · exact absurd ha hx

theorem escaped_quotes_closer_eq (r1 r2 : List Nat) (h : List.Forall₂ closer_eq r1 r2)
    (he : escaped_quotes r1) : escaped_quotes r2 := by
  have hs := pointwise_closer_eq_symm _ _ h
  intro i hi e
  have e1 := closer_eq_index r2 r1 hs i 34 (by decide) e
  have h2 := he i (by rw [h.length_eq]; exact hi) e1
  exact closer_eq_index (34 :: r1) (34 :: r2) (List.Forall₂.cons (closer_eq_refl 34) h) i 92
    (by decide) h2

/-! ## The bytes read by `strtod` -/

theorem numeral_takeWhile_head (l : List Nat) (x : Nat) (hx : numeral_byte x = true) :
    (l.takeWhile numeral_byte).head? = some x ↔ l.head? = some x := by
  cases l with
  | nil => simp
  | cons b r =>
    rw [List.takeWhile_cons]
    by_cases hb : numeral_byte b = true
    · rw [if_pos hb]; simp
    · rw [if_neg hb]
      simp only [List.head?_nil, List.head?_cons, Option.some.injEq, false_iff, reduceCtorEq]
      intro e
      exact hb (e ▸ hx)

theorem numeral_takeWhile_drop : ∀ (n : Nat) (l : List Nat),
    n ≤ (l.takeWhile numeral_byte).length →
    (l.takeWhile numeral_byte).drop n = (l.drop n).takeWhile numeral_byte := by
  intro n
  induction n with
  | zero => intro l _; rfl
  | succ n ih =>
    intro l hn
    cases l with
    | nil => simp at hn
    | cons b r =>
      rw [List.takeWhile_cons] at hn ⊢
      by_cases hb : numeral_byte b = true
      · rw [if_pos hb] at hn ⊢
        rw [List.drop_succ_cons, List.drop_succ_cons]
        exact ih r (by simpa using hn)
      · rw [if_neg hb] at hn
        simp at hn

theorem numeral_takeWhile_takeWhile (p : Nat → Bool)
    (hp : ∀ b, p b = true → numeral_byte b = true) :
    ∀ (l : List Nat), (l.takeWhile numeral_byte).takeWhile p = l.takeWhile p := by
  intro l
  induction l with
  | nil => rfl
  | cons b r ih =>
    by_cases hb : p b = true
    · rw [List.takeWhile_cons, if_pos (hp b hb), List.takeWhile_cons, if_pos hb,
        List.takeWhile_cons, if_pos hb, ih]
    · by_cases ha : numeral_byte b = true
      · rw [List.takeWhile_cons, if_pos ha, List.takeWhile_cons, if_neg hb,
          List.takeWhile_cons, if_neg hb]
      · rw [List.takeWhile_cons, if_neg ha, List.takeWhile_cons, if_neg hb]
        rfl

theorem numeral_takeWhile_length (p : Nat → Bool)
    (hp : ∀ b, p b = true → numeral_byte b = true) (l : List Nat) :
    (l.takeWhile p).length ≤ (l.takeWhile numeral_byte).length := by
  rw [← numeral_takeWhile_takeWhile p hp l]
  exact length_takeWhile_le p _

theorem numeral_takeWhile_take : ∀ (n : Nat) (l : List Nat),
    n ≤ (l.takeWhile numeral_byte).length →
    (l.takeWhile numeral_byte).take n = l.take n := by
  intro n l hn
  conv_rhs => rw [← List.takeWhile_append_dropWhile numeral_byte l]
  rw [List.take_append_of_le_length hn]

theorem numeral_take_all : ∀ (n : Nat) (l : List Nat), n ≤ l.length →
    (∀ b ∈ l.take n, numeral_byte b = true) → n ≤ (l.takeWhile numeral_byte).length := by
  intro n
  induction n with
  | zero => intro l _ _; exact Nat.zero_le _
  | succ n ih =>
    intro l hn hall
    cases l with
    | nil => simp at hn
    | cons b r =>
      have hb : numeral_byte b = true := hall b (by simp)
      rw [List.takeWhile_cons, if_pos hb, List.length_cons]
      have := ih r (by simpa using hn) (fun x hx => hall x (by simp [hx]))
      omega

theorem numeral_literal (lit : List Nat) (n : Nat) (hl : lit.length = n)
    (hlit : ∀ b, tolower b ∈ lit → numeral_byte b = true) (l : List Nat) :
    ((l.takeWhile numeral_byte).take n).map tolower = lit ↔ (l.take n).map tolower = lit := by
  constructor
  · intro h
    have hlen := congrArg List.length h
    rw [List.length_map, List.length_take, hl] at hlen
    rw [← numeral_takeWhile_take n l (by omega)]
    exact h
  · intro h
    have hlen := congrArg List.length h
    rw [List.length_map, List.length_take, hl] at hlen
    have hall : ∀ b ∈ l.take n, numeral_byte b = true := by
      intro b hb
      apply hlit
      rw [← h]
      exact List.mem_map_of_mem tolower hb
    rw [numeral_takeWhile_take n l (numeral_take_all n l (by omega) hall)]
    exact h

/-! ## The parts of `strtod`, by heads and drops -/

theorem strtod_sign_eq (s : List Nat) :
    strtod_sign s =
      if s.head? = some 45 then (true, 1) else if s.head? = some 43 then (false, 1)
      else (false, 0) := by
  cases s with
  | nil => rfl
  | cons b r =>
    by_cases h1 : b = 45
    · subst h1; rfl
    by_cases h2 : b = 43
    · subst h2; rfl
    have e : strtod_sign (b :: r) = (false, 0) := by
      unfold strtod_sign
      split
      · rename_i h; exact absurd (List.cons.inj h).1 h1
      · rename_i h; exact absurd (List.cons.inj h).1 h2
      · rfl
    rw [e]
    simp [h1, h2]

theorem strtod_sign_numeral (s : List Nat) :
    strtod_sign (s.takeWhile numeral_byte) = strtod_sign s := by
  have h1 := numeral_takeWhile_head s 45 (by decide)
  have h2 := numeral_takeWhile_head s 43 (by decide)
  rw [strtod_sign_eq, strtod_sign_eq]
  simp only [h1, h2]

theorem strtod_mantissa_eq (digit : Nat → Bool) (s : List Nat) :
    strtod_mantissa digit s =
      if (s.drop (s.takeWhile digit).length).head? = some 46 then
        (s.takeWhile digit, ((s.drop (s.takeWhile digit).length).drop 1).takeWhile digit,
          (s.takeWhile digit).length + 1 +
            (((s.drop (s.takeWhile digit).length).drop 1).takeWhile digit).length)
      else (s.takeWhile digit, [], (s.takeWhile digit).length) := by
  unfold strtod_mantissa
  simp only []
  generalize s.drop (s.takeWhile digit).length = d
  cases d with
  | nil => rfl
  | cons b r =>
    by_cases h1 : b = 46
    · subst h1; rfl
    · rw [if_neg (by simpa using h1)]
      split
      · rename_i h; exact absurd (List.cons.inj h).1 h1
      · rfl

theorem strtod_mantissa_numeral (digit : Nat → Bool)
    (hd : ∀ b, digit b = true → numeral_byte b = true) (s : List Nat) :
    strtod_mantissa digit (s.takeWhile numeral_byte) = strtod_mantissa digit s := by
  rw [strtod_mantissa_eq, strtod_mantissa_eq, numeral_takeWhile_takeWhile digit hd s,
    numeral_takeWhile_drop _ s (numeral_takeWhile_length digit hd s)]
  have h46 := numeral_takeWhile_head (s.drop (s.takeWhile digit).length) 46 (by decide)
  by_cases h : (s.drop (s.takeWhile digit).length).head? = some 46
  · rw [if_pos h, if_pos (h46.mpr h)]
    have h1 : 1 ≤ ((s.drop (s.takeWhile digit).length).takeWhile numeral_byte).length := by
      have := (numeral_takeWhile_head _ 46 (by decide)).mpr h
      cases hx : (s.drop (s.takeWhile digit).length).takeWhile numeral_byte with
      | nil => rw [hx] at this; simp at this
      | cons _ _ => simp
    rw [numeral_takeWhile_drop 1 _ h1, numeral_takeWhile_takeWhile digit hd]
  · rw [if_neg h, if_neg (fun hc => h (h46.mp hc))]

theorem strtod_mantissa_numeral_le (digit : Nat → Bool)
    (hd : ∀ b, digit b = true → numeral_byte b = true) (s : List Nat) :
    (strtod_mantissa digit s).2.2 ≤ (s.takeWhile numeral_byte).length := by
  rw [← strtod_mantissa_numeral digit hd s]
  exact strtod_mantissa_le digit _

theorem strtod_sign_numeral_le (s : List Nat) :
    (strtod_sign s).2 ≤ (s.takeWhile numeral_byte).length := by
  rw [← strtod_sign_numeral s]
  exact strtod_sign_le _

theorem numeral_isdigit (b : Nat) (h : isdigit b = true) : numeral_byte b = true := by
  unfold numeral_byte
  simp [h]

theorem numeral_isxdigit (b : Nat) (h : isxdigit b = true) : numeral_byte b = true := by
  unfold numeral_byte isdigit
  unfold isxdigit at h
  simp only [Bool.or_eq_true, Bool.and_eq_true, decide_eq_true_eq] at h ⊢
  omega

theorem numeral_takeWhile_head_lower (l : List Nat) (marker : Nat)
    (hm : ∀ b, tolower b = marker → numeral_byte b = true) :
    (l.takeWhile numeral_byte).head?.map tolower = some marker ↔
      l.head?.map tolower = some marker := by
  cases l with
  | nil => simp
  | cons b r =>
    rw [List.takeWhile_cons]
    by_cases hb : numeral_byte b = true
    · rw [if_pos hb]; simp
    · rw [if_neg hb]
      simp only [List.head?_nil, List.head?_cons, Option.map_none', Option.map_some',
        Option.some.injEq, false_iff, reduceCtorEq]
      intro e
      exact hb (hm b e)

theorem numeral_takeWhile_pos (l : List Nat) (h : (l.takeWhile numeral_byte).head?.isSome) :
    1 ≤ (l.takeWhile numeral_byte).length := by
  cases hx : l.takeWhile numeral_byte with
  | nil => rw [hx] at h; simp at h
  | cons _ _ => simp

theorem strtod_exponent_eq (marker : Nat) (s : List Nat) :
    strtod_exponent marker s =
      if s.head?.map tolower = some marker then
        if ((s.drop 1).drop (strtod_sign (s.drop 1)).2).takeWhile isdigit = [] then (0, 0)
        else ((if (strtod_sign (s.drop 1)).1 then
            -(decimal_value (((s.drop 1).drop (strtod_sign (s.drop 1)).2).takeWhile isdigit) : Int)
          else decimal_value (((s.drop 1).drop (strtod_sign (s.drop 1)).2).takeWhile isdigit)),
          1 + (strtod_sign (s.drop 1)).2 +
            (((s.drop 1).drop (strtod_sign (s.drop 1)).2).takeWhile isdigit).length)
      else (0, 0) := by
  cases s with
  | nil => rfl
  | cons m r =>
    unfold strtod_exponent
    simp only [List.head?_cons, Option.map_some', Option.some.injEq, List.drop_succ_cons,
      List.drop_zero]

theorem strtod_exponent_numeral (marker : Nat)
    (hm : ∀ b, tolower b = marker → numeral_byte b = true) (s : List Nat) :
    strtod_exponent marker (s.takeWhile numeral_byte) = strtod_exponent marker s := by
  have hh := numeral_takeWhile_head_lower s marker hm
  rw [strtod_exponent_eq, strtod_exponent_eq]
  by_cases h : s.head?.map tolower = some marker
  · have h2 := hh.mpr h
    rw [if_pos h, if_pos h2]
    have h1 : 1 ≤ (s.takeWhile numeral_byte).length :=
      numeral_takeWhile_pos s (by
        cases hx : (s.takeWhile numeral_byte).head? with
        | none => rw [hx] at h2; simp at h2
        | some _ => rfl)
    rw [numeral_takeWhile_drop 1 s h1, strtod_sign_numeral,
      numeral_takeWhile_drop _ _ (strtod_sign_numeral_le _),
      numeral_takeWhile_takeWhile isdigit numeral_isdigit]
  · rw [if_neg h, if_neg (fun hc => h (hh.mp hc))]

theorem strtod_exponent_numeral_le (marker : Nat)
    (hm : ∀ b, tolower b = marker → numeral_byte b = true) (s : List Nat) :
    (strtod_exponent marker s).2 ≤ (s.takeWhile numeral_byte).length := by
  rw [← strtod_exponent_numeral marker hm s]
  exact strtod_exponent_le marker _

theorem strtod_nan_sequence_eq (s : List Nat) :
    strtod_nan_sequence s =
      if s.head? = some 40 then
        if ((s.drop 1).drop ((s.drop 1).takeWhile (fun c => isdigit c || c = 95 ||
            (97 ≤ tolower c && tolower c ≤ 122))).length).head? = some 41 then
          ((s.drop 1).takeWhile (fun c => isdigit c || c = 95 ||
            (97 ≤ tolower c && tolower c ≤ 122))).length + 2
        else 0
      else 0 := by
  cases s with
  | nil => rfl
  | cons b r =>
    by_cases h1 : b = 40
    · subst h1; rfl
    · rw [if_neg (by simpa using h1)]
      unfold strtod_nan_sequence
      split
      · rename_i h; exact absurd (List.cons.inj h).1 h1
      · rfl

theorem strtod_nan_sequence_numeral (s : List Nat) :
    strtod_nan_sequence (s.takeWhile numeral_byte) = strtod_nan_sequence s := by
  have hq : ∀ b, (isdigit b || decide (b = 95) ||
      (decide (97 ≤ tolower b) && decide (tolower b ≤ 122))) = true →
      numeral_byte b = true := by
    intro b hb
    unfold numeral_byte isdigit
    unfold tolower isdigit at hb
    simp only [Bool.or_eq_true, Bool.and_eq_true, decide_eq_true_eq] at hb ⊢
    split_ifs at hb <;> omega
  have hh := numeral_takeWhile_head s 40 (by decide)
  rw [strtod_nan_sequence_eq, strtod_nan_sequence_eq]
  by_cases h : s.head? = some 40
  · have h2 := hh.mpr h
    rw [if_pos h, if_pos h2]
    have h1 : 1 ≤ (s.takeWhile numeral_byte).length :=
      numeral_takeWhile_pos s (by rw [h2]; rfl)
    rw [numeral_takeWhile_drop 1 s h1, numeral_takeWhile_takeWhile _ hq,
      numeral_takeWhile_drop _ _ (numeral_takeWhile_length _ hq _)]
    have h41 := numeral_takeWhile_head ((s.drop 1).drop ((s.drop 1).takeWhile
      (fun c => isdigit c || c = 95 || (97 ≤ tolower c && tolower c ≤ 122))).length) 41
      (by decide)
    simp only [h41]
  · rw [if_neg h, if_neg (fun hc => h (hh.mp hc))]

theorem numeral_lower (marker : Nat) (h : (48 ≤ marker ∧ marker ≤ 57) ∨
    (97 ≤ marker ∧ marker ≤ 122)) :
    ∀ b, tolower b = marker → numeral_byte b = true := by
  intro b hb
  unfold numeral_byte isdigit
  unfold tolower at hb
  simp only [Bool.or_eq_true, Bool.and_eq_true, decide_eq_true_eq]
  split_ifs at hb <;> omega

theorem numeral_lower_mem (lit : List Nat)
    (h : ∀ x ∈ lit, (48 ≤ x ∧ x ≤ 57) ∨ (97 ≤ x ∧ x ≤ 122)) :
    ∀ b, tolower b ∈ lit → numeral_byte b = true :=
  fun b hb => numeral_lower _ (h _ hb) b rfl

theorem lower_take (m : Nat) (hm : m ≤ 8) (x : List Nat) :
    List.take m (List.map tolower (List.take 8 x)) = List.map tolower (List.take m x) := by
  rw [← List.map_take, List.take_take, Nat.min_eq_left hm]

theorem numeral_lower_take (lit : List Nat) (m : Nat) (hm : m ≤ 8) (hl : lit.length = m)
    (h : ∀ x ∈ lit, (48 ≤ x ∧ x ≤ 57) ∨ (97 ≤ x ∧ x ≤ 122)) (s1 : List Nat) :
    (List.take m (List.map tolower (List.take 8 (s1.takeWhile numeral_byte))) = lit ↔
      List.take m (List.map tolower (List.take 8 s1)) = lit) ∧
    (List.take m (List.map tolower (List.take 8 s1)) = lit →
      m ≤ (s1.takeWhile numeral_byte).length) := by
  rw [lower_take m hm, lower_take m hm]
  have hiff := numeral_literal lit m hl (numeral_lower_mem lit h) s1
  refine ⟨hiff, fun e => ?_⟩
  have := congrArg List.length (hiff.mpr e)
  rw [List.length_map, List.length_take, hl] at this
  omega

theorem strtod_numeral (s : List Nat) : strtod (s.takeWhile numeral_byte) = strtod s := by
  have hk := strtod_sign_numeral s
  have hkl := strtod_sign_numeral_le s
  unfold strtod
  simp only []
  rw [hk, numeral_takeWhile_drop _ s hkl]
  generalize strtod_sign s = sg
  obtain ⟨neg, k⟩ := sg
  simp only []
  generalize s.drop k = s1
  have e8 := numeral_literal [105, 110, 102, 105, 110, 105, 116, 121] 8 rfl
    (numeral_lower_mem _ (by decide)) s1
  obtain ⟨e3a, -⟩ := numeral_lower_take [105, 110, 102] 3 (by decide) rfl (by decide) s1
  obtain ⟨e3b, l3⟩ := numeral_lower_take [110, 97, 110] 3 (by decide) rfl (by decide) s1
  obtain ⟨e2, l2⟩ := numeral_lower_take [48, 120] 2 (by decide) rfl (by decide) s1
  rw [strtod_mantissa_numeral isdigit numeral_isdigit s1,
    numeral_takeWhile_drop _ s1 (strtod_mantissa_numeral_le isdigit numeral_isdigit s1),
    strtod_exponent_numeral 101 (numeral_lower 101 (by omega))]
  simp only [e8, e3a, e3b, e2]
  by_cases c1 : List.map tolower (List.take 8 s1) = [105, 110, 102, 105, 110, 105, 116, 121]
  · rw [if_pos c1, if_pos c1]
  rw [if_neg c1, if_neg c1]
  by_cases c2 : List.take 3 (List.map tolower (List.take 8 s1)) = [105, 110, 102]
  · rw [if_pos c2, if_pos c2]
  rw [if_neg c2, if_neg c2]
  by_cases c3 : List.take 3 (List.map tolower (List.take 8 s1)) = [110, 97, 110]
  · rw [if_pos c3, if_pos c3, numeral_takeWhile_drop 3 s1 (l3 c3), strtod_nan_sequence_numeral]
  rw [if_neg c3, if_neg c3]
  by_cases c4 : List.take 2 (List.map tolower (List.take 8 s1)) = [48, 120]
  · have hx := strtod_mantissa_numeral_le isxdigit numeral_isxdigit (s1.drop 2)
    rw [← numeral_takeWhile_drop 2 s1 (l2 c4), List.length_drop] at hx
    have l2c := l2 c4
    rw [numeral_takeWhile_drop 2 s1 (l2 c4),
      strtod_mantissa_numeral isxdigit numeral_isxdigit (s1.drop 2),
      numeral_takeWhile_drop _ s1 (by omega),
      strtod_exponent_numeral 112 (numeral_lower 112 (by omega))]
  · simp only [c4, false_and, if_false]

theorem strtod_numeral_le (s : List Nat) :
    (strtod s).2 ≤ (s.takeWhile numeral_byte).length := by
  rw [← strtod_numeral s]
  exact strtod_le _

theorem strtod_closer_eq (l1 l2 : List Nat) (h : List.Forall₂ closer_eq l1 l2) :
    strtod l1 = strtod l2 := by
  rw [← strtod_numeral l1, ← strtod_numeral l2,
    takeWhile_closer_eq numeral_byte (fun b hb => by rcases hb with e | e <;> rw [e] <;> decide)
      l1 l2 h]

theorem strtod_no_quote (s : List Nat) (i : Nat) (hi : i < (strtod s).2) : s[i]? ≠ some 34 := by
  have hle := strtod_numeral_le s
  have hlt : i < (s.takeWhile numeral_byte).length := by omega
  intro e
  have h1 : (s.takeWhile numeral_byte)[i]? = some 34 := by
    have h2 := numeral_takeWhile_take (i + 1) s (by omega)
    have h3 := congrArg (fun l => l[i]?) h2
    simp only [List.getElem?_take, Nat.lt_succ_self, if_true] at h3
    rw [h3]; exact e
  have hm : (34 : Nat) ∈ s.takeWhile numeral_byte := List.getElem?_mem h1
  exact absurd (List.mem_takeWhile_imp hm) (by decide)

/-! ## One iteration on two texts -/

theorem json_parse_string_value_raw (text : List Nat) (p : Nat) (body rest : List Nat)
    (pad : Bool) (hd : text.drop p = 34 :: (body ++ 34 :: rest)) (hb : string_body body) :
    json_parse_string_value text p pad =
      ({ data := (memcpy (malloc (if pad then nextCap (body.length + 1) else body.length + 1))
            0 (body.map some) body.length).set body.length (some 0),
         len := body.length,
         cap := if pad then nextCap (body.length + 1) else body.length + 1 },
        p + body.length + 2) := by
  have hd1 : text.drop (p + 1) = body ++ 34 :: rest := by
    rw [drop_add, hd]; rfl
  have hl : p + (body.length + 2) ≤ text.length := by
    have := congrArg List.length hd
    rw [List.length_drop] at this
    simp only [List.length_cons, List.length_append] at this
    omega
  have hs := json_parse_string_scan_body text p body rest hd hb (text.length + 1) 0
    (Nat.zero_le _) (by omega)
  have hm : memread ((body ++ 34 :: rest).map some) 0 body.length
      = memread (body.map some) 0 body.length := by
    unfold memread
    rw [List.drop_zero, List.drop_zero, List.map_append, List.take_left' (by simp),
      List.take_of_length_le (by simp)]
  unfold json_parse_string_value
  simp only [hs]
  have e : p + 1 + body.length - (p + 1) = body.length := by omega
  rw [e, hd1]
  unfold memcpy
  rw [hm]
  congr 1
  omega

theorem json_type_string (b : Nat) (h : json_type b = .JSON_STRING) : b = 34 := by
  by_cases h5 : b = 34
  · exact h5
  by_cases h1 : b = 123
  · subst h1; exact absurd h (by decide)
  by_cases h2 : b = 125
  · subst h2; exact absurd h (by decide)
  by_cases h3 : b = 91
  · subst h3; exact absurd h (by decide)
  by_cases h4 : b = 93
  · subst h4; exact absurd h (by decide)
  by_cases h6 : b = 58
  · subst h6; exact absurd h (by decide)
  by_cases h7 : b = 44
  · subst h7; exact absurd h (by decide)
  by_cases h8 : b = 45
  · subst h8; exact absurd h (by decide)
  by_cases h10 : b = 116
  · subst h10; exact absurd h (by decide)
  by_cases h11 : b = 102
  · subst h11; exact absurd h (by decide)
  by_cases h12 : b = 97
  · subst h12; exact absurd h (by decide)
  unfold json_type at h
  rw [if_neg h1, if_neg h2, if_neg h3, if_neg h4, if_neg h5, if_neg h6, if_neg h7,
    if_neg h8] at h
  by_cases h9 : 48 ≤ b ∧ b < 58
  · rw [if_pos h9] at h; exact absurd h (by decide)
  · rw [if_neg h9, if_neg h10, if_neg h11, if_neg h12] at h
    exact absurd h (by decide)

theorem json_type_closer_eq (a b : Nat) (h : closer_eq a b) : json_type a = json_type b := by
  rcases h with e | ⟨h1, h2⟩
  · rw [e]
  · rcases h1 with e1 | e1 <;> rcases h2 with e2 | e2 <;> rw [e1, e2] <;> rfl

theorem json_parse_step_congr (t1 t2 : List Nat) (s : json_parse_locals)
    (hsk : json_skip_whitespace t2 s.c = json_skip_whitespace t1 s.c)
    (hch : closer_eq (char_at t2 (json_skip_whitespace t1 s.c))
      (char_at t1 (json_skip_whitespace t1 s.c)))
    (hstr : char_at t1 (json_skip_whitespace t1 s.c) = 34 → ∀ pad,
      json_parse_string_value t2 (json_skip_whitespace t1 s.c) pad =
        json_parse_string_value t1 (json_skip_whitespace t1 s.c) pad)
    (hnum : strtod (t2.drop (json_skip_whitespace t1 s.c)) =
      strtod (t1.drop (json_skip_whitespace t1 s.c)))
    (hlit : ∀ (n : Nat) (lit : List Nat), (∀ b ∈ lit, ¬ closer b) →
      ((t2.drop (json_skip_whitespace t1 s.c)).take n = lit ↔
        (t1.drop (json_skip_whitespace t1 s.c)).take n = lit)) :
    json_parse_step t2 s = json_parse_step t1 s := by
  unfold json_parse_step
  simp only []
  rw [hsk]
  generalize json_skip_whitespace t1 s.c = c2 at hch hstr hnum hlit
  have hty := json_type_closer_eq _ _ hch
  have hz : char_at t2 c2 = 0 ↔ char_at t1 c2 = 0 := by
    rcases hch with e | ⟨h1, h2⟩
    · rw [e]
    · constructor
      · intro e; rw [e] at h1; exact absurd h1 (by decide)
      · intro e; rw [e] at h2; exact absurd h2 (by decide)
  by_cases z : char_at t1 c2 = 0
  · rw [if_pos z, if_pos (hz.mpr z)]
  rw [if_neg z, if_neg (fun hc => z (hz.mp hc))]
  unfold json_parse_body
  simp only []
  rw [hty]
  by_cases hm : s.state &&& json_state_mask (json_type (char_at t1 c2)) = 0
  · rw [if_pos hm, if_pos hm]
  rw [if_neg hm, if_neg hm]
  cases ht : json_type (char_at t1 c2) with
  | JSON_STRING =>
    simp only []
    rw [hstr (json_type_string _ ht) false, hstr (json_type_string _ ht) true]
  | JSON_NUMBER =>
    simp only []
    rw [hnum]
  | JSON_TRUE =>
    simp only []
    have := hlit 4 [116, 114, 117, 101] (by decide)
    simp only [this]
  | JSON_FALSE =>
    simp only []
    have := hlit 5 [102, 97, 108, 115, 101] (by decide)
    simp only [this]
  | JSON_NULL =>
    simp only []
    have := hlit 4 [110, 117, 108, 108] (by decide)
    simp only [this]
  | _ => rfl

theorem drop_head_char_at (text : List Nat) (c x : Nat) (h : (text.drop c)[0]? = some x) :
    char_at text c = x := by
  rw [List.getElem?_drop, Nat.add_zero] at h
  unfold char_at
  rw [List.getD_eq_getElem?_getD, h]
  rfl

theorem one_byte_no_quote (text : List Nat) (c : Nat) (hb : char_at text c ≠ 34) :
    ∀ i, i < 1 → (text.drop c)[i]? ≠ some 34 := by
  intro i hi e
  have hi0 : i = 0 := by omega
  subst hi0
  exact hb (drop_head_char_at text c 34 e)

theorem literal_no_quote (l lit : List Nat) (n : Nat) (h : l.take n = lit) (hq : 34 ∉ lit) :
    ∀ i, i < n → l[i]? ≠ some 34 := by
  intro i hi e
  apply hq
  rw [← h]
  exact List.getElem?_mem (by rw [List.getElem?_take, if_pos hi]; exact e)

theorem json_parse_step_cursor (text : List Nat) (s s1 : json_parse_locals)
    (h : json_parse_step text s = some (true, s1)) :
    (char_at text (json_skip_whitespace text s.c) = 34 ∧
      ∃ pad, s1.c = (json_parse_string_value text (json_skip_whitespace text s.c) pad).2) ∨
    (char_at text (json_skip_whitespace text s.c) ≠ 34 ∧
      ∃ k, s1.c = json_skip_whitespace text s.c + k ∧
        ∀ i, i < k → (text.drop (json_skip_whitespace text s.c))[i]? ≠ some 34) := by
  unfold json_parse_step at h
  simp only [] at h
  generalize json_skip_whitespace text s.c = c2 at h
  by_cases hz : char_at text c2 = 0
  · rw [if_pos hz] at h; simp at h
  rw [if_neg hz] at h
  unfold json_parse_body at h
  simp only [] at h
  by_cases hm : s.state &&& json_state_mask (json_type (char_at text c2)) = 0
  · rw [if_pos hm] at h; simp at h
  rw [if_neg hm] at h
  have hns : json_type (char_at text c2) ≠ .JSON_STRING → char_at text c2 ≠ 34 := by
    intro hne e
    rw [e] at hne
    exact hne (by decide)
  cases ht : json_type (char_at text c2) with
  | JSON_OBJECT =>
    rw [ht] at h hns
    simp only [] at h
    have e := json_parse_add_c _ _ _ _ h
    have hb := hns (by simp)
    exact Or.inr ⟨hb, 1, e, one_byte_no_quote text c2 hb⟩
  | JSON_ARRAY =>
    rw [ht] at h hns
    simp only [] at h
    have e := json_parse_add_c _ _ _ _ h
    have hb := hns (by simp)
    exact Or.inr ⟨hb, 1, e, one_byte_no_quote text c2 hb⟩
  | JSON_STRING =>
    rw [ht] at h
    simp only [] at h
    have hq := json_type_string _ ht
    by_cases hk : s.state &&& (JSON_OBJECT_START ||| JSON_OBJECT_KEY) ≠ 0
    · rw [if_pos hk] at h
      simp only [Option.some.injEq, Prod.mk.injEq, true_and] at h
      subst h
      exact Or.inl ⟨hq, false, rfl⟩
    · rw [if_neg hk] at h
      have e := json_parse_add_c _ _ _ _ h
      exact Or.inl ⟨hq, true, e⟩
  | JSON_NUMBER =>
    rw [ht] at h hns
    simp only [] at h
    have e := json_parse_add_c _ _ _ _ h
    exact Or.inr ⟨hns (by simp), _, e, fun i hi => strtod_no_quote _ i hi⟩
  | JSON_TRUE =>
    rw [ht] at h hns
    simp only [] at h
    by_cases hl : (text.drop c2).take 4 = [116, 114, 117, 101]
    · rw [if_pos hl] at h
      have e := json_parse_add_c _ _ _ _ h
      exact Or.inr ⟨hns (by simp), 4, e, literal_no_quote _ _ 4 hl (by decide)⟩
    · rw [if_neg hl] at h; simp at h
  | JSON_FALSE =>
    rw [ht] at h hns
    simp only [] at h
    by_cases hl : (text.drop c2).take 5 = [102, 97, 108, 115, 101]
    · rw [if_pos hl] at h
      have e := json_parse_add_c _ _ _ _ h
      exact Or.inr ⟨hns (by simp), 5, e, literal_no_quote _ _ 5 hl (by decide)⟩
    · rw [if_neg hl] at h; simp at h
  | JSON_NULL =>
    rw [ht] at h hns
    simp only [] at h
    by_cases hl : (text.drop c2).take 4 = [110, 117, 108, 108]
    · rw [if_pos hl] at h
      have e := json_parse_add_c _ _ _ _ h
      exact Or.inr ⟨hns (by simp), 4, e, literal_no_quote _ _ 4 hl (by decide)⟩
    · rw [if_neg hl] at h; simp at h
  | JSON_NONE =>
    rw [ht] at hm
    exact absurd (Nat.and_zero _) hm
  | JSON_COLON =>
    rw [ht] at h hns
    simp only [Option.some.injEq, Prod.mk.injEq, true_and] at h
    subst h
    have hb := hns (by simp)
    exact Or.inr ⟨hb, 1, rfl, one_byte_no_quote text c2 hb⟩
  | JSON_COMMA =>
    rw [ht] at h hns
    simp only [] at h
    have hb := hns (by simp)
    cases htop : s.stack[s.sp]? with
    | none => rw [htop] at h; simp at h
    | some top =>
      rw [htop] at h
      simp only [Option.some.injEq, Prod.mk.injEq, true_and] at h
      subst h
      exact Or.inr ⟨hb, 1, rfl, one_byte_no_quote text c2 hb⟩
  | JSON_SCOPE_END =>
    rw [ht] at h hns
    simp only [] at h
    have hb := hns (by simp)
    by_cases h0 : s.sp = 0
    · rw [if_pos h0] at h; simp at h
    · rw [if_neg h0] at h
      simp only [Option.some.injEq, Prod.mk.injEq, true_and] at h
      subst h
      exact Or.inr ⟨hb, 1, rfl, one_byte_no_quote text c2 hb⟩

theorem takeWhile_no_quote (p : Nat → Bool) (hp : p 34 = false) (l : List Nat) :
    ∀ i, i < (l.takeWhile p).length → l[i]? ≠ some 34 := by
  intro i hi e
  have h1 : (l.takeWhile p)[i]? = some 34 := by
    have h2 : ((l.takeWhile p ++ l.dropWhile p))[i]? = some 34 := by
      rw [List.takeWhile_append_dropWhile]; exact e
    rw [List.getElem?_append_left hi] at h2
    exact h2
  have hm := List.mem_takeWhile_imp (List.getElem?_mem h1)
  rw [hp] at hm
  exact absurd hm (by simp)

theorem char_at_head (text : List Nat) (c : Nat) : char_at text c = (text.drop c).headD 0 := by
  unfold char_at
  rw [List.getD_eq_getElem?_getD, ← List.head?_drop]
  cases text.drop c <;> rfl

theorem headD_closer_eq (l1 l2 : List Nat) (h : List.Forall₂ closer_eq l1 l2) :
    closer_eq (l2.headD 0) (l1.headD 0) := by
  cases h with
  | nil => exact closer_eq_refl 0
  | cons hab _ => exact closer_eq_symm _ _ hab

theorem json_parse_step_swap (t1 t2 : List Nat) (s : json_parse_locals)
    (h : CloserSwap (t1.drop s.c) (t2.drop s.c)) :
    json_parse_step t2 s = json_parse_step t1 s ∧
    ∀ s1, json_parse_step t1 s = some (true, s1) →
      CloserSwap (t1.drop s1.c) (t2.drop s1.c) := by
  have hE := closerSwap_pointwise _ _ h
  have hws : ∀ b, closer b →
      (fun b => decide (b ≠ 0 ∧ charToInt b ≤ 32)) b = false := by
    intro b hb
    rcases hb with e | e <;> rw [e] <;> decide
  have htw := takeWhile_closer_eq _ hws _ _ hE
  have hsk : json_skip_whitespace t2 s.c = json_skip_whitespace t1 s.c := by
    unfold json_skip_whitespace
    rw [htw]
  have h2 : CloserSwap (t1.drop (json_skip_whitespace t1 s.c))
      (t2.drop (json_skip_whitespace t1 s.c)) := by
    unfold json_skip_whitespace
    rw [drop_add, drop_add]
    exact closerSwap_drop _ _ _ h (takeWhile_no_quote _ (by decide) _)
  have hE2 := closerSwap_pointwise _ _ h2
  have hcong : json_parse_step t2 s = json_parse_step t1 s := by
    apply json_parse_step_congr t1 t2 s hsk
    · rw [char_at_head, char_at_head]
      exact headD_closer_eq _ _ hE2
    · intro hq pad
      cases hv : t1.drop (json_skip_whitespace t1 s.c) with
      | nil =>
        rw [char_at_head, hv] at hq
        exact absurd hq (by decide)
      | cons b r =>
        rw [char_at_head, hv] at hq
        have hb : b = 34 := hq
        subst hb
        rcases closerSwap_quote_inv _ _ h2 r hv with
          ⟨body, r1, r2, rfl, hv2, hbody, -⟩ | ⟨r2, hv2, hesc, hr⟩
        · rw [json_parse_string_value_raw t1 _ body r1 pad hv hbody,
            json_parse_string_value_raw t2 _ body r2 pad hv2 hbody]
        · rw [json_parse_string_value_open t1 _ r pad hv hesc,
            json_parse_string_value_open t2 _ r2 pad hv2
              (escaped_quotes_closer_eq _ _ (closerSwap_pointwise _ _ hr) hesc)]
    · exact (strtod_closer_eq _ _ hE2).symm
    · intro n lit hlit
      exact (literal_closer_eq lit hlit n _ _ hE2).symm
  refine ⟨hcong, fun s1 hs1 => ?_⟩
  rcases json_parse_step_cursor t1 s s1 hs1 with ⟨hq, pad, e⟩ | ⟨hq, k, e, hk⟩
  · cases hv : t1.drop (json_skip_whitespace t1 s.c) with
    | nil =>
      rw [char_at_head, hv] at hq
      exact absurd hq (by decide)
    | cons b r =>
      rw [char_at_head, hv] at hq
      have hb : b = 34 := hq
      subst hb
      rcases closerSwap_quote_inv _ _ h2 r hv with
        ⟨body, r1, r2, rfl, hv2, hbody, hr⟩ | ⟨r2, hv2, hesc, hr⟩
      · rw [json_parse_string_value_raw t1 _ body r1 pad hv hbody] at e
        have e1 : t1.drop s1.c = r1 := by
          rw [e, show json_skip_whitespace t1 s.c + body.length + 2 =
            json_skip_whitespace t1 s.c + (body.length + 2) from by omega, drop_add, hv]
          simp
        have e2 : t2.drop s1.c = r2 := by
          rw [e, show json_skip_whitespace t1 s.c + body.length + 2 =
            json_skip_whitespace t1 s.c + (body.length + 2) from by omega, drop_add, hv2]
          simp
        rw [e1, e2]
        exact hr
      · rw [json_parse_string_value_open t1 _ r pad hv hesc] at e
        have e1 : t1.drop s1.c = r := by
          rw [e, drop_add, hv]; rfl
        have e2 : t2.drop s1.c = r2 := by
          rw [e, drop_add, hv2]; rfl
        rw [e1, e2]
        exact hr
  · rw [e, drop_add, drop_add]
    exact closerSwap_drop k _ _ h2 hk

theorem json_parse_loop_swap (t1 t2 : List Nat) :
    ∀ (fuel : Nat) (s : json_parse_locals), CloserSwap (t1.drop s.c) (t2.drop s.c) →
      json_parse_loop t2 fuel s = json_parse_loop t1 fuel s := by
  intro fuel
  induction fuel with
  | zero => intro s _; rfl
  | succ fuel ih =>
    intro s h
    obtain ⟨e, hnext⟩ := json_parse_step_swap t1 t2 s h
    rw [json_parse_loop, json_parse_loop, e]
    cases hs : json_parse_step t1 s with
    | none => rfl
    | some r =>
      obtain ⟨b, s1⟩ := r
      cases b with
      | false => rfl
      | true => exact ih s1 (hnext s1 hs)

theorem json_parse_swap (t1 t2 : List Nat) (h : CloserSwap t1 t2) :
    json_parse t2 = json_parse t1 := by
  have hl := (closerSwap_pointwise _ _ h).length_eq
  unfold json_parse
  rw [← hl, json_parse_loop_swap t1 t2 _ json_parse_init h]

/-! ## Every text is related to itself -/

theorem closerSwap_refl : ∀ (n : Nat) (t : List Nat), t.length ≤ n → (∀ b ∈ t, b ≠ 0) →
    CloserSwap t t := by
  intro n
  induction n with
  | zero =>
    intro t hn _
    rw [List.length_eq_zero.mp (Nat.le_zero.mp hn)]
    exact CloserSwap.nil
  | succ n ih =>
    intro t hn hz
    cases t with
    | nil => exact CloserSwap.nil
    | cons b r =>
      have hlr : r.length ≤ n := by simpa using hn
      have hzr : ∀ x ∈ r, x ≠ 0 := fun x hx => hz x (List.mem_cons_of_mem _ hx)
      by_cases hb : b = 34
      · subst hb
        by_cases hx : ∃ i, i < r.length ∧ r[i]? = some 34 ∧ (34 :: r)[i]? ≠ some 92
        · have hi := Nat.find_spec hx
          have hmin := fun j (hj : j < Nat.find hx) => Nat.find_min hx hj
          generalize Nat.find hx = i at hi hmin
          obtain ⟨hil, hiq, hie⟩ := hi
          have hsplit : r = r.take i ++ 34 :: r.drop (i + 1) := by
            have h1 : r.drop i = 34 :: r.drop (i + 1) := by
              rw [List.drop_eq_getElem_cons hil]
              congr 1
              rw [List.getElem?_eq_getElem hil] at hiq
              exact Option.some.inj hiq
            rw [← h1, List.take_append_drop]
          have hlen : (r.take i).length = i := by
            rw [List.length_take]; omega
          have hbody : string_body (r.take i) := by
            refine ⟨fun x hx => hzr x (List.mem_of_mem_take hx), ?_, ?_⟩
            · intro j hj e
              rw [hlen] at hj
              rw [List.getElem?_take, if_pos hj] at e
              have := hmin j hj
              have h92 : (34 :: r)[j]? = some 92 := by
                by_contra hc
                exact this ⟨by omega, e, hc⟩
              rw [← h92]
              cases j with
              | zero => simp
              | succ j =>
                rw [List.getElem?_cons_succ, List.getElem?_cons_succ, List.getElem?_take,
                  if_pos (by omega)]
            · rw [hlen]
              intro e
              apply hie
              rw [← e]
              cases i with
              | zero => simp
              | succ i =>
                rw [List.getElem?_cons_succ, List.getElem?_cons_succ, List.getElem?_take,
                  if_pos (by omega)]
          have hrec := ih (r.drop (i + 1)) (by rw [List.length_drop]; omega)
            (fun x hx => hzr x (List.mem_of_mem_drop hx))
          have := CloserSwap.string (r.take i) _ _ hbody hrec
          rw [← hsplit] at this
          exact this
        · have hesc : escaped_quotes r := by
            intro i hi e
            by_contra hc
            exact hx ⟨i, hi, e, hc⟩
          exact CloserSwap.open_quote r r hesc (ih r hlr hzr)
      · exact CloserSwap.same b r r hb (ih r hlr hzr)

/-! ## The two closers are interchangeable -/

set_option maxRecDepth 100000 in
/-- C25: the bytes `}` and `]` have the same token kind, and when the text `t2` is the
    text `t1` with any closers outside strings replaced by closers, `json_parse` returns
    the same for both (the same handle and the same heap, or no result for both).  Every
    text without a null byte is related to itself, so the closers outside its strings may
    be replaced in any number.  On `[1}` the result is that of `[1]`: the array of `1`.
    A string is the span that `json_parse_string_value` reads: in `["x\\",{},"y"]` the
    quote after the two backslashes does not close the string, the brace pair lies inside
    it, and replacing its closer changes the string that is returned. -/
theorem json_parse_closers_interchangeable (t1 t2 : List Nat) (h : CloserSwap t1 t2) :
    json_parse t2 = json_parse t1 ∧
    json_type 125 = .JSON_SCOPE_END ∧ json_type 93 = .JSON_SCOPE_END ∧
    ((∀ b ∈ t1, b ≠ 0) → CloserSwap t1 t1) ∧
    json_parse [91, 49, 125] = json_parse [91, 49, 93] ∧
    json_parse [91, 49, 93] = build (.array [.number 1]) [] ∧
    (build (.array [.number 1]) []).isSome = true ∧
    json_parse_string_value [91, 34, 120, 92, 92, 34, 44, 123, 125, 44, 34, 121, 34, 93] 1 true
      = ({ data := [some 120, some 92, some 92, some 34, some 44, some 123, some 125, some 44,
            some 0, none, none, none, none, none, none, none], len := 8, cap := 16 }, 11) ∧
    json_parse [91, 34, 120, 92, 92, 34, 44, 123, 125, 44, 34, 121, 34, 93] ≠
      json_parse [91, 34, 120, 92, 92, 34, 44, 123, 93, 44, 34, 121, 34, 93] :=
  ⟨json_parse_swap t1 t2 h, by decide, by decide,
    fun hz => closerSwap_refl t1.length t1 (le_refl _) hz, by decide, by decide, by decide,
    by decide, by decide⟩

set_option maxRecDepth 100000 in
/-- Witness of C25 on `{"a}":[1]}` and `{"a}":[1}]`: the closer inside the key is kept,
    the two closers at the end are exchanged, and both texts yield the object whose key
    `a}` holds the array of `1`. -/
theorem json_parse_closers_interchangeable_witness :
    CloserSwap [123, 34, 97, 125, 34, 58, 91, 49, 93, 125]
      [123, 34, 97, 125, 34, 58, 91, 49, 125, 93] ∧
    json_parse [123, 34, 97, 125, 34, 58, 91, 49, 125, 93] =
      json_parse [123, 34, 97, 125, 34, 58, 91, 49, 93, 125] ∧
    json_parse [123, 34, 97, 125, 34, 58, 91, 49, 93, 125] =
      build (.object [([97, 125], .array [.number 1])]) [] ∧
    (build (.object [([97, 125], .array [.number 1])]) []).isSome = true :=
  have hw : CloserSwap [123, 34, 97, 125, 34, 58, 91, 49, 93, 125]
      [123, 34, 97, 125, 34, 58, 91, 49, 125, 93] :=
    CloserSwap.same 123 _ _ (by decide)
      (CloserSwap.string [97, 125] [58, 91, 49, 93, 125] [58, 91, 49, 125, 93] (by decide)
        (CloserSwap.same 58 _ _ (by decide) (CloserSwap.same 91 _ _ (by decide)
          (CloserSwap.same 49 _ _ (by decide)
            (CloserSwap.swap 93 125 _ _ (by decide) (by decide)
              (CloserSwap.swap 125 93 _ _ (by decide) (by decide) CloserSwap.nil))))))
  ⟨hw, (json_parse_closers_interchangeable _ _ hw).1, by decide, by decide⟩

/-! ## The assertion of `json_string_at` -/

/-- C26: the condition asserted by `json_string_at` is false for every handle of kind
    String and every index, in every heap, so the call on a string never returns a
    pointer.  The call returns one only for a handle whose tag is Array while its block is
    a string store, which no function of the library produces.  The assertions of
    `json_string_len`, `json_string_begin` and `json_string_end` hold for every handle of
    a string store, and the calls return the length, the pointer to the first byte and the
    pointer behind the last byte. -/
theorem json_string_at_assertion_fails (heap : List heap_cell) (p : Nat) (idx : Int) :
    json_string_at_assertion heap (.JSON_STRING p) idx = some false ∧
    heap_json_string_at heap (.JSON_STRING p) idx = none ∧
    (∀ str r, heap_json_string_at heap str idx = some r →
      ∃ q s, str = .JSON_ARRAY q ∧ heap[q]? = some (.string s) ∧ idx < (s.len : Int)) ∧
    (∀ s, heap[p]? = some (.string s) →
      heap_json_string_len heap (.JSON_STRING p) = some s.len ∧
      heap_json_string_begin heap (.JSON_STRING p) = some (p, 0) ∧
      heap_json_string_end heap (.JSON_STRING p) = some (p, (s.len : Int))) := by
  refine ⟨rfl, rfl, fun str r hr => ?_, fun s hs => ?_⟩
  · cases str with
    | JSON_ARRAY q =>
      unfold heap_json_string_at json_string_at_assertion at hr
      simp only [] at hr
      cases hq : heap[q]? with
      | none => rw [hq] at hr; simp at hr
      | some cell =>
        cases cell with
        | object o => rw [hq] at hr; simp at hr
        | array a => rw [hq] at hr; simp at hr
        | string s =>
          rw [hq] at hr
          by_cases c : idx < (s.len : Int)
          · exact ⟨q, s, rfl, hq, c⟩
          · simp [c] at hr
    | _ => simp [heap_json_string_at, json_string_at_assertion] at hr
  · simp [heap_json_string_len, heap_json_string_begin, heap_json_string_end, hs]

/-- Witness of C26 on the store of the string `hi` at address `0`. -/
theorem json_string_at_assertion_fails_witness :
    json_string_at_assertion [.string ⟨[some 104, some 105, some 0, none], 2, 4⟩]
      (.JSON_STRING 0) 1 = some false ∧
    heap_json_string_at [.string ⟨[some 104, some 105, some 0, none], 2, 4⟩]
      (.JSON_STRING 0) 1 = none ∧
    heap_json_string_len [.string ⟨[some 104, some 105, some 0, none], 2, 4⟩]
      (.JSON_STRING 0) = some 2 ∧
    heap_json_string_end [.string ⟨[some 104, some 105, some 0, none], 2, 4⟩]
      (.JSON_STRING 0) = some (0, 2) := by
  have h := json_string_at_assertion_fails
    [.string ⟨[some 104, some 105, some 0, none], 2, 4⟩] 0 1
  have h2 := h.2.2.2 ⟨[some 104, some 105, some 0, none], 2, 4⟩ rfl
  exact ⟨h.1, h.2.1, h2.1, h2.2.2⟩

end JsonC89
